import Mathlib

/-!
# mongochuie: codec, schema inference and packaging core

A shallow embedding of the server-side core of `mongochuie`
(`src/server/modules/app/main/controllers/main.js` and
`src/server/modules/app/main/schema.js`) together with the properties that
the specification states about it.

Conventions of the embedding

* JavaScript strings are lists of characters (`List Char`).
* Code that may fail to return (the `do … while` of the packager, the
  recursion of `setPackageSizeOfDocuments`) takes a fuel argument and
  returns `none` when the fuel is used up.
* Functions of libraries that the repository only calls
  (`BSON.calculateObjectSize`, the `lx-valid` format checks, …) are
  parameters of the definitions, or are given as separate, documented
  definitions where a concrete evaluation needs them.
-/

namespace Mongochuie

/-- JavaScript strings. -/
abbrev Str := List Char

/-! ## Bounded packager (`main.js`, lines 1587–1627) -/

section Packager

variable {α : Type}

/-- `arr.slice(a, b)` of JavaScript for `0 ≤ a`; a fractional `b` is truncated
by the caller (`packageArray.length / 2` is passed as `length / 2` on `Nat`). -/
def slice (arr : List α) (a b : Nat) : List α :=
  (arr.drop a).take (b - a)

/-- The number of bytes in one MiB: `x / 1024 / 1024` divides by this. -/
def bytesPerMB : Nat := 1024 * 1024

/-- The test `BSON.calculateObjectSize(arr) / 1024 / 1024 > limitInMB` on a byte
count; dividing by a power of two is exact, so the comparison is the
comparison of the byte count with `limitInMB * 1024 * 1024`. -/
def exceedsLimit (bytes limitInMB : Nat) : Bool :=
  decide (limitInMB * bytesPerMB < bytes)

/-- `setPackageSizeOfDocuments(packageArray, packageLimitInMB)`: while the slice
is larger than the limit, continue with its first half
(`slice(0, length / 2)`). -/
def setPackageSizeOfDocuments (calculateObjectSize : List α → Nat) (packageLimitInMB : Nat) :
    Nat → List α → Option (List α)
  | 0, _ => none
  | fuel + 1, packageArray =>
    if exceedsLimit (calculateObjectSize packageArray) packageLimitInMB then
      setPackageSizeOfDocuments calculateObjectSize packageLimitInMB fuel
        (slice packageArray 0 (packageArray.length / 2))
    else
      some packageArray

/-- The limit `packageLimitInMB = 15` of `splitDocumentsArrayToPackages`. -/
def packageLimitInMB : Nat := 15

/-- `Math.round((packageLimitInMB * length) / arraySize)` with
`arraySize = bytes / 1024 / 1024`, computed on exact rationals:
`round(q) = floor(q + 1/2)`. -/
def numberOfDocumentsInPackage (length bytes : Nat) : Nat :=
  (2 * (packageLimitInMB * length * bytesPerMB) + bytes) / (2 * bytes)

/-- The `do … while (count < documentsArray.length)` loop of
`splitDocumentsArrayToPackages`. `firstSliceElement` and `count` are always
equal in the source, so one counter stands for both. -/
def packageLoop (calculateObjectSize : List α → Nat) (documentsArray : List α)
    (numberOfDocuments : Nat) : Nat → Nat → List (List α) → Option (List (List α))
  | 0, _, _ => none
  | fuel + 1, firstSliceElement, packageArray =>
    match setPackageSizeOfDocuments calculateObjectSize packageLimitInMB fuel
        (slice documentsArray firstSliceElement (firstSliceElement + numberOfDocuments)) with
    | none => none
    | some packageArrayElement =>
      let count := firstSliceElement + packageArrayElement.length
      if count < documentsArray.length then
        packageLoop calculateObjectSize documentsArray numberOfDocuments fuel count
          (packageArray ++ [packageArrayElement])
      else
        some (packageArray ++ [packageArrayElement])

/-- `splitDocumentsArrayToPackages(documentsArray)`. -/
def splitDocumentsArrayToPackages (calculateObjectSize : List α → Nat) (fuel : Nat)
    (documentsArray : List α) : Option (List (List α)) :=
  if exceedsLimit (calculateObjectSize documentsArray) packageLimitInMB then
    packageLoop calculateObjectSize documentsArray
      (numberOfDocumentsInPackage documentsArray.length (calculateObjectSize documentsArray))
      fuel 0 []
  else
    some [documentsArray]

/-- Number of decimal digits of an array index, the length of its BSON key. -/
def indexKeyLength (i : Nat) : Nat := (Nat.toDigits 10 i).length

/-- Sum of the BSON element sizes of the documents from index `i` on: one type
byte, the index as a zero-terminated key, and the document itself. -/
def bsonElementsSize (documentSize : α → Nat) : Nat → List α → Nat
  | _, [] => 0
  | i, d :: ds => (1 + indexKeyLength i + 1 + documentSize d) + bsonElementsSize documentSize (i + 1) ds

/-- The BSON size of an array of documents, as `BSON.calculateObjectSize`
computes it: a four-byte length, the elements, and a terminating zero byte. -/
def bsonArraySize (documentSize : α → Nat) (arr : List α) : Nat :=
  4 + bsonElementsSize documentSize 0 arr + 1

end Packager

/-! ## Regular expressions of `formatingData` -/

/-- Whether the code point of `c` lies between the code points of `lo` and `hi`. -/
def inRange (lo hi c : Char) : Bool :=
  decide (lo.toNat ≤ c.toNat) && decide (c.toNat ≤ hi.toNat)

/-- The class `\s` of JavaScript regular expressions. -/
def isSpace (c : Char) : Bool :=
  let n := c.toNat
  (9 ≤ n && n ≤ 13) || n == 32 || n == 160 || n == 5760 || (8192 ≤ n && n ≤ 8202) ||
    n == 8232 || n == 8233 || n == 8239 || n == 8287 || n == 12288 || n == 65279

/-- The quantifiers that occur in the patterns: exactly one, `*` and `+`. -/
inductive Quant where
  | one
  | star
  | plus
deriving DecidableEq, Repr

/-- One quantified character class of a pattern; `capture` tells whether it is
wrapped in a capturing group. -/
structure Item where
  cls : Char → Bool
  quant : Quant
  capture : Bool

/-- Tries `f n`, `f (n-1)`, …, `f lo` and returns the first result: the order in
which a greedy quantifier gives characters back. -/
def tryDown {β : Type} (f : Nat → Option β) (lo : Nat) : Nat → Option β
  | 0 => if lo = 0 then f 0 else none
  | n + 1 =>
    if n + 1 < lo then none
    else
      match f (n + 1) with
      | some r => some r
      | none => tryDown f lo n

/-- Adds the text matched by an item to the captures when the item is a group. -/
def addCapture (it : Item) (text : Str) (r : List Str × Str) : List Str × Str :=
  if it.capture then (text :: r.1, r.2) else r

/-- Matches a pattern (a sequence of quantified classes) at the start of `s`,
greedily and with backtracking; returns the captures and the unmatched rest. -/
def matchItems : List Item → Str → Option (List Str × Str)
  | [], s => some ([], s)
  | it :: its, s =>
    match it.quant with
    | Quant.one =>
      match s with
      | [] => none
      | c :: cs => if it.cls c then (matchItems its cs).map (addCapture it [c]) else none
    | Quant.star =>
      tryDown (fun k => (matchItems its (s.drop k)).map (addCapture it (s.take k))) 0
        (s.takeWhile it.cls).length
    | Quant.plus =>
      tryDown (fun k => (matchItems its (s.drop k)).map (addCapture it (s.take k))) 1
        (s.takeWhile it.cls).length

/-- A piece of a replacement text: literal text or `$n`. -/
inductive Piece where
  | text (s : Str)
  | group (n : Nat)

/-- Instantiates a replacement text with the captures of a match. -/
def instantiate (caps : List Str) : List Piece → Str
  | [] => []
  | Piece.text s :: ps => s ++ instantiate caps ps
  | Piece.group n :: ps => (caps.getD (n - 1) []) ++ instantiate caps ps

/-- `s.replace(/pattern/g, replacement)`: scans from the left, replaces every
match and continues behind it. -/
def replaceAllAux (r : List Item) (tpl : List Piece) : Nat → Str → Str
  | 0, s => s
  | _ + 1, [] =>
    match matchItems r [] with
    | some (caps, _) => instantiate caps tpl
    | none => []
  | fuel + 1, c :: cs =>
    match matchItems r (c :: cs) with
    | some (caps, rest) =>
      if rest.length < (c :: cs).length then
        instantiate caps tpl ++ replaceAllAux r tpl fuel rest
      else
        instantiate caps tpl ++ c :: replaceAllAux r tpl fuel cs
    | none => c :: replaceAllAux r tpl fuel cs

/-- `s.replace(/pattern/g, replacement)`. -/
def replaceAll (r : List Item) (tpl : List Piece) (s : Str) : Str :=
  replaceAllAux r tpl (s.length + 1) s

/-- A literal character of a pattern. -/
def ch (c : Char) : Item := ⟨fun x => x == c, Quant.one, false⟩

/-- A literal text of a pattern. -/
def lit (s : String) : List Item := s.toList.map ch

/-- A quantified class wrapped in a capturing group. -/
def grp (cls : Char → Bool) (q : Quant) : Item := ⟨cls, q, true⟩

/-- `[a-zA-Z0-9À-Üß-ü$\-\/\._]` -/
def keyCharNoSpace (c : Char) : Bool :=
  inRange 'a' 'z' c || inRange 'A' 'Z' c || inRange '0' '9' c || inRange 'À' 'Ü' c ||
    inRange 'ß' 'ü' c || c == '$' || c == '-' || c == '/' || c == '.' || c == '_'

/-- `[a-zA-Z0-9À-Üß-ü$\-\/\._ ]` -/
def keyChar (c : Char) : Bool := keyCharNoSpace c || c == ' '

/-- `[a-zA-Z0-9À-Üß-ü$\-\/\._:, ]` -/
def isoChar (c : Char) : Bool := keyChar c || c == ':' || c == ','

/-- `[a-zA-Z0-9À-Üß-ü$\^+\*-\\\._'()\/ ]`; `\*-\\` is the range from `*` to `\`. -/
def regexChar (c : Char) : Bool :=
  inRange 'a' 'z' c || inRange 'A' 'Z' c || inRange '0' '9' c || inRange 'À' 'Ü' c ||
    inRange 'ß' 'ü' c || c == '$' || c == '^' || c == '+' || inRange '*' '\\' c ||
    c == '.' || c == '_' || c == '\'' || c == '(' || c == ')' || c == '/' || c == ' '

/-- `[a-zA-Z0-9À-Üß-ü$\^+\*-\\\._:'()\/ ]` -/
def regexCharColon (c : Char) : Bool := regexChar c || c == ':'

/-- The class `[\{,]`. -/
def braceOrComma (c : Char) : Bool := c == '{' || c == ','
/-- The class `[\[,:]`. -/
def bracketCommaColon (c : Char) : Bool := c == '[' || c == ',' || c == ':'
/-- The class `[a-z0-9-]`. -/
def idChar (c : Char) : Bool := inRange 'a' 'z' c || inRange '0' '9' c || c == '-'
/-- The class `[0-9,\s]`. -/
def timestampChar (c : Char) : Bool := inRange '0' '9' c || c == ',' || isSpace c
/-- The class `[a-z]`. -/
def lowerChar (c : Char) : Bool := inRange 'a' 'z' c
/-- The class `[$a-zA-Z]`. -/
def dollarLetter (c : Char) : Bool := c == '$' || inRange 'a' 'z' c || inRange 'A' 'Z' c
/-- The class `[ ]`. -/
def blank (c : Char) : Bool := c == ' '

open Quant Piece in
/-- `formatingData(item)` (`main.js`, lines 693–733): the replacements in the
order of the source. -/
def formatingData (item : Str) : Str :=
  let data := replaceAll [⟨fun c => c == '\r' || c == '\n', one, false⟩] [] item
  let data := replaceAll [ch '\t'] [] data
  let data := replaceAll ([grp braceOrComma plus, grp isSpace star, grp keyChar plus] ++ lit ":")
    [group 1, group 2, group 3, text "\":".toList] data
  let data := replaceAll ([grp braceOrComma plus, grp isSpace star, grp keyCharNoSpace plus,
      grp keyChar star] ++ lit "\":")
    [group 1, group 2, text "\"".toList, group 3, group 4, text "\":".toList] data
  let data := replaceAll ([grp bracketCommaColon plus, grp isSpace star] ++ lit "ISODate(\"")
    [group 1, group 2, text "\"##ISODate(".toList] data
  let data := replaceAll ([grp bracketCommaColon plus, grp isSpace star] ++ lit "\"##ISODate(" ++
      [grp isoChar plus] ++ lit "\")")
    [group 1, group 2, text "\"##ISODate(".toList, group 3, text ")\"".toList] data
  let data := replaceAll ([grp bracketCommaColon plus, grp isSpace star] ++ lit "ISODate('")
    [group 1, group 2, text "\"##ISODate(".toList] data
  let data := replaceAll ([grp bracketCommaColon plus, grp isSpace star] ++ lit "\"##ISODate(" ++
      [grp isoChar plus] ++ lit "')")
    [group 1, group 2, text "\"##ISODate(".toList, group 3, text ")\"".toList] data
  let data := replaceAll (lit "ObjectId(\"" ++ [grp idChar plus] ++ lit "\")")
    [text "\"##ObjectId(".toList, group 1, text ")\"".toList] data
  let data := replaceAll (lit "LUUID(\"" ++ [grp idChar plus] ++ lit "\")")
    [text "\"##LUUID(".toList, group 1, text ")\"".toList] data
  let data := replaceAll (lit "UUID(\"" ++ [grp idChar plus] ++ lit "\")")
    [text "\"##UUID(".toList, group 1, text ")\"".toList] data
  let data := replaceAll (lit "Timestamp(" ++ [grp timestampChar star] ++ lit ")")
    [text "\"##Timestamp(".toList, group 1, text ")\"".toList] data
  let data := replaceAll (lit ":" ++ [grp isSpace star] ++ lit "/" ++ [grp regexChar star] ++
      lit "\":" ++ [grp regexChar star] ++ lit "/")
    [text ":".toList, group 1, text "/".toList, group 2, text ":".toList, group 3,
      text "/".toList] data
  let data := replaceAll (lit ":" ++ [grp isSpace star] ++ lit "/" ++ [grp regexCharColon plus] ++
      lit "/" ++ [grp lowerChar star])
    [text ":".toList, group 1, text "\"##/".toList, group 2, text "/".toList, group 3,
      text "\"".toList] data
  let data := replaceAll (lit "'") [text "\"".toList] data
  let data := replaceAll (lit "\"" ++ [grp isSpace star] ++ lit "_id" ++ [grp isSpace star] ++
      lit "\"") [text "\"_id\"".toList] data
  let data := replaceAll ([grp isSpace star] ++ lit "$") [text "$".toList] data
  let data := replaceAll (lit "\"" ++ [grp dollarLetter plus, grp isSpace star] ++ lit "\"")
    [text "\"".toList, group 1, text "\"".toList] data
  let data := replaceAll (lit ":" ++ [grp blank star] ++ lit "\x7b") [text ":\x7b".toList] data
  data


/-! ## JavaScript values -/

/-- The values that the codec functions handle: the JSON values, `undefined`,
`Date`, `RegExp` and the driver types `ObjectID`, `Binary`, `Timestamp`, `Code`,
`DBRef`, `MinKey` and `MaxKey`. A `Date` holds its time value (`none` for an
invalid date); `nan` is the number `NaN`. The properties of an object are listed in enumeration order. -/
inductive JsVal where
  | undefined
  | null
  | bool (b : Bool)
  | num (x : Rat)
  | nan
  | str (s : Str)
  | date (time : Option Int)
  | regExp (source flags : Str)
  | objectID (bytes : List Nat)
  | binary (subType : Nat) (bytes : List Nat)
  | timestamp (low high : Int)
  | code (code scope : JsVal)
  | dbRef (ns oid db : JsVal)
  | minKey
  | maxKey
  | arr (items : List JsVal)
  | obj (props : List (Str × JsVal))

/-- The value `undefined` is the default value. -/
instance : Inhabited JsVal := ⟨JsVal.undefined⟩

/-- The option argument of `convertDateTimeAndIdsInDocumentToSave`: `'fileUpload'`,
`'toValidate'`, or anything else (`null` at the call sites of the edit path). -/
inductive SaveOption where
  | edit
  | fileUpload
  | toValidate
deriving DecidableEq, Repr

/-- The encodings passed to `new Buffer(text, coding)` and `toString(coding)`. -/
inductive Coding where
  | hex
  | base64
deriving DecidableEq, Repr

/-- The functions of JavaScript, of `lx-valid` and of the MongoDB driver that the
controllers call and whose code is not part of the repository. -/
structure Lib where
  /-- `val.formats.mongoId(s).valid` -/
  formatsMongoId : Str → Bool
  /-- `val.types.mongoId(v).valid` -/
  typesMongoId : JsVal → Bool
  /-- `val.formats.uuid(s).valid` -/
  formatsUuid : Str → Bool
  /-- `val.formats.regex(v).valid` -/
  formatsRegex : JsVal → Bool
  /-- `val.formats.luuid(s).valid` -/
  formatsLuuid : Str → Bool
  /-- `val.formats.dateTime(s).valid` -/
  formatsDateTime : Str → Bool
  /-- `val.formats.date(s).valid` -/
  formatsDate : Str → Bool
  /-- `val.formats.time(s).valid` -/
  formatsTime : Str → Bool
  /-- `val.formats.utcMillisec(n).valid`; `none` stands for `NaN`. -/
  formatsUtcMillisec : Option Int → Bool
  /-- The bytes of `ObjectID.createFromHexString(s)`. -/
  createFromHexString : Str → List Nat
  /-- The bytes of `new Buffer(s, coding)`. -/
  newBuffer : Str → Coding → List Nat
  /-- `buffer.toString(coding)` -/
  bufferToString : List Nat → Coding → Str
  /-- `v | 0`, the coercion that `new Timestamp(low, high)` applies to both parts. -/
  toInt32 : JsVal → Int
  /-- `String(v)`, the text that `'…' + v` appends. -/
  toStr : JsVal → Str
  /-- `new RegExp(pattern, flags)`: source and flags, or `none` when it throws. -/
  newRegExp : JsVal → JsVal → Option (Str × Str)
  /-- The time value of `new Date(v)` for one argument. -/
  newDate : JsVal → Option Int
  /-- The time value of `new Date(year, month, day, hours, minutes, seconds, ms)`;
  an argument `none` stands for `NaN`. -/
  newDateOfFields : List (Option Int) → Option Int
  /-- `new Date().toISOString()` -/
  nowISOString : Str
  /-- `date.toISOString()` for a valid time value. -/
  toISOString : Int → Str
  /-- `date.toString()` -/
  dateToString : Option Int → Str
  /-- `parseInt(s - 1)`: the month index that `extractValueOfDateString` computes. -/
  parseIntMinusOne : Str → Option Int

/-- JavaScript truthiness. -/
def truthy : JsVal → Bool
  | JsVal.undefined => false
  | JsVal.null => false
  | JsVal.bool b => b
  | JsVal.num x => decide (x ≠ 0)
  | JsVal.nan => false
  | JsVal.str s => !s.isEmpty
  | _ => true

/-- Lookup of a key in a list of properties. -/
def lookupProp (key : Str) : List (Str × JsVal) → JsVal
  | [] => JsVal.undefined
  | (k, v) :: rest => if k = key then v else lookupProp key rest

/-- `value[key]` for a property name: the own properties of plain objects and the
fields that the driver types carry; `undefined` otherwise. -/
def getProp (value : JsVal) (key : String) : JsVal :=
  match value with
  | JsVal.obj props => lookupProp key.toList props
  | JsVal.objectID _ => if key = "_bsontype" then JsVal.str "ObjectID".toList else JsVal.undefined
  | JsVal.binary subType _ =>
    if key = "_bsontype" then JsVal.str "Binary".toList
    else if key = "sub_type" then JsVal.num subType
    else JsVal.undefined
  | JsVal.timestamp low high =>
    if key = "_bsontype" then JsVal.str "Timestamp".toList
    else if key = "low_" then JsVal.num low
    else if key = "high_" then JsVal.num high
    else JsVal.undefined
  | JsVal.code code scope =>
    if key = "_bsontype" then JsVal.str "Code".toList
    else if key = "code" then code
    else if key = "scope" then scope
    else JsVal.undefined
  | JsVal.dbRef ns oid db =>
    if key = "_bsontype" then JsVal.str "DBRef".toList
    else if key = "namespace" then ns
    else if key = "oid" then oid
    else if key = "db" then db
    else JsVal.undefined
  | JsVal.minKey => if key = "_bsontype" then JsVal.str "MinKey".toList else JsVal.undefined
  | JsVal.maxKey => if key = "_bsontype" then JsVal.str "MaxKey".toList else JsVal.undefined
  | _ => JsVal.undefined

/-- `lxHelpers.isObject(value)`: plain objects and instances of the driver classes
(`Date`, `RegExp` and arrays have types of their own). -/
def isObject : JsVal → Bool
  | JsVal.obj _ => true
  | JsVal.objectID _ => true
  | JsVal.binary _ _ => true
  | JsVal.timestamp _ _ => true
  | JsVal.code _ _ => true
  | JsVal.dbRef _ _ _ => true
  | JsVal.minKey => true
  | JsVal.maxKey => true
  | _ => false

/-- `lxHelpers.isArray(value)` -/
def isArray : JsVal → Bool
  | JsVal.arr _ => true
  | _ => false

/-- `val.types.string(value).valid` and `lxHelpers.isString(value)`. -/
def isString : JsVal → Bool
  | JsVal.str _ => true
  | _ => false

/-- `a === b` for the comparisons of a value with a string literal. -/
def strictEqStr (v : JsVal) (s : String) : Bool :=
  match v with
  | JsVal.str t => decide (t = s.toList)
  | _ => false

/-- `a === b` for the comparisons of a value with a number literal. -/
def strictEqNum (v : JsVal) (x : Rat) : Bool :=
  match v with
  | JsVal.num y => decide (y = x)
  | _ => false

/-- `a || b` -/
def jsOr (a b : JsVal) : JsVal := if truthy a then a else b

/-! ### String functions -/

/-- `s.replace(pattern, replacement)` for a string pattern: the first occurrence
only. -/
def replaceFirst (pattern replacement : Str) : Str → Str
  | [] => if pattern.isEmpty then replacement else []
  | c :: cs =>
    if pattern.isPrefixOf (c :: cs) then replacement ++ (c :: cs).drop pattern.length
    else c :: replaceFirst pattern replacement cs

/-- `s.trim()` -/
def trim (s : Str) : Str :=
  ((s.dropWhile isSpace).reverse.dropWhile isSpace).reverse

/-- `s.lastIndexOf(c)` for a single character, `none` for `-1`. -/
def lastIndexOf (c : Char) (s : Str) : Option Nat :=
  match s.reverse.indexOf? c with
  | some i => some (s.length - 1 - i)
  | none => none

/-- The decimal text of a natural number. -/
def natToStr (n : Nat) : Str := Nat.toDigits 10 n

/-- The decimal text of an integer, as JavaScript prints it. -/
def intToStr : Int → Str
  | Int.ofNat n => natToStr n
  | Int.negSucc n => '-' :: natToStr (n + 1)

/-- The value of a hexadecimal or decimal digit. -/
def digitValue (c : Char) : Option Nat :=
  if inRange '0' '9' c then some (c.toNat - '0'.toNat)
  else if inRange 'a' 'f' c then some (c.toNat - 'a'.toNat + 10)
  else if inRange 'A' 'F' c then some (c.toNat - 'A'.toNat + 10)
  else none

/-- Reads the longest prefix of digits of the given radix; `none` if there is no
digit. -/
def readDigits (radix : Nat) : Str → Option Nat → Option Nat
  | [], acc => acc
  | c :: cs, acc =>
    match digitValue c with
    | some d => if d < radix then readDigits radix cs (some (acc.getD 0 * radix + d)) else acc
    | none => acc

/-- `parseInt(s)` without a radix: leading white space, an optional sign, an
optional `0x` prefix, then the longest run of digits; `none` stands for `NaN`.
The value is the exact integer. -/
def parseInt (s : Str) : Option Int :=
  let s := s.dropWhile isSpace
  let (neg, s) :=
    match s with
    | '-' :: rest => (true, rest)
    | '+' :: rest => (false, rest)
    | _ => (false, s)
  let magnitude :=
    match s with
    | '0' :: 'x' :: rest => readDigits 16 rest none
    | '0' :: 'X' :: rest => readDigits 16 rest none
    | _ => readDigits 10 s none
  match magnitude with
  | some n => some (if neg then -(n : Int) else (n : Int))
  | none => none

/-! ## Value materializer (`main.js`, lines 292–346 and 834–1028) -/

/-- `var overFlowISODateValue = -9223372036854775808;` -/
def overFlowISODateValue : Rat := -9223372036854775808

/-- `getMongoId(id)` -/
def getMongoId (lib : Lib) (id : JsVal) : JsVal :=
  if !truthy id then JsVal.null
  else
    match id with
    | JsVal.str s =>
      if lib.formatsMongoId s then JsVal.objectID (lib.createFromHexString s)
      else if lib.typesMongoId id then id
      else JsVal.null
    | _ => if lib.typesMongoId id then id else JsVal.null

/-- `getUUID(id, subType, coding)`; `none` when `id.replace` is not a function
(a truthy `id` that is not a string), which throws. -/
def getUUID (lib : Lib) (id : JsVal) (subType : Nat) (coding : Coding) : Option JsVal :=
  if !truthy id then some JsVal.null
  else
    match id with
    | JsVal.str s => some (JsVal.binary subType (lib.newBuffer (s.filter (fun c => c != '-')) coding))
    | _ => none

/-- The 64-bit value of a `Timestamp` with the given signed 32-bit parts. -/
def timestampValue (low high : Int) : Int := high * 4294967296 + low % 4294967296

/-- `new Timestamp(low, high)`: both parts are forced into 32 signed bits. -/
def newTimestamp (lib : Lib) (low high : JsVal) : JsVal :=
  JsVal.timestamp (lib.toInt32 low) (lib.toInt32 high)

/-- `new Timestamp(low, high).lessThan(Timestamp.MIN_VALUE)`, with
`MIN_VALUE = fromBits(0, 0x80000000 | 0)`. -/
def lessThanMinValue (low high : Int) : Bool :=
  decide (timestampValue low high < timestampValue 0 (-2147483648))

/-- `new Timestamp(low, high).greaterThan(Timestamp.MAX_VALUE)`, with
`MAX_VALUE = fromBits(0xFFFFFFFF | 0, 0x7FFFFFFF | 0)`. -/
def greaterThanMaxValue (low high : Int) : Bool :=
  decide (timestampValue (-1) 2147483647 < timestampValue low high)

/-- `getTimestamp(timestamp, callback)`: `Except.error t` stands for
`callback(true, t)` and `Except.ok v` for `callback(null, v)`. -/
def getTimestamp (lib : Lib) (timestamp : Str) : Except Str JsVal :=
  let timestamp := trim (timestamp.filter (fun c => !isSpace c))
  let low :=
    match lastIndexOf ',' timestamp with
    | some i => timestamp.drop (i + 1)
    | none => timestamp
  let high :=
    match lastIndexOf ',' timestamp with
    | some i => timestamp.take i
    | none => []
  let lowBits := lib.toInt32 (JsVal.str low)
  let highBits := lib.toInt32 (JsVal.str high)
  if (parseInt low).isNone || (parseInt high).isNone || lessThanMinValue lowBits highBits ||
      greaterThanMaxValue lowBits highBits then
    Except.error timestamp
  else
    Except.ok (newTimestamp lib (JsVal.str low) (JsVal.str high))

/-- `s.split(c)` for a single character. -/
def splitChar (c : Char) : Str → List Str
  | [] => [[]]
  | x :: xs =>
    match splitChar c xs with
    | [] => [[]]
    | part :: parts => if x = c then [] :: part :: parts else (x :: part) :: parts

/-- `parseInt(parts[i])`; a missing part is `undefined` and gives `NaN`. -/
def parseIntPart (parts : List Str) (i : Nat) : Option Int :=
  match parts.get? i with
  | some p => parseInt p
  | none => none

/-- Truthiness of a number that may be `NaN`. -/
def truthyNumber : Option Int → Bool
  | some n => decide (n ≠ 0)
  | none => false

/-- `n || 0` for a number that may be `NaN`. -/
def orZero : Option Int → Option Int
  | some n => some n
  | none => some 0

/-- `extractValueOfDateString(value, callback)`: `Except.error r` stands for
`callback(true, r)` and `Except.ok d` for `callback(null, d)`. -/
def extractValueOfDateString (lib : Lib) (value : Str) : Except Str JsVal :=
  let result := replaceFirst ")".toList [] (replaceFirst "##ISODate(".toList [] value)
  let result := if result.length = 0 then lib.nowISOString else result
  if !(lib.formatsDateTime result || lib.formatsDate result || lib.formatsTime result ||
      lib.formatsUtcMillisec (parseInt result)) then
    Except.error result
  else
    let result := result.filter (fun c => !isSpace c)
    let parts := splitChar ',' result
    if truthyNumber (parseIntPart parts 0) && truthyNumber (parseIntPart parts 1) &&
        truthyNumber (parseIntPart parts 2) then
      Except.ok (JsVal.date (lib.newDateOfFields
        [parseIntPart parts 0, lib.parseIntMinusOne (parts.getD 1 []), parseIntPart parts 2,
          orZero (parseIntPart parts 3), orZero (parseIntPart parts 4),
          orZero (parseIntPart parts 5), orZero (parseIntPart parts 6)]))
    else if truthyNumber (parseInt result) && !result.contains '.' then
      Except.ok (JsVal.date (lib.newDate (JsVal.num ((parseInt result).getD 0))))
    else
      Except.ok (JsVal.date (lib.newDate (JsVal.str result)))

/-- The argument text of a sentinel: `value.replace(prefix, '').replace(')', '')`. -/
def sentinelArgument (pfx : String) (value : Str) : Str :=
  replaceFirst ")".toList [] (replaceFirst pfx.toList [] value)

/-- The messages `'Value "' + raw + '" of key "' + key + '" is no valid ' + …`. -/
def errorMessage (raw key : Str) (ending : String) : Str :=
  "Value \"".toList ++ raw ++ "\" of key \"".toList ++ key ++ "\" is no valid ".toList ++
    ending.toList

/-- The index at which `/\/([a-z]*)$/` matches: the first `/` that only lower-case
letters follow. -/
def regexTailIndex : Str → Option Nat
  | [] => none
  | c :: cs =>
    if c == '/' && cs.all lowerChar then some 0
    else (regexTailIndex cs).map (fun i => i + 1)

/-- Whether a value is `null`. -/
def isNull : JsVal → Bool
  | JsVal.null => true
  | _ => false

/-- The text of a string value (the empty text for other values). -/
def strOf : JsVal → Str
  | JsVal.str s => s
  | _ => []

/-- The `if … else if …` chain of `convertDateTimeAndIdsInDocumentToSave` for one
entry `(value, key)`, after the recursion into `value`. The result is the new
`error` and the new `data[key]`; `none` stands for an exception that the
source does not catch. -/
def materializeValue (lib : Lib) (option : SaveOption) (key : Str) (value : JsVal)
    (error : Option Str) : Option (Option Str × JsVal) :=
  let fileUpload := decide (option = SaveOption.fileUpload)
  let toValidate := decide (option = SaveOption.toValidate)
  let text := strOf value
  if truthy value && truthy (getProp value "$oid") && fileUpload then
    some (error, getMongoId lib (getProp value "$oid"))
  else if truthy value && (truthy (getProp value "$date") || isNull (getProp value "$date") ||
      strictEqNum (getProp value "$date") 0) && fileUpload then
    if strictEqNum (getProp value "$date") overFlowISODateValue then
      some (error, JsVal.date none)
    else
      some (error, JsVal.date (lib.newDate (getProp value "$date")))
  else if truthy value && truthy (getProp value "$binary") && fileUpload then
    if truthy (getProp value "$type") && (strictEqStr (getProp value "$type") "03" ||
        strictEqStr (getProp value "$type") "04") then
      match getUUID lib (getProp value "$binary")
          (if strictEqStr (getProp value "$type") "03" then 3 else 4) Coding.base64 with
      | some uuid => some (error, uuid)
      | none => none
    else
      some (error, value)
  else if truthy value && truthy (getProp value "$regex") && fileUpload then
    match lib.newRegExp (getProp value "$regex") (getProp value "$options") with
    | some (source, flags) => some (error, JsVal.regExp source flags)
    | none => none
  else if truthy value && truthy (getProp value "$timestamp") && fileUpload then
    some (error, newTimestamp lib (getProp (getProp value "$timestamp") "i")
      (getProp (getProp value "$timestamp") "t"))
  else if truthy value && truthy (getProp value "$code") && fileUpload then
    some (error, JsVal.code (getProp value "$code") (jsOr (getProp value "$scope") (JsVal.obj [])))
  else if truthy value && truthy (getProp value "$ref") && fileUpload then
    some (error, JsVal.dbRef (getProp value "$ref") (getProp value "$id")
      (jsOr (getProp value "$db") JsVal.null))
  else if truthy value && isString value && "##ObjectId(".toList.isPrefixOf text then
    if lib.formatsMongoId (sentinelArgument "##ObjectId(" text) || toValidate then
      some (error,
        if toValidate then JsVal.str (sentinelArgument "##ObjectId(" text)
        else getMongoId lib (JsVal.str (sentinelArgument "##ObjectId(" text)))
    else
      some (some (errorMessage (sentinelArgument "##ObjectId(" text) key
        "ObjectId, please check your input."), value)
  else if truthy value && isString value && "##UUID(".toList.isPrefixOf text then
    if lib.formatsUuid (sentinelArgument "##UUID(" text) || toValidate then
      if toValidate then some (error, JsVal.str (sentinelArgument "##UUID(" text))
      else
        match getUUID lib (JsVal.str (sentinelArgument "##UUID(" text)) 4 Coding.hex with
        | some uuid => some (error, uuid)
        | none => none
    else
      some (some (errorMessage (sentinelArgument "##UUID(" text) key
        "UUID, please check your input."), value)
  else if truthy value && isString value && "##LUUID(".toList.isPrefixOf text then
    if lib.formatsLuuid (sentinelArgument "##LUUID(" text) || toValidate then
      if toValidate then some (error, JsVal.str (sentinelArgument "##LUUID(" text))
      else
        match getUUID lib (JsVal.str (sentinelArgument "##LUUID(" text)) 3 Coding.hex with
        | some uuid => some (error, uuid)
        | none => none
    else
      some (some (errorMessage (sentinelArgument "##LUUID(" text) key
        "LUUID, please check your input."), value)
  else if truthy value && isString value && "##Timestamp(".toList.isPrefixOf text then
    if toValidate then
      some (error, JsVal.str (trim (sentinelArgument "##Timestamp(" text)))
    else
      match getTimestamp lib (sentinelArgument "##Timestamp(" text) with
      | Except.error timestamp =>
        some (some (errorMessage timestamp key
          "timestamp, please check your input (high-bit-value, low-bit-value)."), value)
      | Except.ok timestamp => some (error, timestamp)
  else if truthy value && isObject value && truthy (getProp value "$code") then
    some (error, JsVal.code (getProp value "$code") (jsOr (getProp value "$scope") (JsVal.obj [])))
  else if truthy value && isObject value && truthy (getProp value "$minKey") then
    some (error, JsVal.minKey)
  else if truthy value && isObject value && truthy (getProp value "$maxKey") then
    some (error, JsVal.maxKey)
  else if truthy value && isObject value && truthy (getProp value "$id") &&
      truthy (getProp value "$ref") then
    some (error, JsVal.dbRef (getProp value "$ref") (getProp value "$id")
      (jsOr (getProp value "$db") JsVal.null))
  else if truthy value && isString value && "##ISODate(".toList.isPrefixOf text then
    if toValidate then
      some (error, JsVal.str (sentinelArgument "##ISODate(" text))
    else
      match extractValueOfDateString lib text with
      | Except.error date =>
        some (some (errorMessage date key "date, please check your input."), value)
      | Except.ok date => some (error, date)
  else if truthy value && isString value && "##/".toList.isPrefixOf text then
    match regexTailIndex text with
    | none => none
    | some index =>
      let regExValueExp := replaceAll (lit "##/") [] (text.take index)
      let regExValueParam := text.drop (index + 1)
      match lib.newRegExp (JsVal.str regExValueExp) (JsVal.str regExValueParam) with
      | some (source, flags) => some (error, JsVal.regExp source flags)
      | none => some (error, JsVal.undefined)
  else
    some (error, value)

/-- One call of the iterator of `convertDateTimeAndIdsInDocumentToSave` for the
entry `(value, key)`. `recursed` is the result of the recursive call on
`value`, which is used only when the source makes that call: for an object
or array without a truthy `$oid` or `$date`. -/
def saveEntry (lib : Lib) (option : SaveOption) (key : Str) (value : JsVal)
    (recursed : Option (Option Str × JsVal)) (error : Option Str) :
    Option (Option Str × JsVal) :=
  if (isObject value || isArray value) &&
      !(truthy value && (truthy (getProp value "$oid") || truthy (getProp value "$date"))) then
    match recursed with
    | none => none
    | some (err, res) => materializeValue lib option key res (error <|> err)
  else
    materializeValue lib option key value error

mutual
/-- `convertDateTimeAndIdsInDocumentToSave(data, metadata, option, callback)`: the
pair handed to the callback, `(error, data)`, or `none` when an exception
escapes. The error is its message. The metadata argument is only passed on
and has no influence on the result. -/
def convertDateTimeAndIdsInDocumentToSave (lib : Lib) (option : SaveOption) :
    JsVal → Option (Option Str × JsVal)
  | JsVal.arr items =>
    match saveItems lib option 0 none items with
    | some (error, items) => some (error, JsVal.arr items)
    | none => none
  | JsVal.obj props =>
    match saveProps lib option none props with
    | some (error, props) => some (error, JsVal.obj props)
    | none => none
  | JsVal.code code scope =>
    match saveEntry lib option "code".toList code
        (convertDateTimeAndIdsInDocumentToSave lib option code) none with
    | none => none
    | some (error, code) =>
      match saveEntry lib option "scope".toList scope
          (convertDateTimeAndIdsInDocumentToSave lib option scope) error with
      | none => none
      | some (error, scope) => some (error, JsVal.code code scope)
  | JsVal.dbRef ns oid db =>
    match saveEntry lib option "namespace".toList ns
        (convertDateTimeAndIdsInDocumentToSave lib option ns) none with
    | none => none
    | some (error, ns) =>
      match saveEntry lib option "oid".toList oid
          (convertDateTimeAndIdsInDocumentToSave lib option oid) error with
      | none => none
      | some (error, oid) =>
        match saveEntry lib option "db".toList db
            (convertDateTimeAndIdsInDocumentToSave lib option db) error with
        | none => none
        | some (error, db) => some (error, JsVal.dbRef ns oid db)
  | value => some (none, value)
/-- The iteration of `lxHelpers.forEach` over the elements of an array, from
index `index` on, with the `error` reached so far. -/
def saveItems (lib : Lib) (option : SaveOption) :
    Nat → Option Str → List JsVal → Option (Option Str × List JsVal)
  | _, error, [] => some (error, [])
  | index, error, value :: rest =>
    match saveEntry lib option (natToStr index) value
        (convertDateTimeAndIdsInDocumentToSave lib option value) error with
    | none => none
    | some (error, value) =>
      match saveItems lib option (index + 1) error rest with
      | none => none
      | some (error, rest) => some (error, value :: rest)
/-- The iteration of `lxHelpers.forEach` over the properties of an object, with
the `error` reached so far. -/
def saveProps (lib : Lib) (option : SaveOption) :
    Option Str → List (Str × JsVal) → Option (Option Str × List (Str × JsVal))
  | error, [] => some (error, [])
  | error, (key, value) :: rest =>
    match saveEntry lib option key value
        (convertDateTimeAndIdsInDocumentToSave lib option value) error with
    | none => none
    | some (error, value) =>
      match saveProps lib option error rest with
      | none => none
      | some (error, rest) => some (error, (key, value) :: rest)
end

/-! ## Export serializer (`main.js`, lines 1036–1130) -/

/-- `value.toString(coding)`: the text of the buffer of a `Binary`, and the plain
`toString()` of any other value. -/
def toStringCoding (lib : Lib) (value : JsVal) (coding : Coding) : Str :=
  match value with
  | JsVal.binary _ bytes => lib.bufferToString bytes coding
  | v => lib.toStr v

/-- `regExp.toString()` -/
def regExpToString (source flags : Str) : Str := '/' :: source ++ '/' :: flags

/-- The wire object that `convertValuesForExport` builds for a regular expression:
the text is split at `/`, the parts between the first and the last part are
joined again with `/`. -/
def exportRegExp (source flags : Str) : JsVal :=
  let regexValue := splitChar '/' (regExpToString source flags)
  let regexExp :=
    if regexValue.length > 3 then
      ((regexValue.drop 2).take (regexValue.length - 3)).foldl
        (fun acc part => acc ++ '/' :: part) (regexValue.getD 1 [])
    else regexValue.getD 1 []
  JsVal.obj [("$regex".toList, JsVal.str regexExp),
    ("$options".toList, JsVal.str (regexValue.getD (regexValue.length - 1) []))]

/-- `value.getTime()` -/
def getTime : Option Int → JsVal
  | some t => JsVal.num t
  | none => JsVal.nan

/-- The wire object for a `Date`: the check of the source on the JSON text of the
date, then `{$date: overFlowISODateValue}` or `{$date: value.getTime()}`. -/
def exportDate (lib : Lib) (time : Option Int) : JsVal :=
  let checkValue :=
    match time with
    | some t => lib.toISOString t
    | none => "null".toList
  if !(lib.formatsDateTime checkValue || lib.formatsDate checkValue ||
      lib.formatsTime checkValue || lib.formatsUtcMillisec (parseInt checkValue)) then
    JsVal.obj [("$date".toList, JsVal.num overFlowISODateValue)]
  else
    JsVal.obj [("$date".toList, getTime time)]

/-- The sequence of `if`s of `convertValuesForExport` for one entry, applied to
the value after the recursion into it: the new `data[key]`. -/
def exportValue (lib : Lib) (value : JsVal) : JsVal :=
  let bsontype := getProp value "_bsontype"
  let result := value
  let result :=
    match value with
    | JsVal.date time => exportDate lib time
    | _ => result
  let result :=
    if truthy value && lib.typesMongoId value then JsVal.obj [("$oid".toList, value)]
    else result
  let result :=
    match value with
    | JsVal.regExp source flags => exportRegExp source flags
    | _ => result
  let result :=
    if truthy value && truthy bsontype && strictEqStr bsontype "Binary" &&
        truthy (getProp value "sub_type") then
      if strictEqNum (getProp value "sub_type") 3 then
        JsVal.obj [("$binary".toList, JsVal.str (toStringCoding lib value Coding.base64)),
          ("$type".toList, JsVal.str "03".toList)]
      else if strictEqNum (getProp value "sub_type") 4 then
        JsVal.obj [("$binary".toList, JsVal.str (toStringCoding lib value Coding.base64)),
          ("$type".toList, JsVal.str "04".toList)]
      else result
    else result
  let result :=
    if truthy value && truthy bsontype && strictEqStr bsontype "Timestamp" then
      JsVal.obj [("$timestamp".toList,
        JsVal.obj [("t".toList, getProp value "high_"), ("i".toList, getProp value "low_")])]
    else result
  let result :=
    if truthy value && truthy bsontype && strictEqStr bsontype "Code" then
      JsVal.obj [("$code".toList, getProp value "code"), ("$scope".toList, getProp value "scope")]
    else result
  let result :=
    if truthy value && truthy bsontype && strictEqStr bsontype "DBRef" then
      if truthy (getProp value "db") then
        JsVal.obj [("$ref".toList, getProp value "namespace"), ("$id".toList, getProp value "oid"),
          ("$db".toList, getProp value "db")]
      else
        JsVal.obj [("$ref".toList, getProp value "namespace"), ("$id".toList, getProp value "oid")]
    else result
  let result :=
    if truthy value && truthy bsontype && strictEqStr bsontype "MinKey" then
      JsVal.obj [("$minKey".toList, JsVal.num 1)]
    else result
  let result :=
    if truthy value && truthy bsontype && strictEqStr bsontype "MaxKey" then
      JsVal.obj [("$maxKey".toList, JsVal.num 1)]
    else result
  result

/-- One call of the iterator of `convertValuesForExport`: the recursion into an
object or array (whose result is `recursed`), then the checks. -/
def exportEntry (lib : Lib) (value recursed : JsVal) : JsVal :=
  exportValue lib (if isObject value || isArray value then recursed else value)

mutual
/-- `convertValuesForExport(data)`. For a `Code` or `DBRef` the iteration runs over
the fields that hold values; the `_bsontype` field is left as it is. -/
def convertValuesForExport (lib : Lib) : JsVal → JsVal
  | JsVal.arr items => JsVal.arr (exportItems lib items)
  | JsVal.obj props => JsVal.obj (exportProps lib props)
  | JsVal.code code scope =>
    JsVal.code (exportEntry lib code (convertValuesForExport lib code))
      (exportEntry lib scope (convertValuesForExport lib scope))
  | JsVal.dbRef ns oid db =>
    JsVal.dbRef (exportEntry lib ns (convertValuesForExport lib ns))
      (exportEntry lib oid (convertValuesForExport lib oid))
      (exportEntry lib db (convertValuesForExport lib db))
  | value => value
/-- The iteration of `convertValuesForExport` over the elements of an array. -/
def exportItems (lib : Lib) : List JsVal → List JsVal
  | [] => []
  | value :: rest =>
    exportEntry lib value (convertValuesForExport lib value) :: exportItems lib rest
/-- The iteration of `convertValuesForExport` over the properties of an object. -/
def exportProps (lib : Lib) : List (Str × JsVal) → List (Str × JsVal)
  | [] => []
  | (key, value) :: rest =>
    (key, exportEntry lib value (convertValuesForExport lib value)) :: exportProps lib rest
end

/-! ## Client presenter (`main.js`, lines 355–358 and 1138–1223) -/

/-- `formatUUIDsForClient(value)` -/
def formatUUIDsForClient (lib : Lib) (value : JsVal) : Str :=
  let value := toStringCoding lib value Coding.hex
  slice value 0 8 ++ '-' :: slice value 8 12 ++ '-' :: slice value 12 16 ++
    '-' :: slice value 16 20 ++ '-' :: value.drop 20

/-- Whether the iterator of `convertValuesOfDocumentsForClient` returns early for
a value: a `Date`, an ObjectId that is not a string, or a regular expression. -/
def returnsEarly (lib : Lib) (value : JsVal) : Bool :=
  truthy value &&
    ((match value with
      | JsVal.date _ => true
      | _ => false) ||
     (lib.typesMongoId value && !isString value) || lib.formatsRegex value)

/-- One call of the iterator of `convertValuesOfDocumentsForClient`: the new
`data[key]`. The recursion into `value` comes last in the source and changes
`value` in place: `inPlace` is `value` after that recursion, and `fields` is
`value` with every field holding what the recursion leaves of the object
that the field referred to before (the wire objects for `Code` and `DBRef`
are built from those references). -/
def presentEntry (lib : Lib) (value inPlace fields : JsVal) : JsVal :=
  let bsontype := getProp value "_bsontype"
  match value with
  | JsVal.date time =>
    JsVal.str ("ISODate(".toList ++
      (match time with
       | some t => lib.toISOString t
       | none => lib.dateToString none) ++ ")".toList)
  | _ =>
    if truthy value && lib.typesMongoId value && !isString value then
      JsVal.str ("ObjectId(".toList ++ lib.toStr value ++ ")".toList)
    else if truthy value && lib.formatsRegex value then
      JsVal.str ("##".toList ++ lib.toStr value)
    else
      let result := inPlace
      let result :=
        if truthy value && truthy (getProp value "sub_type") then
          if strictEqNum (getProp value "sub_type") 3 then
            JsVal.str ("LUUID(".toList ++ formatUUIDsForClient lib value ++ ")".toList)
          else if strictEqNum (getProp value "sub_type") 4 then
            JsVal.str ("UUID(".toList ++ formatUUIDsForClient lib value ++ ")".toList)
          else result
        else result
      let result :=
        if truthy value && truthy bsontype && strictEqStr bsontype "Timestamp" then
          JsVal.str ("Timestamp(".toList ++ lib.toStr (getProp value "high_") ++ ", ".toList ++
            lib.toStr (getProp value "low_") ++ ")".toList)
        else result
      let result :=
        if truthy value && truthy bsontype && strictEqStr bsontype "Code" then
          JsVal.obj [("$code".toList, getProp fields "code"),
            ("$scope".toList, getProp fields "scope")]
        else result
      let result :=
        if truthy value && truthy bsontype && strictEqStr bsontype "MinKey" then
          JsVal.obj [("$minKey".toList, JsVal.num 1)]
        else result
      let result :=
        if truthy value && truthy bsontype && strictEqStr bsontype "MaxKey" then
          JsVal.obj [("$maxKey".toList, JsVal.num 1)]
        else result
      let result :=
        if truthy value && truthy bsontype && strictEqStr bsontype "DBRef" then
          let id :=
            if lib.typesMongoId (getProp value "oid") && !isString (getProp value "oid") then
              JsVal.str ("ObjectId(".toList ++ lib.toStr (getProp value "oid") ++ ")".toList)
            else getProp fields "oid"
          if truthy (getProp value "db") then
            JsVal.obj [("$ref".toList, getProp fields "namespace"), ("$id".toList, id),
              ("$db".toList, getProp fields "db")]
          else
            JsVal.obj [("$ref".toList, getProp fields "namespace"), ("$id".toList, id)]
        else result
      result

/-- What the recursion of the presenter leaves of the object that a field
referred to: the object changed in place when the iterator reaches the
recursion for it (`inPlace`), the unchanged value otherwise. -/
def keptReference (lib : Lib) (value inPlace : JsVal) : JsVal :=
  if returnsEarly lib value then value else inPlace

mutual
/-- `convertValuesOfDocumentsForClient(data)`: `data` after the iteration has
replaced its entries. For a `Code` or `DBRef` the iteration runs over the
fields that hold values. -/
def convertValuesOfDocumentsForClient (lib : Lib) : JsVal → JsVal
  | JsVal.arr items => JsVal.arr (presentItems lib items)
  | JsVal.obj props => JsVal.obj (presentProps lib props)
  | JsVal.code code scope =>
    JsVal.code
      (presentEntry lib code (convertValuesOfDocumentsForClient lib code) (referencedFields lib code))
      (presentEntry lib scope (convertValuesOfDocumentsForClient lib scope)
        (referencedFields lib scope))
  | JsVal.dbRef ns oid db =>
    JsVal.dbRef
      (presentEntry lib ns (convertValuesOfDocumentsForClient lib ns) (referencedFields lib ns))
      (presentEntry lib oid (convertValuesOfDocumentsForClient lib oid) (referencedFields lib oid))
      (presentEntry lib db (convertValuesOfDocumentsForClient lib db) (referencedFields lib db))
  | value => value
/-- The iteration of the presenter over the elements of an array. -/
def presentItems (lib : Lib) : List JsVal → List JsVal
  | [] => []
  | value :: rest =>
    presentEntry lib value (convertValuesOfDocumentsForClient lib value)
      (referencedFields lib value) :: presentItems lib rest
/-- The iteration of the presenter over the properties of an object. -/
def presentProps (lib : Lib) : List (Str × JsVal) → List (Str × JsVal)
  | [] => []
  | (key, value) :: rest =>
    (key, presentEntry lib value (convertValuesOfDocumentsForClient lib value)
      (referencedFields lib value)) :: presentProps lib rest
/-- A value in which every field holds what the recursion of the presenter leaves
of the object the field referred to before the recursion. -/
def referencedFields (lib : Lib) : JsVal → JsVal
  | JsVal.arr items => JsVal.arr (referencedItems lib items)
  | JsVal.obj props => JsVal.obj (referencedProps lib props)
  | JsVal.code code scope =>
    JsVal.code (keptReference lib code (convertValuesOfDocumentsForClient lib code))
      (keptReference lib scope (convertValuesOfDocumentsForClient lib scope))
  | JsVal.dbRef ns oid db =>
    JsVal.dbRef (keptReference lib ns (convertValuesOfDocumentsForClient lib ns))
      (keptReference lib oid (convertValuesOfDocumentsForClient lib oid))
      (keptReference lib db (convertValuesOfDocumentsForClient lib db))
  | value => value
/-- `referencedFields` on the elements of an array. -/
def referencedItems (lib : Lib) : List JsVal → List JsVal
  | [] => []
  | value :: rest =>
    keptReference lib value (convertValuesOfDocumentsForClient lib value) ::
      referencedItems lib rest
/-- `referencedFields` on the properties of an object. -/
def referencedProps (lib : Lib) : List (Str × JsVal) → List (Str × JsVal)
  | [] => []
  | (key, value) :: rest =>
    (key, keptReference lib value (convertValuesOfDocumentsForClient lib value)) ::
      referencedProps lib rest
end

/-! ## Schema inference (`schema.js`) -/

/-- `a === b` when `a` is a primitive value (objects and arrays are compared by
reference in JavaScript, so a primitive is never equal to one). -/
def strictEqPrimitive : JsVal → JsVal → Bool
  | JsVal.undefined, JsVal.undefined => true
  | JsVal.null, JsVal.null => true
  | JsVal.bool a, JsVal.bool b => a == b
  | JsVal.num a, JsVal.num b => decide (a = b)
  | JsVal.str a, JsVal.str b => decide (a = b)
  | _, _ => false

/-- `arr.indexOf(value) !== -1` for a primitive `value`; `false` when the first
argument is not an array. -/
def includes (arr value : JsVal) : Bool :=
  match arr with
  | JsVal.arr items => items.any (fun item => strictEqPrimitive value item)
  | _ => false

/-- `arr.push(value)` -/
def push (arr value : JsVal) : JsVal :=
  match arr with
  | JsVal.arr items => JsVal.arr (items ++ [value])
  | other => other

/-- Replaces the value of `key` in a list of properties, or appends the property
when the key is new. -/
def setInProps (key : Str) (value : JsVal) : List (Str × JsVal) → List (Str × JsVal)
  | [] => [(key, value)]
  | (k, v) :: rest => if k = key then (k, value) :: rest else (k, v) :: setInProps key value rest

/-- `object[key] = value` for a property name. `none` when `object` is not a plain
object: the assignment throws on a primitive in strict mode, and a named
property on an array is outside this model. -/
def setProp (object : JsVal) (key : Str) (value : JsVal) : Option JsVal :=
  match object with
  | JsVal.obj props => some (JsVal.obj (setInProps key value props))
  | _ => none

/-- `object[key]` for a property name given as text. -/
def getKey (object : JsVal) (key : Str) : JsVal :=
  match object with
  | JsVal.obj props => lookupProp key props
  | _ => JsVal.undefined

/-- `val.types.object(value).valid && !val.types.array(value).valid` -/
def isPlainObject : JsVal → Bool
  | JsVal.obj _ => true
  | _ => false

/-- `mergeTypesOfProperty(jsonValue, value)` -/
def mergeTypesOfProperty (jsonValue value : JsVal) : JsVal :=
  if !strictEqStr jsonValue "any" then
    if (strictEqStr jsonValue "object" && !strictEqStr value "object") ||
        (strictEqStr value "object" && !strictEqStr jsonValue "object") then
      JsVal.str "any".toList
    else if (strictEqStr jsonValue "array" && !strictEqStr value "array") ||
        (strictEqStr value "array" && !strictEqStr jsonValue "array") then
      JsVal.str "any".toList
    else
      JsVal.arr [jsonValue, value]
  else jsonValue

/-- The last branch of the iterator of `mergeArrayItems`, for a `value` that is
neither an array nor an object: the new `itemObject[key]`, given the old one. -/
def mergeScalar (current value : JsVal) : JsVal :=
  let merged :=
    if truthy current then
      if isArray current then
        (if includes current value then current else push current value)
      else if isString current && !strictEqPrimitive value current then
        mergeTypesOfProperty current value
      else value
    else current
  if !truthy merged then value else merged

mutual
/-- `mergeArrayItems(arrayItems, itemObject)`; `none` when an assignment
`itemObject[key] = …` has no plain object to assign to. -/
def mergeArrayItems : JsVal → JsVal → Option JsVal
  | JsVal.arr items, itemObject => mergeOverArray items (jsOr itemObject (JsVal.obj []))
  | JsVal.obj props, itemObject => mergeOverObject props (jsOr itemObject (JsVal.obj []))
  | _, itemObject => some (jsOr itemObject (JsVal.obj []))
/-- The iteration of `mergeArrayItems` over the elements of an array: an element
that is not a string is merged into `itemObject` by recursion, a string is
pushed on the array `itemObject` (a fresh array when it was none). -/
def mergeOverArray : List JsVal → JsVal → Option JsVal
  | [], itemObject => some itemObject
  | value :: rest, itemObject =>
    if !isString value then
      match mergeArrayItems value itemObject with
      | none => none
      | some merged => mergeOverArray rest merged
    else
      let itemArray := if isArray itemObject then itemObject else JsVal.arr []
      mergeOverArray rest (if includes itemArray value then itemArray else push itemArray value)
/-- The iteration of `mergeArrayItems` over the properties of an object. -/
def mergeOverObject : List (Str × JsVal) → JsVal → Option JsVal
  | [], itemObject => some itemObject
  | (key, value) :: rest, itemObject =>
    if isArray value || isPlainObject value then
      match mergeArrayItems value (getKey itemObject key) with
      | none => none
      | some merged =>
        match setProp itemObject key merged with
        | none => none
        | some itemObject => mergeOverObject rest itemObject
    else
      match setProp itemObject key (mergeScalar (getKey itemObject key) value) with
      | none => none
      | some itemObject => mergeOverObject rest itemObject
end

/-- An object with the one property `type`. -/
def typeOnly (type : JsVal) : JsVal := JsVal.obj [("type".toList, type)]

/-- An object with the properties `type` and `format`. -/
def typeFormat (type format : String) : JsVal :=
  JsVal.obj [("type".toList, JsVal.str type.toList), ("format".toList, JsVal.str format.toList)]

/-- `getValidationObjectOfSingleElements(data, key)`; `key` is the text of the key
(`key.toString()`). -/
def getValidationObjectOfSingleElements (data : Str) (key : Str) : JsVal :=
  let properties :=
    if data = "float".toList then typeOnly (JsVal.str "number".toList)
    else if data = "date".toList then typeFormat "string" "date"
    else if data = "ObjectID".toList then typeFormat "string" "mongo-id"
    else if data = "date-time".toList then typeFormat "string" "date-time"
    else if data = "regex".toList then typeOnly (JsVal.str "regexp".toList)
    else if data = "UUID".toList then typeFormat "string" "uuid"
    else if data = "LUUID".toList then typeFormat "string" "luuid"
    else if data = "Timestamp".toList then typeFormat "string" "timestamp"
    else if data = "DBRef".toList then typeOnly (JsVal.str "dbRef".toList)
    else if data = "MinKey".toList then typeOnly (JsVal.str "minKey".toList)
    else if data = "MaxKey".toList then typeOnly (JsVal.str "maxKey".toList)
    else if data = "Code".toList then typeOnly (JsVal.str "code".toList)
    else typeOnly (JsVal.str data)
  if key = "_id".toList then
    match properties with
    | JsVal.obj props => JsVal.obj (props ++ [("key".toList, JsVal.bool true)])
    | other => other
  else properties

/-- `schemaTest = {}; forEach(items, value => schemaTest = mergeArrayItems(value, schemaTest))` -/
def mergeItemShapes : List (Str × JsVal) → JsVal → Option JsVal
  | [], schemaTest => some schemaTest
  | (_, value) :: rest, schemaTest =>
    match mergeArrayItems value schemaTest with
    | none => none
    | some merged => mergeItemShapes rest merged

/-- The `items` of an array schema, from the schema object built for the elements:
several shapes are merged into one, a single shape is `items[0]`. -/
def arrayItemsSchema (items : List (Str × JsVal)) : Option JsVal :=
  if items.length > 1 then mergeItemShapes items (JsVal.obj [])
  else if items.length = 1 then some (lookupProp "0".toList items)
  else some (JsVal.obj items)

/-- One call of the iterator of `createSchemaOfEachDocument`: the value assigned to
`schemaObject[key]` (`some none` when nothing is assigned). `sub` is the
result of `createSchemaOfEachDocument(value, {})`. -/
def schemaEntry (key : Str) (value : JsVal) (sub : Option (List (Str × JsVal))) :
    Option (Option JsVal) :=
  match value with
  | JsVal.obj _ =>
    match sub with
    | none => none
    | some props =>
      some (some (JsVal.obj [("type".toList, JsVal.str "object".toList),
        ("properties".toList, JsVal.obj props)]))
  | JsVal.arr _ =>
    match sub with
    | none => none
    | some items =>
      match arrayItemsSchema items with
      | none => none
      | some itemsSchema =>
        some (some (JsVal.obj [("type".toList, JsVal.str "array".toList),
          ("items".toList, itemsSchema)]))
  | JsVal.str data => some (some (getValidationObjectOfSingleElements data key))
  | _ => some none

mutual
/-- `createSchemaOfEachDocument(metaData, {})`: the properties of the schema object
that is returned. -/
def createSchemaOfEachDocument : JsVal → Option (List (Str × JsVal))
  | JsVal.arr items => schemaOfItems 0 items
  | JsVal.obj props => schemaOfProps props
  | _ => some []
/-- The iteration of `createSchemaOfEachDocument` over the elements of an array. -/
def schemaOfItems : Nat → List JsVal → Option (List (Str × JsVal))
  | _, [] => some []
  | index, value :: rest =>
    match schemaEntry (natToStr index) value (createSchemaOfEachDocument value) with
    | none => none
    | some entry =>
      match schemaOfItems (index + 1) rest with
      | none => none
      | some props =>
        match entry with
        | some node => some ((natToStr index, node) :: props)
        | none => some props
/-- The iteration of `createSchemaOfEachDocument` over the properties of an object. -/
def schemaOfProps : List (Str × JsVal) → Option (List (Str × JsVal))
  | [] => some []
  | (key, value) :: rest =>
    match schemaEntry key value (createSchemaOfEachDocument value) with
    | none => none
    | some entry =>
      match schemaOfProps rest with
      | none => none
      | some props =>
        match entry with
        | some node => some ((key, node) :: props)
        | none => some props
end

/-- The first part of the iterator of `filterTypesOfPropertiesIfAnyOrArray`: the
replacement of `schema[key]` when the type of `value` is `'any'` or an
array, `none` when the entry is kept. -/
def filterReplacement (value : JsVal) : Option JsVal :=
  let type := getProp value "type"
  if truthy type && (strictEqStr type "any" || isArray type) then
    let first :=
      if !(isArray type && (match type with
          | JsVal.arr items => decide (items.length = 2)
          | _ => false) && includes type (JsVal.str "null".toList)) then
        some (typeOnly type)
      else none
    if isArray type && (match type with
        | JsVal.arr items => decide (items.length > 2)
        | _ => false) then
      some (typeOnly (JsVal.str "any".toList))
    else first
  else none

mutual
/-- `filterTypesOfPropertiesIfAnyOrArray(schema)`. The recursion into a replacement
`{type: …}` finds the one entry `type`, a string or an array, and changes
nothing, so the replacement is the result for that entry. -/
def filterTypesOfPropertiesIfAnyOrArray : JsVal → JsVal
  | JsVal.obj props => JsVal.obj (filterProps props)
  | JsVal.arr items => JsVal.arr (filterItems items)
  | value => value
/-- The iteration of the filter over the properties of an object. -/
def filterProps : List (Str × JsVal) → List (Str × JsVal)
  | [] => []
  | (key, value) :: rest =>
    (key,
      if truthy value then
        match filterReplacement value with
        | some replacement => replacement
        | none => if isObject value then filterTypesOfPropertiesIfAnyOrArray value else value
      else value) :: filterProps rest
/-- The iteration of the filter over the elements of an array. -/
def filterItems : List JsVal → List JsVal
  | [] => []
  | value :: rest =>
    (if truthy value then
      match filterReplacement value with
      | some replacement => replacement
      | none => if isObject value then filterTypesOfPropertiesIfAnyOrArray value else value
    else value) :: filterItems rest
end

/-- The schemata of the documents: `createSchemaOfEachDocument(metadata[key], {})`
for every entry of the metadata. -/
def documentSchemata : List JsVal → Option (List JsVal)
  | [] => some []
  | tags :: rest =>
    match createSchemaOfEachDocument tags, documentSchemata rest with
    | some props, some schemata => some (JsVal.obj props :: schemata)
    | _, _ => none

/-- `getSchema(metadata)`: the object that the source serializes with
`JSON.stringify`. -/
def getSchema (metadata : List JsVal) : Option JsVal :=
  match documentSchemata metadata with
  | none => none
  | some arrayOfDocumentsSchemata =>
    match mergeArrayItems (JsVal.arr arrayOfDocumentsSchemata) JsVal.undefined with
    | none => none
    | some properties =>
      some (filterTypesOfPropertiesIfAnyOrArray (JsVal.obj [("properties".toList, properties)]))

/-! ## A concrete library for the evaluations -/

/-- Whether a character is a hexadecimal digit. -/
def isHexDigit (c : Char) : Bool := (digitValue c).isSome

/-- `/^[0-9a-fA-F]{24}$/`, the ObjectId format of `lx-valid`. -/
def isMongoIdText (s : Str) : Bool := decide (s.length = 24) && s.all isHexDigit

/-- The lower-case hexadecimal digit of a number below 16. -/
def hexDigit (n : Nat) : Char :=
  if n < 10 then Char.ofNat (48 + n) else Char.ofNat (87 + n)

/-- The hexadecimal text of a list of bytes. -/
def hexEncode : List Nat → Str
  | [] => []
  | b :: rest => hexDigit (b / 16 % 16) :: hexDigit (b % 16) :: hexEncode rest

/-- The bytes of a hexadecimal text, two digits per byte, up to the first pair that
is not hexadecimal. -/
def hexDecode : Str → List Nat
  | a :: b :: rest =>
    match digitValue a, digitValue b with
    | some x, some y => (x * 16 + y) :: hexDecode rest
    | _, _ => []
  | _ => []

/-- The character of a base64 digit. -/
def base64Char (n : Nat) : Char :=
  if n < 26 then Char.ofNat (65 + n)
  else if n < 52 then Char.ofNat (71 + n)
  else if n < 62 then Char.ofNat (n - 4)
  else if n = 62 then '+'
  else '/'

/-- The base64 text of a list of bytes. -/
def base64Encode : List Nat → Str
  | a :: b :: c :: rest =>
    base64Char (a / 4 % 64) :: base64Char ((a % 4) * 16 + b / 16 % 16) ::
      base64Char ((b % 16) * 4 + c / 64 % 4) :: base64Char (c % 64) :: base64Encode rest
  | [a, b] =>
    [base64Char (a / 4 % 64), base64Char ((a % 4) * 16 + b / 16 % 16),
      base64Char ((b % 16) * 4), '=']
  | [a] => [base64Char (a / 4 % 64), base64Char ((a % 4) * 16), '=', '=']
  | [] => []

/-- The value of a base64 digit. -/
def base64Value (c : Char) : Option Nat :=
  if inRange 'A' 'Z' c then some (c.toNat - 65)
  else if inRange 'a' 'z' c then some (c.toNat - 71)
  else if inRange '0' '9' c then some (c.toNat + 4)
  else if c = '+' then some 62
  else if c = '/' then some 63
  else none

/-- The bytes of a base64 text with padding. -/
def base64Decode : Str → List Nat
  | a :: b :: c :: d :: rest =>
    match base64Value a, base64Value b, base64Value c, base64Value d with
    | some w, some x, some y, some z =>
      (w * 4 + x / 16) :: ((x % 16) * 16 + y / 4) :: ((y % 4) * 64 + z) :: base64Decode rest
    | some w, some x, some y, none => [w * 4 + x / 16, (x % 16) * 16 + y / 4]
    | some w, some x, none, _ => [w * 4 + x / 16]
    | _, _, _, _ => []
  | _ => []

/-- The signed 32-bit integer with the same low 32 bits. -/
def wrapInt32 (n : Int) : Int :=
  if n % 4294967296 < 2147483648 then n % 4294967296 else n % 4294967296 - 4294967296

/-- The integer that a text of an optional sign and decimal digits denotes (the
empty text denotes 0); `none` for any other text. -/
def signedDecimal (s : Str) : Option Int :=
  match s with
  | [] => some 0
  | '-' :: rest =>
    if !rest.isEmpty && rest.all (inRange '0' '9') then
      some (-((readDigits 10 rest none).getD 0 : Int))
    else none
  | '+' :: rest =>
    if !rest.isEmpty && rest.all (inRange '0' '9') then some ((readDigits 10 rest none).getD 0 : Int)
    else none
  | _ => if s.all (inRange '0' '9') then some ((readDigits 10 s none).getD 0 : Int) else none

/-- `v | 0` for numbers, for texts of signed decimal integers below `2^53` and for
booleans; the other texts used here are not numeric and give 0, as `NaN | 0`
does. -/
def exampleToInt32 : JsVal → Int
  | JsVal.num x => wrapInt32 (Int.tdiv x.num x.den)
  | JsVal.str s =>
    match signedDecimal s with
    | some n => wrapInt32 n
    | none => 0
  | JsVal.bool true => 1
  | _ => 0

/-- `String(v)` for the primitive values, for whole numbers, regular expressions
and ObjectIds; `[object Object]` for the objects without a `toString` of their
own. -/
def exampleToStr : JsVal → Str
  | JsVal.undefined => "undefined".toList
  | JsVal.null => "null".toList
  | JsVal.bool true => "true".toList
  | JsVal.bool false => "false".toList
  | JsVal.num x => intToStr x.num
  | JsVal.nan => "NaN".toList
  | JsVal.str s => s
  | JsVal.regExp source flags => regExpToString source flags
  | JsVal.objectID bytes => hexEncode bytes
  | _ => "[object Object]".toList

/-- Whether a text of flags holds only `g`, `i` and `m`, each at most once. -/
def validFlags (flags : Str) : Bool :=
  flags.all (fun c => c == 'g' || c == 'i' || c == 'm') && decide flags.Nodup

/-- `new RegExp(pattern, flags)` for a pattern text and flags that are a text or
`undefined`: invalid flags throw; every pattern text is taken as valid (the
empty one has the source `(?:)`). -/
def exampleNewRegExp (pattern flags : JsVal) : Option (Str × Str) :=
  match pattern, flags with
  | JsVal.str p, JsVal.str f =>
    if validFlags f then some (if p.isEmpty then "(?:)".toList else p, f) else none
  | JsVal.str p, JsVal.undefined => some (if p.isEmpty then "(?:)".toList else p, [])
  | _, _ => none

/-- The time value of `new Date(v)` for a number: the whole part, if it is within
the range of time values. -/
def exampleNewDate : JsVal → Option Int
  | JsVal.num x =>
    if -8640000000000000 ≤ Int.tdiv x.num x.den ∧ Int.tdiv x.num x.den ≤ 8640000000000000 then
      some (Int.tdiv x.num x.den)
    else none
  | _ => none

/-- The library used for the concrete evaluations below: the format checks of
`lx-valid` for ObjectIds, hexadecimal and base64 buffers, the coercions of
the driver on the values described at each function. Calendar dates are not
part of this instance (no evaluation below reaches them): its formats accept
no calendar text and its ISO text is the one of the time value 0. -/
def exampleLib : Lib where
  formatsMongoId := isMongoIdText
  typesMongoId := fun v =>
    match v with
    | JsVal.objectID _ => true
    | JsVal.str s => isMongoIdText s
    | _ => false
  formatsUuid := fun s =>
    decide (s.length = 36) && (s.filter (fun c => c != '-')).all isHexDigit &&
      decide ((s.filter (fun c => c != '-')).length = 32)
  formatsRegex := fun v =>
    match v with
    | JsVal.regExp _ _ => true
    | _ => false
  formatsLuuid := fun s =>
    decide (s.length = 36) && (s.filter (fun c => c != '-')).all isHexDigit &&
      decide ((s.filter (fun c => c != '-')).length = 32)
  formatsDateTime := fun _ => false
  formatsDate := fun _ => false
  formatsTime := fun _ => false
  formatsUtcMillisec := fun n =>
    match n with
    | some t => decide (0 ≤ t)
    | none => false
  createFromHexString := hexDecode
  newBuffer := fun s coding =>
    match coding with
    | Coding.hex => hexDecode s
    | Coding.base64 => base64Decode s
  bufferToString := fun bytes coding =>
    match coding with
    | Coding.hex => hexEncode bytes
    | Coding.base64 => base64Encode bytes
  toInt32 := exampleToInt32
  toStr := exampleToStr
  newRegExp := exampleNewRegExp
  newDate := exampleNewDate
  newDateOfFields := fun _ => none
  nowISOString := "1970-01-01T00:00:00.000Z".toList
  toISOString := fun _ => "1970-01-01T00:00:00.000Z".toList
  dateToString := fun _ => "Invalid Date".toList
  parseIntMinusOne := fun s =>
    match signedDecimal s with
    | some n => some (n - 1)
    | none => none

/-! ## Short forms for concrete values -/

/-- A string value from a string literal. -/
def jstr (s : String) : JsVal := JsVal.str s.toList

/-- A plain object from its properties, keys given as string literals. -/
def jobj (props : List (String × JsVal)) : JsVal :=
  JsVal.obj (props.map (fun p => (p.1.toList, p.2)))

/-! ## Metadata tagger (`main.js`, lines 741–825) -/

/-- What `populateMetadata` assigns for a value that is no array and no object
without `_bsontype`; `none` for those two cases, which recur. `NaN` is no
number for `val.types.number`, so like `undefined` it reaches the regex test
and is left without metadata. -/
def populateLeaf (lib : Lib) (item : JsVal) : Option JsVal :=
  match item with
  | JsVal.null => some (jstr "null")
  | JsVal.date time =>
    let test :=
      match time with
      | some t => '"' :: lib.toISOString t ++ ['"']
      | none => "null".toList
    some (if test.contains ':' then jstr "date-time" else jstr "date")
  | JsVal.str _ => some (jstr "string")
  | JsVal.num x => some (if x.den = 1 then jstr "integer" else jstr "float")
  | JsVal.bool _ => some (jstr "boolean")
  | JsVal.nan => some (if lib.formatsRegex item then jstr "regex" else JsVal.undefined)
  | JsVal.undefined => some (if lib.formatsRegex item then jstr "regex" else JsVal.undefined)
  | JsVal.arr _ => if lib.formatsRegex item then some (jstr "regex") else none
  | _ =>
    if lib.formatsRegex item then some (jstr "regex")
    else if truthy (getProp item "_bsontype") then
      if truthy (getProp item "sub_type") then
        if strictEqNum (getProp item "sub_type") 3 then some (jstr "LUUID")
        else if strictEqNum (getProp item "sub_type") 4 then some (jstr "UUID")
        else some (getProp item "_bsontype")
      else some (getProp item "_bsontype")
    else
      match item with
      | JsVal.obj _ => none
      | _ => some (JsVal.obj [])

mutual
/-- `populateMetadata(item)`: `some undefined` when no branch assigns the metadata,
`none` when the call `item.hasOwnProperty(key)` of the loop over a document
throws, which it does at the first key of a document that has an own key
`hasOwnProperty` (its value is no function). -/
def populateMetadata (lib : Lib) : JsVal → Option JsVal
  | JsVal.arr items =>
    match populateLeaf lib (JsVal.arr items) with
    | some tag => some tag
    | none =>
      if items.isEmpty then some (jstr "array")
      else
        match populateItems lib items with
        | some tags => some (JsVal.arr tags)
        | none => none
  | JsVal.obj props =>
    match populateLeaf lib (JsVal.obj props) with
    | some tag => some tag
    | none =>
      if "hasOwnProperty".toList ∈ props.map Prod.fst then none
      else
        match populateProps lib props with
        | some tags => some (JsVal.obj tags)
        | none => none
  | item =>
    match populateLeaf lib item with
    | some tag => some tag
    | none => some JsVal.undefined
/-- The tags of the elements of a non-empty array: the `_bsontype` of an element
that has one, the metadata of the element otherwise. -/
def populateItems (lib : Lib) : List JsVal → Option (List JsVal)
  | [] => some []
  | arrItem :: rest =>
    match (if truthy arrItem && truthy (getProp arrItem "_bsontype") then
        some (getProp arrItem "_bsontype")
      else populateMetadata lib arrItem) with
    | none => none
    | some tag =>
      match populateItems lib rest with
      | none => none
      | some tags => some (tag :: tags)
/-- The metadata of the properties of an object, key by key. -/
def populateProps (lib : Lib) : List (Str × JsVal) → Option (List (Str × JsVal))
  | [] => some []
  | (key, value) :: rest =>
    match populateMetadata lib value with
    | none => none
    | some tag =>
      match populateProps lib rest with
      | none => none
      | some tags => some ((key, tag) :: tags)
end

mutual
/-- The reference tagger, following the words of the specification: `null` gives
`'null'`, a boolean `'boolean'`, an integral number `'integer'`, any other
number `'float'`, a string `'string'`, an empty array `'array'`, a non-empty
array the list of the tags of its elements, a document the map of the tags
of its values under the same keys. -/
def referenceTag : JsVal → JsVal
  | JsVal.null => jstr "null"
  | JsVal.bool _ => jstr "boolean"
  | JsVal.num x => if x.den = 1 then jstr "integer" else jstr "float"
  | JsVal.str _ => jstr "string"
  | JsVal.arr items => if items.isEmpty then jstr "array" else JsVal.arr (referenceTagItems items)
  | JsVal.obj props => JsVal.obj (referenceTagProps props)
  | _ => JsVal.undefined
/-- The reference tags of the elements of an array, in order. -/
def referenceTagItems : List JsVal → List JsVal
  | [] => []
  | item :: rest => referenceTag item :: referenceTagItems rest
/-- The reference tags of the values of a document, under the same keys. -/
def referenceTagProps : List (Str × JsVal) → List (Str × JsVal)
  | [] => []
  | (key, value) :: rest => (key, referenceTag value) :: referenceTagProps rest
end

/-! ## File texts (`main.js`, lines 208–218, 1653–1671 and 2499–2513) -/

/-- `addSquareBrackets(text)` -/
def addSquareBrackets (text : Str) : Str :=
  let text := if text.head? ≠ some '[' then '[' :: text else text
  if text.head? = some '[' ∧ text.getLast? ≠ some ']' then text ++ [']'] else text

/-- `replaceForExport(data)` -/
def replaceForExport (data : Str) : Str :=
  let data := replaceAll (lit "\x7b") [Piece.text "\x7b ".toList] data
  let data := replaceAll (lit "\":") [Piece.text "\" : ".toList] data
  let data := replaceAll (lit "\x7d") [Piece.text " \x7d".toList] data
  let data := replaceAll (lit ",") [Piece.text ", ".toList] data
  let data := replaceAll (lit "[") [Piece.text "[ ".toList] data
  let data := replaceAll (lit "]") [Piece.text " ]".toList] data
  data

/-- `replaceForImport(data)` -/
def replaceForImport (data : Str) : Str :=
  let data := addSquareBrackets data
  let data := replaceAll (lit "\x7d\r\n\x7b") [Piece.text "\x7d,\x7b".toList] data
  let data := replaceAll (lit "\x7d\n\x7b") [Piece.text "\x7d,\x7b".toList] data
  let data := replaceAll (lit "\x7d\r\x7b") [Piece.text "\x7d,\x7b".toList] data
  let data := replaceAll (lit ",]") [Piece.text "]".toList] data
  let data := replaceAll (lit "NumberInt(" ++ [grp (inRange '0' '9') Quant.plus] ++ lit ")")
    [Piece.group 1] data
  data

/-- `documentsString.match(/}\r\n|}\n|}\r/gi)`: the matched texts from left to
right; the empty list stands for `null`. -/
def boundaryMatches : Str → List Str
  | '}' :: '\r' :: '\n' :: rest => ['}', '\r', '\n'] :: boundaryMatches rest
  | '}' :: '\n' :: rest => ['}', '\n'] :: boundaryMatches rest
  | '}' :: '\r' :: rest => ['}', '\r'] :: boundaryMatches rest
  | _ :: rest => boundaryMatches rest
  | [] => []

/-- `text.lastIndexOf(pattern)` for a text pattern, `none` for `-1`. -/
def lastIndexOfText (pattern : Str) : Str → Option Nat
  | [] => if pattern.isEmpty then some 0 else none
  | c :: cs =>
    match lastIndexOfText pattern cs with
    | some i => some (i + 1)
    | none => if pattern.isPrefixOf (c :: cs) then some 0 else none

/-- The step `prepareDocuments` of `insertChunksOfStream`: the text handed on to
the parser and the `stringData` carried over to the next chunk. `none` when
`match` is `null`, where `match[match.length - 1]` throws a `TypeError`. -/
def prepareDocuments (documentsString : Str) : Option (Str × Str) :=
  match (boundaryMatches documentsString).getLast? with
  | none => none
  | some last =>
    match lastIndexOfText last documentsString with
    | some index =>
      let linebreakindex := index + 1
      some (documentsString.take linebreakindex, documentsString.drop (linebreakindex + 2))
    | none => some (documentsString.take 0, documentsString.drop 2)

/-- `/^\d{4}-(?:0[0-9]{1}|1[0-2]{1})-[0-9]{2}$/`, the `date` format of `lx-valid`. -/
def isDateText (s : Str) : Bool :=
  match s with
  | [y1, y2, y3, y4, '-', m1, m2, '-', d1, d2] =>
    [y1, y2, y3, y4, d1, d2].all (inRange '0' '9') &&
      ((m1 == '0' && inRange '0' '9' m2) || (m1 == '1' && inRange '0' '2' m2))
  | _ => false

/-- The example library with the `date` format of `lx-valid`. -/
def calendarLib : Lib := { exampleLib with formatsDate := isDateText }

/-! ## The rules of `formatingData` as a list -/

open Quant Piece in
/-- The patterns and replacement texts of `formatingData`, in the order of the
source. -/
def formatingRules : List (List Item × List Piece) :=
  [([⟨fun c => c == '\r' || c == '\n', one, false⟩], []),
   ([ch '\t'], []),
   ([grp braceOrComma plus, grp isSpace star, grp keyChar plus] ++ lit ":",
     [group 1, group 2, group 3, text "\":".toList]),
   ([grp braceOrComma plus, grp isSpace star, grp keyCharNoSpace plus,
      grp keyChar star] ++ lit "\":",
     [group 1, group 2, text "\"".toList, group 3, group 4, text "\":".toList]),
   ([grp bracketCommaColon plus, grp isSpace star] ++ lit "ISODate(\"",
     [group 1, group 2, text "\"##ISODate(".toList]),
   ([grp bracketCommaColon plus, grp isSpace star] ++ lit "\"##ISODate(" ++
      [grp isoChar plus] ++ lit "\")",
     [group 1, group 2, text "\"##ISODate(".toList, group 3, text ")\"".toList]),
   ([grp bracketCommaColon plus, grp isSpace star] ++ lit "ISODate('",
     [group 1, group 2, text "\"##ISODate(".toList]),
   ([grp bracketCommaColon plus, grp isSpace star] ++ lit "\"##ISODate(" ++
      [grp isoChar plus] ++ lit "')",
     [group 1, group 2, text "\"##ISODate(".toList, group 3, text ")\"".toList]),
   (lit "ObjectId(\"" ++ [grp idChar plus] ++ lit "\")",
     [text "\"##ObjectId(".toList, group 1, text ")\"".toList]),
   (lit "LUUID(\"" ++ [grp idChar plus] ++ lit "\")",
     [text "\"##LUUID(".toList, group 1, text ")\"".toList]),
   (lit "UUID(\"" ++ [grp idChar plus] ++ lit "\")",
     [text "\"##UUID(".toList, group 1, text ")\"".toList]),
   (lit "Timestamp(" ++ [grp timestampChar star] ++ lit ")",
     [text "\"##Timestamp(".toList, group 1, text ")\"".toList]),
   (lit ":" ++ [grp isSpace star] ++ lit "/" ++ [grp regexChar star] ++
      lit "\":" ++ [grp regexChar star] ++ lit "/",
     [text ":".toList, group 1, text "/".toList, group 2, text ":".toList, group 3,
      text "/".toList]),
   (lit ":" ++ [grp isSpace star] ++ lit "/" ++ [grp regexCharColon plus] ++
      lit "/" ++ [grp lowerChar star],
     [text ":".toList, group 1, text "\"##/".toList, group 2, text "/".toList, group 3,
      text "\"".toList]),
   (lit "'", [text "\"".toList]),
   (lit "\"" ++ [grp isSpace star] ++ lit "_id" ++ [grp isSpace star] ++ lit "\"",
     [text "\"_id\"".toList]),
   ([grp isSpace star] ++ lit "$", [text "$".toList]),
   (lit "\"" ++ [grp dollarLetter plus, grp isSpace star] ++ lit "\"",
     [text "\"".toList, group 1, text "\"".toList]),
   (lit ":" ++ [grp blank star] ++ lit "\x7b", [text ":\x7b".toList])]

/-- The branches of the chain of `convertDateTimeAndIdsInDocumentToSave` that a
string value can reach: the tests for the sentinel prefixes, in the order of
the source (see `materializeValue_str`). -/
def sentinelChain (lib : Lib) (option : SaveOption) (key text : Str) (error : Option Str) :
    Option (Option Str × JsVal) :=
  let toValidate := decide (option = SaveOption.toValidate)
  if "##ObjectId(".toList.isPrefixOf text then
    if lib.formatsMongoId (sentinelArgument "##ObjectId(" text) || toValidate then
      some (error,
        if toValidate then JsVal.str (sentinelArgument "##ObjectId(" text)
        else getMongoId lib (JsVal.str (sentinelArgument "##ObjectId(" text)))
    else
      some (some (errorMessage (sentinelArgument "##ObjectId(" text) key
        "ObjectId, please check your input."), JsVal.str text)
  else if "##UUID(".toList.isPrefixOf text then
    if lib.formatsUuid (sentinelArgument "##UUID(" text) || toValidate then
      if toValidate then some (error, JsVal.str (sentinelArgument "##UUID(" text))
      else
        match getUUID lib (JsVal.str (sentinelArgument "##UUID(" text)) 4 Coding.hex with
        | some uuid => some (error, uuid)
        | none => none
    else
      some (some (errorMessage (sentinelArgument "##UUID(" text) key
        "UUID, please check your input."), JsVal.str text)
  else if "##LUUID(".toList.isPrefixOf text then
    if lib.formatsLuuid (sentinelArgument "##LUUID(" text) || toValidate then
      if toValidate then some (error, JsVal.str (sentinelArgument "##LUUID(" text))
      else
        match getUUID lib (JsVal.str (sentinelArgument "##LUUID(" text)) 3 Coding.hex with
        | some uuid => some (error, uuid)
        | none => none
    else
      some (some (errorMessage (sentinelArgument "##LUUID(" text) key
        "LUUID, please check your input."), JsVal.str text)
  else if "##Timestamp(".toList.isPrefixOf text then
    if toValidate then
      some (error, JsVal.str (trim (sentinelArgument "##Timestamp(" text)))
    else
      match getTimestamp lib (sentinelArgument "##Timestamp(" text) with
      | Except.error timestamp =>
        some (some (errorMessage timestamp key
          "timestamp, please check your input (high-bit-value, low-bit-value)."), JsVal.str text)
      | Except.ok timestamp => some (error, timestamp)
  else if "##ISODate(".toList.isPrefixOf text then
    if toValidate then
      some (error, JsVal.str (sentinelArgument "##ISODate(" text))
    else
      match extractValueOfDateString lib text with
      | Except.error date =>
        some (some (errorMessage date key "date, please check your input."), JsVal.str text)
      | Except.ok date => some (error, date)
  else if "##/".toList.isPrefixOf text then
    match regexTailIndex text with
    | none => none
    | some index =>
      match lib.newRegExp (JsVal.str (replaceAll (lit "##/") [] (text.take index)))
          (JsVal.str (text.drop (index + 1))) with
      | some (source, flags) => some (error, JsVal.regExp source flags)
      | none => some (error, JsVal.undefined)
  else
    some (error, JsVal.str text)

/-- The type names for which `getValidationObjectOfSingleElements` has a case of
its own. -/
def specialTypeNames : List Str :=
  ["float".toList, "date".toList, "ObjectID".toList, "date-time".toList, "regex".toList,
    "UUID".toList, "LUUID".toList, "Timestamp".toList, "DBRef".toList, "MinKey".toList,
    "MaxKey".toList, "Code".toList]

/-- A schema node with `key: true` added when the property name is `_id`. -/
def withKeyMark (key : Str) (node : List (Str × JsVal)) : JsVal :=
  if key = "_id".toList then JsVal.obj (node ++ [("key".toList, JsVal.bool true)])
  else JsVal.obj node

/-! ## Sentinel strings inside a tree -/

/-- Whether a text begins with one of the sentinel prefixes `##ObjectId(`,
`##UUID(`, `##LUUID(`, `##Timestamp(`, `##ISODate(` or `##/`. -/
def hasSentinelPrefix (text : Str) : Bool :=
  "##ObjectId(".toList.isPrefixOf text || "##UUID(".toList.isPrefixOf text ||
    "##LUUID(".toList.isPrefixOf text || "##Timestamp(".toList.isPrefixOf text ||
    "##ISODate(".toList.isPrefixOf text || "##/".toList.isPrefixOf text

mutual
/-- Whether a value at some depth of the tree (the elements of arrays, the values
of objects, the source and scope of a `Code`, the fields of a `DBRef`) is a
string that begins with a sentinel prefix. -/
def holdsSentinel : JsVal → Bool
  | JsVal.str text => hasSentinelPrefix text
  | JsVal.arr items => holdsSentinelItems items
  | JsVal.obj props => holdsSentinelProps props
  | JsVal.code code scope => holdsSentinel code || holdsSentinel scope
  | JsVal.dbRef ns oid db => holdsSentinel ns || holdsSentinel oid || holdsSentinel db
  | _ => false
/-- `holdsSentinel` for some element of an array. -/
def holdsSentinelItems : List JsVal → Bool
  | [] => false
  | value :: rest => holdsSentinel value || holdsSentinelItems rest
/-- `holdsSentinel` for some value of an object. -/
def holdsSentinelProps : List (Str × JsVal) → Bool
  | [] => false
  | (_, value) :: rest => holdsSentinel value || holdsSentinelProps rest
end

/-- The guard of the recursion in `convertDateTimeAndIdsInDocumentToSave`:
`value && (value.$oid || value.$date)`. -/
def isGuarded (value : JsVal) : Bool :=
  truthy value && (truthy (getProp value "$oid") || truthy (getProp value "$date"))

mutual
/-- Whether the tree holds, at some depth or at its root, a value with a truthy
`$oid` or `$date`. -/
def holdsGuarded : JsVal → Bool
  | JsVal.arr items => holdsGuardedItems items
  | JsVal.obj props => isGuarded (JsVal.obj props) || holdsGuardedProps props
  | JsVal.code code scope => holdsGuarded code || holdsGuarded scope
  | JsVal.dbRef ns oid db => holdsGuarded ns || holdsGuarded oid || holdsGuarded db
  | _ => false
/-- `holdsGuarded` for some element of an array. -/
def holdsGuardedItems : List JsVal → Bool
  | [] => false
  | value :: rest => holdsGuarded value || holdsGuardedItems rest
/-- `holdsGuarded` for some value of an object. -/
def holdsGuardedProps : List (Str × JsVal) → Bool
  | [] => false
  | (_, value) :: rest => holdsGuarded value || holdsGuardedProps rest
end

/-! ## The iterator of the schema filter -/

/-- One call of the iterator of `filterTypesOfPropertiesIfAnyOrArray` for the entry
`value`: the value that `schema[key]` holds afterwards. -/
def filterValue (value : JsVal) : JsVal :=
  if truthy value then
    match filterReplacement value with
    | some replacement => replacement
    | none => if isObject value then filterTypesOfPropertiesIfAnyOrArray value else value
  else value

/-! ## Type lists of a schema -/

/-- Whether the type of a node, when it is a list, has at most two entries. -/
def typeListWithin (node : JsVal) : Bool :=
  match getProp node "type" with
  | JsVal.arr items => decide (items.length ≤ 2)
  | _ => true

mutual
/-- Whether every node below `schema`, at any depth, has a type that is no list of
more than two entries. The nodes are the values of the properties of objects:
the entries of `properties`, the `items` of an array node, and so on
downwards. -/
def typesBounded : JsVal → Bool
  | JsVal.obj props => typesBoundedProps props
  | _ => true
/-- `typesBounded` for the properties of an object. -/
def typesBoundedProps : List (Str × JsVal) → Bool
  | [] => true
  | (_, value) :: rest => typeListWithin value && typesBounded value && typesBoundedProps rest
end

/-! ## Nodes of a schema -/

/-- The node of the top-level key `key` in a schema: `schema.properties[key]`. -/
def schemaNode (schema : JsVal) (key : Str) : JsVal :=
  getKey (getProp schema "properties") key

/-! ## Documents of plain values -/

mutual
/-- Whether a value is built from `null`, booleans, numbers, strings, arrays and
documents only, and no document in it, at any depth, has a truthy property
`_bsontype` or a key named `hasOwnProperty`. -/
def isPlainTree : JsVal → Bool
  | JsVal.null => true
  | JsVal.bool _ => true
  | JsVal.num _ => true
  | JsVal.str _ => true
  | JsVal.arr items => isPlainTreeItems items
  | JsVal.obj props =>
    !truthy (lookupProp "_bsontype".toList props) &&
      !decide ("hasOwnProperty".toList ∈ props.map Prod.fst) && isPlainTreeProps props
  | _ => false
/-- `isPlainTree` for every element of an array. -/
def isPlainTreeItems : List JsVal → Bool
  | [] => true
  | item :: rest => isPlainTree item && isPlainTreeItems rest
/-- `isPlainTree` for every value of a document. -/
def isPlainTreeProps : List (Str × JsVal) → Bool
  | [] => true
  | (_, value) :: rest => isPlainTree value && isPlainTreeProps rest
end

/-! ## Shapes of tags and of schemata -/

/-- The primitive values: `undefined`, `null`, booleans, numbers and strings. -/
def isPrimitive : JsVal → Bool
  | JsVal.undefined => true
  | JsVal.null => true
  | JsVal.bool _ => true
  | JsVal.num _ => true
  | JsVal.str _ => true
  | _ => false

/-- The value that the iterator of `mergeArrayItems` stores under the key of an
entry `value` of an object, when `current` is the value stored under that key
before: the result of the recursion for an array or an object, of the last
branch of the iterator otherwise. -/
def entryStep (value current : JsVal) : Option JsVal :=
  if isArray value || isPlainObject value then mergeArrayItems value current
  else some (mergeScalar current value)

mutual
/-- Whether a value has the shape of a schema under construction: a primitive
value, an array of primitive values, or an object with distinct keys whose
values have that shape. -/
def isTidy : JsVal → Bool
  | JsVal.arr items => items.all isPrimitive
  | JsVal.obj props => decide ((props.map Prod.fst).Nodup) && isTidyProps props
  | value => isPrimitive value
/-- `isTidy` for every value of an object. -/
def isTidyProps : List (Str × JsVal) → Bool
  | [] => true
  | (_, value) :: rest => isTidy value && isTidyProps rest
end

mutual
/-- Whether a value is a tag tree: the name of a type, an array of tag trees, or a
document with distinct keys whose values are tag trees. -/
def isTagTree : JsVal → Bool
  | JsVal.str _ => true
  | JsVal.arr items => isTagTreeItems items
  | JsVal.obj props => decide ((props.map Prod.fst).Nodup) && isTagTreeProps props
  | _ => false
/-- `isTagTree` for every element of an array. -/
def isTagTreeItems : List JsVal → Bool
  | [] => true
  | item :: rest => isTagTree item && isTagTreeItems rest
/-- `isTagTree` for every value of a document. -/
def isTagTreeProps : List (Str × JsVal) → Bool
  | [] => true
  | (_, value) :: rest => isTagTree value && isTagTreeProps rest
end

/-- The item object of `mergeArrayItems` after the iterator has seen the primitive
element `value` of an array: a string is pushed on the item object, which is
replaced by a fresh array when it is none; for any other primitive value the
recursion returns `itemObject || {}`. -/
def primitiveStep (value itemObject : JsVal) : JsVal :=
  if isString value then
    (if includes (if isArray itemObject then itemObject else JsVal.arr []) value then
      (if isArray itemObject then itemObject else JsVal.arr [])
    else push (if isArray itemObject then itemObject else JsVal.arr []) value)
  else jsOr itemObject (JsVal.obj [])

/-- Whether the item object already accounts for the primitive element `value`: an
array that holds the string, or any truthy value for an element that is no
string. -/
def isAbsorbed (value itemObject : JsVal) : Bool :=
  if isString value then isArray itemObject && includes itemObject value
  else truthy itemObject

/-! ## One position of the merged schema -/

/-- The type that `getValidationObjectOfSingleElements` gives to the node of a tag
(it does not depend on the key). -/
def mappedType (tag : Str) : JsVal :=
  getProp (getValidationObjectOfSingleElements tag []) "type"

/-- What `mergeArrayItems` stores under `key` while it merges the schemata of the
documents one after the other, starting with `current` under that key: a
schema without the key leaves the stored value as it is. -/
def traceKey (key : Str) : List (List (Str × JsVal)) → JsVal → Option JsVal
  | [], current => some current
  | schema :: rest, current =>
    if key ∈ schema.map Prod.fst then
      (entryStep (lookupProp key schema) current).bind (traceKey key rest)
    else traceKey key rest current

/-- The values that the type of a position can hold while types `t₁` and `t₂` are
merged into it: nothing before the first of them, a single type after one of
them, and a list of the two after both. -/
def typeState (t₁ t₂ : Str) (seen₁ seen₂ : Bool) (value : JsVal) : Prop :=
  match seen₁, seen₂ with
  | false, false => value = JsVal.undefined
  | true, false => value = JsVal.str t₁
  | false, true => value = JsVal.str t₂
  | true, true =>
    value = JsVal.arr [JsVal.str t₁, JsVal.str t₂] ∨
      value = JsVal.arr [JsVal.str t₂, JsVal.str t₁]

/-- Whether a type name is one that `mergeTypesOfProperty` puts on a list beside
another one: it is not empty and none of `'any'`, `'object'` and `'array'`. -/
def isListedType (t : Str) : Bool :=
  !t.isEmpty && t != "any".toList && t != "object".toList && t != "array".toList

/-- Whether a type, a name or a list of names, mentions the name `t`. -/
def mentions (t : Str) (type : JsVal) : Bool :=
  strictEqPrimitive (JsVal.str t) type || includes type (JsVal.str t)

/-- The state of a leaf position of the merged schema: nothing is stored yet or a
node is stored, and the type of the node is in the state `typeState`. -/
def positionState (t₁ t₂ : Str) (seen₁ seen₂ : Bool) (current : JsVal) : Prop :=
  (current = JsVal.undefined ∨ isPlainObject current = true) ∧
    typeState t₁ t₂ seen₁ seen₂ (getKey current "type".toList)

/-- The state of an array position of the merged schema: nothing is stored yet or
an array node is stored, and its `items` are in the state `positionState`. -/
def itemsState (t₁ t₂ : Str) (seen₁ seen₂ : Bool) (current : JsVal) : Prop :=
  (current = JsVal.undefined ∨ isPlainObject current = true) ∧
    (getKey current "type".toList = JsVal.undefined ∨
      getKey current "type".toList = JsVal.str "array".toList) ∧
    positionState t₁ t₂ seen₁ seen₂ (getKey current "items".toList)

/-- Whether a tag is the name of a type that `getValidationObjectOfSingleElements`
maps to the schema type `t`. -/
def tagType (t : Str) (tag : JsVal) : Bool :=
  match tag with
  | JsVal.str name => strictEqPrimitive (mappedType name) (JsVal.str t)
  | _ => false

/-- Whether `node` is a leaf node for the tag: an object with distinct keys whose
type is `t₁` for a tag of that type, or `t₂` for a tag of that type. -/
def isLeafOf (t₁ t₂ : Str) (tag node : JsVal) : Prop :=
  ∃ props, node = JsVal.obj props ∧ (props.map Prod.fst).Nodup ∧
    ((tagType t₁ tag = true ∧ lookupProp "type".toList props = JsVal.str t₁) ∨
      (tagType t₂ tag = true ∧ lookupProp "type".toList props = JsVal.str t₂))

/-! ## Nodes and property maps of a schema -/

/-- Whether a value can stand as the `type` or `format` of a node: a name or a
non-empty list of names. -/
def isNames (value : JsVal) : Bool :=
  match value with
  | JsVal.str _ => true
  | JsVal.arr items => !items.isEmpty && items.all isString
  | _ => false

/-- Whether a value is a boolean. -/
def isBoolean : JsVal → Bool
  | JsVal.bool _ => true
  | _ => false

mutual
/-- Whether a value is a node of a schema: an object whose `type` and `format` are
names, whose `key` is a boolean, whose `properties` are a map of nodes and
whose `items` are a node, with no other attribute. -/
def isNode : JsVal → Bool
  | JsVal.obj props => isNodeProps props
  | _ => false
/-- `isNode` for the attributes of a node. -/
def isNodeProps : List (Str × JsVal) → Bool
  | [] => true
  | (name, value) :: rest =>
    (if name = "type".toList ∨ name = "format".toList then isNames value
     else if name = "key".toList then isBoolean value
     else if name = "properties".toList then isNodeMap value
     else if name = "items".toList then isNode value
     else false) && isNodeProps rest
/-- Whether a value is a map from keys to nodes. -/
def isNodeMap : JsVal → Bool
  | JsVal.obj props => isNodeMapProps props
  | _ => false
/-- `isNodeMap` for the entries of a map. -/
def isNodeMapProps : List (Str × JsVal) → Bool
  | [] => true
  | (_, value) :: rest => isNode value && isNodeMapProps rest
end

/-- Whether `value` can stand under the attribute `name` of a node. -/
def attributeOk (name : Str) (value : JsVal) : Bool :=
  if name = "type".toList ∨ name = "format".toList then isNames value
  else if name = "key".toList then isBoolean value
  else if name = "properties".toList then isNodeMap value
  else if name = "items".toList then isNode value
  else false

/-! ## The spaces of the export text -/

/-- A text with every character replaced by the text that `f` gives for it. -/
def expandChars (f : Char → Str) : Str → Str
  | [] => []
  | c :: cs => f c ++ expandChars f cs

/-- A text with a space before and behind the colon of every quote-colon pair, the
pairs taken from the left. -/
def spaceQuoteColon : Str → Str
  | '"' :: ':' :: rest => '"' :: ' ' :: ':' :: ' ' :: spaceQuoteColon rest
  | c :: rest => c :: spaceQuoteColon rest
  | [] => []

/-- A character of the export text with its space: behind an opening brace, an
opening bracket and a comma, before a closing brace and a closing bracket. -/
def spacedChar (c : Char) : Str :=
  if c = '\x7b' ∨ c = '[' ∨ c = ',' then [c, ' ']
  else if c = '\x7d' ∨ c = ']' then [' ', c]
  else [c]

/-- The text with the spaces of the export: a space behind every `{`, `[` and `,`,
before every `}` and `]`, and on both sides of the colon of every
quote-colon pair; every other character as it is. -/
def spaced : Str → Str
  | '"' :: ':' :: rest => '"' :: ' ' :: ':' :: ' ' :: spaced rest
  | c :: rest => spacedChar c ++ spaced rest
  | [] => []

/-- Whether a character is one of the tokens at which the export inserts a space. -/
def tokenChar (c : Char) : Bool :=
  c == '\x7b' || c == '\x7d' || c == ',' || c == '[' || c == ']'

/-- Whether a text holds a quote that a colon follows directly. -/
def hasQuoteColon : Str → Bool
  | '"' :: ':' :: _ => true
  | _ :: rest => hasQuoteColon rest
  | [] => false

/-- Whether the contents of a string literal hold nothing at which the export
inserts a space: no brace, bracket or comma, no quote that a colon follows,
and no colon at their start, behind the opening quote. -/
def keptByExport (contents : Str) : Bool :=
  !contents.any tokenChar && !hasQuoteColon ('"' :: contents)

/-- Reads a string literal behind its opening quote: the contents up to the next
quote that no backslash escapes, and the text behind that quote. -/
def closeLiteral : Str → Option (Str × Str)
  | [] => none
  | '\\' :: c :: rest => (closeLiteral rest).map (fun r => ('\\' :: c :: r.1, r.2))
  | c :: rest =>
    if c = '"' then some ([], rest) else (closeLiteral rest).map (fun r => (c :: r.1, r.2))
/-! ## The tokens of a JSON text -/

/-- A token of a JSON text: a structural character, a string literal with the
characters between its quotes, or a word (a number, `true`, `false`, `null`). -/
inductive Token where
  | punct (c : Char)
  | literal (contents : Str)
  | word (w : Str)
  deriving DecidableEq, Repr

/-- The whitespace of JSON: space, tab, line feed, carriage return. -/
def jsonSpace (c : Char) : Bool :=
  c == ' ' || c == '\t' || c == '\n' || c == '\r'

/-- The structural characters of JSON. -/
def jsonPunct (c : Char) : Bool :=
  c == '\x7b' || c == '\x7d' || c == ',' || c == '[' || c == ']' || c == ':'

/-- The word read so far as a token, nothing when no word is being read. -/
def flushWord (word : Str) : List Token :=
  if word.isEmpty then [] else [Token.word word]

/-- The tokens of a JSON text, from left to right. Whitespace between tokens is
skipped and ends a word; a string literal runs from its opening quote to the
next quote that no backslash escapes and keeps every character in between. While
a literal is read, `inside` holds its characters; `word` holds the characters of
the word being read. A literal that the text does not close gives no token. -/
def jsonTokens : Option Str → Str → Str → List Token
  | none, word, [] => flushWord word
  | some _, _, [] => []
  | some acc, _, '\\' :: c :: rest => jsonTokens (some (acc ++ ['\\', c])) [] rest
  | some acc, _, c :: rest =>
    if c = '"' then Token.literal acc :: jsonTokens none [] rest
    else jsonTokens (some (acc ++ [c])) [] rest
  | none, word, c :: rest =>
    if c = '"' then flushWord word ++ jsonTokens (some []) [] rest
    else if jsonSpace c then flushWord word ++ jsonTokens none [] rest
    else if jsonPunct c then flushWord word ++ Token.punct c :: jsonTokens none [] rest
    else jsonTokens none (word ++ [c]) rest

/-- How the literal read from a text relates to the one read from the text with
the spaces of the export: both end or both do not; the texts behind them
hold the same tokens; and contents without a token are the same. -/
def literalKept (plain exported : Option (Str × Str)) : Prop :=
  match plain, exported with
  | none, none => True
  | some (u, r), some (u', r') =>
    jsonTokens none [] r' = jsonTokens none [] (spaced r) ∧
      (u.any tokenChar = false → hasQuoteColon u = false → u' = u)
  | _, _ => False

/-! ## Positions in a document -/

/-- One step from a container to one of its entries: to the value under a key of
an object, or to the element at an index of an array. -/
inductive Step where
  | key (name : Str)
  | index (i : Nat)
  deriving DecidableEq, Repr

/-- The value under a key in a list of properties, `none` when no property has
the key. -/
def propAt (key : Str) : List (Str × JsVal) → Option JsVal
  | [] => none
  | (k, v) :: rest => if k = key then some v else propAt key rest

/-- The entry of a container that a step leads to. -/
def child : JsVal → Step → Option JsVal
  | JsVal.obj props, Step.key name => propAt name props
  | JsVal.arr items, Step.index i => items.get? i
  | _, _ => none

/-- The value at a path of steps below `data`. -/
def valueAt : List Step → JsVal → Option JsVal
  | [], data => some data
  | step :: path, data =>
    match child data step with
    | some value => valueAt path value
    | none => none

/-- An array, or an object that has no key `_bsontype`. -/
def plainContainer : JsVal → Bool
  | JsVal.arr _ => true
  | JsVal.obj props => (propAt "_bsontype".toList props).isNone
  | _ => false

/-- Whether every value that a path passes below `data`, before its last step,
is accepted by `ok`. -/
def pathThrough (ok : JsVal → Bool) : List Step → JsVal → Bool
  | [], _ => true
  | step :: path, data =>
    match child data step with
    | some value => (path.isEmpty || ok value) && pathThrough ok path value
    | none => false

/-! ## Containers that validate-only mode passes through -/

/-- Whether a list of properties has the key. -/
def hasKey (name : String) (props : List (Str × JsVal)) : Bool :=
  (propAt name.toList props).isSome

/-- An array, or an object that has none of the keys `$oid`, `$date`, `$code`,
`$minKey`, `$maxKey` and not both `$id` and `$ref`: the keys at which
`convertDateTimeAndIdsInDocumentToSave` skips the recursion into an object
or replaces the object in every mode. -/
def savePlain : JsVal → Bool
  | JsVal.arr _ => true
  | JsVal.obj props =>
    !hasKey "$oid" props && !hasKey "$date" props && !hasKey "$code" props &&
      !hasKey "$minKey" props && !hasKey "$maxKey" props &&
      !(hasKey "$id" props && hasKey "$ref" props)
  | _ => false

/-! ## Normalized texts -/

/-- The names of the sentinels that `formatingData` writes and does not match
again. -/
inductive SentinelName where
  | objectId
  | uuid
  | luuid
  | isoDate
  deriving DecidableEq, Repr

/-- The text of a sentinel name. -/
def SentinelName.text : SentinelName → Str
  | SentinelName.objectId => "ObjectId".toList
  | SentinelName.uuid => "UUID".toList
  | SentinelName.luuid => "LUUID".toList
  | SentinelName.isoDate => "ISODate".toList

/-- A piece of a normalized text: a brace, a bracket, a comma, a colon, a blank, a
quoted text, a number, a bare word such as `true`, or a quoted sentinel
`"##Name(arg)"`. -/
inductive Tok where
  | lbrace
  | rbrace
  | lbracket
  | rbracket
  | comma
  | colon
  | space
  | quoted (w : Str)
  | number (digits : Str)
  | word (w : Str)
  | sentinel (name : SentinelName) (arg : Str)
  deriving DecidableEq, Repr

/-- The text of a piece. -/
def Tok.text : Tok → Str
  | Tok.lbrace => ['\x7b']
  | Tok.rbrace => ['\x7d']
  | Tok.lbracket => ['[']
  | Tok.rbracket => [']']
  | Tok.comma => [',']
  | Tok.colon => [':']
  | Tok.space => [' ']
  | Tok.quoted w => '"' :: w ++ ['"']
  | Tok.number digits => digits
  | Tok.word w => w
  | Tok.sentinel name arg => '"' :: '#' :: '#' :: name.text ++ '(' :: arg ++ [')', '"']

/-- The text of a sequence of pieces. -/
def render : List Tok → Str
  | [] => []
  | tok :: rest => tok.text ++ render rest

/-- Letters `a`–`z`, `A`–`Z` and digits. -/
def alnum (c : Char) : Bool :=
  inRange 'a' 'z' c || inRange 'A' 'Z' c || inRange '0' '9' c

/-- Letters, digits, `_` and `$`. -/
def wordChar (c : Char) : Bool :=
  alnum c || c == '_' || c == '$'

/-- The characters of quoted texts: letters, digits, `_`, `$` and the blank. -/
def textChar (c : Char) : Bool :=
  wordChar c || c == ' '

/-- The characters of a number: digits, `.` and `-`. -/
def numberChar (c : Char) : Bool :=
  inRange '0' '9' c || c == '.' || c == '-'

/-- The characters of the argument of a sentinel: letters, digits, `-`, `:`
and `.`. -/
def argChar (c : Char) : Bool :=
  alnum c || c == '-' || c == ':' || c == '.'

/-- The conditions on the text inside a piece: a quoted text holds letters,
digits, `_`, `$` and blanks only, neither starts nor ends with a blank, and has no
blank right before a `$`; a number is not empty and holds digits, `.` and `-`; a
bare word is not empty and holds the letters `a`–`z` only; the argument of a
sentinel is not empty and holds letters, digits, `-`, `:` and `.`. -/
def Tok.wellFormed : Tok → Bool
  | Tok.quoted w =>
    w.all textChar && w.head? != some ' ' && w.getLast? != some ' ' &&
      !decide ([' ', '$'] <:+: w)
  | Tok.number digits => !digits.isEmpty && digits.all numberChar
  | Tok.word w => !w.isEmpty && w.all lowerChar
  | Tok.sentinel _ arg => !arg.isEmpty && arg.all argChar
  | _ => true

/-- Whether the text of a piece ends with a quote. -/
def Tok.endsWithQuote : Tok → Bool
  | Tok.quoted _ => true
  | Tok.sentinel _ _ => true
  | _ => false

/-- Whether blanks and then an opening brace start the sequence. -/
def opensBrace : List Tok → Bool
  | Tok.space :: rest => opensBrace rest
  | Tok.lbrace :: _ => true
  | _ => false

/-- The normalized form: every piece is well formed, the piece before a colon is a
quoted text or a sentinel, no bare word follows a closing quote directly, and no
blank stands between a colon and an opening brace. -/
def normalForm : List Tok → Bool
  | [] => true
  | tok :: rest =>
    tok.wellFormed &&
      (match rest with
        | Tok.colon :: _ => tok.endsWithQuote
        | Tok.word _ :: _ => !tok.endsWithQuote
        | _ => true) &&
      (match tok, rest with
        | Tok.colon, Tok.space :: _ => !opensBrace rest
        | _, _ => true) &&
      normalForm rest

/-- The characters of normalized texts. -/
def normalChar (c : Char) : Bool :=
  alnum c || c == '\x7b' || c == '\x7d' || c == '[' || c == ']' || c == ',' || c == ':' ||
    c == ' ' || c == '"' || c == '#' || c == '(' || c == ')' || c == '.' || c == '-' ||
    c == '_' || c == '$'

/-- Whether the contents of every string literal of a JSON text hold nothing at
which the export inserts a space. -/
def literalsKept (t : Str) : Bool :=
  (jsonTokens none [] t).all fun token =>
    match token with
    | Token.literal contents => keptByExport contents
    | _ => true

/-! # Theorems -/

/-! ### Properties of the packager -/

section PackagerProofs

variable {α : Type}

theorem setPackageSizeOfDocuments_prefix (size : List α → Nat) (limit : Nat) :
    ∀ (fuel : Nat) (arr pkg : List α),
      setPackageSizeOfDocuments size limit fuel arr = some pkg →
      ∃ k, pkg = arr.take k := by
  intro fuel
  induction fuel with
  | zero => intro arr pkg h; simp [setPackageSizeOfDocuments] at h
  | succ fuel ih =>
    intro arr pkg h
    simp only [setPackageSizeOfDocuments] at h
    split at h
    · obtain ⟨k, hk⟩ := ih _ _ h
      refine ⟨min k (arr.length / 2), ?_⟩
      rw [hk]
      simp [slice, List.take_take]
    · refine ⟨arr.length, ?_⟩
      simp only [Option.some.injEq] at h
      simp [← h]

theorem setPackageSizeOfDocuments_fits (size : List α → Nat) (limit : Nat) :
    ∀ (fuel : Nat) (arr pkg : List α),
      setPackageSizeOfDocuments size limit fuel arr = some pkg →
      exceedsLimit (size pkg) limit = false := by
  intro fuel
  induction fuel with
  | zero => intro arr pkg h; simp [setPackageSizeOfDocuments] at h
  | succ fuel ih =>
    intro arr pkg h
    simp only [setPackageSizeOfDocuments] at h
    split at h
    · exact ih _ _ h
    · rename_i hfit
      simp only [Option.some.injEq] at h
      subst h
      simpa using hfit

theorem packageLoop_join (size : List α → Nat) (docs : List α) (n : Nat) :
    ∀ (fuel first : Nat) (acc pkgs : List (List α)),
      acc.flatten = docs.take first →
      packageLoop size docs n fuel first acc = some pkgs →
      pkgs.flatten = docs := by
  intro fuel
  induction fuel with
  | zero => intro first acc pkgs _ h; simp [packageLoop] at h
  | succ fuel ih =>
    intro first acc pkgs hacc h
    simp only [packageLoop] at h
    split at h
    · simp at h
    · rename_i pkg hpkg
      obtain ⟨k, hk⟩ := setPackageSizeOfDocuments_prefix size _ _ _ _ hpkg
      have hjoin : (acc ++ [pkg]).flatten = docs.take (first + pkg.length) := by
        rw [List.flatten_append, hacc, hk]
        simp only [List.flatten_cons, List.flatten_nil, List.append_nil, slice,
          Nat.add_sub_cancel_left, List.take_take, List.length_take, List.length_drop]
        rw [List.take_add]
        congr 1
        rw [List.take_eq_take]
        simp only [List.length_drop]
        omega
      split at h
      · exact ih _ _ _ hjoin h
      · rename_i hdone
        simp only [Option.some.injEq] at h
        subst h
        rw [hjoin]
        exact List.take_of_length_le (by omega)

theorem packageLoop_fits (size : List α → Nat) (docs : List α) (n : Nat) :
    ∀ (fuel first : Nat) (acc pkgs : List (List α)),
      (∀ p ∈ acc, exceedsLimit (size p) packageLimitInMB = false) →
      packageLoop size docs n fuel first acc = some pkgs →
      ∀ p ∈ pkgs, exceedsLimit (size p) packageLimitInMB = false := by
  intro fuel
  induction fuel with
  | zero => intro first acc pkgs _ h; simp [packageLoop] at h
  | succ fuel ih =>
    intro first acc pkgs hacc h
    simp only [packageLoop] at h
    split at h
    · simp at h
    · rename_i pkg hpkg
      have hfit := setPackageSizeOfDocuments_fits size _ _ _ _ hpkg
      have hacc2 : ∀ p ∈ acc ++ [pkg], exceedsLimit (size p) packageLimitInMB = false := by
        intro p hp
        rcases List.mem_append.1 hp with hp | hp
        · exact hacc p hp
        · simp only [List.mem_singleton] at hp
          subst hp
          exact hfit
      split at h
      · exact ih _ _ _ hacc2 h
      · simp only [Option.some.injEq] at h
        subst h
        exact hacc2

/-- C1. Whenever `splitDocumentsArrayToPackages` returns, concatenating the
returned packages in their order gives exactly the input array: no document
is dropped, duplicated or re-ordered. -/
theorem splitDocumentsArrayToPackages_flatten (size : List α → Nat) (fuel : Nat)
    (docs : List α) (pkgs : List (List α))
    (h : splitDocumentsArrayToPackages size fuel docs = some pkgs) :
    pkgs.flatten = docs := by
  unfold splitDocumentsArrayToPackages at h
  split at h
  · exact packageLoop_join size docs _ fuel 0 [] pkgs (by simp) h
  · simp only [Option.some.injEq] at h
    subst h
    simp

/-- Witness of C1: three documents of 8 MiB each are returned as three packages
whose concatenation is the input. -/
theorem splitDocumentsArrayToPackages_flatten_witness :
    splitDocumentsArrayToPackages (bsonArraySize id) 5 [8388608, 8388608, 8388608]
        = some [[8388608], [8388608], [8388608]] ∧
      [[8388608], [8388608], [8388608]].flatten = [8388608, 8388608, 8388608] :=
  ⟨by decide,
   splitDocumentsArrayToPackages_flatten (bsonArraySize id) 5 [8388608, 8388608, 8388608]
     [[8388608], [8388608], [8388608]] (by decide)⟩

/-- C2. Every package that `splitDocumentsArrayToPackages` returns under the
15 MB limit has a serialized size not greater than the limit, or consists of
exactly one document. -/
theorem splitDocumentsArrayToPackages_within_limit (size : List α → Nat) (fuel : Nat)
    (docs : List α) (pkgs : List (List α))
    (h : splitDocumentsArrayToPackages size fuel docs = some pkgs) :
    ∀ p ∈ pkgs, size p ≤ 15 * (1024 * 1024) ∨ p.length = 1 := by
  have key : ∀ p ∈ pkgs, exceedsLimit (size p) packageLimitInMB = false := by
    unfold splitDocumentsArrayToPackages at h
    split at h
    · exact packageLoop_fits size docs _ fuel 0 [] pkgs (by simp) h
    · rename_i hfit
      simp only [Option.some.injEq] at h
      subst h
      intro p hp
      simp only [List.mem_singleton] at hp
      subst hp
      simpa using hfit
  intro p hp
  left
  have := key p hp
  simpa [exceedsLimit, packageLimitInMB, bytesPerMB] using this

/-- Witness of C2: seventeen documents of 1 MiB each are returned as a package
of seven and a package of ten documents, both within the limit. -/
theorem splitDocumentsArrayToPackages_within_limit_witness :
    splitDocumentsArrayToPackages (bsonArraySize id) 5 (List.replicate 17 1048576)
        = some [List.replicate 7 1048576, List.replicate 10 1048576] ∧
      ∀ p ∈ [List.replicate 7 1048576, List.replicate 10 1048576],
        bsonArraySize id p ≤ 15 * (1024 * 1024) ∨ p.length = 1 :=
  ⟨by decide,
   splitDocumentsArrayToPackages_within_limit (bsonArraySize id) 5 (List.replicate 17 1048576)
     [List.replicate 7 1048576, List.replicate 10 1048576] (by decide)⟩

theorem packageLoop_oversized_single (d : Nat) (hd : 15 * (1024 * 1024) < d) (n : Nat)
    (hn : 0 < n) :
    ∀ (fuel : Nat) (acc : List (List Nat)),
      packageLoop (bsonArraySize id) [d] n fuel 0 acc = none := by
  have hbig : exceedsLimit (bsonArraySize id [d]) packageLimitInMB = true := by
    simp [exceedsLimit, bsonArraySize, bsonElementsSize, packageLimitInMB, bytesPerMB]
    omega
  have hsmall : exceedsLimit (bsonArraySize id ([] : List Nat)) packageLimitInMB = false := by
    decide
  have hslice : slice [d] 0 (0 + n) = [d] := by
    cases n with
    | zero => omega
    | succ n => simp [slice]
  intro fuel
  induction fuel with
  | zero => intro acc; rfl
  | succ fuel ih =>
    intro acc
    simp only [packageLoop, hslice]
    cases fuel with
    | zero => simp [setPackageSizeOfDocuments]
    | succ fuel =>
      cases fuel with
      | zero => simp [setPackageSizeOfDocuments, hbig]
      | succ fuel =>
        have hinner : setPackageSizeOfDocuments (bsonArraySize id) packageLimitInMB (fuel + 1 + 1) [d]
            = some [] := by
          simp [setPackageSizeOfDocuments, hbig, slice, hsmall]
        rw [hinner]
        simpa using ih (acc ++ [[]])

/-- C3 (the code at the failing input). For the array that holds one document of
16 MiB, `splitDocumentsArrayToPackages` returns for no amount of fuel: the
halving of the one-document slice yields the empty slice, the empty package
is pushed, `count` stays 0 and the loop repeats. -/
theorem splitDocumentsArrayToPackages_oversized_never_returns :
    ∀ fuel : Nat, splitDocumentsArrayToPackages (bsonArraySize id) fuel [16777216] = none := by
  intro fuel
  have hbig : exceedsLimit (bsonArraySize id [16777216]) packageLimitInMB = true := by decide
  have hn : numberOfDocumentsInPackage [16777216].length (bsonArraySize id [16777216]) = 1 := by
    decide
  unfold splitDocumentsArrayToPackages
  rw [if_pos hbig, hn]
  exact packageLoop_oversized_single 16777216 (by decide) 1 (by decide) fuel []

end PackagerProofs

/-! ### Export and file import -/

/-- C4 (the code at the failing input). The document `{f: Code('', {})}` is
exported to the wire object `{$code: '', $scope: {}}`; materializing that in
file-import mode reports no error and leaves the wire object where it is,
because the empty `$code` is falsy: the result is not the `Code` value. -/
theorem export_import_empty_code :
    convertValuesForExport exampleLib (jobj [("f", JsVal.code (jstr "") (jobj []))])
        = jobj [("f", jobj [("$code", jstr ""), ("$scope", jobj [])])] ∧
      convertDateTimeAndIdsInDocumentToSave exampleLib SaveOption.fileUpload
          (jobj [("f", jobj [("$code", jstr ""), ("$scope", jobj [])])])
        = some (none, jobj [("f", jobj [("$code", jstr ""), ("$scope", jobj [])])]) :=
  ⟨rfl, rfl⟩

/-- A `Code` with a non-empty source does come back from its wire object. -/
theorem export_import_code_example :
    convertValuesForExport exampleLib (jobj [("f", JsVal.code (jstr "x") (jobj []))])
        = jobj [("f", jobj [("$code", jstr "x"), ("$scope", jobj [])])] ∧
      convertDateTimeAndIdsInDocumentToSave exampleLib SaveOption.fileUpload
          (jobj [("f", jobj [("$code", jstr "x"), ("$scope", jobj [])])])
        = some (none, jobj [("f", JsVal.code (jstr "x") (jobj []))]) :=
  ⟨rfl, rfl⟩

/-! ### Display and edit -/

set_option maxRecDepth 100000 in
/-- C5 (the code at the failing input). The Timestamp with high part `-1` and low
part `5` is displayed as `Timestamp(-1, 5)`. `formatingData` rewrites neither
the bare nor the quoted display text into a `##Timestamp(` sentinel (its
pattern admits digits, commas and white space only), and the materializer
leaves the text `Timestamp(-1, 5)` a string. -/
theorem negative_timestamp_not_normalized :
    convertValuesOfDocumentsForClient exampleLib (jobj [("t", JsVal.timestamp 5 (-1))])
        = jobj [("t", jstr "Timestamp(-1, 5)")] ∧
      formatingData "\x7b\"t\":Timestamp(-1, 5)\x7d".toList
        = "\x7b\"t\":Timestamp(-1, 5)\x7d".toList ∧
      formatingData "\x7b\"t\":\"Timestamp(-1, 5)\"\x7d".toList
        = "\x7b\"t\":\"Timestamp(-1, 5)\"\x7d".toList ∧
      convertDateTimeAndIdsInDocumentToSave exampleLib SaveOption.edit
          (jobj [("t", jstr "Timestamp(-1, 5)")])
        = some (none, jobj [("t", jstr "Timestamp(-1, 5)")]) :=
  ⟨rfl, by decide, by decide, rfl⟩

set_option maxRecDepth 100000 in
/-- The same round for non-negative parts: the display text `Timestamp(1, 5)` is
rewritten into the sentinel, which materializes to the Timestamp again. -/
theorem nonnegative_timestamp_round_trip :
    convertValuesOfDocumentsForClient exampleLib (jobj [("t", JsVal.timestamp 5 1)])
        = jobj [("t", jstr "Timestamp(1, 5)")] ∧
      formatingData "\x7b\"t\":Timestamp(1, 5)\x7d".toList
        = "\x7b\"t\":\"##Timestamp(1, 5)\"\x7d".toList ∧
      convertDateTimeAndIdsInDocumentToSave exampleLib SaveOption.edit
          (jobj [("t", jstr "##Timestamp(1, 5)")])
        = some (none, jobj [("t", JsVal.timestamp 5 1)]) :=
  ⟨rfl, by decide, rfl⟩

/-! ### Schema merge -/

set_option maxRecDepth 100000 in
/-- C7 (the code at the failing input). For the tag trees `A = {b: ['integer',
'string']}` and `B = {b: ['boolean']}` the items of `b` get the type `'any'`
from `[A, B]` and the type `['integer', 'string']` from `[B, A]`: when the
list of `A` arrives at the type `'boolean'` already stored, the stored type
is dropped. -/
theorem getSchema_depends_on_order :
    getSchema [jobj [("b", JsVal.arr [jstr "integer", jstr "string"])],
        jobj [("b", JsVal.arr [jstr "boolean"])]]
      = some (jobj [("properties", jobj [("b", jobj [("type", jstr "array"),
          ("items", jobj [("type", jstr "any")])])])]) ∧
    getSchema [jobj [("b", JsVal.arr [jstr "boolean"])],
        jobj [("b", JsVal.arr [jstr "integer", jstr "string"])]]
      = some (jobj [("properties", jobj [("b", jobj [("type", jstr "array"),
          ("items", jobj [("type", JsVal.arr [jstr "integer", jstr "string"])])])])]) :=
  ⟨rfl, rfl⟩

/-! ### Timestamps -/

/-- With a high part that is a signed 32-bit integer, the two range tests of
`getTimestamp` are never true. -/
theorem timestamp_range_tests_false (low high : Int)
    (hh : -2147483648 ≤ high ∧ high ≤ 2147483647) :
    lessThanMinValue low high = false ∧ greaterThanMaxValue low high = false := by
  simp only [lessThanMinValue, greaterThanMaxValue, timestampValue, decide_eq_false_iff_not,
    not_lt]
  omega

set_option maxRecDepth 100000 in
/-- C10 (the code at the failing input). Materializing
`##Timestamp(-1,100000000000000)` in edit mode reports no error: both parts
pass `parseInt`, the constructor keeps the low 32 bits of each part, and the
range tests are false. Key `t` holds the Timestamp with high part `-1` and
low part `276447232`. -/
theorem timestamp_out_of_range_accepted :
    convertDateTimeAndIdsInDocumentToSave exampleLib SaveOption.edit
        (jobj [("t", jstr "##Timestamp(-1,100000000000000)")])
      = some (none, jobj [("t", JsVal.timestamp 276447232 (-1))]) :=
  rfl

/-! ### Errors of sibling keys -/

set_option maxRecDepth 100000 in
/-- C11 (the code at the failing input). For `{a: '##ObjectId(x)', b:
'##ObjectId(y)'}` the error handed to the callback names key `b`: the branch
for a failing sentinel assigns `error` and so replaces the error of key `a`. -/
theorem sibling_error_is_the_last :
    convertDateTimeAndIdsInDocumentToSave exampleLib SaveOption.edit
        (jobj [("a", jstr "##ObjectId(x)"), ("b", jstr "##ObjectId(y)")])
      = some (some "Value \"y\" of key \"b\" is no valid ObjectId, please check your input.".toList,
          jobj [("a", jstr "##ObjectId(x)"), ("b", jstr "##ObjectId(y)")]) :=
  rfl

set_option maxRecDepth 100000 in
/-- The error of a nested document does not replace an earlier one: the recursion
keeps `error || err`. -/
theorem nested_error_keeps_the_first :
    convertDateTimeAndIdsInDocumentToSave exampleLib SaveOption.edit
        (jobj [("a", jstr "##ObjectId(x)"), ("b", jobj [("c", jstr "##ObjectId(y)")])])
      = some (some "Value \"x\" of key \"a\" is no valid ObjectId, please check your input.".toList,
          jobj [("a", jstr "##ObjectId(x)"), ("b", jobj [("c", jstr "##ObjectId(y)")])]) :=
  rfl

/-! ### Metadata of driver values -/

set_option maxRecDepth 100000 in
/-- C16 (the code at the failing input). A UUID (a `Binary` of subtype 4) is tagged
`'UUID'` as the value of a key, but `'Binary'` as an element of an array:
for array elements the `_bsontype` is pushed without looking at `sub_type`.
The same holds for a LUUID (subtype 3). -/
theorem uuid_in_array_tagged_binary :
    populateMetadata exampleLib (jobj [("a", JsVal.binary 4 [1, 2]), ("b", JsVal.binary 3 [1, 2])])
        = some (jobj [("a", jstr "UUID"), ("b", jstr "LUUID")]) ∧
      populateMetadata exampleLib (jobj [("a", JsVal.arr [JsVal.binary 4 [1, 2], JsVal.binary 3 [1, 2]])])
        = some (jobj [("a", JsVal.arr [jstr "Binary", jstr "Binary"])]) :=
  ⟨rfl, rfl⟩

/-! ### The chunks of an import file -/

/-- C21 (the code at the failing input). For the buffer `{"a":1}\n{"b":2}` the text
handed to the parser is `{"a":1}` and the text carried over is `"b":2}`: two
characters are skipped behind the brace although the separator `\n` has one,
so the opening brace of the following document is dropped. -/
theorem prepareDocuments_drops_character :
    prepareDocuments "\x7b\"a\":1\x7d\n\x7b\"b\":2\x7d".toList
        = some ("\x7b\"a\":1\x7d".toList, "\"b\":2\x7d".toList) ∧
      "\x7b\"a\":1\x7d".toList ++ "\n".toList ++ "\"b\":2\x7d".toList
        ≠ "\x7b\"a\":1\x7d\n\x7b\"b\":2\x7d".toList :=
  ⟨by decide, by decide⟩

/-- With the separator `\r\n` nothing is lost. -/
theorem prepareDocuments_crlf_example :
    prepareDocuments "\x7b\"a\":1\x7d\r\n\x7b\"b\":2\x7d".toList
        = some ("\x7b\"a\":1\x7d".toList, "\x7b\"b\":2\x7d".toList) := by
  decide

/-- C30 (the code at the failing input). For the buffer `{"a":1}`, which holds no
brace followed by a line break, the prepare step does not complete: `match`
is `null` and reading `match.length` throws. -/
theorem prepareDocuments_without_boundary_throws :
    prepareDocuments "\x7b\"a\":1\x7d".toList = none := by
  decide

/-! ### Date arguments -/

set_option maxRecDepth 100000 in
/-- C27 (the code at the failing input). The argument `2014-01-01`, which the `date`
format accepts, is not read as a calendar date: `parseInt` of it is 2014 and
it holds no `.`, so the branch for a millisecond epoch builds
`new Date(2014)`, the instant 2014 ms after the epoch. -/
theorem calendar_date_read_as_epoch :
    extractValueOfDateString calendarLib "##ISODate(2014-01-01)".toList
      = Except.ok (JsVal.date (some 2014)) :=
  rfl

/-! ### Regular expression sentinels -/

set_option maxRecDepth 100000 in
/-- Counterexample to C28: the sentinel `##/ab/x` under key `r` has the invalid flag
`x`; the materializer reports no error and sets the key to `undefined`. -/
theorem regex_failure_is_swallowed :
    convertDateTimeAndIdsInDocumentToSave exampleLib SaveOption.edit (jobj [("r", jstr "##/ab/x")])
      = some (none, jobj [("r", JsVal.undefined)]) :=
  rfl

/-! ### The normalizer on concrete texts -/

/-- Counterexample to C14: `formatingData` does not return the text without the
spaces behind the colons and the comma. -/
theorem formatingData_scenario_not_compact :
    formatingData "\x7bname: 'Ann', id: ObjectId(\"507f191e810c19729de860ea\")\x7d".toList
      ≠ "\x7b\"name\":\"Ann\",\"id\":\"##ObjectId(507f191e810c19729de860ea)\"\x7d".toList := by
  decide

/-- C14 (amended). `formatingData` applied to the text `{name: 'Ann', id:
ObjectId("507f191e810c19729de860ea")}` returns `{"name": "Ann", "id":
"##ObjectId(507f191e810c19729de860ea)"}`: the keys are quoted, the single
quotes are double quotes, the ObjectId call is the quoted sentinel, and the
spaces of the input are kept. -/
theorem formatingData_scenario :
    formatingData "\x7bname: 'Ann', id: ObjectId(\"507f191e810c19729de860ea\")\x7d".toList
      = "\x7b\"name\": \"Ann\", \"id\": \"##ObjectId(507f191e810c19729de860ea)\"\x7d".toList := by
  decide

/-- Counterexample to C6: the normalizer wraps the Timestamp sentinel that it has
produced a second time. -/
theorem formatingData_not_idempotent :
    formatingData (formatingData "\x7bt: Timestamp(1,2)\x7d".toList)
        = "\x7b\"t\": \"##\"##Timestamp(1,2)\"\"\x7d".toList ∧
      formatingData (formatingData "\x7bt: Timestamp(1,2)\x7d".toList)
        ≠ formatingData "\x7bt: Timestamp(1,2)\x7d".toList :=
  ⟨by decide, by decide⟩

/-- Counterexample to C22: in the text `{"a":"x{y,z"}` the string value `x{y,z`
becomes `x{ y, z`; and on the way back `replaceForImport` takes the string value
`NumberInt(5)` of `{"a":"NumberInt(5)"}` to `5`. -/
theorem replaceForExport_changes_strings :
    replaceForExport "\x7b\"a\":\"x\x7by,z\"\x7d".toList
        = "\x7b \"a\" : \"x\x7b y, z\" \x7d".toList ∧
      jsonTokens none [] (replaceForExport "\x7b\"a\":\"x\x7by,z\"\x7d".toList)
        ≠ jsonTokens none [] "\x7b\"a\":\"x\x7by,z\"\x7d".toList ∧
      replaceForImport (replaceForExport "\x7b\"a\":\"NumberInt(5)\"\x7d".toList)
        = "[\x7b \"a\" : \"5\" \x7d]".toList :=
  ⟨by decide, by decide, by decide⟩

/-! ### Global replacement -/

theorem formatingData_eq_foldl (item : Str) :
    formatingData item
      = formatingRules.foldl (fun data rule => replaceAll rule.1 rule.2 data) item := by
  simp only [formatingData, formatingRules, List.foldl_cons, List.foldl_nil]

theorem foldl_rules_of_fixed (s : Str) :
    ∀ rules : List (List Item × List Piece),
      rules.all (fun rule => decide (replaceAll rule.1 rule.2 s = s)) = true →
      rules.foldl (fun data rule => replaceAll rule.1 rule.2 data) s = s := by
  intro rules
  induction rules with
  | nil => intro _; rfl
  | cons rule rest ih =>
    intro h
    simp only [List.all_cons, Bool.and_eq_true, decide_eq_true_eq] at h
    simp only [List.foldl_cons, h.1]
    exact ih (by simpa using h.2)

/-! ### Sentinel strings -/

theorem replaceFirst_append_left (p r s : Str) (hp : p ≠ []) :
    replaceFirst p r (p ++ s) = r ++ s := by
  cases p with
  | nil => exact absurd rfl hp
  | cons c p =>
    have h : (c :: p).isPrefixOf (c :: (p ++ s)) = true := by
      rw [List.isPrefixOf_iff_prefix]
      exact List.prefix_append (c :: p) s
    have := List.drop_left (c :: p) s
    simp only [List.cons_append, replaceFirst, h, if_true]
    simp

theorem replaceFirst_paren (x : Str) (hx : ')' ∉ x) :
    replaceFirst [')'] [] (x ++ [')']) = x := by
  induction x with
  | nil => simp [replaceFirst]
  | cons a x ih =>
    have ha : a ≠ ')' := fun h => hx (by simp [h])
    have hx' : ')' ∉ x := fun h => hx (by simp [h])
    simp [replaceFirst, List.isPrefixOf, Ne.symm ha, ih hx']

theorem sentinelArgument_eq (pfx : String) (x : Str) (hp : pfx.toList ≠ []) (hx : ')' ∉ x) :
    sentinelArgument pfx (pfx.toList ++ x ++ [')']) = x := by
  unfold sentinelArgument
  rw [List.append_assoc, replaceFirst_append_left _ _ _ hp]
  exact replaceFirst_paren x hx

set_option maxHeartbeats 4000000 in
theorem materializeValue_str (lib : Lib) (option : SaveOption) (key text : Str)
    (error : Option Str) :
    materializeValue lib option key (JsVal.str text) error
      = sentinelChain lib option key text error := by
  cases text with
  | nil =>
    simp only [materializeValue, sentinelChain, getProp, truthy, isString, isObject, strOf,
      isNull, strictEqNum]
    simp [List.isPrefixOf]
  | cons c cs =>
    simp only [materializeValue, sentinelChain, getProp, truthy, isString, isObject, strOf,
      isNull, strictEqNum]
    simp

theorem prefixObjectId : "##ObjectId(".toList
    = ['#', '#', 'O', 'b', 'j', 'e', 'c', 't', 'I', 'd', '('] := rfl
theorem prefixUUID : "##UUID(".toList = ['#', '#', 'U', 'U', 'I', 'D', '('] := rfl
theorem prefixLUUID : "##LUUID(".toList = ['#', '#', 'L', 'U', 'U', 'I', 'D', '('] := rfl
theorem prefixTimestamp : "##Timestamp(".toList
    = ['#', '#', 'T', 'i', 'm', 'e', 's', 't', 'a', 'm', 'p', '('] := rfl
theorem prefixISODate : "##ISODate(".toList
    = ['#', '#', 'I', 'S', 'O', 'D', 'a', 't', 'e', '('] := rfl
theorem prefixRegex : "##/".toList = ['#', '#', '/'] := rfl

/-! ### ObjectId and regex sentinels in edit mode -/

theorem sentinelChain_objectId (lib : Lib) (option : SaveOption) (key x : Str)
    (error : Option Str) (hx : ')' ∉ x) :
    sentinelChain lib option key ("##ObjectId(".toList ++ x ++ [')']) error
      = if lib.formatsMongoId x || decide (option = SaveOption.toValidate) then
          some (error,
            if decide (option = SaveOption.toValidate) then JsVal.str x
            else getMongoId lib (JsVal.str x))
        else
          some (some (errorMessage x key "ObjectId, please check your input."),
            JsVal.str ("##ObjectId(".toList ++ x ++ [')'])) := by
  have h1 := sentinelArgument_eq "##ObjectId(" x (by decide) hx
  simp only [sentinelChain, h1]
  simp [prefixObjectId]

theorem isMongoIdText_truthy (x : Str) (h : isMongoIdText x = true) :
    truthy (JsVal.str x) = true := by
  simp only [isMongoIdText, Bool.and_eq_true, decide_eq_true_eq] at h
  cases x with
  | nil => simp at h
  | cons c cs => rfl

set_option maxRecDepth 100000 in
/-- Counterexample to C9: for the raw value `a)b` under key `k` the message names
the value `ab)` (the first `)` is the one removed), so it does not contain
the raw value. -/
theorem objectId_error_message_mangles_paren :
    convertDateTimeAndIdsInDocumentToSave exampleLib SaveOption.edit
        (jobj [("k", jstr "##ObjectId(a)b)")])
      = some (some "Value \"ab)\" of key \"k\" is no valid ObjectId, please check your input.".toList,
          jobj [("k", jstr "##ObjectId(a)b)")]) ∧
      ¬ ("a)b".toList <:+:
        "Value \"ab)\" of key \"k\" is no valid ObjectId, please check your input.".toList) :=
  ⟨rfl, by decide⟩

/-! ### Scalar types of the schema -/

/-- C23. For two different scalar type names `s` and `t` with `s` not `'any'`,
`mergeTypesOfProperty(s, t)` is `'any'` when exactly one of them is
`'object'` or exactly one of them is `'array'`, and the list `[s, t]`
otherwise; `mergeTypesOfProperty('any', t)` is `'any'` for every `t`. -/
theorem mergeTypesOfProperty_spec (s t : Str) (hst : s ≠ t) (hs : s ≠ "any".toList) :
    mergeTypesOfProperty (JsVal.str s) (JsVal.str t)
        = (if (s = "object".toList ∧ t ≠ "object".toList) ∨
              (t = "object".toList ∧ s ≠ "object".toList) ∨
              (s = "array".toList ∧ t ≠ "array".toList) ∨
              (t = "array".toList ∧ s ≠ "array".toList) then jstr "any"
           else JsVal.arr [JsVal.str s, JsVal.str t]) ∧
      ∀ v : JsVal, mergeTypesOfProperty (jstr "any") v = jstr "any" := by
  constructor
  · simp only [mergeTypesOfProperty, strictEqStr, jstr]
    by_cases h1 : s = "object".toList <;> by_cases h2 : t = "object".toList <;>
      by_cases h3 : s = "array".toList <;> by_cases h4 : t = "array".toList <;>
      simp_all
  · intro v
    simp [mergeTypesOfProperty, strictEqStr, jstr]

/-- Witness of C23: `'integer'` and `'string'` give the two-entry list, `'object'`
and `'string'` give `'any'`. -/
theorem mergeTypesOfProperty_spec_witness :
    "integer".toList ≠ "string".toList ∧ "integer".toList ≠ "any".toList ∧
    (mergeTypesOfProperty (JsVal.str "integer".toList) (JsVal.str "string".toList)
        = (if ("integer".toList = "object".toList ∧ "string".toList ≠ "object".toList) ∨
              ("string".toList = "object".toList ∧ "integer".toList ≠ "object".toList) ∨
              ("integer".toList = "array".toList ∧ "string".toList ≠ "array".toList) ∨
              ("string".toList = "array".toList ∧ "integer".toList ≠ "array".toList) then
             jstr "any"
           else JsVal.arr [JsVal.str "integer".toList, JsVal.str "string".toList]) ∧
      ∀ v : JsVal, mergeTypesOfProperty (jstr "any") v = jstr "any") :=
  ⟨by decide, by decide,
   mergeTypesOfProperty_spec "integer".toList "string".toList (by decide) (by decide)⟩

/-- C24. `getValidationObjectOfSingleElements` follows the lookup table: `'float'`
gives `{type: 'number'}`, `'date'` gives `{type: 'string', format: 'date'}`,
`'ObjectID'` gives `{type: 'string', format: 'mongo-id'}`, `'date-time'` gives
`{type: 'string', format: 'date-time'}`, `'regex'` gives `{type: 'regexp'}`,
and a name `n` outside the special names gives `{type: n}`; the result also
carries `key: true` exactly when the property name is `_id`. -/
theorem getValidationObjectOfSingleElements_table (key : Str) :
    getValidationObjectOfSingleElements "float".toList key
        = withKeyMark key [("type".toList, jstr "number")] ∧
      getValidationObjectOfSingleElements "date".toList key
        = withKeyMark key [("type".toList, jstr "string"), ("format".toList, jstr "date")] ∧
      getValidationObjectOfSingleElements "ObjectID".toList key
        = withKeyMark key [("type".toList, jstr "string"), ("format".toList, jstr "mongo-id")] ∧
      getValidationObjectOfSingleElements "date-time".toList key
        = withKeyMark key [("type".toList, jstr "string"), ("format".toList, jstr "date-time")] ∧
      getValidationObjectOfSingleElements "regex".toList key
        = withKeyMark key [("type".toList, jstr "regexp")] ∧
      ∀ n : Str, n ∉ specialTypeNames →
        getValidationObjectOfSingleElements n key
          = withKeyMark key [("type".toList, JsVal.str n)] := by
  refine ⟨?_, ?_, ?_, ?_, ?_, ?_⟩
  · by_cases hk : key = "_id".toList <;>
      simp [getValidationObjectOfSingleElements, withKeyMark, typeOnly, typeFormat, jstr, hk]
  · by_cases hk : key = "_id".toList <;>
      simp [getValidationObjectOfSingleElements, withKeyMark, typeOnly, typeFormat, jstr, hk]
  · by_cases hk : key = "_id".toList <;>
      simp [getValidationObjectOfSingleElements, withKeyMark, typeOnly, typeFormat, jstr, hk]
  · by_cases hk : key = "_id".toList <;>
      simp [getValidationObjectOfSingleElements, withKeyMark, typeOnly, typeFormat, jstr, hk]
  · by_cases hk : key = "_id".toList <;>
      simp [getValidationObjectOfSingleElements, withKeyMark, typeOnly, typeFormat, jstr, hk]
  · intro n hn
    simp only [specialTypeNames, List.mem_cons, List.mem_singleton, not_or, List.not_mem_nil,
      or_false] at hn
    obtain ⟨h1, h2, h3, h4, h5, h6, h7, h8, h9, h10, h11, h12⟩ := hn
    simp only [getValidationObjectOfSingleElements, h1, h2, h3, h4, h5, h6, h7, h8, h9, h10,
      h11, h12, if_false, typeOnly, withKeyMark]

/-- Witness of C24: the type name `'string'` under the key `_id`. -/
theorem getValidationObjectOfSingleElements_table_witness :
    "string".toList ∉ specialTypeNames ∧
      getValidationObjectOfSingleElements "string".toList "_id".toList
        = withKeyMark "_id".toList [("type".toList, JsVal.str "string".toList)] :=
  ⟨by decide,
   (getValidationObjectOfSingleElements_table "_id".toList).2.2.2.2.2 "string".toList
     (by decide)⟩

/-! ### Regular expressions on export -/

theorem splitChar_ne_nil (c : Char) (s : Str) : splitChar c s ≠ [] := by
  cases s with
  | nil => simp [splitChar]
  | cons x xs =>
    simp only [splitChar]
    split
    · simp
    · split <;> simp

theorem splitChar_cons_eq (c : Char) (xs : Str) :
    splitChar c (c :: xs) = [] :: splitChar c xs := by
  cases h : splitChar c xs with
  | nil => exact absurd h (splitChar_ne_nil c xs)
  | cons part parts => simp [splitChar, h]

theorem splitChar_cons_ne (c x : Char) (xs part : Str) (parts : List Str) (hx : x ≠ c)
    (h : splitChar c xs = part :: parts) :
    splitChar c (x :: xs) = (x :: part) :: parts := by
  simp [splitChar, h, hx]

theorem splitChar_append (c : Char) (a b : Str) :
    splitChar c (a ++ c :: b) = splitChar c a ++ splitChar c b := by
  induction a with
  | nil =>
    rw [List.nil_append, splitChar_cons_eq]
    rfl
  | cons x xs ih =>
    cases h : splitChar c xs with
    | nil => exact absurd h (splitChar_ne_nil c xs)
    | cons part parts =>
      by_cases hx : x = c
      · subst hx
        rw [List.cons_append, splitChar_cons_eq, splitChar_cons_eq, ih]
        rfl
      · rw [List.cons_append, splitChar_cons_ne c x _ part (parts ++ splitChar c b) hx
          (by rw [ih, h]; rfl), splitChar_cons_ne c x xs part parts hx h]
        rfl

theorem splitChar_of_not_mem (c : Char) (s : Str) (h : c ∉ s) : splitChar c s = [s] := by
  induction s with
  | nil => rfl
  | cons x xs ih =>
    have hx : x ≠ c := fun e => h (by simp [e])
    have hxs : c ∉ xs := fun e => h (by simp [e])
    simp [splitChar, ih hxs, hx]

theorem foldl_join_splitChar (c : Char) :
    ∀ (s q0 : Str) (qs : List Str), splitChar c s = q0 :: qs →
      ∀ pre : Str, qs.foldl (fun acc part => acc ++ c :: part) (pre ++ q0) = pre ++ s := by
  intro s
  induction s with
  | nil =>
    intro q0 qs h pre
    simp only [splitChar, List.cons.injEq] at h
    obtain ⟨h1, h2⟩ := h
    subst h1 h2
    simp
  | cons x xs ih =>
    intro q0 qs h pre
    cases hs : splitChar c xs with
    | nil => exact absurd hs (splitChar_ne_nil c xs)
    | cons part parts =>
      by_cases hx : x = c
      · subst hx
        rw [splitChar_cons_eq, hs] at h
        simp only [List.cons.injEq] at h
        obtain ⟨h1, h2⟩ := h
        subst h1 h2
        have := ih part parts hs (pre ++ [x])
        simpa using this
      · rw [splitChar_cons_ne c x xs part parts hx hs] at h
        simp only [List.cons.injEq] at h
        obtain ⟨h1, h2⟩ := h
        subst h1 h2
        have := ih part parts hs (pre ++ [x])
        simpa using this

/-- The wire object of a regular expression whose flags hold no slash: `$regex` is
the pattern, with all its slashes, and `$options` are the flags. -/
theorem exportRegExp_eq (p f : Str) (hf : '/' ∉ f) :
    exportRegExp p f = JsVal.obj [("$regex".toList, JsVal.str p),
      ("$options".toList, JsVal.str f)] := by
  have hsplit : splitChar '/' (regExpToString p f) = [] :: (splitChar '/' p ++ [f]) := by
    unfold regExpToString
    rw [List.cons_append, splitChar_cons_eq, splitChar_append, splitChar_of_not_mem '/' f hf]
  unfold exportRegExp
  simp only [hsplit]
  cases hs : splitChar '/' p with
  | nil => exact absurd hs (splitChar_ne_nil '/' p)
  | cons q0 qs =>
    have hjoin := foldl_join_splitChar '/' p q0 qs hs []
    simp only [List.nil_append] at hjoin
    have hlast : ([] :: (q0 :: qs ++ [f])).getD (([] :: (q0 :: qs ++ [f])).length - 1) [] = f := by
      simp [List.getD_eq_getElem?_getD, List.getElem?_append_right]
    rw [hlast]
    by_cases hq : qs = []
    · subst hq
      simp only [List.foldl_nil] at hjoin
      simp [hjoin]
    · have hlen : ([] :: (q0 :: qs ++ [f])).length > 3 := by
        cases qs with
        | nil => exact absurd rfl hq
        | cons a t => simp
      simp only [hlen, if_true]
      have htake : (List.drop 2 ([] :: (q0 :: qs ++ [f]))).take
          (([] :: (q0 :: qs ++ [f])).length - 3) = qs := by
        simp
      rw [htake]
      simp [hjoin]

/-! ### UUID texts -/

/-- C26. For a binary value whose hexadecimal text is the 32-digit text `h`,
`formatUUIDsForClient` returns `h` in groups of 8, 4, 4, 4 and 12 digits
joined by `-`, and removing the dashes from the result, as `getUUID` does,
gives back `h`. -/
theorem formatUUIDsForClient_spec (lib : Lib) (subType : Nat) (bytes : List Nat) (h : Str)
    (hhex : lib.bufferToString bytes Coding.hex = h) (hlen : h.length = 32)
    (hdash : '-' ∉ h) :
    formatUUIDsForClient lib (JsVal.binary subType bytes)
        = h.take 8 ++ '-' :: (h.drop 8).take 4 ++ '-' :: (h.drop 12).take 4 ++
            '-' :: (h.drop 16).take 4 ++ '-' :: h.drop 20 ∧
      (h.take 8).length = 8 ∧ ((h.drop 8).take 4).length = 4 ∧
      ((h.drop 12).take 4).length = 4 ∧ ((h.drop 16).take 4).length = 4 ∧
      (h.drop 20).length = 12 ∧
      (formatUUIDsForClient lib (JsVal.binary subType bytes)).filter (fun c => c != '-') = h := by
  have hform : formatUUIDsForClient lib (JsVal.binary subType bytes)
        = h.take 8 ++ '-' :: (h.drop 8).take 4 ++ '-' :: (h.drop 12).take 4 ++
            '-' :: (h.drop 16).take 4 ++ '-' :: h.drop 20 := by
    simp [formatUUIDsForClient, toStringCoding, hhex, slice]
  have hfilter : ∀ l : Str, (∀ c ∈ l, c ∈ h) → l.filter (fun c => c != '-') = l := by
    intro l hl
    rw [List.filter_eq_self]
    intro c hc
    have : c ≠ '-' := fun e => hdash (e ▸ hl c hc)
    simpa using this
  refine ⟨hform, ?_, ?_, ?_, ?_, ?_, ?_⟩
  · simp [hlen]
  · simp [hlen]
  · simp [hlen]
  · simp [hlen]
  · simp [hlen]
  · rw [hform]
    simp only [List.filter_append, List.filter_cons]
    rw [hfilter _ (fun c hc => List.mem_of_mem_take hc),
      hfilter ((h.drop 8).take 4) (fun c hc => List.mem_of_mem_drop (List.mem_of_mem_take hc)),
      hfilter ((h.drop 12).take 4) (fun c hc => List.mem_of_mem_drop (List.mem_of_mem_take hc)),
      hfilter ((h.drop 16).take 4) (fun c hc => List.mem_of_mem_drop (List.mem_of_mem_take hc)),
      hfilter (h.drop 20) (fun c hc => List.mem_of_mem_drop hc)]
    simp only [bne_self_eq_false, Bool.false_eq_true, if_false]
    have e1 : h.drop 16 = (h.drop 16).take 4 ++ h.drop 20 := by
      rw [show h.drop 20 = (h.drop 16).drop 4 from by rw [List.drop_drop],
        List.take_append_drop]
    have e2 : h.drop 12 = (h.drop 12).take 4 ++ h.drop 16 := by
      rw [show h.drop 16 = (h.drop 12).drop 4 from by rw [List.drop_drop],
        List.take_append_drop]
    have e3 : h.drop 8 = (h.drop 8).take 4 ++ h.drop 12 := by
      rw [show h.drop 12 = (h.drop 8).drop 4 from by rw [List.drop_drop],
        List.take_append_drop]
    simp only [List.append_assoc]
    rw [← e1, ← e2, ← e3]
    exact List.take_append_drop 8 h

set_option maxRecDepth 100000 in
/-- Witness of C26: the sixteen bytes `00 11 … ff`. -/
theorem formatUUIDsForClient_spec_witness :
    exampleLib.bufferToString [0, 17, 34, 51, 68, 85, 102, 119, 136, 153, 170, 187, 204, 221,
        238, 255] Coding.hex = "00112233445566778899aabbccddeeff".toList ∧
    "00112233445566778899aabbccddeeff".toList.length = 32 ∧
    '-' ∉ "00112233445566778899aabbccddeeff".toList ∧
    formatUUIDsForClient exampleLib (JsVal.binary 4 [0, 17, 34, 51, 68, 85, 102, 119, 136, 153,
        170, 187, 204, 221, 238, 255]) = "00112233-4455-6677-8899-aabbccddeeff".toList :=
  ⟨by decide, by decide, by decide,
   (formatUUIDsForClient_spec exampleLib 4 [0, 17, 34, 51, 68, 85, 102, 119, 136, 153, 170, 187,
      204, 221, 238, 255] "00112233445566778899aabbccddeeff".toList (by decide) (by decide)
      (by decide)).1.trans (by decide)⟩

/-! ### Edit mode consumes the sentinels outside guarded objects -/

set_option maxHeartbeats 4000000 in
theorem materializeValue_edit_of_not_string (lib : Lib) (key : Str) (value : JsVal)
    (error : Option Str) (hs : isString value = false) :
    materializeValue lib SaveOption.edit key value error
      = some (error,
          if truthy value && isObject value && truthy (getProp value "$code") then
            JsVal.code (getProp value "$code") (jsOr (getProp value "$scope") (JsVal.obj []))
          else if truthy value && isObject value && truthy (getProp value "$minKey") then
            JsVal.minKey
          else if truthy value && isObject value && truthy (getProp value "$maxKey") then
            JsVal.maxKey
          else if truthy value && isObject value && truthy (getProp value "$id") &&
              truthy (getProp value "$ref") then
            JsVal.dbRef (getProp value "$ref") (getProp value "$id")
              (jsOr (getProp value "$db") JsVal.null)
          else value) := by
  simp only [materializeValue, hs]
  simp
  split_ifs <;> rfl

theorem holdsSentinel_getMongoId (lib : Lib) (s : Str) (h : lib.formatsMongoId s = true) :
    holdsSentinel (getMongoId lib (JsVal.str s)) = false := by
  unfold getMongoId
  split
  · rfl
  · simp [h, holdsSentinel]

theorem holdsSentinel_getUUID (lib : Lib) (s : Str) (subType : Nat) (coding : Coding)
    (uuid : JsVal) (h : getUUID lib (JsVal.str s) subType coding = some uuid) :
    holdsSentinel uuid = false := by
  unfold getUUID at h
  split at h
  · simp only [Option.some.injEq] at h
    subst h
    rfl
  · simp only [Option.some.injEq] at h
    subst h
    rfl

theorem holdsSentinel_getTimestamp (lib : Lib) (s : Str) (timestamp : JsVal)
    (h : getTimestamp lib s = Except.ok timestamp) : holdsSentinel timestamp = false := by
  unfold getTimestamp at h
  simp only at h
  split at h
  · cases h
  · simp only [Except.ok.injEq, newTimestamp] at h
    subst h
    rfl

theorem holdsSentinel_extractValueOfDateString (lib : Lib) (s : Str) (date : JsVal)
    (h : extractValueOfDateString lib s = Except.ok date) : holdsSentinel date = false := by
  unfold extractValueOfDateString at h
  simp only at h
  split_ifs at h <;> cases h <;> rfl

set_option maxHeartbeats 4000000 in
theorem sentinelChain_edit_clean (lib : Lib) (key text : Str) (error : Option Str)
    (value : JsVal)
    (h : sentinelChain lib SaveOption.edit key text error = some (none, value)) :
    holdsSentinel value = false ∧ error = none := by
  unfold sentinelChain at h
  have hedit : decide (SaveOption.edit = SaveOption.toValidate) = false := rfl
  simp only [hedit, Bool.or_false, Bool.false_eq_true, if_false] at h
  split at h
  · split at h
    · rename_i hv
      simp only [Option.some.injEq, Prod.mk.injEq] at h
      obtain ⟨h1, h2⟩ := h
      subst h2
      exact ⟨holdsSentinel_getMongoId lib _ hv, h1⟩
    · simp at h
  · split at h
    · split at h
      · split at h
        · rename_i uuid hu
          simp only [Option.some.injEq, Prod.mk.injEq] at h
          obtain ⟨h1, h2⟩ := h
          subst h2
          exact ⟨holdsSentinel_getUUID lib _ _ _ _ hu, h1⟩
        · cases h
      · simp at h
    · split at h
      · split at h
        · split at h
          · rename_i uuid hu
            simp only [Option.some.injEq, Prod.mk.injEq] at h
            obtain ⟨h1, h2⟩ := h
            subst h2
            exact ⟨holdsSentinel_getUUID lib _ _ _ _ hu, h1⟩
          · cases h
        · simp at h
      · split at h
        · split at h
          · simp at h
          · rename_i timestamp ht
            simp only [Option.some.injEq, Prod.mk.injEq] at h
            obtain ⟨h1, h2⟩ := h
            subst h2
            exact ⟨holdsSentinel_getTimestamp lib _ _ ht, h1⟩
        · split at h
          · split at h
            · simp at h
            · rename_i date hd
              simp only [Option.some.injEq, Prod.mk.injEq] at h
              obtain ⟨h1, h2⟩ := h
              subst h2
              exact ⟨holdsSentinel_extractValueOfDateString lib _ _ hd, h1⟩
          · split at h
            · split at h
              · cases h
              · split at h
                · simp only [Option.some.injEq, Prod.mk.injEq] at h
                  obtain ⟨h1, h2⟩ := h
                  subst h2
                  exact ⟨rfl, h1⟩
                · simp only [Option.some.injEq, Prod.mk.injEq] at h
                  obtain ⟨h1, h2⟩ := h
                  subst h2
                  exact ⟨rfl, h1⟩
            · rename_i n1 n2 n3 n4 n5 n6
              simp only [Option.some.injEq, Prod.mk.injEq] at h
              obtain ⟨h1, h2⟩ := h
              subst h2
              refine ⟨?_, h1⟩
              simp only [Bool.not_eq_true] at n1 n2 n3 n4 n5 n6
              simp only [holdsSentinel, hasSentinelPrefix, n1, n2, n3, n4, n5, n6, Bool.or_false]


theorem holdsSentinel_lookupProp (key : Str) :
    ∀ props : List (Str × JsVal), holdsSentinelProps props = false →
      holdsSentinel (lookupProp key props) = false := by
  intro props
  induction props with
  | nil => intro _; rfl
  | cons p rest ih =>
    obtain ⟨k, v⟩ := p
    intro h
    simp only [holdsSentinelProps, Bool.or_eq_false_iff] at h
    simp only [lookupProp]
    split
    · exact h.1
    · exact ih h.2

theorem holdsSentinel_getProp (value : JsVal) (key : String)
    (h : holdsSentinel value = false) : holdsSentinel (getProp value key) = false := by
  cases value with
  | obj props =>
    simp only [holdsSentinel] at h
    exact holdsSentinel_lookupProp _ props h
  | code c s =>
    simp only [holdsSentinel, Bool.or_eq_false_iff] at h
    simp only [getProp]
    split_ifs
    · rfl
    · exact h.1
    · exact h.2
    · rfl
  | dbRef ns oid db =>
    simp only [holdsSentinel, Bool.or_eq_false_iff] at h
    simp only [getProp]
    split_ifs
    · rfl
    · exact h.1.1
    · exact h.1.2
    · exact h.2
    · rfl
  | objectID b => simp only [getProp]; split_ifs <;> rfl
  | binary st b => simp only [getProp]; split_ifs <;> rfl
  | timestamp l hh => simp only [getProp]; split_ifs <;> rfl
  | minKey => simp only [getProp]; split_ifs <;> rfl
  | maxKey => simp only [getProp]; split_ifs <;> rfl
  | undefined => rfl
  | null => rfl
  | bool b => rfl
  | num x => rfl
  | nan => rfl
  | str s => rfl
  | date t => rfl
  | regExp a b => rfl
  | arr items => rfl

theorem holdsSentinel_jsOr (a b : JsVal) (ha : holdsSentinel a = false)
    (hb : holdsSentinel b = false) : holdsSentinel (jsOr a b) = false := by
  unfold jsOr
  split
  · exact ha
  · exact hb

theorem materializeValue_edit_clean (lib : Lib) (key : Str) (value result : JsVal)
    (error : Option Str)
    (hclean : isString value = true ∨ holdsSentinel value = false)
    (h : materializeValue lib SaveOption.edit key value error = some (none, result)) :
    holdsSentinel result = false ∧ error = none := by
  cases hs : isString value with
  | true =>
    cases value with
    | str text =>
      rw [materializeValue_str] at h
      exact sentinelChain_edit_clean lib key text error result h
    | _ => simp [isString] at hs
  | false =>
    have hc : holdsSentinel value = false := by
      rcases hclean with h1 | h1
      · rw [hs] at h1
        cases h1
      · exact h1
    rw [materializeValue_edit_of_not_string lib key value error hs] at h
    simp only [Option.some.injEq, Prod.mk.injEq] at h
    obtain ⟨h1, h2⟩ := h
    refine ⟨?_, h1⟩
    rw [← h2]
    split_ifs
    · simp only [holdsSentinel, Bool.or_eq_false_iff]
      exact ⟨holdsSentinel_getProp _ _ hc,
        holdsSentinel_jsOr _ _ (holdsSentinel_getProp _ _ hc) rfl⟩
    · rfl
    · rfl
    · simp only [holdsSentinel, Bool.or_eq_false_iff]
      exact ⟨⟨holdsSentinel_getProp _ _ hc, holdsSentinel_getProp _ _ hc⟩,
        holdsSentinel_jsOr _ _ (holdsSentinel_getProp _ _ hc) rfl⟩
    · exact hc


theorem materializeValue_edit_error (lib : Lib) (key : Str) (value result : JsVal)
    (error : Option Str)
    (h : materializeValue lib SaveOption.edit key value error = some (none, result)) :
    error = none := by
  cases hs : isString value with
  | true =>
    cases value with
    | str text =>
      rw [materializeValue_str] at h
      exact (sentinelChain_edit_clean lib key text error result h).2
    | _ => simp [isString] at hs
  | false =>
    rw [materializeValue_edit_of_not_string lib key value error hs] at h
    simp only [Option.some.injEq, Prod.mk.injEq] at h
    exact h.1

theorem orElse_eq_none (a b : Option Str) (h : (a <|> b) = none) : a = none ∧ b = none := by
  cases a <;> cases b <;> simp_all

theorem saveEntry_edit_clean (lib : Lib) (key : Str) (value result : JsVal)
    (recursed : Option (Option Str × JsVal)) (error : Option Str)
    (hg : isGuarded value = false)
    (ih : ∀ res, isString value = false → recursed = some (none, res) →
      holdsSentinel res = false)
    (h : saveEntry lib SaveOption.edit key value recursed error = some (none, result)) :
    holdsSentinel result = false ∧ error = none := by
  unfold saveEntry at h
  have hg' : (truthy value && (truthy (getProp value "$oid") || truthy (getProp value "$date")))
      = false := hg
  simp only [hg', Bool.not_false, Bool.and_true] at h
  split at h
  · cases hr : recursed with
    | none => simp [hr] at h
    | some r =>
      obtain ⟨err, res⟩ := r
      simp only [hr] at h
      have he := materializeValue_edit_error lib key res result _ h
      obtain ⟨he1, he2⟩ := orElse_eq_none _ _ he
      subst he2
      rename_i hc
      have hstr : isString value = false := by
        cases value <;> simp_all [isObject, isArray, isString]
      have hres := ih res hstr hr
      exact ⟨(materializeValue_edit_clean lib key res result _ (Or.inr hres) h).1, he1⟩
  · rename_i hc
    have hleaf : isString value = true ∨ holdsSentinel value = false := by
      cases value <;> simp_all [isObject, isArray, isString, holdsSentinel]
    exact materializeValue_edit_clean lib key value result error hleaf h

theorem isGuarded_of_holdsGuarded (value : JsVal) (h : holdsGuarded value = false) :
    isGuarded value = false := by
  cases value <;> first
    | rfl
    | (simp only [holdsGuarded, Bool.or_eq_false_iff] at h; exact h.1)
    | simp [isGuarded, getProp, truthy]

mutual
theorem convert_edit_clean (lib : Lib) :
    ∀ (value out : JsVal), isString value = false → holdsGuarded value = false →
      convertDateTimeAndIdsInDocumentToSave lib SaveOption.edit value = some (none, out) →
      holdsSentinel out = false
  | JsVal.arr items, out, _, hg, h => by
    simp only [convertDateTimeAndIdsInDocumentToSave] at h
    cases hr : saveItems lib SaveOption.edit 0 none items with
    | none => simp [hr] at h
    | some r =>
      obtain ⟨e, items'⟩ := r
      simp only [hr, Option.some.injEq, Prod.mk.injEq] at h
      obtain ⟨h1, h2⟩ := h
      subst h1 h2
      simp only [holdsSentinel]
      simp only [holdsGuarded] at hg
      exact (saveItems_edit_clean lib items 0 none items' hg hr).1
  | JsVal.obj props, out, _, hg, h => by
    simp only [convertDateTimeAndIdsInDocumentToSave] at h
    cases hr : saveProps lib SaveOption.edit none props with
    | none => simp [hr] at h
    | some r =>
      obtain ⟨e, props'⟩ := r
      simp only [hr, Option.some.injEq, Prod.mk.injEq] at h
      obtain ⟨h1, h2⟩ := h
      subst h1 h2
      simp only [holdsSentinel]
      simp only [holdsGuarded, Bool.or_eq_false_iff] at hg
      exact (saveProps_edit_clean lib props none props' hg.2 hr).1
  | JsVal.code code scope, out, _, hg, h => by
    simp only [holdsGuarded, Bool.or_eq_false_iff] at hg
    simp only [convertDateTimeAndIdsInDocumentToSave] at h
    split at h
    · cases h
    · rename_i e1 code' h1
      split at h
      · cases h
      · rename_i e2 scope' h2
        simp only [Option.some.injEq, Prod.mk.injEq] at h
        obtain ⟨he, ho⟩ := h
        subst he ho
        have k2 := saveEntry_edit_clean lib _ scope scope' _ e1
          (isGuarded_of_holdsGuarded scope hg.2)
          (fun res hs hr => convert_edit_clean lib scope res hs hg.2 hr) h2
        obtain ⟨k2a, k2b⟩ := k2
        subst k2b
        have k1 := saveEntry_edit_clean lib _ code code' _ none
          (isGuarded_of_holdsGuarded code hg.1)
          (fun res hs hr => convert_edit_clean lib code res hs hg.1 hr) h1
        simp only [holdsSentinel, k1.1, k2a, Bool.or_self]
  | JsVal.dbRef ns oid db, out, _, hg, h => by
    simp only [holdsGuarded, Bool.or_eq_false_iff] at hg
    simp only [convertDateTimeAndIdsInDocumentToSave] at h
    split at h
    · cases h
    · rename_i e1 ns' h1
      split at h
      · cases h
      · rename_i e2 oid' h2
        split at h
        · cases h
        · rename_i e3 db' h3
          simp only [Option.some.injEq, Prod.mk.injEq] at h
          obtain ⟨he, ho⟩ := h
          subst he ho
          have k3 := saveEntry_edit_clean lib _ db db' _ e2
            (isGuarded_of_holdsGuarded db hg.2)
            (fun res hs hr => convert_edit_clean lib db res hs hg.2 hr) h3
          obtain ⟨k3a, k3b⟩ := k3
          subst k3b
          have k2 := saveEntry_edit_clean lib _ oid oid' _ e1
            (isGuarded_of_holdsGuarded oid hg.1.2)
            (fun res hs hr => convert_edit_clean lib oid res hs hg.1.2 hr) h2
          obtain ⟨k2a, k2b⟩ := k2
          subst k2b
          have k1 := saveEntry_edit_clean lib _ ns ns' _ none
            (isGuarded_of_holdsGuarded ns hg.1.1)
            (fun res hs hr => convert_edit_clean lib ns res hs hg.1.1 hr) h1
          simp only [holdsSentinel, k1.1, k2a, k3a, Bool.or_self]
  | JsVal.undefined, out, _, _, h => by
    simp only [convertDateTimeAndIdsInDocumentToSave, Option.some.injEq, Prod.mk.injEq] at h
    rw [← h.2]; rfl
  | JsVal.null, out, _, _, h => by
    simp only [convertDateTimeAndIdsInDocumentToSave, Option.some.injEq, Prod.mk.injEq] at h
    rw [← h.2]; rfl
  | JsVal.bool _, out, _, _, h => by
    simp only [convertDateTimeAndIdsInDocumentToSave, Option.some.injEq, Prod.mk.injEq] at h
    rw [← h.2]; rfl
  | JsVal.num _, out, _, _, h => by
    simp only [convertDateTimeAndIdsInDocumentToSave, Option.some.injEq, Prod.mk.injEq] at h
    rw [← h.2]; rfl
  | JsVal.nan, out, _, _, h => by
    simp only [convertDateTimeAndIdsInDocumentToSave, Option.some.injEq, Prod.mk.injEq] at h
    rw [← h.2]; rfl
  | JsVal.str _, out, hs, _, h => by
    simp [isString] at hs
  | JsVal.date _, out, _, _, h => by
    simp only [convertDateTimeAndIdsInDocumentToSave, Option.some.injEq, Prod.mk.injEq] at h
    rw [← h.2]; rfl
  | JsVal.regExp _ _, out, _, _, h => by
    simp only [convertDateTimeAndIdsInDocumentToSave, Option.some.injEq, Prod.mk.injEq] at h
    rw [← h.2]; rfl
  | JsVal.objectID _, out, _, _, h => by
    simp only [convertDateTimeAndIdsInDocumentToSave, Option.some.injEq, Prod.mk.injEq] at h
    rw [← h.2]; rfl
  | JsVal.binary _ _, out, _, _, h => by
    simp only [convertDateTimeAndIdsInDocumentToSave, Option.some.injEq, Prod.mk.injEq] at h
    rw [← h.2]; rfl
  | JsVal.timestamp _ _, out, _, _, h => by
    simp only [convertDateTimeAndIdsInDocumentToSave, Option.some.injEq, Prod.mk.injEq] at h
    rw [← h.2]; rfl
  | JsVal.minKey, out, _, _, h => by
    simp only [convertDateTimeAndIdsInDocumentToSave, Option.some.injEq, Prod.mk.injEq] at h
    rw [← h.2]; rfl
  | JsVal.maxKey, out, _, _, h => by
    simp only [convertDateTimeAndIdsInDocumentToSave, Option.some.injEq, Prod.mk.injEq] at h
    rw [← h.2]; rfl
theorem saveItems_edit_clean (lib : Lib) :
    ∀ (items : List JsVal) (index : Nat) (error : Option Str) (out : List JsVal),
      holdsGuardedItems items = false →
      saveItems lib SaveOption.edit index error items = some (none, out) →
      holdsSentinelItems out = false ∧ error = none
  | [], index, error, out, _, h => by
    simp only [saveItems, Option.some.injEq, Prod.mk.injEq] at h
    obtain ⟨h1, h2⟩ := h
    subst h2
    exact ⟨rfl, h1⟩
  | value :: rest, index, error, out, hg, h => by
    simp only [holdsGuardedItems, Bool.or_eq_false_iff] at hg
    simp only [saveItems] at h
    cases h1 : saveEntry lib SaveOption.edit (natToStr index) value
        (convertDateTimeAndIdsInDocumentToSave lib SaveOption.edit value) error with
    | none => simp [h1] at h
    | some r1 =>
      obtain ⟨e1, value'⟩ := r1
      try simp only [h1] at h
      cases h2 : saveItems lib SaveOption.edit (index + 1) e1 rest with
      | none => simp [h2] at h
      | some r2 =>
        obtain ⟨e2, rest'⟩ := r2
        simp only [h2, Option.some.injEq, Prod.mk.injEq] at h
        obtain ⟨he, ho⟩ := h
        subst he ho
        obtain ⟨k2a, k2b⟩ := saveItems_edit_clean lib rest (index + 1) e1 rest' hg.2 h2
        subst k2b
        have k1 := saveEntry_edit_clean lib _ value value' _ error
          (isGuarded_of_holdsGuarded value hg.1)
          (fun res hs hr => convert_edit_clean lib value res hs hg.1 hr) h1
        exact ⟨by simp only [holdsSentinelItems, k1.1, k2a, Bool.or_self], k1.2⟩
theorem saveProps_edit_clean (lib : Lib) :
    ∀ (props : List (Str × JsVal)) (error : Option Str) (out : List (Str × JsVal)),
      holdsGuardedProps props = false →
      saveProps lib SaveOption.edit error props = some (none, out) →
      holdsSentinelProps out = false ∧ error = none
  | [], error, out, _, h => by
    simp only [saveProps, Option.some.injEq, Prod.mk.injEq] at h
    obtain ⟨h1, h2⟩ := h
    subst h2
    exact ⟨rfl, h1⟩
  | (key, value) :: rest, error, out, hg, h => by
    simp only [holdsGuardedProps, Bool.or_eq_false_iff] at hg
    simp only [saveProps] at h
    cases h1 : saveEntry lib SaveOption.edit key value
        (convertDateTimeAndIdsInDocumentToSave lib SaveOption.edit value) error with
    | none => simp [h1] at h
    | some r1 =>
      obtain ⟨e1, value'⟩ := r1
      try simp only [h1] at h
      cases h2 : saveProps lib SaveOption.edit e1 rest with
      | none => simp [h2] at h
      | some r2 =>
        obtain ⟨e2, rest'⟩ := r2
        simp only [h2, Option.some.injEq, Prod.mk.injEq] at h
        obtain ⟨he, ho⟩ := h
        subst he ho
        obtain ⟨k2a, k2b⟩ := saveProps_edit_clean lib rest e1 rest' hg.2 h2
        subst k2b
        have k1 := saveEntry_edit_clean lib _ value value' _ error
          (isGuarded_of_holdsGuarded value hg.1)
          (fun res hs hr => convert_edit_clean lib value res hs hg.1 hr) h1
        exact ⟨by simp only [holdsSentinelProps, k1.1, k2a, Bool.or_self], k1.2⟩
end

set_option maxRecDepth 100000 in
/-- C8 (counterexample): in edit mode the object under `a` has a truthy `$oid`, so the
recursion does not enter it; the call reports no error and the sentinel string
under `b` is still in the result. -/
theorem guarded_sentinel_survives :
    convertDateTimeAndIdsInDocumentToSave exampleLib SaveOption.edit
        (jobj [("a", jobj [("$oid", JsVal.num 1), ("b", jstr "##ObjectId(x)")])])
      = some (none, jobj [("a", jobj [("$oid", JsVal.num 1), ("b", jstr "##ObjectId(x)")])]) ∧
    holdsSentinel (jobj [("a", jobj [("$oid", JsVal.num 1), ("b", jstr "##ObjectId(x)")])])
      = true :=
  ⟨rfl, rfl⟩

/-- C8 (amended): for every tree that is not itself a string and that holds, at no
depth, an object with a truthy `$oid` or `$date`, if
`convertDateTimeAndIdsInDocumentToSave` in edit mode hands back a tree with no
error, then no value at any depth of that tree is a string that begins with a
sentinel prefix. -/
theorem edit_consumes_sentinels (lib : Lib) (input out : JsVal)
    (hroot : isString input = false) (hguard : holdsGuarded input = false)
    (h : convertDateTimeAndIdsInDocumentToSave lib SaveOption.edit input = some (none, out)) :
    holdsSentinel out = false :=
  convert_edit_clean lib input out hroot hguard h

set_option maxRecDepth 100000 in
/-- C8 (witness): a document with an ObjectId sentinel and an array that holds a regex
sentinel is materialized without error, and the result holds no sentinel. -/
theorem edit_consumes_sentinels_witness :
    holdsGuarded (jobj [("_id", jstr "##ObjectId(507f191e810c19729de860ea)"),
        ("tags", JsVal.arr [jstr "##/ab/i", JsVal.num 3])]) = false ∧
    holdsSentinel (jobj [("_id", jstr "##ObjectId(507f191e810c19729de860ea)"),
        ("tags", JsVal.arr [jstr "##/ab/i", JsVal.num 3])]) = true ∧
    holdsSentinel (jobj [("_id",
        JsVal.objectID (exampleLib.createFromHexString "507f191e810c19729de860ea".toList)),
        ("tags", JsVal.arr [JsVal.regExp "ab".toList "i".toList, JsVal.num 3])]) = false :=
  ⟨rfl, rfl, edit_consumes_sentinels exampleLib
    (jobj [("_id", jstr "##ObjectId(507f191e810c19729de860ea)"),
      ("tags", JsVal.arr [jstr "##/ab/i", JsVal.num 3])])
    (jobj [("_id",
      JsVal.objectID (exampleLib.createFromHexString "507f191e810c19729de860ea".toList)),
      ("tags", JsVal.arr [JsVal.regExp "ab".toList "i".toList, JsVal.num 3])])
    rfl rfl rfl⟩

/-! ### The schema filter -/

theorem filterProps_cons (key : Str) (value : JsVal) (rest : List (Str × JsVal)) :
    filterProps ((key, value) :: rest) = (key, filterValue value) :: filterProps rest := by
  rw [filterProps]
  rfl

theorem filterProps_keys (props : List (Str × JsVal)) :
    (filterProps props).map Prod.fst = props.map Prod.fst := by
  induction props with
  | nil => simp [filterProps]
  | cons p rest ih =>
    obtain ⟨k, v⟩ := p
    simp [filterProps_cons, ih]

theorem lookupProp_filterProps (key : Str) (props : List (Str × JsVal)) :
    lookupProp key (filterProps props) = filterValue (lookupProp key props) := by
  induction props with
  | nil => simp [filterProps, lookupProp, filterValue, truthy]
  | cons p rest ih =>
    obtain ⟨k, v⟩ := p
    rw [filterProps_cons]
    by_cases hk : k = key
    · simp [lookupProp, hk]
    · simp [lookupProp, hk, ih]

theorem filterValue_of_not_object (value : JsVal) (h : isObject value = false) :
    filterValue value = value := by
  cases value <;> simp_all [filterValue, isObject, filterReplacement, getProp, truthy]

set_option maxRecDepth 100000 in
/-- C19 (counterexample): a node whose type is a list of three entries is not reduced to
a node that carries its type: the filter puts `{type: 'any'}` in its place. -/
theorem filterValue_long_list_becomes_any :
    filterValue (JsVal.obj [("type".toList,
        JsVal.arr [jstr "integer", jstr "string", jstr "boolean"]),
        ("format".toList, jstr "date")])
      = typeOnly (jstr "any") ∧
    typeOnly (jstr "any")
      ≠ typeOnly (JsVal.arr [jstr "integer", jstr "string", jstr "boolean"]) := by
  refine ⟨rfl, ?_⟩
  simp [typeOnly, jstr]

/-- C19 (amended): a node whose type is a two-entry list that holds `'null'` is not replaced:
the filter only descends into it, the list stays its type, the node keeps its
keys, and every attribute that is not an object (such as `format`) keeps its
value. A node whose type is `'any'` is reduced to `{type: 'any'}`; a node whose
type is any other list is reduced to a node with the one attribute `type`,
which is the list itself when it has at most two entries and `'any'` when it
has more. -/
theorem filterValue_nullable_kept_others_reduced :
    (∀ (props : List (Str × JsVal)) (t u : JsVal),
      lookupProp "type".toList props = JsVal.arr [t, u] →
      (t = JsVal.str "null".toList ∨ u = JsVal.str "null".toList) →
      filterValue (JsVal.obj props) = JsVal.obj (filterProps props) ∧
      lookupProp "type".toList (filterProps props) = JsVal.arr [t, u] ∧
      (filterProps props).map Prod.fst = props.map Prod.fst ∧
      ∀ name, isObject (lookupProp name props) = false →
        lookupProp name (filterProps props) = lookupProp name props) ∧
    (∀ (props : List (Str × JsVal)),
      lookupProp "type".toList props = JsVal.str "any".toList →
      filterValue (JsVal.obj props) = typeOnly (JsVal.str "any".toList)) ∧
    (∀ (props : List (Str × JsVal)) (items : List JsVal),
      lookupProp "type".toList props = JsVal.arr items →
      ¬ (items.length = 2 ∧ includes (JsVal.arr items) (JsVal.str "null".toList) = true) →
      filterValue (JsVal.obj props)
        = typeOnly (if items.length > 2 then JsVal.str "any".toList else JsVal.arr items)) := by
  refine ⟨?_, ?_, ?_⟩
  · intro props t u ht hnull
    have hincl : includes (JsVal.arr [t, u]) (JsVal.str ['n', 'u', 'l', 'l']) = true := by
      rcases hnull with h | h <;> subst h <;> simp [includes, strictEqPrimitive]
    refine ⟨?_, ?_, filterProps_keys props, ?_⟩
    · have ht' : getProp (JsVal.obj props) "type" = JsVal.arr [t, u] := ht
      simp only [filterValue, filterReplacement, ht']
      simp [truthy, isArray, hincl, isObject, filterTypesOfPropertiesIfAnyOrArray, strictEqStr]
    · rw [lookupProp_filterProps, ht]
      exact filterValue_of_not_object _ rfl
    · intro name hname
      rw [lookupProp_filterProps]
      exact filterValue_of_not_object _ hname
  · intro props ht
    have ht' : getProp (JsVal.obj props) "type" = JsVal.str "any".toList := ht
    simp only [filterValue, filterReplacement, ht']
    simp [truthy, isArray, strictEqStr]
  · intro props items ht hnot
    have ht' : getProp (JsVal.obj props) "type" = JsVal.arr items := ht
    simp only [filterValue, filterReplacement, ht']
    by_cases hlen : items.length > 2
    · simp [truthy, isArray, strictEqStr, hlen]
    · by_cases h2 : items.length = 2
      · have hincl : includes (JsVal.arr items) (JsVal.str ['n', 'u', 'l', 'l']) = false := by
          cases hi : includes (JsVal.arr items) (JsVal.str "null".toList) with
          | false => exact hi
          | true => exact absurd ⟨h2, hi⟩ hnot
        simp [truthy, isArray, strictEqStr, hlen, h2, hincl]
      · simp [truthy, isArray, strictEqStr, hlen, h2]

set_option maxRecDepth 100000 in
/-- C19 (witness of the amended claim): the node `{type: ['string', 'null'], format: 'date'}` is handed back
as it is. -/
theorem filterValue_nullable_kept_others_reduced_witness :
    filterValue (JsVal.obj [("type".toList, JsVal.arr [jstr "string", jstr "null"]),
        ("format".toList, jstr "date")])
      = JsVal.obj (filterProps [("type".toList, JsVal.arr [jstr "string", jstr "null"]),
        ("format".toList, jstr "date")]) :=
  (filterValue_nullable_kept_others_reduced.1
    [("type".toList, JsVal.arr [jstr "string", jstr "null"]), ("format".toList, jstr "date")]
    (jstr "string") (jstr "null") rfl (Or.inr rfl)).1

/-! ### Type lists after the filter -/

theorem filterReplacement_shape (value replacement : JsVal)
    (h : filterReplacement value = some replacement) :
    replacement = typeOnly (JsVal.str "any".toList) ∨
      ∃ items, replacement = typeOnly (JsVal.arr items) ∧ items.length ≤ 2 := by
  unfold filterReplacement at h
  simp only at h
  split_ifs at h with h1 h2 h3
  · left; exact (Option.some.inj h).symm
  · cases ht : getProp value "type" with
    | arr items =>
      right
      refine ⟨items, ?_, ?_⟩
      · rw [← ht]; exact (Option.some.inj h).symm
      · simp [ht, isArray] at h2
        exact h2
    | str s =>
      left
      have h1' : ¬s = [] ∧ s = ['a', 'n', 'y'] := by
        simpa [ht, strictEqStr, isArray, truthy] using h1
      have : s = "any".toList := h1'.2
      rw [← this, ← ht]; exact (Option.some.inj h).symm
    | _ => simp [ht, strictEqStr, isArray, truthy] at h1

theorem filterReplacement_none_list (value : JsVal) (items : List JsVal)
    (h : filterReplacement value = none) (ht : getProp value "type" = JsVal.arr items) :
    items.length ≤ 2 := by
  unfold filterReplacement at h
  simp only [ht] at h
  simp [truthy, isArray] at h
  split_ifs at h with h1
  omega

theorem typesBounded_typeOnly (type : JsVal) (h : isObject type = false) :
    typesBounded (typeOnly type) = true := by
  cases type <;> simp_all [typeOnly, typesBounded, typesBoundedProps, typeListWithin, getProp,
    isObject]

theorem filterValue_arr (value : JsVal) (items : List JsVal)
    (h : filterValue value = JsVal.arr items) : value = JsVal.arr items := by
  unfold filterValue at h
  by_cases h1 : truthy value = true
  · rw [if_pos h1] at h
    cases hr : filterReplacement value with
    | some replacement =>
      rw [hr] at h
      simp only at h
      rcases filterReplacement_shape value replacement hr with h2 | ⟨l, h2, _⟩
      · rw [h2] at h; simp [typeOnly] at h
      · rw [h2] at h; simp [typeOnly] at h
    | none =>
      rw [hr] at h
      simp only at h
      by_cases h3 : isObject value = true
      · rw [if_pos h3] at h
        cases value <;> simp_all [filterTypesOfPropertiesIfAnyOrArray, isObject]
      · rw [if_neg h3] at h
        exact h
  · rw [if_neg h1] at h
    exact h

theorem typeListWithin_filter (value : JsVal) (hr : filterReplacement value = none) :
    typeListWithin (filterTypesOfPropertiesIfAnyOrArray value) = true := by
  cases value with
  | obj props =>
    unfold typeListWithin
    cases ht : getProp (filterTypesOfPropertiesIfAnyOrArray (JsVal.obj props)) "type" with
    | arr items =>
      simp only [decide_eq_true_eq]
      have ht' : lookupProp "type".toList (filterProps props) = JsVal.arr items := ht
      rw [lookupProp_filterProps] at ht'
      exact filterReplacement_none_list (JsVal.obj props) items hr
        (filterValue_arr _ items ht')
    | _ => rfl
  | _ => rfl

theorem filterValue_bounded (value : JsVal)
    (ih : typesBounded (filterTypesOfPropertiesIfAnyOrArray value) = true) :
    typeListWithin (filterValue value) = true ∧ typesBounded (filterValue value) = true := by
  unfold filterValue
  by_cases h1 : truthy value = true
  · rw [if_pos h1]
    cases hr : filterReplacement value with
    | some replacement =>
      simp only
      rcases filterReplacement_shape value replacement hr with h2 | ⟨items, h2, hlen⟩
      · subst h2
        exact ⟨rfl, rfl⟩
      · subst h2
        refine ⟨?_, typesBounded_typeOnly _ rfl⟩
        simp only [typeListWithin, typeOnly, getProp, lookupProp, if_true, decide_eq_true_eq]
        exact hlen
    | none =>
      simp only
      by_cases h3 : isObject value = true
      · rw [if_pos h3]
        exact ⟨typeListWithin_filter value hr, ih⟩
      · rw [if_neg h3]
        cases value <;> first
          | exact ⟨rfl, rfl⟩
          | (simp only [isObject, not_true_eq_false] at h3)
  · rw [if_neg h1]
    cases value <;> first
      | exact ⟨rfl, rfl⟩
      | (simp only [truthy, not_true_eq_false] at h1)

mutual
theorem typesBounded_filter :
    ∀ value : JsVal, typesBounded (filterTypesOfPropertiesIfAnyOrArray value) = true
  | JsVal.obj props => by
    simp only [filterTypesOfPropertiesIfAnyOrArray, typesBounded]
    exact typesBoundedProps_filterProps props
  | JsVal.arr items => by simp only [filterTypesOfPropertiesIfAnyOrArray, typesBounded]
  | JsVal.undefined => rfl
  | JsVal.null => rfl
  | JsVal.bool _ => rfl
  | JsVal.num _ => rfl
  | JsVal.nan => rfl
  | JsVal.str _ => rfl
  | JsVal.date _ => rfl
  | JsVal.regExp _ _ => rfl
  | JsVal.objectID _ => rfl
  | JsVal.binary _ _ => rfl
  | JsVal.timestamp _ _ => rfl
  | JsVal.code _ _ => rfl
  | JsVal.dbRef _ _ _ => rfl
  | JsVal.minKey => rfl
  | JsVal.maxKey => rfl
theorem typesBoundedProps_filterProps :
    ∀ props : List (Str × JsVal), typesBoundedProps (filterProps props) = true
  | [] => rfl
  | (key, value) :: rest => by
    rw [filterProps_cons]
    simp only [typesBoundedProps, Bool.and_eq_true]
    exact ⟨filterValue_bounded value (typesBounded_filter value),
      typesBoundedProps_filterProps rest⟩
end

/-- No node of a schema that `getSchema` returns has a type list of more than two
entries, and a node with such a list is replaced by the node `{type: 'any'}`. -/
theorem type_lists_bounded :
    (∀ (metadata : List JsVal) (schema : JsVal),
      getSchema metadata = some schema → typesBounded schema = true) ∧
    (∀ (props : List (Str × JsVal)) (items : List JsVal),
      lookupProp "type".toList props = JsVal.arr items → items.length > 2 →
      filterValue (JsVal.obj props) = typeOnly (JsVal.str "any".toList)) := by
  constructor
  · intro metadata schema h
    unfold getSchema at h
    split at h
    · cases h
    · split at h
      · cases h
      · cases h
        exact typesBounded_filter _
  · intro props items ht hlen
    have ht' : getProp (JsVal.obj props) "type" = JsVal.arr items := ht
    simp only [filterValue, filterReplacement, ht']
    simp [truthy, isArray, strictEqStr, hlen]

/-! ### Keys that occur in one sample only -/

theorem lookupProp_setInProps (key other : Str) (value : JsVal) (props : List (Str × JsVal)) :
    lookupProp other (setInProps key value props)
      = if key = other then value else lookupProp other props := by
  induction props with
  | nil => simp [setInProps, lookupProp]
  | cons p rest ih =>
    obtain ⟨k, v⟩ := p
    by_cases hk : k = key
    · subst hk
      by_cases ho : k = other
      · simp [setInProps, lookupProp, ho]
      · simp [setInProps, lookupProp, ho]
    · by_cases ho : k = other
      · subst ho
        simp [setInProps, lookupProp, hk, Ne.symm hk]
      · simp [setInProps, lookupProp, hk, ho, ih]

theorem mergeOverObject_obj :
    ∀ (props acc : List (Str × JsVal)) (result : JsVal),
      mergeOverObject props (JsVal.obj acc) = some result → ∃ r, result = JsVal.obj r
  | [], acc, result, h => by
    simp only [mergeOverObject, Option.some.injEq] at h
    exact ⟨acc, h.symm⟩
  | (key, value) :: rest, acc, result, h => by
    rw [mergeOverObject] at h
    split_ifs at h with hc
    · cases hm : mergeArrayItems value (getKey (JsVal.obj acc) key) with
      | none => simp [hm] at h
      | some merged =>
        simp only [hm, setProp] at h
        exact mergeOverObject_obj rest _ result h
    · simp only [setProp] at h
      exact mergeOverObject_obj rest _ result h

theorem mergeOverObject_other_key (key : Str) :
    ∀ (props acc result : List (Str × JsVal)),
      mergeOverObject props (JsVal.obj acc) = some (JsVal.obj result) →
      key ∉ props.map Prod.fst → lookupProp key result = lookupProp key acc
  | [], acc, result, h, _ => by
    simp only [mergeOverObject, Option.some.injEq, JsVal.obj.injEq] at h
    rw [h]
  | (k, value) :: rest, acc, result, h, hk => by
    have hne : k ≠ key := fun e => hk (by simp [e])
    have hrest : key ∉ rest.map Prod.fst := fun e => hk (by simp at e ⊢; exact Or.inr e)
    rw [mergeOverObject] at h
    split_ifs at h with hc
    · cases hm : mergeArrayItems value (getKey (JsVal.obj acc) k) with
      | none => simp [hm] at h
      | some merged =>
        simp only [hm, setProp] at h
        rw [mergeOverObject_other_key key rest _ result h hrest, lookupProp_setInProps,
          if_neg hne]
    · simp only [setProp] at h
      rw [mergeOverObject_other_key key rest _ result h hrest, lookupProp_setInProps,
        if_neg hne]

theorem mergeOverObject_same_key (key : Str) :
    ∀ (props acc₁ acc₂ result₁ result₂ : List (Str × JsVal)),
      mergeOverObject props (JsVal.obj acc₁) = some (JsVal.obj result₁) →
      mergeOverObject props (JsVal.obj acc₂) = some (JsVal.obj result₂) →
      lookupProp key acc₁ = lookupProp key acc₂ →
      lookupProp key result₁ = lookupProp key result₂
  | [], acc₁, acc₂, result₁, result₂, h₁, h₂, hacc => by
    simp only [mergeOverObject, Option.some.injEq, JsVal.obj.injEq] at h₁ h₂
    rw [← h₁, ← h₂]
    exact hacc
  | (k, value) :: rest, acc₁, acc₂, result₁, result₂, h₁, h₂, hacc => by
    have hget : k = key → getKey (JsVal.obj acc₁) k = getKey (JsVal.obj acc₂) k := by
      intro e
      subst e
      exact hacc
    rw [mergeOverObject] at h₁ h₂
    split_ifs at h₁ h₂ with hc
    · cases hm₁ : mergeArrayItems value (getKey (JsVal.obj acc₁) k) with
      | none => simp [hm₁] at h₁
      | some merged₁ =>
        cases hm₂ : mergeArrayItems value (getKey (JsVal.obj acc₂) k) with
        | none => simp [hm₂] at h₂
        | some merged₂ =>
          simp only [hm₁, setProp] at h₁
          simp only [hm₂, setProp] at h₂
          refine mergeOverObject_same_key key rest _ _ result₁ result₂ h₁ h₂ ?_
          rw [lookupProp_setInProps, lookupProp_setInProps]
          by_cases e : k = key
          · rw [if_pos e, if_pos e]
            rw [hget e] at hm₁
            rw [hm₁] at hm₂
            exact Option.some.inj hm₂
          · rw [if_neg e, if_neg e]
            exact hacc
    · simp only [setProp] at h₁ h₂
      refine mergeOverObject_same_key key rest _ _ result₁ result₂ h₁ h₂ ?_
      rw [lookupProp_setInProps, lookupProp_setInProps]
      by_cases e : k = key
      · rw [if_pos e, if_pos e, hget e]
      · rw [if_neg e, if_neg e]
        exact hacc
theorem isPlainObject_ite (c : Prop) [Decidable c] (a b : JsVal)
    (ha : isPlainObject a = true) (hb : isPlainObject b = true) :
    isPlainObject (if c then a else b) = true := by
  split_ifs <;> assumption

theorem isPlainObject_keyMark (c : Prop) [Decidable c] (properties : JsVal) :
    isPlainObject properties = true →
    isPlainObject (if c then
        match properties with
        | JsVal.obj props => JsVal.obj (props ++ [("key".toList, JsVal.bool true)])
        | other => other
      else properties) = true := by
  intro h
  cases properties <;> first
    | (simp [isPlainObject] at h; done)
    | (split_ifs <;> rfl)

theorem isPlainObject_getValidationObjectOfSingleElements (data key : Str) :
    isPlainObject (getValidationObjectOfSingleElements data key) = true := by
  unfold getValidationObjectOfSingleElements
  apply isPlainObject_keyMark
  repeat (first | rfl | apply isPlainObject_ite)

theorem schemaEntry_plain (key : Str) (value node : JsVal)
    (sub : Option (List (Str × JsVal)))
    (h : schemaEntry key value sub = some (some node)) : isPlainObject node = true := by
  unfold schemaEntry at h
  split at h
  · split at h
    · cases h
    · cases h; rfl
  · split at h
    · cases h
    · split at h
      · cases h
      · cases h; rfl
  · cases h
    exact isPlainObject_getValidationObjectOfSingleElements _ _
  · cases h

theorem schemaOfProps_entries :
    ∀ (props schema : List (Str × JsVal)), schemaOfProps props = some schema →
      ∀ p ∈ schema, p.1 ∈ props.map Prod.fst ∧ isPlainObject p.2 = true
  | [], schema, h, p, hp => by
    simp only [schemaOfProps, Option.some.injEq] at h
    subst h
    cases hp
  | (key, value) :: rest, schema, h, p, hp => by
    rw [schemaOfProps] at h
    split at h
    · cases h
    · rename_i entry he
      split at h
      · cases h
      · rename_i props hr
        have ih := schemaOfProps_entries rest props hr
        split at h
        · rename_i node
          cases h
          rcases List.mem_cons.1 hp with e | e
          · subst e
            exact ⟨by simp, schemaEntry_plain key value node _ he⟩
          · exact ⟨by simp [(ih p e).1], (ih p e).2⟩
        · cases h
          exact ⟨by simp [(ih p hp).1], (ih p hp).2⟩

theorem lookupProp_plain (key : Str) :
    ∀ (props : List (Str × JsVal)), (∀ p ∈ props, isPlainObject p.2 = true) →
      lookupProp key props = JsVal.undefined ∨ isPlainObject (lookupProp key props) = true
  | [], _ => Or.inl rfl
  | (k, v) :: rest, h => by
    by_cases e : k = key
    · right
      simp only [lookupProp, if_pos e]
      exact h (k, v) (List.mem_cons_self _ _)
    · simp only [lookupProp, if_neg e]
      exact lookupProp_plain key rest (fun p hp => h p (List.mem_cons_of_mem _ hp))

theorem setInProps_plain (key : Str) (value : JsVal) (hv : isPlainObject value = true) :
    ∀ (props : List (Str × JsVal)), (∀ p ∈ props, isPlainObject p.2 = true) →
      ∀ p ∈ setInProps key value props, isPlainObject p.2 = true
  | [], _, p, hp => by
    simp only [setInProps, List.mem_singleton] at hp
    subst hp
    exact hv
  | (k, v) :: rest, h, p, hp => by
    simp only [setInProps] at hp
    split_ifs at hp with e
    · rcases List.mem_cons.1 hp with e' | e'
      · subst e'; exact hv
      · exact h p (List.mem_cons_of_mem _ e')
    · rcases List.mem_cons.1 hp with e' | e'
      · subst e'; exact h (k, v) (List.mem_cons_self _ _)
      · exact setInProps_plain key value hv rest
          (fun q hq => h q (List.mem_cons_of_mem _ hq)) p e'

theorem mergeArrayItems_plain (value current merged : JsVal)
    (hv : isPlainObject value = true)
    (hc : current = JsVal.undefined ∨ isPlainObject current = true)
    (h : mergeArrayItems value current = some merged) : isPlainObject merged = true := by
  cases value with
  | obj props =>
    rw [mergeArrayItems] at h
    have : ∃ acc, jsOr current (JsVal.obj []) = JsVal.obj acc := by
      rcases hc with e | e
      · subst e; exact ⟨[], rfl⟩
      · cases current <;> simp [isPlainObject] at e
        exact ⟨_, rfl⟩
    obtain ⟨acc, hacc⟩ := this
    rw [hacc] at h
    obtain ⟨r, hr⟩ := mergeOverObject_obj props acc merged h
    subst hr
    rfl
  | _ => simp [isPlainObject] at hv

theorem mergeOverObject_plain :
    ∀ (props acc result : List (Str × JsVal)),
      mergeOverObject props (JsVal.obj acc) = some (JsVal.obj result) →
      (∀ p ∈ props, isPlainObject p.2 = true) → (∀ p ∈ acc, isPlainObject p.2 = true) →
      ∀ p ∈ result, isPlainObject p.2 = true
  | [], acc, result, h, _, hacc => by
    simp only [mergeOverObject, Option.some.injEq, JsVal.obj.injEq] at h
    subst h
    exact hacc
  | (k, value) :: rest, acc, result, h, hprops, hacc => by
    have hv : isPlainObject value = true := hprops (k, value) (List.mem_cons_self _ _)
    have hrest : ∀ p ∈ rest, isPlainObject p.2 = true :=
      fun p hp => hprops p (List.mem_cons_of_mem _ hp)
    rw [mergeOverObject] at h
    split_ifs at h with hc
    · cases hm : mergeArrayItems value (getKey (JsVal.obj acc) k) with
      | none => simp [hm] at h
      | some merged =>
        simp only [hm, setProp] at h
        have hmerged := mergeArrayItems_plain value _ merged hv (lookupProp_plain k acc hacc) hm
        exact mergeOverObject_plain rest _ result h hrest
          (setInProps_plain k merged hmerged acc hacc)
    · simp [hv] at hc
theorem mergeOverArray_obj_cons (props : List (Str × JsVal)) (rest : List JsVal)
    (acc : List (Str × JsVal)) :
    mergeOverArray (JsVal.obj props :: rest) (JsVal.obj acc)
      = (mergeOverObject props (JsVal.obj acc)).bind (mergeOverArray rest) := by
  rw [mergeOverArray]
  have h1 : (!isString (JsVal.obj props)) = true := rfl
  rw [if_pos h1, mergeArrayItems]
  have h2 : jsOr (JsVal.obj acc) (JsVal.obj []) = JsVal.obj acc := rfl
  rw [h2]
  cases mergeOverObject props (JsVal.obj acc) <;> rfl

theorem mergeArrayItems_schemata (schemata : List JsVal) :
    mergeArrayItems (JsVal.arr schemata) JsVal.undefined
      = mergeOverArray schemata (JsVal.obj []) := by
  rw [mergeArrayItems]
  rfl

theorem getSchema_one (propsA : List (Str × JsVal)) (schema : JsVal)
    (h : getSchema [JsVal.obj propsA] = some schema) :
    ∃ sA pA, schemaOfProps propsA = some sA ∧
      mergeOverObject sA (JsVal.obj []) = some (JsVal.obj pA) ∧
      schema = filterTypesOfPropertiesIfAnyOrArray
        (JsVal.obj [("properties".toList, JsVal.obj pA)]) := by
  unfold getSchema at h
  cases hA : schemaOfProps propsA with
  | none => simp [documentSchemata, createSchemaOfEachDocument, hA] at h
  | some sA =>
    simp only [documentSchemata, createSchemaOfEachDocument, hA] at h
    have hm : mergeArrayItems (JsVal.arr [JsVal.obj sA]) JsVal.undefined
        = mergeOverObject sA (JsVal.obj []) := by
      rw [mergeArrayItems_schemata, mergeOverArray_obj_cons]
      cases mergeOverObject sA (JsVal.obj []) <;> simp [mergeOverArray]
    rw [hm] at h
    cases hP : mergeOverObject sA (JsVal.obj []) with
    | none => simp [hP] at h
    | some properties =>
      obtain ⟨pA, hpA⟩ := mergeOverObject_obj sA [] properties hP
      subst hpA
      simp only [hP, Option.some.injEq] at h
      exact ⟨sA, pA, rfl, hP, h.symm⟩

theorem getSchema_two (propsA propsB : List (Str × JsVal)) (schema : JsVal)
    (h : getSchema [JsVal.obj propsA, JsVal.obj propsB] = some schema) :
    ∃ sA sB pA pAB, schemaOfProps propsA = some sA ∧ schemaOfProps propsB = some sB ∧
      mergeOverObject sA (JsVal.obj []) = some (JsVal.obj pA) ∧
      mergeOverObject sB (JsVal.obj pA) = some (JsVal.obj pAB) ∧
      schema = filterTypesOfPropertiesIfAnyOrArray
        (JsVal.obj [("properties".toList, JsVal.obj pAB)]) := by
  unfold getSchema at h
  cases hA : schemaOfProps propsA with
  | none => simp [documentSchemata, createSchemaOfEachDocument, hA] at h
  | some sA =>
    cases hB : schemaOfProps propsB with
    | none => simp [documentSchemata, createSchemaOfEachDocument, hA, hB] at h
    | some sB =>
      simp only [documentSchemata, createSchemaOfEachDocument, hA, hB] at h
      cases hP : mergeOverObject sA (JsVal.obj []) with
      | none =>
        rw [mergeArrayItems_schemata, mergeOverArray_obj_cons, hP] at h
        simp at h
      | some properties =>
        obtain ⟨pA, hpA⟩ := mergeOverObject_obj sA [] properties hP
        subst hpA
        have hm : mergeArrayItems (JsVal.arr [JsVal.obj sA, JsVal.obj sB]) JsVal.undefined
            = mergeOverObject sB (JsVal.obj pA) := by
          rw [mergeArrayItems_schemata, mergeOverArray_obj_cons, hP]
          show mergeOverArray [JsVal.obj sB] (JsVal.obj pA) = _
          rw [mergeOverArray_obj_cons]
          cases mergeOverObject sB (JsVal.obj pA) <;> simp [mergeOverArray]
        rw [hm] at h
        cases hQ : mergeOverObject sB (JsVal.obj pA) with
        | none => simp [hQ] at h
        | some merged =>
          obtain ⟨pAB, hpAB⟩ := mergeOverObject_obj sB pA merged hQ
          subst hpAB
          simp only [hQ, Option.some.injEq] at h
          exact ⟨sA, sB, pA, pAB, rfl, rfl, hP, hQ, h.symm⟩

theorem schemaNode_filter (properties : List (Str × JsVal)) (key : Str)
    (h : ∀ p ∈ properties, isPlainObject p.2 = true) :
    schemaNode (filterTypesOfPropertiesIfAnyOrArray
        (JsVal.obj [("properties".toList, JsVal.obj properties)])) key
      = filterValue (lookupProp key properties) := by
  have hr : filterReplacement (JsVal.obj properties) = none := by
    have ht : getProp (JsVal.obj properties) "type" = lookupProp "type".toList properties := rfl
    unfold filterReplacement
    simp only [ht]
    rcases lookupProp_plain "type".toList properties h with e | e
    · rw [e]; rfl
    · cases hv : lookupProp "type".toList properties <;> rw [hv] at e <;>
        first | (simp [isPlainObject] at e; done) | rfl
  have hv : filterValue (JsVal.obj properties) = JsVal.obj (filterProps properties) := by
    simp only [filterValue, hr, truthy, isObject, if_true, filterTypesOfPropertiesIfAnyOrArray]
  have hf : filterTypesOfPropertiesIfAnyOrArray
      (JsVal.obj [("properties".toList, JsVal.obj properties)])
      = JsVal.obj [("properties".toList, JsVal.obj (filterProps properties))] := by
    rw [filterTypesOfPropertiesIfAnyOrArray, filterProps_cons, hv]
    rfl
  rw [hf]
  exact lookupProp_filterProps key properties
/-- A key that does not occur in the second of two documents: whenever `getSchema`
returns, the node of the key is the one of the first document alone. -/
theorem key_of_one_sample (propsA propsB : List (Str × JsVal)) (key : Str)
    (schemaA : JsVal) (hkey : key ∉ propsB.map Prod.fst)
    (hA : getSchema [JsVal.obj propsA] = some schemaA) :
    (∀ schemaAB, getSchema [JsVal.obj propsA, JsVal.obj propsB] = some schemaAB →
      schemaNode schemaAB key = schemaNode schemaA key) ∧
    (∀ schemaBA, getSchema [JsVal.obj propsB, JsVal.obj propsA] = some schemaBA →
      schemaNode schemaBA key = schemaNode schemaA key) := by
  obtain ⟨sA, pA, hsA, hpA, hschemaA⟩ := getSchema_one propsA schemaA hA
  have plainA := fun p hp => (schemaOfProps_entries propsA sA hsA p hp).2
  have plainPA := mergeOverObject_plain sA [] pA hpA plainA (fun p hp => by cases hp)
  have nodeA := schemaNode_filter pA key plainPA
  rw [← hschemaA] at nodeA
  constructor
  · intro schemaAB hAB
    obtain ⟨sA', sB, pA', pAB, hsA', hsB, hpA', hpAB, hschemaAB⟩ :=
      getSchema_two propsA propsB schemaAB hAB
    rw [hsA] at hsA'
    cases hsA'
    rw [hpA] at hpA'
    cases hpA'
    have plainB := fun p hp => (schemaOfProps_entries propsB sB hsB p hp).2
    have hkeyB : key ∉ sB.map Prod.fst := by
      intro hmem
      obtain ⟨p, hp, hpk⟩ := List.mem_map.1 hmem
      exact hkey (hpk ▸ (schemaOfProps_entries propsB sB hsB p hp).1)
    have plainPAB := mergeOverObject_plain sB pA pAB hpAB plainB plainPA
    rw [hschemaAB, schemaNode_filter pAB key plainPAB, nodeA,
      mergeOverObject_other_key key sB pA pAB hpAB hkeyB]
  · intro schemaBA hBA
    obtain ⟨sB, sA', pB, pBA, hsB, hsA', hpB, hpBA, hschemaBA⟩ :=
      getSchema_two propsB propsA schemaBA hBA
    rw [hsA] at hsA'
    cases hsA'
    have plainB := fun p hp => (schemaOfProps_entries propsB sB hsB p hp).2
    have hkeyB : key ∉ sB.map Prod.fst := by
      intro hmem
      obtain ⟨p, hp, hpk⟩ := List.mem_map.1 hmem
      exact hkey (hpk ▸ (schemaOfProps_entries propsB sB hsB p hp).1)
    have plainPB := mergeOverObject_plain sB [] pB hpB plainB (fun p hp => by cases hp)
    have plainPBA := mergeOverObject_plain sA pB pBA hpBA plainA plainPB
    have hstart : lookupProp key pB = lookupProp key [] :=
      mergeOverObject_other_key key sB [] pB hpB hkeyB
    rw [hschemaBA, schemaNode_filter pBA key plainPBA, nodeA,
      mergeOverObject_same_key key sA pB [] pBA pA hpBA hpA hstart]

/-! ### Sibling keys beside a failing key -/

theorem threads_ite (c : Prop) [Decidable c]
    (step₁ step₂ : Option Str → Option (Option Str × JsVal))
    (h₁ : ∀ error, step₁ error = (step₁ none).map (fun r => (r.1 <|> error, r.2)))
    (h₂ : ∀ error, step₂ error = (step₂ none).map (fun r => (r.1 <|> error, r.2))) :
    ∀ error, (if c then step₁ error else step₂ error)
      = (if c then step₁ none else step₂ none).map (fun r => (r.1 <|> error, r.2)) := by
  intro error
  split_ifs
  · exact h₁ error
  · exact h₂ error

set_option maxHeartbeats 4000000 in
theorem materializeValue_error (lib : Lib) (option : SaveOption) (key : Str) (value : JsVal) :
    ∀ error, materializeValue lib option key value error
      = (materializeValue lib option key value none).map (fun r => (r.1 <|> error, r.2)) := by
  unfold materializeValue
  dsimp only
  repeat' apply threads_ite
  all_goals
    intro error
    first
      | rfl
      | (split <;> rfl)
      | (split <;> first | rfl | (split <;> rfl))
theorem keeps_ite (value : JsVal) (c : Prop) [Decidable c]
    (step₁ step₂ : Option (Option Str × JsVal))
    (h₁ : ∀ message out, step₁ = some (some message, out) → out = value)
    (h₂ : ∀ message out, step₂ = some (some message, out) → out = value) :
    ∀ message out, (if c then step₁ else step₂) = some (some message, out) → out = value := by
  intro message out h
  split_ifs at h
  · exact h₁ message out h
  · exact h₂ message out h

set_option maxHeartbeats 4000000 in
theorem materializeValue_keeps_failing (lib : Lib) (option : SaveOption) (key : Str)
    (value : JsVal) :
    ∀ message out, materializeValue lib option key value none = some (some message, out) →
      out = value := by
  unfold materializeValue
  dsimp only
  repeat' apply keeps_ite
  all_goals
    intro message out h
    first
      | (cases h; rfl)
      | cases h
      | (split at h <;> first
          | (cases h; rfl)
          | cases h
          | (split at h <;> cases h))

theorem materializeValue_data (lib : Lib) (option : SaveOption) (key : Str) (value out : JsVal)
    (error₁ error₂ result₁ : Option Str)
    (h : materializeValue lib option key value error₁ = some (result₁, out)) :
    ∃ result₂, materializeValue lib option key value error₂ = some (result₂, out) := by
  rw [materializeValue_error] at h
  rw [materializeValue_error lib option key value error₂]
  cases hn : materializeValue lib option key value none with
  | none => simp [hn] at h
  | some r =>
    simp only [hn, Option.map_some', Option.some.injEq, Prod.mk.injEq] at h ⊢
    exact ⟨_, rfl, h.2⟩

theorem saveEntry_data (lib : Lib) (option : SaveOption) (key : Str) (value out : JsVal)
    (recursed : Option (Option Str × JsVal)) (error₁ error₂ result₁ : Option Str)
    (h : saveEntry lib option key value recursed error₁ = some (result₁, out)) :
    ∃ result₂, saveEntry lib option key value recursed error₂ = some (result₂, out) := by
  unfold saveEntry at h ⊢
  split_ifs at h ⊢
  · cases recursed with
    | none => cases h
    | some r =>
      obtain ⟨err, res⟩ := r
      exact materializeValue_data lib option key res out _ _ result₁ h
  · exact materializeValue_data lib option key value out _ _ result₁ h

theorem saveProps_data (lib : Lib) (option : SaveOption) :
    ∀ (props out : List (Str × JsVal)) (error₁ error₂ result₁ : Option Str),
      saveProps lib option error₁ props = some (result₁, out) →
      ∃ result₂, saveProps lib option error₂ props = some (result₂, out)
  | [], out, error₁, error₂, result₁, h => by
    simp only [saveProps, Option.some.injEq, Prod.mk.injEq] at h ⊢
    exact ⟨error₂, rfl, h.2⟩
  | (key, value) :: rest, out, error₁, error₂, result₁, h => by
    rw [saveProps] at h ⊢
    split at h
    · cases h
    · rename_i e₁ value' h₁
      obtain ⟨e₂, h₂⟩ := saveEntry_data lib option key value value' _ error₁ error₂ e₁ h₁
      rw [h₂]
      dsimp only
      split at h
      · cases h
      · rename_i e₁' rest' hr₁
        obtain ⟨e₂', hr₂⟩ := saveProps_data lib option rest rest' e₁ e₂ e₁' hr₁
        rw [hr₂]
        cases h
        exact ⟨e₂', rfl⟩

theorem saveProps_keys (lib : Lib) (option : SaveOption) :
    ∀ (props out : List (Str × JsVal)) (error result : Option Str),
      saveProps lib option error props = some (result, out) →
      out.map Prod.fst = props.map Prod.fst
  | [], out, error, result, h => by
    simp only [saveProps, Option.some.injEq, Prod.mk.injEq] at h
    rw [← h.2]
  | (key, value) :: rest, out, error, result, h => by
    rw [saveProps] at h
    split at h
    · cases h
    · split at h
      · cases h
      · rename_i e rest' hr
        cases h
        simp only [List.map_cons, saveProps_keys lib option rest rest' _ _ hr]

theorem saveProps_append (lib : Lib) (option : SaveOption) (key : Str) (value : JsVal)
    (after : List (Str × JsVal)) :
    ∀ (before out : List (Str × JsVal)) (error result : Option Str),
      saveProps lib option error (before ++ (key, value) :: after) = some (result, out) →
      ∃ errBefore outBefore errKey value' outAfter,
        saveProps lib option error before = some (errBefore, outBefore) ∧
        saveEntry lib option key value
          (convertDateTimeAndIdsInDocumentToSave lib option value) errBefore
          = some (errKey, value') ∧
        saveProps lib option errKey after = some (result, outAfter) ∧
        out = outBefore ++ (key, value') :: outAfter
  | [], out, error, result, h => by
    rw [List.nil_append, saveProps] at h
    split at h
    · cases h
    · rename_i errKey value' hk
      split at h
      · cases h
      · rename_i e outAfter ha
        cases h
        exact ⟨error, [], errKey, value', outAfter, by rw [saveProps], hk, ha, rfl⟩
  | (k, v) :: before, out, error, result, h => by
    rw [List.cons_append, saveProps] at h
    split at h
    · cases h
    · rename_i e v' hv
      split at h
      · cases h
      · rename_i e' out' hr
        cases h
        obtain ⟨errBefore, outBefore, errKey, value', outAfter, h₁, h₂, h₃, h₄⟩ :=
          saveProps_append lib option key value after before out' _ _ hr
        refine ⟨errBefore, (k, v') :: outBefore, errKey, value', outAfter, ?_, h₂, h₃, ?_⟩
        · rw [saveProps, hv]
          dsimp only
          rw [h₁]
        · rw [h₄]
          rfl
/-- C12 (amended): when the sentinel string under one key of a document fails its
check and the error is reported for it, the document handed back has the
keys of the input in their order, the failing key holds the string it held
before, and every other key holds the value that the conversion of its part
of the document alone, with no error reported before it, gives for it. -/
theorem failing_key_keeps_siblings (lib : Lib) (option : SaveOption)
    (before after : List (Str × JsVal)) (key text message : Str) (kept : JsVal)
    (result : Option Str × JsVal)
    (hfail : materializeValue lib option key (JsVal.str text) none = some (some message, kept))
    (h : convertDateTimeAndIdsInDocumentToSave lib option
      (JsVal.obj (before ++ (key, JsVal.str text) :: after)) = some result) :
    ∃ outBefore outAfter errBefore errAfter,
      saveProps lib option none before = some (errBefore, outBefore) ∧
      saveProps lib option none after = some (errAfter, outAfter) ∧
      result.2 = JsVal.obj (outBefore ++ (key, JsVal.str text) :: outAfter) ∧
      outBefore.map Prod.fst = before.map Prod.fst ∧
      outAfter.map Prod.fst = after.map Prod.fst := by
  rw [convertDateTimeAndIdsInDocumentToSave] at h
  split at h
  · rename_i error props hp
    cases h
    obtain ⟨errBefore, outBefore, errKey, value', outAfter, h₁, h₂, h₃, h₄⟩ :=
      saveProps_append lib option key (JsVal.str text) after before props none error hp
    have hentry : saveEntry lib option key (JsVal.str text)
        (convertDateTimeAndIdsInDocumentToSave lib option (JsVal.str text)) errBefore
        = materializeValue lib option key (JsVal.str text) errBefore := rfl
    rw [hentry] at h₂
    obtain ⟨r, hr⟩ := materializeValue_data lib option key (JsVal.str text) value'
      errBefore none errKey h₂
    rw [hfail] at hr
    cases hr
    have hkept := materializeValue_keeps_failing lib option key (JsVal.str text) message kept
      hfail
    subst hkept
    obtain ⟨errAfter, h₅⟩ := saveProps_data lib option after outAfter errKey none error h₃
    exact ⟨outBefore, outAfter, errBefore, errAfter, h₁, h₅, by rw [h₄],
      saveProps_keys lib option before outBefore none errBefore h₁,
      saveProps_keys lib option after outAfter none errAfter h₅⟩
  · cases h

set_option maxRecDepth 100000 in
/-- C12 (witness): in edit mode the key `b` of `{a: '##/ab/i', b: '##ObjectId(x)',
c: '##ObjectId(507f191e810c19729de860ea)'}` fails; `a` and `c` are
materialized as they are without `b`. -/
theorem failing_key_keeps_siblings_witness :
    ∃ outBefore outAfter errBefore errAfter,
      saveProps exampleLib SaveOption.edit none [("a".toList, jstr "##/ab/i")]
        = some (errBefore, outBefore) ∧
      saveProps exampleLib SaveOption.edit none
          [("c".toList, jstr "##ObjectId(507f191e810c19729de860ea)")]
        = some (errAfter, outAfter) ∧
      (some "Value \"x\" of key \"b\" is no valid ObjectId, please check your input.".toList,
        JsVal.obj [("a".toList, JsVal.regExp "ab".toList "i".toList),
          ("b".toList, jstr "##ObjectId(x)"),
          ("c".toList, JsVal.objectID
            (exampleLib.createFromHexString "507f191e810c19729de860ea".toList))]).2
        = JsVal.obj (outBefore ++ ("b".toList, JsVal.str "##ObjectId(x)".toList) :: outAfter) ∧
      outBefore.map Prod.fst = ["a".toList] ∧
      outAfter.map Prod.fst = ["c".toList] :=
  failing_key_keeps_siblings exampleLib SaveOption.edit [("a".toList, jstr "##/ab/i")]
    [("c".toList, jstr "##ObjectId(507f191e810c19729de860ea)")] "b".toList
    "##ObjectId(x)".toList
    "Value \"x\" of key \"b\" is no valid ObjectId, please check your input.".toList
    (jstr "##ObjectId(x)")
    (some "Value \"x\" of key \"b\" is no valid ObjectId, please check your input.".toList,
      JsVal.obj [("a".toList, JsVal.regExp "ab".toList "i".toList),
        ("b".toList, jstr "##ObjectId(x)"),
        ("c".toList, JsVal.objectID
          (exampleLib.createFromHexString "507f191e810c19729de860ea".toList))])
    rfl rfl

/-! ### The tagger on plain documents -/

set_option maxRecDepth 100000 in
/-- C15 (counterexample): the document under `a` has a property `_bsontype`, and the
tagger takes it for a driver value: its tag is the text of that property, not
the map of the tags of its values. -/
theorem populateMetadata_bsontype_key :
    populateMetadata exampleLib (jobj [("a", jobj [("_bsontype", jstr "x")])])
      = some (jobj [("a", jstr "x")]) ∧
    referenceTag (jobj [("a", jobj [("_bsontype", jstr "x")])])
      = jobj [("a", jobj [("_bsontype", jstr "string")])] ∧
    jobj [("a", jstr "x")] ≠ jobj [("a", jobj [("_bsontype", jstr "string")])] := by
  refine ⟨rfl, rfl, ?_⟩
  simp [jobj, jstr]

set_option maxRecDepth 100000 in
/-- A document with an own key `hasOwnProperty` makes the loop over its keys throw,
also when the document lies inside an array; `NaN` is left without metadata. -/
theorem populateMetadata_outside_plain_documents :
    populateMetadata exampleLib (jobj [("a", JsVal.num 1), ("hasOwnProperty", JsVal.num 2)])
      = none ∧
    populateMetadata exampleLib (JsVal.arr [jobj [("hasOwnProperty", JsVal.num 2)]]) = none ∧
    populateMetadata exampleLib (jobj [("a", JsVal.nan)])
      = some (jobj [("a", JsVal.undefined)]) :=
  ⟨rfl, rfl, rfl⟩

theorem bsontype_of_plain (value : JsVal) (h : isPlainTree value = true) :
    (truthy value && truthy (getProp value "_bsontype")) = false := by
  cases value with
  | obj props =>
    simp only [isPlainTree, Bool.and_eq_true, Bool.not_eq_true'] at h
    have hb : truthy (getProp (JsVal.obj props) "_bsontype") = false := h.1.1
    rw [hb, Bool.and_false]
  | bool _ => exact Bool.and_false _
  | num _ => exact Bool.and_false _
  | str _ => exact Bool.and_false _
  | _ => first | rfl | simp [isPlainTree] at h

mutual
theorem populateMetadata_plain (lib : Lib)
    (hregex : ∀ value, isArray value = true ∨ isPlainObject value = true →
      lib.formatsRegex value = false) :
    ∀ value : JsVal, isPlainTree value = true →
      populateMetadata lib value = some (referenceTag value)
  | JsVal.null, _ => rfl
  | JsVal.bool _, _ => rfl
  | JsVal.num _, _ => rfl
  | JsVal.str _, _ => rfl
  | JsVal.arr items, h => by
    simp only [isPlainTree] at h
    have hr := hregex (JsVal.arr items) (Or.inl rfl)
    simp only [populateMetadata, populateLeaf, hr, referenceTag,
      populateItems_plain lib hregex items h, Bool.false_eq_true, if_false]
    split <;> rfl
  | JsVal.obj props, h => by
    simp only [isPlainTree, Bool.and_eq_true, Bool.not_eq_true', decide_eq_false_iff_not] at h
    have hr := hregex (JsVal.obj props) (Or.inr rfl)
    have hb : truthy (getProp (JsVal.obj props) "_bsontype") = false := h.1.1
    simp only [populateMetadata, populateLeaf, hr, hb, referenceTag, if_neg h.1.2,
      populateProps_plain lib hregex props h.2, Bool.false_eq_true, if_false]
  | JsVal.undefined, h => by simp [isPlainTree] at h
  | JsVal.nan, h => by simp [isPlainTree] at h
  | JsVal.date _, h => by simp [isPlainTree] at h
  | JsVal.regExp _ _, h => by simp [isPlainTree] at h
  | JsVal.objectID _, h => by simp [isPlainTree] at h
  | JsVal.binary _ _, h => by simp [isPlainTree] at h
  | JsVal.timestamp _ _, h => by simp [isPlainTree] at h
  | JsVal.code _ _, h => by simp [isPlainTree] at h
  | JsVal.dbRef _ _ _, h => by simp [isPlainTree] at h
  | JsVal.minKey, h => by simp [isPlainTree] at h
  | JsVal.maxKey, h => by simp [isPlainTree] at h
theorem populateItems_plain (lib : Lib)
    (hregex : ∀ value, isArray value = true ∨ isPlainObject value = true →
      lib.formatsRegex value = false) :
    ∀ items : List JsVal, isPlainTreeItems items = true →
      populateItems lib items = some (referenceTagItems items)
  | [], _ => rfl
  | item :: rest, h => by
    simp only [isPlainTreeItems, Bool.and_eq_true] at h
    simp only [populateItems, referenceTagItems, bsontype_of_plain item h.1,
      populateMetadata_plain lib hregex item h.1, populateItems_plain lib hregex rest h.2]
    rfl
theorem populateProps_plain (lib : Lib)
    (hregex : ∀ value, isArray value = true ∨ isPlainObject value = true →
      lib.formatsRegex value = false) :
    ∀ props : List (Str × JsVal), isPlainTreeProps props = true →
      populateProps lib props = some (referenceTagProps props)
  | [], _ => rfl
  | (key, value) :: rest, h => by
    simp only [isPlainTreeProps, Bool.and_eq_true] at h
    simp only [populateProps, referenceTagProps, populateMetadata_plain lib hregex value h.1,
      populateProps_plain lib hregex rest h.2]
end

/-- C15 (amended): for every document built from `null`, booleans, numbers, strings,
arrays and nested documents in which no document has a truthy property
`_bsontype` or a key named `hasOwnProperty`, and a regex format of the
validation library that accepts no array and no document, `populateMetadata`
returns the tags of the reference tagger. -/
theorem populateMetadata_eq_referenceTag (lib : Lib) (document : JsVal)
    (hregex : ∀ value, isArray value = true ∨ isPlainObject value = true →
      lib.formatsRegex value = false)
    (hplain : isPlainTree document = true) :
    populateMetadata lib document = some (referenceTag document) :=
  populateMetadata_plain lib hregex document hplain

set_option maxRecDepth 100000 in
/-- C15 (witness): the document `{a: 1, b: [1, 'x']}` is tagged
`{a: 'integer', b: ['integer', 'string']}`. -/
theorem populateMetadata_eq_referenceTag_witness :
    isPlainTree (jobj [("a", JsVal.num 1), ("b", JsVal.arr [JsVal.num 1, jstr "x"])]) = true ∧
    referenceTag (jobj [("a", JsVal.num 1), ("b", JsVal.arr [JsVal.num 1, jstr "x"])])
      = jobj [("a", jstr "integer"), ("b", JsVal.arr [jstr "integer", jstr "string"])] ∧
    populateMetadata exampleLib
        (jobj [("a", JsVal.num 1), ("b", JsVal.arr [JsVal.num 1, jstr "x"])])
      = some (referenceTag (jobj [("a", JsVal.num 1), ("b", JsVal.arr [JsVal.num 1, jstr "x"])])) :=
  ⟨rfl, rfl, populateMetadata_eq_referenceTag exampleLib
    (jobj [("a", JsVal.num 1), ("b", JsVal.arr [JsVal.num 1, jstr "x"])])
    (fun value hv => by
      cases value <;> first | rfl | simp [isArray, isPlainObject] at hv)
    rfl⟩

/-! ### Merging a sample twice -/

theorem mergeOverObject_cons (key : Str) (value : JsVal) (rest acc : List (Str × JsVal)) :
    mergeOverObject ((key, value) :: rest) (JsVal.obj acc)
      = (entryStep value (lookupProp key acc)).bind
          (fun merged => mergeOverObject rest (JsVal.obj (setInProps key merged acc))) := by
  have hg : getKey (JsVal.obj acc) key = lookupProp key acc := rfl
  rw [mergeOverObject, entryStep, hg]
  split_ifs with hc
  · cases mergeArrayItems value (lookupProp key acc) <;> rfl
  · rfl

theorem mergeOverObject_not_obj (key : Str) (value : JsVal) (rest : List (Str × JsVal))
    (acc : JsVal) (h : isPlainObject acc = false) :
    mergeOverObject ((key, value) :: rest) acc = none := by
  rw [mergeOverObject]
  cases acc <;> first
    | (simp [isPlainObject] at h; done)
    | (split_ifs <;> first | rfl | (split <;> rfl))

theorem mergeOverObject_entries :
    ∀ (props acc result : List (Str × JsVal)),
      mergeOverObject props (JsVal.obj acc) = some (JsVal.obj result) →
      (props.map Prod.fst).Nodup →
      ∀ p ∈ props, entryStep p.2 (lookupProp p.1 acc) = some (lookupProp p.1 result)
  | [], _, _, _, _, p, hp => by cases hp
  | (k, v) :: rest, acc, result, h, hnodup, p, hp => by
    rw [mergeOverObject_cons] at h
    simp only [List.map_cons, List.nodup_cons] at hnodup
    cases hs : entryStep v (lookupProp k acc) with
    | none => simp [hs] at h
    | some merged =>
      simp only [hs, Option.some_bind] at h
      rcases List.mem_cons.1 hp with e | e
      · subst e
        simp only
        rw [hs, mergeOverObject_other_key k rest _ result h hnodup.1, lookupProp_setInProps,
          if_pos rfl]
      · have hne : k ≠ p.1 := by
          intro e'
          exact hnodup.1 (e' ▸ List.mem_map_of_mem Prod.fst e)
        have ih := mergeOverObject_entries rest _ result h hnodup.2 p e
        rw [lookupProp_setInProps, if_neg hne] at ih
        exact ih

theorem mem_keys_setInProps (key other : Str) (value : JsVal) (props : List (Str × JsVal)) :
    other ∈ (setInProps key value props).map Prod.fst ↔
      other = key ∨ other ∈ props.map Prod.fst := by
  induction props with
  | nil => simp [setInProps]
  | cons p rest ih =>
    obtain ⟨k, v⟩ := p
    simp only [setInProps]
    split_ifs with e
    · subst e
      simp
    · simp only [List.map_cons, List.mem_cons, ih]
      tauto

theorem mergeOverObject_keys :
    ∀ (props acc result : List (Str × JsVal)),
      mergeOverObject props (JsVal.obj acc) = some (JsVal.obj result) →
      ∀ key, key ∈ result.map Prod.fst ↔
        key ∈ props.map Prod.fst ∨ key ∈ acc.map Prod.fst
  | [], acc, result, h, key => by
    simp only [mergeOverObject, Option.some.injEq, JsVal.obj.injEq] at h
    subst h
    simp
  | (k, v) :: rest, acc, result, h, key => by
    rw [mergeOverObject_cons] at h
    cases hs : entryStep v (lookupProp k acc) with
    | none => simp [hs] at h
    | some merged =>
      simp only [hs, Option.some_bind] at h
      rw [mergeOverObject_keys rest _ result h key, mem_keys_setInProps]
      simp only [List.map_cons, List.mem_cons]
      tauto

theorem setInProps_self (key : Str) :
    ∀ props : List (Str × JsVal), key ∈ props.map Prod.fst →
      setInProps key (lookupProp key props) props = props
  | [], h => by cases h
  | (k, v) :: rest, h => by
    by_cases e : k = key
    · simp [setInProps, lookupProp, e]
    · have hrest : key ∈ rest.map Prod.fst := by
        simp only [List.map_cons, List.mem_cons] at h
        rcases h with h | h
        · exact absurd h.symm e
        · exact h
      simp [setInProps, lookupProp, e, setInProps_self key rest hrest]

theorem mergeOverObject_fixed (result : List (Str × JsVal)) :
    ∀ (props : List (Str × JsVal)),
      (∀ p ∈ props, p.1 ∈ result.map Prod.fst ∧
        entryStep p.2 (lookupProp p.1 result) = some (lookupProp p.1 result)) →
      mergeOverObject props (JsVal.obj result) = some (JsVal.obj result)
  | [], _ => by rw [mergeOverObject]
  | (k, v) :: rest, h => by
    have hk := h (k, v) (List.mem_cons_self _ _)
    rw [mergeOverObject_cons, hk.2, Option.some_bind, setInProps_self k result hk.1]
    exact mergeOverObject_fixed result rest (fun p hp => h p (List.mem_cons_of_mem _ hp))
theorem strictEqPrimitive_self (value : JsVal) (h : isPrimitive value = true) :
    strictEqPrimitive value value = true := by
  cases value <;> simp_all [isPrimitive, strictEqPrimitive]

theorem truthy_arr (items : List JsVal) : truthy (JsVal.arr items) = true := rfl

theorem truthy_obj (props : List (Str × JsVal)) : truthy (JsVal.obj props) = true := rfl

theorem includes_append (items : List JsVal) (value other : JsVal)
    (h : includes (JsVal.arr items) value = true) :
    includes (JsVal.arr (items ++ [other])) value = true := by
  simp only [includes, List.any_append, Bool.or_eq_true] at h ⊢
  exact Or.inl h

theorem includes_push (items : List JsVal) (value : JsVal) (h : isPrimitive value = true) :
    includes (JsVal.arr (items ++ [value])) value = true := by
  simp [includes, strictEqPrimitive_self value h]

theorem mergeScalar_arr (items : List JsVal) (value : JsVal) :
    mergeScalar (JsVal.arr items) value
      = if includes (JsVal.arr items) value then JsVal.arr items
        else JsVal.arr (items ++ [value]) := by
  unfold mergeScalar
  simp only [truthy_arr, isArray, if_true, push]
  by_cases h : includes (JsVal.arr items) value = true
  · simp only [h, if_true, truthy_arr, Bool.not_true, Bool.false_eq_true, if_false]
  · simp only [h, if_false, truthy_arr, Bool.not_true, Bool.false_eq_true]

theorem mergeScalar_of_included (items : List JsVal) (value : JsVal)
    (h : includes (JsVal.arr items) value = true) :
    mergeScalar (JsVal.arr items) value = JsVal.arr items := by
  rw [mergeScalar_arr, if_pos h]

theorem mergeScalar_falsy (current value : JsVal) (h : truthy current = false) :
    mergeScalar current value = value := by
  unfold mergeScalar
  simp only [h, Bool.false_eq_true, if_false, Bool.not_false, if_true]

theorem mergeScalar_str (text : Str) (value : JsVal) (h : text ≠ []) :
    mergeScalar (JsVal.str text) value
      = if strictEqPrimitive value (JsVal.str text) then value
        else mergeTypesOfProperty (JsVal.str text) value := by
  have ht : truthy (JsVal.str text) = true := by
    cases text with
    | nil => exact absurd rfl h
    | cons c cs => rfl
  unfold mergeScalar
  simp only [ht, isArray, isString, if_true, Bool.false_eq_true, if_false, Bool.true_and]
  by_cases he : strictEqPrimitive value (JsVal.str text) = true
  · have hv : value = JsVal.str text := by
      cases value <;> simp_all [strictEqPrimitive]
    subst hv
    simp [he, ht]
  · have hm : truthy (mergeTypesOfProperty (JsVal.str text) value) = true := by
      unfold mergeTypesOfProperty
      split_ifs <;> first | rfl | exact ht
    simp [he, hm]

theorem mergeScalar_other (current value : JsVal) (ha : isArray current = false)
    (hs : isString current = false) : mergeScalar current value = value := by
  unfold mergeScalar
  by_cases ht : truthy current = true
  · by_cases hv : truthy value = true
    · simp [ht, ha, hs, hv]
    · simp [ht, ha, hs, hv]
  · simp [ht]

theorem mergeScalar_self (value : JsVal) (h : isPrimitive value = true) :
    mergeScalar value value = value := by
  cases value with
  | str text =>
    by_cases ht : text = []
    · subst ht
      exact mergeScalar_falsy _ _ rfl
    · rw [mergeScalar_str text _ ht, if_pos (strictEqPrimitive_self _ h)]
  | arr items => simp [isPrimitive] at h
  | _ => refine mergeScalar_other _ _ ?_ ?_ <;> rfl

theorem mergeTypesOfProperty_cases (text : Str) (value : JsVal) :
    mergeTypesOfProperty (JsVal.str text) value = JsVal.str "any".toList ∨
      mergeTypesOfProperty (JsVal.str text) value = JsVal.arr [JsVal.str text, value] := by
  unfold mergeTypesOfProperty
  split_ifs with h1 h2 h3
  · left; rfl
  · left; rfl
  · right; rfl
  · left
    simp [strictEqStr] at h1
    rw [h1]
    rfl

theorem mergeScalar_any (value : JsVal) (h : isPrimitive value = true) :
    mergeScalar (JsVal.str "any".toList) value = JsVal.str "any".toList := by
  rw [mergeScalar_str _ _ (by decide)]
  split_ifs with he
  · cases value <;> simp_all [strictEqPrimitive]
  · rfl

theorem mergeScalar_absorbs (current value : JsVal) (h : isPrimitive value = true) :
    mergeScalar (mergeScalar current value) value = mergeScalar current value := by
  have hother : ∀ c, isArray c = false → isString c = false →
      mergeScalar (mergeScalar c value) value = mergeScalar c value := by
    intro c ha hs
    rw [mergeScalar_other c value ha hs]
    exact mergeScalar_self value h
  cases current with
  | arr items =>
    rw [mergeScalar_arr]
    split_ifs with hi
    · exact mergeScalar_of_included items value hi
    · exact mergeScalar_of_included _ value (includes_push items value h)
  | str text =>
    by_cases ht : text = []
    · subst ht
      rw [mergeScalar_falsy (JsVal.str []) value rfl]
      exact mergeScalar_self value h
    · rw [mergeScalar_str text value ht]
      split_ifs with he
      · exact mergeScalar_self value h
      · rcases mergeTypesOfProperty_cases text value with hm | hm
        · rw [hm]
          exact mergeScalar_any value h
        · rw [hm]
          exact mergeScalar_of_included _ value (includes_push [JsVal.str text] value h)
  | _ => refine hother _ ?_ ?_ <;> rfl
theorem mergeOverArray_cons_primitive (value : JsVal) (rest : List JsVal) (itemObject : JsVal)
    (h : isPrimitive value = true) :
    mergeOverArray (value :: rest) itemObject
      = mergeOverArray rest (primitiveStep value itemObject) := by
  rw [mergeOverArray, primitiveStep]
  cases value <;> first
    | (simp [isPrimitive] at h; done)
    | rfl

theorem primitiveStep_of_absorbed (value itemObject : JsVal)
    (h : isAbsorbed value itemObject = true) : primitiveStep value itemObject = itemObject := by
  unfold isAbsorbed at h
  unfold primitiveStep
  split_ifs at h ⊢ with hs ha hi
  all_goals simp_all [jsOr]

theorem truthy_jsOr_obj (value : JsVal) : truthy (jsOr value (JsVal.obj [])) = true := by
  unfold jsOr
  split_ifs with h
  · exact h
  · rfl

theorem primitiveStep_string_arr (value : JsVal) (items : List JsVal)
    (h : isString value = true) :
    primitiveStep value (JsVal.arr items)
      = if includes (JsVal.arr items) value then JsVal.arr items
        else JsVal.arr (items ++ [value]) := by
  unfold primitiveStep
  rw [if_pos h]
  rfl

theorem primitiveStep_string_other (value itemObject : JsVal) (h : isString value = true)
    (ha : isArray itemObject = false) :
    primitiveStep value itemObject = JsVal.arr [value] := by
  unfold primitiveStep
  rw [if_pos h]
  simp [ha, includes, push]

theorem isArray_iff (value : JsVal) (h : isArray value = true) :
    ∃ items, value = JsVal.arr items := by
  cases value <;> first | exact ⟨_, rfl⟩ | simp [isArray] at h

theorem primitiveStep_truthy (value itemObject : JsVal) :
    truthy (primitiveStep value itemObject) = true := by
  by_cases hs : isString value = true
  · by_cases ha : isArray itemObject = true
    · obtain ⟨items, rfl⟩ := isArray_iff itemObject ha
      rw [primitiveStep_string_arr value items hs]
      split_ifs <;> rfl
    · rw [primitiveStep_string_other _ _ hs (by simpa using ha)]
      rfl
  · unfold primitiveStep
    rw [if_neg hs]
    exact truthy_jsOr_obj _

theorem isAbsorbed_primitiveStep (value itemObject : JsVal) (h : isPrimitive value = true) :
    isAbsorbed value (primitiveStep value itemObject) = true := by
  by_cases hs : isString value = true
  · unfold isAbsorbed
    rw [if_pos hs]
    by_cases ha : isArray itemObject = true
    · obtain ⟨items, rfl⟩ := isArray_iff itemObject ha
      rw [primitiveStep_string_arr value items hs]
      split_ifs with hi
      · simp [isArray, hi]
      · simp only [isArray, Bool.true_and]
        exact includes_push items value h
    · rw [primitiveStep_string_other _ _ hs (by simpa using ha)]
      simp only [isArray, Bool.true_and]
      exact includes_push [] value h
  · unfold isAbsorbed
    rw [if_neg hs]
    exact primitiveStep_truthy _ _

theorem isAbsorbed_step (value other itemObject : JsVal)
    (h : isAbsorbed value itemObject = true) :
    isAbsorbed value (primitiveStep other itemObject) = true := by
  unfold isAbsorbed at h ⊢
  by_cases hs : isString value = true
  · rw [if_pos hs] at h ⊢
    simp only [Bool.and_eq_true] at h
    obtain ⟨items, rfl⟩ := isArray_iff itemObject h.1
    by_cases ho : isString other = true
    · rw [primitiveStep_string_arr other items ho]
      split_ifs with hi
      · simp [isArray, h.2]
      · simp only [isArray, Bool.true_and]
        exact includes_append items value other h.2
    · unfold primitiveStep
      rw [if_neg ho]
      simp [jsOr, truthy_arr, isArray, h.2]
  · rw [if_neg hs] at h ⊢
    exact primitiveStep_truthy _ _

theorem mergeOverArray_absorbs :
    ∀ (items : List JsVal) (itemObject result : JsVal),
      items.all isPrimitive = true → mergeOverArray items itemObject = some result →
      (∀ value, isAbsorbed value itemObject = true → isAbsorbed value result = true) ∧
      (∀ value ∈ items, isAbsorbed value result = true)
  | [], itemObject, result, _, h => by
    rw [mergeOverArray] at h
    cases h
    exact ⟨fun _ hv => hv, fun _ hv => by cases hv⟩
  | item :: rest, itemObject, result, hp, h => by
    simp only [List.all_cons, Bool.and_eq_true] at hp
    rw [mergeOverArray_cons_primitive item rest itemObject hp.1] at h
    obtain ⟨ih₁, ih₂⟩ := mergeOverArray_absorbs rest _ result hp.2 h
    refine ⟨fun value hv => ih₁ value (isAbsorbed_step value item itemObject hv), ?_⟩
    intro value hv
    rcases List.mem_cons.1 hv with e | e
    · subst e
      exact ih₁ _ (isAbsorbed_primitiveStep _ itemObject hp.1)
    · exact ih₂ value e

theorem mergeOverArray_fixed :
    ∀ (items : List JsVal) (result : JsVal), items.all isPrimitive = true →
      (∀ value ∈ items, isAbsorbed value result = true) →
      mergeOverArray items result = some result
  | [], result, _, _ => by rw [mergeOverArray]
  | item :: rest, result, hp, h => by
    simp only [List.all_cons, Bool.and_eq_true] at hp
    rw [mergeOverArray_cons_primitive item rest result hp.1,
      primitiveStep_of_absorbed item result (h item (List.mem_cons_self _ _))]
    exact mergeOverArray_fixed rest result hp.2
      (fun value hv => h value (List.mem_cons_of_mem _ hv))

theorem mergeOverArray_truthy :
    ∀ (items : List JsVal) (itemObject result : JsVal),
      items.all isPrimitive = true → truthy itemObject = true →
      mergeOverArray items itemObject = some result → truthy result = true
  | [], itemObject, result, _, ht, h => by
    rw [mergeOverArray] at h
    cases h
    exact ht
  | item :: rest, itemObject, result, hp, _, h => by
    simp only [List.all_cons, Bool.and_eq_true] at hp
    rw [mergeOverArray_cons_primitive item rest itemObject hp.1] at h
    exact mergeOverArray_truthy rest _ result hp.2 (primitiveStep_truthy _ _) h

theorem jsOr_of_truthy (value other : JsVal) (h : truthy value = true) :
    jsOr value other = value := by
  unfold jsOr
  rw [if_pos h]
theorem entryStep_arr (items : List JsVal) (current : JsVal) :
    entryStep (JsVal.arr items) current
      = mergeOverArray items (jsOr current (JsVal.obj [])) := by
  unfold entryStep
  rw [if_pos (show (isArray (JsVal.arr items) || isPlainObject (JsVal.arr items)) = true
    from rfl), mergeArrayItems]

theorem entryStep_obj (props : List (Str × JsVal)) (current : JsVal) :
    entryStep (JsVal.obj props) current
      = mergeOverObject props (jsOr current (JsVal.obj [])) := by
  unfold entryStep
  rw [if_pos (show (isArray (JsVal.obj props) || isPlainObject (JsVal.obj props)) = true
    from rfl), mergeArrayItems]

theorem entryStep_primitive (value current : JsVal) (h : isPrimitive value = true) :
    entryStep value current = some (mergeScalar current value) := by
  rw [entryStep, if_neg]
  cases value <;> first | (simp [isPrimitive] at h; done) | simp [isArray, isPlainObject]

theorem entryStep_primitive_absorbs (value : JsVal) (h : isPrimitive value = true)
    (current merged : JsVal) (hm : entryStep value current = some merged) :
    entryStep value merged = some merged := by
  rw [entryStep_primitive value _ h] at hm ⊢
  cases hm
  rw [mergeScalar_absorbs current value h]

theorem isPlainObject_iff (value : JsVal) (h : isPlainObject value = true) :
    ∃ props, value = JsVal.obj props := by
  cases value <;> first | exact ⟨_, rfl⟩ | simp [isPlainObject] at h

theorem entryStep_arr_absorbs (items : List JsVal) (current merged : JsVal)
    (hp : items.all isPrimitive = true)
    (h : entryStep (JsVal.arr items) current = some merged) :
    entryStep (JsVal.arr items) merged = some merged := by
  rw [entryStep_arr] at h ⊢
  have ht := mergeOverArray_truthy items _ merged hp (truthy_jsOr_obj current) h
  rw [jsOr_of_truthy merged _ ht]
  exact mergeOverArray_fixed items merged hp (mergeOverArray_absorbs items _ merged hp h).2

theorem entryStep_obj_absorbs (props : List (Str × JsVal)) (current merged : JsVal)
    (hnodup : (props.map Prod.fst).Nodup)
    (ih : ∀ p ∈ props, ∀ current merged, entryStep p.2 current = some merged →
      entryStep p.2 merged = some merged)
    (h : entryStep (JsVal.obj props) current = some merged) :
    entryStep (JsVal.obj props) merged = some merged := by
  rw [entryStep_obj] at h ⊢
  cases props with
  | nil =>
    rw [mergeOverObject] at h ⊢
    cases h
    rw [jsOr_of_truthy _ _ (truthy_jsOr_obj current)]
  | cons p rest =>
    obtain ⟨k, v⟩ := p
    by_cases ho : isPlainObject (jsOr current (JsVal.obj [])) = true
    · obtain ⟨acc, hacc⟩ := isPlainObject_iff _ ho
      rw [hacc] at h
      obtain ⟨m, rfl⟩ := mergeOverObject_obj _ acc merged h
      rw [jsOr_of_truthy _ _ (truthy_obj m)]
      apply mergeOverObject_fixed
      intro p hp
      refine ⟨?_, ?_⟩
      · exact (mergeOverObject_keys _ acc m h p.1).2
          (Or.inl (List.mem_map_of_mem Prod.fst hp))
      · exact ih p hp _ _ (mergeOverObject_entries _ acc m h hnodup p hp)
    · rw [mergeOverObject_not_obj k v rest _ (by simpa using ho)] at h
      cases h

mutual
theorem entryStep_absorbs :
    ∀ value : JsVal, isTidy value = true → ∀ current merged,
      entryStep value current = some merged → entryStep value merged = some merged
  | JsVal.arr items, h, current, merged, hm => by
    simp only [isTidy] at h
    exact entryStep_arr_absorbs items current merged h hm
  | JsVal.obj props, h, current, merged, hm => by
    simp only [isTidy, Bool.and_eq_true, decide_eq_true_eq] at h
    exact entryStep_obj_absorbs props current merged h.1
      (entryStep_absorbs_props props h.2) hm
  | JsVal.undefined, _, current, merged, hm =>
    entryStep_primitive_absorbs JsVal.undefined rfl current merged hm
  | JsVal.null, _, current, merged, hm =>
    entryStep_primitive_absorbs JsVal.null rfl current merged hm
  | JsVal.bool x, _, current, merged, hm =>
    entryStep_primitive_absorbs (JsVal.bool x) rfl current merged hm
  | JsVal.num x, _, current, merged, hm =>
    entryStep_primitive_absorbs (JsVal.num x) rfl current merged hm
  | JsVal.str x, _, current, merged, hm =>
    entryStep_primitive_absorbs (JsVal.str x) rfl current merged hm
  | JsVal.nan, h, _, _, _ => by simp [isTidy, isPrimitive] at h
  | JsVal.date _, h, _, _, _ => by simp [isTidy, isPrimitive] at h
  | JsVal.regExp _ _, h, _, _, _ => by simp [isTidy, isPrimitive] at h
  | JsVal.objectID _, h, _, _, _ => by simp [isTidy, isPrimitive] at h
  | JsVal.binary _ _, h, _, _, _ => by simp [isTidy, isPrimitive] at h
  | JsVal.timestamp _ _, h, _, _, _ => by simp [isTidy, isPrimitive] at h
  | JsVal.code _ _, h, _, _, _ => by simp [isTidy, isPrimitive] at h
  | JsVal.dbRef _ _ _, h, _, _, _ => by simp [isTidy, isPrimitive] at h
  | JsVal.minKey, h, _, _, _ => by simp [isTidy, isPrimitive] at h
  | JsVal.maxKey, h, _, _, _ => by simp [isTidy, isPrimitive] at h
theorem entryStep_absorbs_props :
    ∀ props : List (Str × JsVal), isTidyProps props = true → ∀ p ∈ props, ∀ current merged,
      entryStep p.2 current = some merged → entryStep p.2 merged = some merged
  | [], _, p, hp, _, _, _ => by cases hp
  | (key, value) :: rest, h, p, hp, current, merged, hm => by
    simp only [isTidyProps, Bool.and_eq_true] at h
    rcases List.mem_cons.1 hp with e | e
    · subst e
      exact entryStep_absorbs value h.1 current merged hm
    · exact entryStep_absorbs_props rest h.2 p e current merged hm
end
theorem isTidy_of_primitive (value : JsVal) (h : isPrimitive value = true) :
    isTidy value = true := by
  cases value <;> first | rfl | simp [isPrimitive] at h

theorem isTidy_arr_append (items : List JsVal) (value : JsVal)
    (h : isTidy (JsVal.arr items) = true) (hv : isPrimitive value = true) :
    isTidy (JsVal.arr (items ++ [value])) = true := by
  simp only [isTidy, List.all_append, List.all_cons, List.all_nil, Bool.and_true,
    Bool.and_eq_true] at h ⊢
  exact ⟨h, hv⟩

theorem mergeScalar_tidy (current value : JsVal) (hv : isPrimitive value = true)
    (hc : isTidy current = true) : isTidy (mergeScalar current value) = true := by
  have hother : ∀ c, isArray c = false → isString c = false →
      isTidy (mergeScalar c value) = true := by
    intro c ha hs
    rw [mergeScalar_other c value ha hs]
    exact isTidy_of_primitive value hv
  cases current with
  | arr items =>
    rw [mergeScalar_arr]
    split_ifs
    · exact hc
    · exact isTidy_arr_append items value hc hv
  | str text =>
    by_cases ht : text = []
    · subst ht
      rw [mergeScalar_falsy (JsVal.str []) value rfl]
      exact isTidy_of_primitive value hv
    · rw [mergeScalar_str text value ht]
      split_ifs
      · exact isTidy_of_primitive value hv
      · rcases mergeTypesOfProperty_cases text value with hm | hm
        · rw [hm]; rfl
        · rw [hm]
          exact isTidy_arr_append [JsVal.str text] value rfl hv
  | _ => refine hother _ ?_ ?_ <;> rfl

theorem primitiveStep_tidy (value itemObject : JsVal) (hv : isPrimitive value = true)
    (hc : isTidy itemObject = true) : isTidy (primitiveStep value itemObject) = true := by
  by_cases hs : isString value = true
  · by_cases ha : isArray itemObject = true
    · obtain ⟨items, rfl⟩ := isArray_iff itemObject ha
      rw [primitiveStep_string_arr value items hs]
      split_ifs
      · exact hc
      · exact isTidy_arr_append items value hc hv
    · rw [primitiveStep_string_other _ _ hs (by simpa using ha)]
      exact isTidy_arr_append [] value rfl hv
  · unfold primitiveStep
    rw [if_neg hs]
    unfold jsOr
    split_ifs
    · exact hc
    · rfl

theorem mergeOverArray_tidy :
    ∀ (items : List JsVal) (itemObject result : JsVal),
      items.all isPrimitive = true → isTidy itemObject = true →
      mergeOverArray items itemObject = some result → isTidy result = true
  | [], itemObject, result, _, ht, h => by
    rw [mergeOverArray] at h
    cases h
    exact ht
  | item :: rest, itemObject, result, hp, ht, h => by
    simp only [List.all_cons, Bool.and_eq_true] at hp
    rw [mergeOverArray_cons_primitive item rest itemObject hp.1] at h
    exact mergeOverArray_tidy rest _ result hp.2 (primitiveStep_tidy _ _ hp.1 ht) h

theorem jsOr_tidy (value : JsVal) (h : isTidy value = true) :
    isTidy (jsOr value (JsVal.obj [])) = true := by
  unfold jsOr
  split_ifs
  · exact h
  · rfl

theorem setInProps_nodup (key : Str) (value : JsVal) (props : List (Str × JsVal))
    (h : (props.map Prod.fst).Nodup) : ((setInProps key value props).map Prod.fst).Nodup := by
  induction props with
  | nil => simp [setInProps]
  | cons p rest ih =>
    obtain ⟨k, v⟩ := p
    simp only [List.map_cons, List.nodup_cons] at h
    simp only [setInProps]
    split_ifs with e
    · simp only [List.map_cons, List.nodup_cons]
      exact h
    · simp only [List.map_cons, List.nodup_cons, mem_keys_setInProps]
      refine ⟨?_, ih h.2⟩
      rintro (e' | e')
      · exact e e'
      · exact h.1 e'

theorem setInProps_tidy (key : Str) (value : JsVal) (hv : isTidy value = true) :
    ∀ props : List (Str × JsVal), isTidyProps props = true →
      isTidyProps (setInProps key value props) = true
  | [], _ => by simp [setInProps, isTidyProps, hv]
  | (k, v) :: rest, h => by
    simp only [isTidyProps, Bool.and_eq_true] at h
    simp only [setInProps]
    split_ifs
    · simp only [isTidyProps, Bool.and_eq_true]
      exact ⟨hv, h.2⟩
    · simp only [isTidyProps, Bool.and_eq_true]
      exact ⟨h.1, setInProps_tidy key value hv rest h.2⟩

theorem lookupProp_tidy (key : Str) :
    ∀ props : List (Str × JsVal), isTidyProps props = true →
      isTidy (lookupProp key props) = true
  | [], _ => rfl
  | (k, v) :: rest, h => by
    simp only [isTidyProps, Bool.and_eq_true] at h
    simp only [lookupProp]
    split_ifs
    · exact h.1
    · exact lookupProp_tidy key rest h.2

theorem mergeOverObject_tidy :
    ∀ (props acc result : List (Str × JsVal)),
      (∀ p ∈ props, ∀ current merged, isTidy current = true →
        entryStep p.2 current = some merged → isTidy merged = true) →
      isTidy (JsVal.obj acc) = true →
      mergeOverObject props (JsVal.obj acc) = some (JsVal.obj result) →
      isTidy (JsVal.obj result) = true
  | [], acc, result, _, hacc, h => by
    rw [mergeOverObject] at h
    cases h
    exact hacc
  | (k, v) :: rest, acc, result, ih, hacc, h => by
    rw [mergeOverObject_cons] at h
    cases hs : entryStep v (lookupProp k acc) with
    | none => simp [hs] at h
    | some merged =>
      simp only [hs, Option.some_bind] at h
      simp only [isTidy, Bool.and_eq_true, decide_eq_true_eq] at hacc
      have hm := ih (k, v) (List.mem_cons_self _ _) _ merged (lookupProp_tidy k acc hacc.2) hs
      refine mergeOverObject_tidy rest _ result
        (fun p hp => ih p (List.mem_cons_of_mem _ hp)) ?_ h
      simp only [isTidy, Bool.and_eq_true, decide_eq_true_eq]
      exact ⟨setInProps_nodup k merged acc hacc.1, setInProps_tidy k merged hm acc hacc.2⟩

theorem entryStep_obj_tidy (props : List (Str × JsVal)) (current merged : JsVal)
    (ih : ∀ p ∈ props, ∀ current merged, isTidy current = true →
      entryStep p.2 current = some merged → isTidy merged = true)
    (hc : isTidy current = true)
    (h : entryStep (JsVal.obj props) current = some merged) : isTidy merged = true := by
  rw [entryStep_obj] at h
  cases props with
  | nil =>
    rw [mergeOverObject] at h
    cases h
    exact jsOr_tidy current hc
  | cons p rest =>
    obtain ⟨k, v⟩ := p
    by_cases ho : isPlainObject (jsOr current (JsVal.obj [])) = true
    · obtain ⟨acc, hacc⟩ := isPlainObject_iff _ ho
      have hta := jsOr_tidy current hc
      rw [hacc] at h hta
      obtain ⟨m, rfl⟩ := mergeOverObject_obj _ acc merged h
      exact mergeOverObject_tidy _ acc m ih hta h
    · rw [mergeOverObject_not_obj k v rest _ (by simpa using ho)] at h
      cases h

mutual
theorem entryStep_tidy :
    ∀ value : JsVal, isTidy value = true → ∀ current merged, isTidy current = true →
      entryStep value current = some merged → isTidy merged = true
  | JsVal.arr items, h, current, merged, hc, hm => by
    simp only [isTidy] at h
    rw [entryStep_arr] at hm
    exact mergeOverArray_tidy items _ merged h (jsOr_tidy current hc) hm
  | JsVal.obj props, h, current, merged, hc, hm => by
    simp only [isTidy, Bool.and_eq_true, decide_eq_true_eq] at h
    exact entryStep_obj_tidy props current merged (entryStep_tidy_props props h.2) hc hm
  | JsVal.undefined, _, current, merged, hc, hm => by
    rw [entryStep_primitive JsVal.undefined _ rfl] at hm
    cases hm
    exact mergeScalar_tidy current _ rfl hc
  | JsVal.null, _, current, merged, hc, hm => by
    rw [entryStep_primitive JsVal.null _ rfl] at hm
    cases hm
    exact mergeScalar_tidy current _ rfl hc
  | JsVal.bool x, _, current, merged, hc, hm => by
    rw [entryStep_primitive (JsVal.bool x) _ rfl] at hm
    cases hm
    exact mergeScalar_tidy current _ rfl hc
  | JsVal.num x, _, current, merged, hc, hm => by
    rw [entryStep_primitive (JsVal.num x) _ rfl] at hm
    cases hm
    exact mergeScalar_tidy current _ rfl hc
  | JsVal.str x, _, current, merged, hc, hm => by
    rw [entryStep_primitive (JsVal.str x) _ rfl] at hm
    cases hm
    exact mergeScalar_tidy current _ rfl hc
  | JsVal.nan, h, _, _, _, _ => by simp [isTidy, isPrimitive] at h
  | JsVal.date _, h, _, _, _, _ => by simp [isTidy, isPrimitive] at h
  | JsVal.regExp _ _, h, _, _, _, _ => by simp [isTidy, isPrimitive] at h
  | JsVal.objectID _, h, _, _, _, _ => by simp [isTidy, isPrimitive] at h
  | JsVal.binary _ _, h, _, _, _, _ => by simp [isTidy, isPrimitive] at h
  | JsVal.timestamp _ _, h, _, _, _, _ => by simp [isTidy, isPrimitive] at h
  | JsVal.code _ _, h, _, _, _, _ => by simp [isTidy, isPrimitive] at h
  | JsVal.dbRef _ _ _, h, _, _, _, _ => by simp [isTidy, isPrimitive] at h
  | JsVal.minKey, h, _, _, _, _ => by simp [isTidy, isPrimitive] at h
  | JsVal.maxKey, h, _, _, _, _ => by simp [isTidy, isPrimitive] at h
theorem entryStep_tidy_props :
    ∀ props : List (Str × JsVal), isTidyProps props = true → ∀ p ∈ props, ∀ current merged,
      isTidy current = true → entryStep p.2 current = some merged → isTidy merged = true
  | [], _, p, hp, _, _, _, _ => by cases hp
  | (key, value) :: rest, h, p, hp, current, merged, hc, hm => by
    simp only [isTidyProps, Bool.and_eq_true] at h
    rcases List.mem_cons.1 hp with e | e
    · subst e
      exact entryStep_tidy value h.1 current merged hc hm
    · exact entryStep_tidy_props rest h.2 p e current merged hc hm
end
theorem isTidy_ite (c : Prop) [Decidable c] (a b : JsVal)
    (ha : isTidy a = true) (hb : isTidy b = true) :
    isTidy (if c then a else b) = true := by
  split_ifs <;> assumption

theorem leafShape_ite (c : Prop) [Decidable c] (a b : JsVal)
    (ha : (∃ t, a = typeOnly (JsVal.str t)) ∨ ∃ t f, a = typeFormat t f)
    (hb : (∃ t, b = typeOnly (JsVal.str t)) ∨ ∃ t f, b = typeFormat t f) :
    (∃ t, (if c then a else b) = typeOnly (JsVal.str t)) ∨
      ∃ t f, (if c then a else b) = typeFormat t f := by
  split_ifs <;> assumption

theorem isTidy_keyMark (c : Prop) [Decidable c] (properties : JsVal) :
    ((∃ t, properties = typeOnly (JsVal.str t)) ∨ ∃ t f, properties = typeFormat t f) →
    isTidy (if c then
        match properties with
        | JsVal.obj props => JsVal.obj (props ++ [("key".toList, JsVal.bool true)])
        | other => other
      else properties) = true := by
  rintro (⟨t, rfl⟩ | ⟨t, f, rfl⟩)
  · split_ifs
    · simp only [typeOnly, List.cons_append, List.nil_append, isTidy, isTidyProps,
        isPrimitive, Bool.and_true, List.map_cons, List.map_nil, decide_eq_true_eq]
      decide
    · simp only [typeOnly, isTidy, isTidyProps, isPrimitive, Bool.and_true, List.map_cons,
        List.map_nil, decide_eq_true_eq]
      decide
  · split_ifs <;> rfl

theorem isTidy_getValidationObjectOfSingleElements (data key : Str) :
    isTidy (getValidationObjectOfSingleElements data key) = true := by
  unfold getValidationObjectOfSingleElements
  apply isTidy_keyMark
  repeat (first
    | exact Or.inl ⟨_, rfl⟩
    | exact Or.inr ⟨_, _, rfl⟩
    | apply leafShape_ite)

theorem mergeArrayItems_tidy (value current merged : JsVal) (hv : isTidy value = true)
    (hc : isTidy current = true) (h : mergeArrayItems value current = some merged) :
    isTidy merged = true := by
  by_cases hk : (isArray value || isPlainObject value) = true
  · have he : entryStep value current = mergeArrayItems value current := by
      rw [entryStep, if_pos hk]
    rw [← he] at h
    exact entryStep_tidy value hv current merged hc h
  · have hm : mergeArrayItems value current = some (jsOr current (JsVal.obj [])) := by
      cases value <;> first
        | (simp only [mergeArrayItems]; done)
        | simp [isArray, isPlainObject] at hk
    rw [hm] at h
    cases h
    exact jsOr_tidy current hc

theorem mergeItemShapes_tidy :
    ∀ (items : List (Str × JsVal)) (schemaTest result : JsVal),
      isTidyProps items = true → isTidy schemaTest = true →
      mergeItemShapes items schemaTest = some result → isTidy result = true
  | [], schemaTest, result, _, ht, h => by
    rw [mergeItemShapes] at h
    cases h
    exact ht
  | (key, value) :: rest, schemaTest, result, hi, ht, h => by
    simp only [isTidyProps, Bool.and_eq_true] at hi
    rw [mergeItemShapes] at h
    split at h
    · cases h
    · rename_i merged hm
      exact mergeItemShapes_tidy rest merged result hi.2
        (mergeArrayItems_tidy value schemaTest merged hi.1 ht hm) h

theorem arrayItemsSchema_tidy (items : List (Str × JsVal)) (result : JsVal)
    (hi : isTidyProps items = true) (h : arrayItemsSchema items = some result) :
    isTidy result = true := by
  unfold arrayItemsSchema at h
  split_ifs at h with h1 h2
  · exact mergeItemShapes_tidy items (JsVal.obj []) result hi rfl h
  · cases h
    exact lookupProp_tidy _ items hi
  · cases h
    have : items = [] := by
      cases items with
      | nil => rfl
      | cons p rest =>
        cases rest with
        | nil => simp at h2
        | cons q rest' => simp at h1
    subst this
    rfl
theorem schemaEntry_tidy (key : Str) (value : JsVal) (sub : Option (List (Str × JsVal)))
    (entry : Option JsVal) (htag : isTagTree value = true)
    (hsub : ∀ schema, sub = some schema → isTidyProps schema = true ∧
      (isPlainObject value = true → (schema.map Prod.fst).Nodup))
    (h : schemaEntry key value sub = some entry) :
    ∃ node, entry = some node ∧ isTidy node = true := by
  unfold schemaEntry at h
  split at h
  · split at h
    · cases h
    · rename_i props
      cases h
      refine ⟨_, rfl, ?_⟩
      obtain ⟨h1, h2⟩ := hsub props rfl
      have h3 := h2 rfl
      simp only [isTidy, isTidyProps, isPrimitive, Bool.and_true, Bool.true_and, h1,
        List.map_cons, List.map_nil, Bool.and_eq_true, decide_eq_true_eq]
      exact ⟨by decide, h3⟩
  · split at h
    · cases h
    · rename_i items
      split at h
      · cases h
      · rename_i itemsSchema hi
        cases h
        refine ⟨_, rfl, ?_⟩
        have hx := arrayItemsSchema_tidy items itemsSchema (hsub items rfl).1 hi
        simp only [isTidy, isTidyProps, isPrimitive, Bool.and_true, Bool.true_and,
          List.map_cons, List.map_nil, Bool.and_eq_true, decide_eq_true_eq]
        exact ⟨by decide, hx⟩
  · cases h
    exact ⟨_, rfl, isTidy_getValidationObjectOfSingleElements _ _⟩
  · rename_i h1 h2 h3
    cases value <;> first
      | (simp [isTagTree] at htag; done)
      | exact absurd rfl (h1 _)
      | exact absurd rfl (h2 _)
      | exact absurd rfl (h3 _)

mutual
theorem createSchemaOfEachDocument_tidy :
    ∀ tags : JsVal, isTagTree tags = true → ∀ schema,
      createSchemaOfEachDocument tags = some schema →
      isTidyProps schema = true ∧
        (isPlainObject tags = true → (schema.map Prod.fst).Nodup)
  | JsVal.arr items, h, schema, hs => by
    simp only [isTagTree] at h
    rw [createSchemaOfEachDocument] at hs
    exact ⟨schemaOfItems_tidy items h 0 schema hs, fun e => by simp [isPlainObject] at e⟩
  | JsVal.obj props, h, schema, hs => by
    simp only [isTagTree, Bool.and_eq_true, decide_eq_true_eq] at h
    rw [createSchemaOfEachDocument] at hs
    obtain ⟨h1, h2⟩ := schemaOfProps_tidy props h.2 schema hs
    exact ⟨h1, fun _ => h2 ▸ h.1⟩
  | JsVal.str _, _, schema, hs => by
    simp only [createSchemaOfEachDocument] at hs
    cases hs
    exact ⟨rfl, fun _ => List.nodup_nil⟩
  | JsVal.undefined, h, _, _ => by simp [isTagTree] at h
  | JsVal.null, h, _, _ => by simp [isTagTree] at h
  | JsVal.bool _, h, _, _ => by simp [isTagTree] at h
  | JsVal.num _, h, _, _ => by simp [isTagTree] at h
  | JsVal.nan, h, _, _ => by simp [isTagTree] at h
  | JsVal.date _, h, _, _ => by simp [isTagTree] at h
  | JsVal.regExp _ _, h, _, _ => by simp [isTagTree] at h
  | JsVal.objectID _, h, _, _ => by simp [isTagTree] at h
  | JsVal.binary _ _, h, _, _ => by simp [isTagTree] at h
  | JsVal.timestamp _ _, h, _, _ => by simp [isTagTree] at h
  | JsVal.code _ _, h, _, _ => by simp [isTagTree] at h
  | JsVal.dbRef _ _ _, h, _, _ => by simp [isTagTree] at h
  | JsVal.minKey, h, _, _ => by simp [isTagTree] at h
  | JsVal.maxKey, h, _, _ => by simp [isTagTree] at h
theorem schemaOfItems_tidy :
    ∀ items : List JsVal, isTagTreeItems items = true → ∀ index schema,
      schemaOfItems index items = some schema → isTidyProps schema = true
  | [], _, index, schema, hs => by
    rw [schemaOfItems] at hs
    cases hs
    rfl
  | value :: rest, h, index, schema, hs => by
    simp only [isTagTreeItems, Bool.and_eq_true] at h
    rw [schemaOfItems] at hs
    split at hs
    · cases hs
    · rename_i entry he
      obtain ⟨node, rfl, hn⟩ := schemaEntry_tidy _ value _ entry h.1
        (fun s e => createSchemaOfEachDocument_tidy value h.1 s e) he
      split at hs
      · cases hs
      · rename_i props hr
        cases hs
        simp only [isTidyProps, Bool.and_eq_true]
        exact ⟨hn, schemaOfItems_tidy rest h.2 _ props hr⟩
theorem schemaOfProps_tidy :
    ∀ props : List (Str × JsVal), isTagTreeProps props = true → ∀ schema,
      schemaOfProps props = some schema →
      isTidyProps schema = true ∧ schema.map Prod.fst = props.map Prod.fst
  | [], _, schema, hs => by
    rw [schemaOfProps] at hs
    cases hs
    exact ⟨rfl, rfl⟩
  | (key, value) :: rest, h, schema, hs => by
    simp only [isTagTreeProps, Bool.and_eq_true] at h
    rw [schemaOfProps] at hs
    split at hs
    · cases hs
    · rename_i entry he
      obtain ⟨node, rfl, hn⟩ := schemaEntry_tidy key value _ entry h.1
        (fun s e => createSchemaOfEachDocument_tidy value h.1 s e) he
      split at hs
      · cases hs
      · rename_i props hr
        cases hs
        obtain ⟨h1, h2⟩ := schemaOfProps_tidy rest h.2 props hr
        simp only [isTidyProps, Bool.and_eq_true, List.map_cons, h2]
        exact ⟨⟨hn, h1⟩, trivial⟩
end
/-- The second merge of a sample changes nothing. -/
theorem same_sample_twice (props : List (Str × JsVal))
    (h : isTagTree (JsVal.obj props) = true) :
    getSchema [JsVal.obj props, JsVal.obj props] = getSchema [JsVal.obj props] := by
  unfold getSchema
  cases hA : schemaOfProps props with
  | none => simp only [documentSchemata, createSchemaOfEachDocument, hA]
  | some sA =>
    have htidy : isTidy (JsVal.obj sA) = true := by
      obtain ⟨h1, h2⟩ := createSchemaOfEachDocument_tidy (JsVal.obj props) h sA
        (by rw [createSchemaOfEachDocument]; exact hA)
      simp only [isTidy, Bool.and_eq_true, decide_eq_true_eq]
      exact ⟨h2 rfl, h1⟩
    simp only [documentSchemata, createSchemaOfEachDocument, hA]
    rw [mergeArrayItems_schemata, mergeArrayItems_schemata, mergeOverArray_obj_cons,
      mergeOverArray_obj_cons]
    cases hP : mergeOverObject sA (JsVal.obj []) with
    | none => rfl
    | some merged =>
      obtain ⟨pA, rfl⟩ := mergeOverObject_obj sA [] merged hP
      have hstep : entryStep (JsVal.obj sA) (JsVal.obj []) = some (JsVal.obj pA) := by
        rw [entryStep_obj]
        exact hP
      have hagain := entryStep_absorbs (JsVal.obj sA) htidy _ _ hstep
      rw [entryStep_obj, jsOr_of_truthy _ _ (truthy_obj pA)] at hagain
      simp only [Option.some_bind]
      rw [mergeOverArray_obj_cons, hagain]
      rfl

/-! ### Two types at one position -/

theorem mergeTypesOfProperty_pair (a b : Str) (ha : isListedType a = true)
    (hb : isListedType b = true) :
    mergeTypesOfProperty (JsVal.str a) (JsVal.str b) = JsVal.arr [JsVal.str a, JsVal.str b] := by
  simp only [isListedType, Bool.and_eq_true, bne_iff_ne, ne_eq, Bool.not_eq_true',
    List.isEmpty_eq_false] at ha hb
  have a1 : ¬a = ['a', 'n', 'y'] := ha.1.1.2
  have a2 : ¬a = ['o', 'b', 'j', 'e', 'c', 't'] := ha.1.2
  have a3 : ¬a = ['a', 'r', 'r', 'a', 'y'] := ha.2
  have b2 : ¬b = ['o', 'b', 'j', 'e', 'c', 't'] := hb.1.2
  have b3 : ¬b = ['a', 'r', 'r', 'a', 'y'] := hb.2
  unfold mergeTypesOfProperty
  simp [strictEqStr, a1, a2, a3, b2, b3]

theorem mergeScalar_pair (a b : Str) (ha : isListedType a = true) (hb : isListedType b = true)
    (hne : a ≠ b) :
    mergeScalar (JsVal.str a) (JsVal.str b) = JsVal.arr [JsVal.str a, JsVal.str b] := by
  have hnil : a ≠ [] := by
    intro e
    simp [isListedType, e] at ha
  rw [mergeScalar_str a _ hnil, if_neg, mergeTypesOfProperty_pair a b ha hb]
  simp [strictEqPrimitive, Ne.symm hne]

theorem typeState_scalar_left (t₁ t₂ : Str) (h₁ : isListedType t₁ = true)
    (h₂ : isListedType t₂ = true) (hne : t₁ ≠ t₂) (seen₁ seen₂ : Bool) (value : JsVal)
    (h : typeState t₁ t₂ seen₁ seen₂ value) :
    typeState t₁ t₂ true seen₂ (mergeScalar value (JsVal.str t₁)) := by
  cases seen₁ <;> cases seen₂ <;> simp only [typeState] at h ⊢
  · subst h
    exact mergeScalar_falsy _ _ rfl
  · subst h
    right
    exact mergeScalar_pair t₂ t₁ h₂ h₁ (Ne.symm hne)
  · subst h
    exact mergeScalar_self _ rfl
  · rcases h with h | h <;> subst h
    · left
      exact mergeScalar_of_included _ _ (by simp [includes, strictEqPrimitive])
    · right
      exact mergeScalar_of_included _ _ (by simp [includes, strictEqPrimitive])

theorem typeState_scalar_right (t₁ t₂ : Str) (h₁ : isListedType t₁ = true)
    (h₂ : isListedType t₂ = true) (hne : t₁ ≠ t₂) (seen₁ seen₂ : Bool) (value : JsVal)
    (h : typeState t₁ t₂ seen₁ seen₂ value) :
    typeState t₁ t₂ seen₁ true (mergeScalar value (JsVal.str t₂)) := by
  cases seen₁ <;> cases seen₂ <;> simp only [typeState] at h ⊢
  · subst h
    exact mergeScalar_falsy _ _ rfl
  · subst h
    exact mergeScalar_self _ rfl
  · subst h
    left
    exact mergeScalar_pair t₁ t₂ h₁ h₂ hne
  · rcases h with h | h <;> subst h
    · left
      exact mergeScalar_of_included _ _ (by simp [includes, strictEqPrimitive])
    · right
      exact mergeScalar_of_included _ _ (by simp [includes, strictEqPrimitive])
theorem mergeOverArray_pair_fresh (a b : Str) (hne : a ≠ b) (itemObject : JsVal)
    (h : isArray itemObject = false) :
    mergeOverArray [JsVal.str a, JsVal.str b] itemObject
      = some (JsVal.arr [JsVal.str a, JsVal.str b]) := by
  rw [mergeOverArray_cons_primitive (JsVal.str a) _ _ rfl,
    mergeOverArray_cons_primitive (JsVal.str b) _ _ rfl,
    primitiveStep_string_other (JsVal.str a) _ rfl h,
    primitiveStep_string_arr (JsVal.str b) _ rfl, if_neg, mergeOverArray]
  · rfl
  · simp [includes, strictEqPrimitive, Ne.symm hne]

theorem mergeOverArray_pair_included (a b : Str) (items : List JsVal)
    (ha : includes (JsVal.arr items) (JsVal.str a) = true)
    (hb : includes (JsVal.arr items) (JsVal.str b) = true) :
    mergeOverArray [JsVal.str a, JsVal.str b] (JsVal.arr items) = some (JsVal.arr items) := by
  rw [mergeOverArray_cons_primitive (JsVal.str a) _ _ rfl,
    mergeOverArray_cons_primitive (JsVal.str b) _ _ rfl,
    primitiveStep_string_arr (JsVal.str a) _ rfl, if_pos ha,
    primitiveStep_string_arr (JsVal.str b) _ rfl, if_pos hb, mergeOverArray]

theorem typeState_list (t₁ t₂ a b : Str) (h₁ : isListedType t₁ = true)
    (h₂ : isListedType t₂ = true) (hne : t₁ ≠ t₂)
    (hab : (a = t₁ ∧ b = t₂) ∨ (a = t₂ ∧ b = t₁)) (seen₁ seen₂ : Bool) (value : JsVal)
    (h : typeState t₁ t₂ seen₁ seen₂ value) :
    ∃ merged, entryStep (JsVal.arr [JsVal.str a, JsVal.str b]) value = some merged ∧
      typeState t₁ t₂ true true merged := by
  have hne' : a ≠ b := by
    rcases hab with ⟨rfl, rfl⟩ | ⟨rfl, rfl⟩
    · exact hne
    · exact Ne.symm hne
  have hlist : typeState t₁ t₂ true true (JsVal.arr [JsVal.str a, JsVal.str b]) := by
    rcases hab with ⟨rfl, rfl⟩ | ⟨rfl, rfl⟩
    · exact Or.inl rfl
    · exact Or.inr rfl
  have hn₁ : t₁ ≠ [] := by
    intro e
    simp [isListedType, e] at h₁
  have hn₂ : t₂ ≠ [] := by
    intro e
    simp [isListedType, e] at h₂
  have htruthy : ∀ t : Str, t ≠ [] → jsOr (JsVal.str t) (JsVal.obj []) = JsVal.str t := by
    intro t ht
    cases t with
    | nil => exact absurd rfl ht
    | cons c cs => rfl
  rw [entryStep_arr]
  cases seen₁ <;> cases seen₂ <;> simp only [typeState] at h
  · subst h
    exact ⟨_, mergeOverArray_pair_fresh a b hne' _ rfl, hlist⟩
  · subst h
    rw [htruthy t₂ hn₂]
    exact ⟨_, mergeOverArray_pair_fresh a b hne' _ rfl, hlist⟩
  · subst h
    rw [htruthy t₁ hn₁]
    exact ⟨_, mergeOverArray_pair_fresh a b hne' _ rfl, hlist⟩
  · have hincl : ∀ t, (t = t₁ ∨ t = t₂) →
        includes value (JsVal.str t) = true := by
      intro t ht
      rcases h with h | h <;> subst h <;> rcases ht with rfl | rfl <;>
        simp [includes, strictEqPrimitive]
    have ha : a = t₁ ∨ a = t₂ := by
      rcases hab with ⟨e, _⟩ | ⟨e, _⟩
      · exact Or.inl e
      · exact Or.inr e
    have hb : b = t₁ ∨ b = t₂ := by
      rcases hab with ⟨_, e⟩ | ⟨_, e⟩
      · exact Or.inr e
      · exact Or.inl e
    obtain ⟨items, hitems⟩ : ∃ items, value = JsVal.arr items := by
      rcases h with h | h <;> exact ⟨_, h⟩
    refine ⟨value, ?_, h⟩
    have hi₁ := hincl a ha
    have hi₂ := hincl b hb
    rw [hitems] at hi₁ hi₂ ⊢
    rw [jsOr_of_truthy _ _ (truthy_arr items)]
    exact mergeOverArray_pair_included a b items hi₁ hi₂
theorem getValidationObjectOfSingleElements_shape (tag : Str) :
    ∃ properties, ((∃ t, properties = typeOnly (JsVal.str t)) ∨
        ∃ t f, properties = typeFormat t f) ∧
      ∀ key, getValidationObjectOfSingleElements tag key
        = if key = "_id".toList then
            match properties with
            | JsVal.obj props => JsVal.obj (props ++ [("key".toList, JsVal.bool true)])
            | other => other
          else properties := by
  refine ⟨(if tag = "float".toList then typeOnly (JsVal.str "number".toList)
    else if tag = "date".toList then typeFormat "string" "date"
    else if tag = "ObjectID".toList then typeFormat "string" "mongo-id"
    else if tag = "date-time".toList then typeFormat "string" "date-time"
    else if tag = "regex".toList then typeOnly (JsVal.str "regexp".toList)
    else if tag = "UUID".toList then typeFormat "string" "uuid"
    else if tag = "LUUID".toList then typeFormat "string" "luuid"
    else if tag = "Timestamp".toList then typeFormat "string" "timestamp"
    else if tag = "DBRef".toList then typeOnly (JsVal.str "dbRef".toList)
    else if tag = "MinKey".toList then typeOnly (JsVal.str "minKey".toList)
    else if tag = "MaxKey".toList then typeOnly (JsVal.str "maxKey".toList)
    else if tag = "Code".toList then typeOnly (JsVal.str "code".toList)
    else typeOnly (JsVal.str tag)), ?_, fun key => rfl⟩
  repeat (first
    | exact Or.inl ⟨_, rfl⟩
    | exact Or.inr ⟨_, _, rfl⟩
    | apply leafShape_ite)

theorem leaf_node (tag key : Str) :
    ∃ node, getValidationObjectOfSingleElements tag key = JsVal.obj node ∧
      (node.map Prod.fst).Nodup ∧ "type".toList ∈ node.map Prod.fst ∧
      lookupProp "type".toList node = mappedType tag ∧
      ∃ t, mappedType tag = JsVal.str t := by
  obtain ⟨properties, hshape, heq⟩ := getValidationObjectOfSingleElements_shape tag
  have hm : mappedType tag = getProp properties "type" := by
    unfold mappedType
    rw [heq, if_neg (by decide)]
  rw [heq key, hm]
  rcases hshape with ⟨t, rfl⟩ | ⟨t, f, rfl⟩
  · by_cases hk : key = "_id".toList
    · rw [if_pos hk]
      exact ⟨_, rfl, by simp only [List.map_cons, List.map_nil, List.cons_append, List.nil_append]; decide,
        by simp only [List.map_cons, List.map_nil, List.cons_append, List.nil_append]; decide,
        rfl, ⟨t, rfl⟩⟩
    · rw [if_neg hk]
      exact ⟨_, rfl, by simp only [List.map_cons, List.map_nil, List.cons_append, List.nil_append]; decide,
        by simp only [List.map_cons, List.map_nil, List.cons_append, List.nil_append]; decide,
        rfl, ⟨t, rfl⟩⟩
  · by_cases hk : key = "_id".toList
    · rw [if_pos hk]
      exact ⟨_, rfl, by simp only [List.map_cons, List.map_nil, List.cons_append, List.nil_append]; decide,
        by simp only [List.map_cons, List.map_nil, List.cons_append, List.nil_append]; decide,
        rfl, ⟨_, rfl⟩⟩
    · rw [if_neg hk]
      exact ⟨_, rfl, by simp only [List.map_cons, List.map_nil, List.cons_append, List.nil_append]; decide,
        by simp only [List.map_cons, List.map_nil, List.cons_append, List.nil_append]; decide,
        rfl, ⟨_, rfl⟩⟩

theorem entryStep_node (node : List (Str × JsVal)) (current merged : JsVal)
    (hnodup : (node.map Prod.fst).Nodup)
    (hc : current = JsVal.undefined ∨ isPlainObject current = true)
    (h : entryStep (JsVal.obj node) current = some merged) :
    ∃ result, merged = JsVal.obj result ∧
      (∀ p ∈ node, entryStep p.2 (getKey current p.1) = some (lookupProp p.1 result)) ∧
      (∀ name, name ∉ node.map Prod.fst → lookupProp name result = getKey current name) := by
  rw [entryStep_obj] at h
  obtain ⟨acc, hacc, hget⟩ : ∃ acc, jsOr current (JsVal.obj []) = JsVal.obj acc ∧
      ∀ name, getKey current name = lookupProp name acc := by
    rcases hc with rfl | hc
    · exact ⟨[], rfl, fun _ => rfl⟩
    · obtain ⟨props, rfl⟩ := isPlainObject_iff current hc
      exact ⟨props, rfl, fun _ => rfl⟩
  rw [hacc] at h
  obtain ⟨result, rfl⟩ := mergeOverObject_obj node acc merged h
  refine ⟨result, rfl, ?_, ?_⟩
  · intro p hp
    rw [hget]
    exact mergeOverObject_entries node acc result h hnodup p hp
  · intro name hname
    rw [hget]
    exact mergeOverObject_other_key name node acc result h hname
theorem typeState_of_mentions (t₁ t₂ : Str) (hne : t₁ ≠ t₂) (type : JsVal)
    (h : type = JsVal.str t₁ ∨ type = JsVal.str t₂ ∨
      type = JsVal.arr [JsVal.str t₁, JsVal.str t₂] ∨
      type = JsVal.arr [JsVal.str t₂, JsVal.str t₁]) :
    typeState t₁ t₂ (mentions t₁ type) (mentions t₂ type) type ∧
      (mentions t₁ type || mentions t₂ type) = true := by
  rcases h with rfl | rfl | rfl | rfl
  · have e₁ : mentions t₁ (JsVal.str t₁) = true := by simp [mentions, strictEqPrimitive]
    have e₂ : mentions t₂ (JsVal.str t₁) = false := by
      simp [mentions, strictEqPrimitive, includes, Ne.symm hne]
    rw [e₁, e₂]
    exact ⟨rfl, rfl⟩
  · have e₁ : mentions t₁ (JsVal.str t₂) = false := by
      simp [mentions, strictEqPrimitive, includes, hne]
    have e₂ : mentions t₂ (JsVal.str t₂) = true := by simp [mentions, strictEqPrimitive]
    rw [e₁, e₂]
    exact ⟨rfl, rfl⟩
  · have e₁ : mentions t₁ (JsVal.arr [JsVal.str t₁, JsVal.str t₂]) = true := by
      simp [mentions, strictEqPrimitive, includes]
    have e₂ : mentions t₂ (JsVal.arr [JsVal.str t₁, JsVal.str t₂]) = true := by
      simp [mentions, strictEqPrimitive, includes]
    rw [e₁, e₂]
    exact ⟨Or.inl rfl, rfl⟩
  · have e₁ : mentions t₁ (JsVal.arr [JsVal.str t₂, JsVal.str t₁]) = true := by
      simp [mentions, strictEqPrimitive, includes]
    have e₂ : mentions t₂ (JsVal.arr [JsVal.str t₂, JsVal.str t₁]) = true := by
      simp [mentions, strictEqPrimitive, includes]
    rw [e₁, e₂]
    exact ⟨Or.inr rfl, rfl⟩

theorem typeState_merge (t₁ t₂ : Str) (h₁ : isListedType t₁ = true)
    (h₂ : isListedType t₂ = true) (hne : t₁ ≠ t₂) (new₁ new₂ seen₁ seen₂ : Bool)
    (type current : JsVal) (hnew : typeState t₁ t₂ new₁ new₂ type)
    (hsome : (new₁ || new₂) = true) (h : typeState t₁ t₂ seen₁ seen₂ current) :
    ∃ merged, entryStep type current = some merged ∧
      typeState t₁ t₂ (seen₁ || new₁) (seen₂ || new₂) merged := by
  cases new₁ <;> cases new₂ <;> simp only [typeState] at hnew
  · simp at hsome
  · subst hnew
    rw [entryStep_primitive (JsVal.str t₂) _ rfl, Bool.or_false, Bool.or_true]
    exact ⟨_, rfl, typeState_scalar_right t₁ t₂ h₁ h₂ hne seen₁ seen₂ current h⟩
  · subst hnew
    rw [entryStep_primitive (JsVal.str t₁) _ rfl, Bool.or_false, Bool.or_true]
    exact ⟨_, rfl, typeState_scalar_left t₁ t₂ h₁ h₂ hne seen₁ seen₂ current h⟩
  · rw [Bool.or_true, Bool.or_true]
    rcases hnew with rfl | rfl
    · exact typeState_list t₁ t₂ t₁ t₂ h₁ h₂ hne (Or.inl ⟨rfl, rfl⟩) seen₁ seen₂ current h
    · exact typeState_list t₁ t₂ t₂ t₁ h₁ h₂ hne (Or.inr ⟨rfl, rfl⟩) seen₁ seen₂ current h

theorem mem_of_mem_keys (key : Str) :
    ∀ props : List (Str × JsVal), key ∈ props.map Prod.fst →
      (key, lookupProp key props) ∈ props
  | [], h => by cases h
  | (k, v) :: rest, h => by
    by_cases e : k = key
    · subst e
      simp [lookupProp]
    · have hrest : key ∈ rest.map Prod.fst := by
        simp only [List.map_cons, List.mem_cons] at h
        rcases h with h | h
        · exact absurd h.symm e
        · exact h
      simp only [lookupProp, if_neg e]
      exact List.mem_cons_of_mem _ (mem_of_mem_keys key rest hrest)

theorem mem_keys_of_lookupProp (key : Str) :
    ∀ props : List (Str × JsVal), lookupProp key props ≠ JsVal.undefined →
      key ∈ props.map Prod.fst
  | [], h => absurd rfl h
  | (k, v) :: rest, h => by
    by_cases e : k = key
    · simp [e]
    · simp only [lookupProp, if_neg e] at h
      simp only [List.map_cons, List.mem_cons]
      exact Or.inr (mem_keys_of_lookupProp key rest h)

theorem typeState_ne_undefined (t₁ t₂ : Str) (seen₁ seen₂ : Bool) (type : JsVal)
    (h : typeState t₁ t₂ seen₁ seen₂ type) (hsome : (seen₁ || seen₂) = true) :
    type ≠ JsVal.undefined := by
  cases seen₁ <;> cases seen₂ <;> simp only [typeState] at h
  · simp at hsome
  · subst h; simp
  · subst h; simp
  · rcases h with rfl | rfl <;> simp

theorem positionState_merge (t₁ t₂ : Str) (h₁ : isListedType t₁ = true)
    (h₂ : isListedType t₂ = true) (hne : t₁ ≠ t₂) (new₁ new₂ seen₁ seen₂ : Bool)
    (node : List (Str × JsVal)) (current merged : JsVal)
    (hnodup : (node.map Prod.fst).Nodup)
    (hnew : typeState t₁ t₂ new₁ new₂ (lookupProp "type".toList node))
    (hsome : (new₁ || new₂) = true) (hcur : positionState t₁ t₂ seen₁ seen₂ current)
    (h : entryStep (JsVal.obj node) current = some merged) :
    positionState t₁ t₂ (seen₁ || new₁) (seen₂ || new₂) merged := by
  obtain ⟨result, rfl, hentries, _⟩ := entryStep_node node current merged hnodup hcur.1 h
  have hmem := mem_of_mem_keys "type".toList node
    (mem_keys_of_lookupProp _ node (typeState_ne_undefined t₁ t₂ new₁ new₂ _ hnew hsome))
  have hstep := hentries _ hmem
  obtain ⟨m, hm, hstate⟩ := typeState_merge t₁ t₂ h₁ h₂ hne new₁ new₂ seen₁ seen₂ _ _
    hnew hsome hcur.2
  simp only at hstep
  rw [hm] at hstep
  cases hstep
  exact ⟨Or.inr rfl, hstate⟩
theorem traceKey_invariant (key : Str) (state : Bool → Bool → JsVal → Prop)
    (flag₁ flag₂ : List (Str × JsVal) → Bool) :
    ∀ (schemata : List (List (Str × JsVal))) (seen₁ seen₂ : Bool) (current final : JsVal),
      (∀ schema ∈ schemata, key ∈ schema.map Prod.fst → ∀ s₁ s₂ value merged,
        state s₁ s₂ value → entryStep (lookupProp key schema) value = some merged →
        state (s₁ || flag₁ schema) (s₂ || flag₂ schema) merged) →
      (∀ schema ∈ schemata, key ∉ schema.map Prod.fst →
        flag₁ schema = false ∧ flag₂ schema = false) →
      state seen₁ seen₂ current → traceKey key schemata current = some final →
      state (seen₁ || schemata.any flag₁) (seen₂ || schemata.any flag₂) final
  | [], seen₁, seen₂, current, final, _, _, hs, h => by
    simp only [traceKey, Option.some.injEq] at h
    subst h
    simpa using hs
  | schema :: rest, seen₁, seen₂, current, final, hstep, hflag, hs, h => by
    have hstep' : ∀ s ∈ rest, key ∈ s.map Prod.fst → ∀ s₁ s₂ value merged,
        state s₁ s₂ value → entryStep (lookupProp key s) value = some merged →
        state (s₁ || flag₁ s) (s₂ || flag₂ s) merged :=
      fun s hs' => hstep s (List.mem_cons_of_mem _ hs')
    have hflag' : ∀ s ∈ rest, key ∉ s.map Prod.fst → flag₁ s = false ∧ flag₂ s = false :=
      fun s hs' => hflag s (List.mem_cons_of_mem _ hs')
    simp only [traceKey] at h
    simp only [List.any_cons, ← Bool.or_assoc]
    split_ifs at h with hk
    · cases hm : entryStep (lookupProp key schema) current with
      | none => simp [hm] at h
      | some merged =>
        simp only [hm, Option.some_bind] at h
        exact traceKey_invariant key state flag₁ flag₂ rest _ _ merged final hstep' hflag'
          (hstep schema (List.mem_cons_self _ _) hk _ _ _ _ hs hm) h
    · obtain ⟨f₁, f₂⟩ := hflag schema (List.mem_cons_self _ _) hk
      rw [f₁, f₂, Bool.or_false, Bool.or_false]
      exact traceKey_invariant key state flag₁ flag₂ rest _ _ current final hstep' hflag' hs h

theorem mergeOverArray_schemata_cons (schema : List (Str × JsVal))
    (rest : List (List (Str × JsVal))) (acc : List (Str × JsVal)) (result : JsVal)
    (h : mergeOverArray ((schema :: rest).map JsVal.obj) (JsVal.obj acc) = some result) :
    ∃ merged, mergeOverObject schema (JsVal.obj acc) = some (JsVal.obj merged) ∧
      mergeOverArray (rest.map JsVal.obj) (JsVal.obj merged) = some result := by
  rw [List.map_cons, mergeOverArray_obj_cons] at h
  cases hm : mergeOverObject schema (JsVal.obj acc) with
  | none => simp [hm] at h
  | some merged =>
    obtain ⟨m, rfl⟩ := mergeOverObject_obj schema acc merged hm
    simp only [hm, Option.some_bind] at h
    exact ⟨m, rfl, h⟩

theorem mergeOverArray_schemata_obj :
    ∀ (schemata : List (List (Str × JsVal))) (acc : List (Str × JsVal)) (result : JsVal),
      mergeOverArray (schemata.map JsVal.obj) (JsVal.obj acc) = some result →
      ∃ properties, result = JsVal.obj properties
  | [], acc, result, h => by
    simp only [List.map_nil, mergeOverArray, Option.some.injEq] at h
    exact ⟨acc, h.symm⟩
  | schema :: rest, acc, result, h => by
    obtain ⟨merged, _, h₂⟩ := mergeOverArray_schemata_cons schema rest acc result h
    exact mergeOverArray_schemata_obj rest merged result h₂

theorem mergeOverArray_traceKey (key : Str) :
    ∀ (schemata : List (List (Str × JsVal))) (acc result : List (Str × JsVal)),
      (∀ schema ∈ schemata, (schema.map Prod.fst).Nodup) →
      mergeOverArray (schemata.map JsVal.obj) (JsVal.obj acc) = some (JsVal.obj result) →
      traceKey key schemata (lookupProp key acc) = some (lookupProp key result)
  | [], acc, result, _, h => by
    simp only [List.map_nil, mergeOverArray, Option.some.injEq, JsVal.obj.injEq] at h
    subst h
    rfl
  | schema :: rest, acc, result, hnodup, h => by
    obtain ⟨merged, h₁, h₂⟩ := mergeOverArray_schemata_cons schema rest acc _ h
    have ih := mergeOverArray_traceKey key rest merged result
      (fun s hs => hnodup s (List.mem_cons_of_mem _ hs)) h₂
    simp only [traceKey]
    split_ifs with hk
    · have hentry := mergeOverObject_entries schema acc merged h₁
        (hnodup schema (List.mem_cons_self _ _)) _ (mem_of_mem_keys key schema hk)
      simp only at hentry
      rw [hentry, Option.some_bind]
      exact ih
    · rw [← mergeOverObject_other_key key schema acc merged h₁ hk]
      exact ih

theorem mergeOverArray_schemata_plain :
    ∀ (schemata : List (List (Str × JsVal))) (acc result : List (Str × JsVal)),
      (∀ schema ∈ schemata, ∀ p ∈ schema, isPlainObject p.2 = true) →
      (∀ p ∈ acc, isPlainObject p.2 = true) →
      mergeOverArray (schemata.map JsVal.obj) (JsVal.obj acc) = some (JsVal.obj result) →
      ∀ p ∈ result, isPlainObject p.2 = true
  | [], acc, result, _, hacc, h => by
    simp only [List.map_nil, mergeOverArray, Option.some.injEq, JsVal.obj.injEq] at h
    subst h
    exact hacc
  | schema :: rest, acc, result, hplain, hacc, h => by
    obtain ⟨merged, h₁, h₂⟩ := mergeOverArray_schemata_cons schema rest acc _ h
    exact mergeOverArray_schemata_plain rest merged result
      (fun s hs => hplain s (List.mem_cons_of_mem _ hs))
      (mergeOverObject_plain schema acc merged h₁ (hplain schema (List.mem_cons_self _ _))
        hacc) h₂

theorem documentSchemata_spec :
    ∀ (metadata list : List JsVal), documentSchemata metadata = some list →
      ∃ schemata : List (List (Str × JsVal)), list = schemata.map JsVal.obj ∧
        List.Forall₂ (fun tags schema => createSchemaOfEachDocument tags = some schema)
          metadata schemata
  | [], list, h => by
    simp only [documentSchemata, Option.some.injEq] at h
    exact ⟨[], h.symm, List.Forall₂.nil⟩
  | tags :: rest, list, h => by
    rw [documentSchemata] at h
    split at h
    · rename_i props schemata hp hr
      cases h
      obtain ⟨ss, hss, hall⟩ := documentSchemata_spec rest schemata hr
      exact ⟨props :: ss, by rw [hss]; rfl, List.Forall₂.cons hp hall⟩
    · cases h

theorem getSchema_spec (metadata : List JsVal) (schema : JsVal)
    (hdocs : ∀ tags ∈ metadata, isTagTree tags = true ∧ isPlainObject tags = true)
    (h : getSchema metadata = some schema) :
    ∃ (schemata : List (List (Str × JsVal))) (properties : List (Str × JsVal)),
      List.Forall₂ (fun tags s => createSchemaOfEachDocument tags = some s) metadata schemata ∧
      (∀ s ∈ schemata, (s.map Prod.fst).Nodup) ∧
      (∀ key, traceKey key schemata JsVal.undefined = some (lookupProp key properties)) ∧
      (∀ key, schemaNode schema key = filterValue (lookupProp key properties)) := by
  unfold getSchema at h
  split at h
  · cases h
  · rename_i list hl
    obtain ⟨schemata, rfl, hall⟩ := documentSchemata_spec metadata list hl
    split at h
    · cases h
    · rename_i merged hm
      cases h
      rw [mergeArrayItems_schemata] at hm
      obtain ⟨properties, rfl⟩ := mergeOverArray_schemata_obj schemata [] merged hm
      have hfacts : ∀ s ∈ schemata, (s.map Prod.fst).Nodup ∧
          ∀ p ∈ s, isPlainObject p.2 = true := by
        intro s hs
        obtain ⟨tags, ht, hc⟩ : ∃ tags ∈ metadata,
            createSchemaOfEachDocument tags = some s := by
          clear hm hl
          induction hall with
          | nil => cases hs
          | cons hhead _ ih =>
            rcases List.mem_cons.1 hs with e | e
            · subst e
              exact ⟨_, List.mem_cons_self _ _, hhead⟩
            · obtain ⟨t, ht, hc⟩ := ih (fun t ht => hdocs t (List.mem_cons_of_mem _ ht)) e
              exact ⟨t, List.mem_cons_of_mem _ ht, hc⟩
        obtain ⟨htree, hobj⟩ := hdocs tags ht
        obtain ⟨props, rfl⟩ := isPlainObject_iff tags hobj
        refine ⟨(createSchemaOfEachDocument_tidy _ htree s hc).2 rfl, ?_⟩
        rw [createSchemaOfEachDocument] at hc
        exact fun p hp => (schemaOfProps_entries props s hc p hp).2
      have hplain := mergeOverArray_schemata_plain schemata [] properties
        (fun s hs => (hfacts s hs).2) (fun p hp => by cases hp) hm
      refine ⟨schemata, properties, hall, fun s hs => (hfacts s hs).1, ?_, ?_⟩
      · intro key
        exact mergeOverArray_traceKey key schemata [] properties
          (fun s hs => (hfacts s hs).1) hm
      · intro key
        exact schemaNode_filter properties key hplain
theorem lookupProp_tagTree (key : Str) :
    ∀ props : List (Str × JsVal), isTagTreeProps props = true → key ∈ props.map Prod.fst →
      isTagTree (lookupProp key props) = true
  | [], _, h => by cases h
  | (k, v) :: rest, ht, h => by
    simp only [isTagTreeProps, Bool.and_eq_true] at ht
    by_cases e : k = key
    · simp only [lookupProp, if_pos e]
      exact ht.1
    · simp only [lookupProp, if_neg e]
      have hrest : key ∈ rest.map Prod.fst := by
        simp only [List.map_cons, List.mem_cons] at h
        rcases h with h | h
        · exact absurd h.symm e
        · exact h
      exact lookupProp_tagTree key rest ht.2 hrest

theorem schemaOfProps_lookup (key : Str) :
    ∀ (props schema : List (Str × JsVal)), schemaOfProps props = some schema →
      isTagTreeProps props = true → key ∈ props.map Prod.fst →
      schemaEntry key (lookupProp key props)
          (createSchemaOfEachDocument (lookupProp key props))
        = some (some (lookupProp key schema))
  | [], _, _, _, h => by cases h
  | (k, v) :: rest, schema, hs, ht, h => by
    simp only [isTagTreeProps, Bool.and_eq_true] at ht
    rw [schemaOfProps] at hs
    split at hs
    · cases hs
    · rename_i entry he
      obtain ⟨node, rfl, _⟩ := schemaEntry_tidy k v _ entry ht.1
        (fun s e => createSchemaOfEachDocument_tidy v ht.1 s e) he
      split at hs
      · cases hs
      · rename_i props' hr
        cases hs
        by_cases e : k = key
        · subst e
          simp only [lookupProp, if_true]
          exact he
        · simp only [lookupProp, if_neg e]
          have hrest : key ∈ rest.map Prod.fst := by
            simp only [List.map_cons, List.mem_cons] at h
            rcases h with h | h
            · exact absurd h.symm e
            · exact h
          exact schemaOfProps_lookup key rest props' hr ht.2 hrest

theorem eq_of_strictEqPrimitive_str (value : JsVal) (t : Str)
    (h : strictEqPrimitive value (JsVal.str t) = true) : value = JsVal.str t := by
  cases value <;> simp_all [strictEqPrimitive]

theorem tagType_iff (t : Str) (tag : JsVal) (h : tagType t tag = true) :
    ∃ name, tag = JsVal.str name ∧ mappedType name = JsVal.str t := by
  cases tag <;> first
    | (simp [tagType] at h; done)
    | exact ⟨_, rfl, eq_of_strictEqPrimitive_str _ t h⟩

theorem forall₂_mem_right {α β : Type} (r : α → β → Prop) :
    ∀ (as : List α) (bs : List β), List.Forall₂ r as bs → ∀ b ∈ bs, ∃ a ∈ as, r a b
  | _, _, List.Forall₂.nil, b, hb => by cases hb
  | _, _, List.Forall₂.cons hhead htail, b, hb => by
    rcases List.mem_cons.1 hb with e | e
    · subst e
      exact ⟨_, List.mem_cons_self _ _, hhead⟩
    · obtain ⟨a, ha, hr⟩ := forall₂_mem_right r _ _ htail b e
      exact ⟨a, List.mem_cons_of_mem _ ha, hr⟩

theorem forall₂_mem_left {α β : Type} (r : α → β → Prop) :
    ∀ (as : List α) (bs : List β), List.Forall₂ r as bs → ∀ a ∈ as, ∃ b ∈ bs, r a b
  | _, _, List.Forall₂.nil, a, ha => by cases ha
  | _, _, List.Forall₂.cons hhead htail, a, ha => by
    rcases List.mem_cons.1 ha with e | e
    · subst e
      exact ⟨_, List.mem_cons_self _ _, hhead⟩
    · obtain ⟨b, hb, hr⟩ := forall₂_mem_left r _ _ htail a e
      exact ⟨b, List.mem_cons_of_mem _ hb, hr⟩

theorem leaf_of_document (t₁ t₂ key : Str) (props schema : List (Str × JsVal))
    (htree : isTagTree (JsVal.obj props) = true)
    (hs : schemaOfProps props = some schema)
    (hpos : lookupProp key props = JsVal.undefined ∨ tagType t₁ (lookupProp key props) = true ∨
      tagType t₂ (lookupProp key props) = true) :
    (key ∉ schema.map Prod.fst ∧ lookupProp key props = JsVal.undefined ∧
      lookupProp key schema = JsVal.undefined) ∨
    (key ∈ schema.map Prod.fst ∧ ∃ node, lookupProp key schema = JsVal.obj node ∧
      (node.map Prod.fst).Nodup ∧
      ((tagType t₁ (lookupProp key props) = true ∧
          lookupProp "type".toList node = JsVal.str t₁) ∨
        (tagType t₂ (lookupProp key props) = true ∧
          lookupProp "type".toList node = JsVal.str t₂))) := by
  simp only [isTagTree, Bool.and_eq_true, decide_eq_true_eq] at htree
  have hkeys := (schemaOfProps_tidy props htree.2 schema hs).2
  by_cases hk : key ∈ props.map Prod.fst
  · right
    refine ⟨hkeys ▸ hk, ?_⟩
    have hentry := schemaOfProps_lookup key props schema hs htree.2 hk
    have htag := lookupProp_tagTree key props htree.2 hk
    have hleaf : ∀ t, tagType t (lookupProp key props) = true →
        ∃ node, lookupProp key schema = JsVal.obj node ∧ (node.map Prod.fst).Nodup ∧
          lookupProp "type".toList node = JsVal.str t := by
      intro t ht
      obtain ⟨name, hname, hmapped⟩ := tagType_iff t _ ht
      rw [hname] at hentry
      simp only [schemaEntry, Option.some.injEq] at hentry
      obtain ⟨node, hnode, hnodup, _, htype, _⟩ := leaf_node name key
      rw [hnode] at hentry
      exact ⟨node, hentry.symm, hnodup, htype.trans hmapped⟩
    rcases hpos with h | h | h
    · rw [h] at htag
      simp [isTagTree] at htag
    · obtain ⟨node, h1, h2, h3⟩ := hleaf t₁ h
      exact ⟨node, h1, h2, Or.inl ⟨h, h3⟩⟩
    · obtain ⟨node, h1, h2, h3⟩ := hleaf t₂ h
      exact ⟨node, h1, h2, Or.inr ⟨h, h3⟩⟩
  · left
    have hk' : key ∉ schema.map Prod.fst := hkeys ▸ hk
    refine ⟨hk', ?_, ?_⟩
    · by_contra hne
      exact hk (mem_keys_of_lookupProp key props hne)
    · by_contra hne
      exact hk' (mem_keys_of_lookupProp key schema hne)
theorem filterValue_pair_type (props : List (Str × JsVal)) (a b : JsVal)
    (h : lookupProp "type".toList props = JsVal.arr [a, b]) :
    getKey (filterValue (JsVal.obj props)) "type".toList = JsVal.arr [a, b] := by
  have hkept : getKey (JsVal.obj (filterProps props)) "type".toList = JsVal.arr [a, b] := by
    show lookupProp "type".toList (filterProps props) = _
    rw [lookupProp_filterProps, h]
    exact filterValue_of_not_object _ rfl
  unfold filterValue
  rw [if_pos (truthy_obj props)]
  cases hr : filterReplacement (JsVal.obj props) with
  | none =>
    simp only
    rw [if_pos (show isObject (JsVal.obj props) = true from rfl),
      filterTypesOfPropertiesIfAnyOrArray]
    exact hkept
  | some replacement =>
    simp only
    have ht : getProp (JsVal.obj props) "type" = JsVal.arr [a, b] := h
    unfold filterReplacement at hr
    simp only [ht] at hr
    have h1 : (truthy (JsVal.arr [a, b]) &&
        (strictEqStr (JsVal.arr [a, b]) "any" || isArray (JsVal.arr [a, b]))) = true := rfl
    rw [if_pos h1, if_neg (by simp [isArray])] at hr
    split_ifs at hr
    cases hr
    rfl

theorem mentions_undefined (t : Str) : mentions t JsVal.undefined = false := rfl

theorem mentions_self (t : Str) : mentions t (JsVal.str t) = true := by
  simp [mentions, strictEqPrimitive]

theorem positionState_final (t₁ t₂ : Str) (final : JsVal)
    (h : positionState t₁ t₂ true true final) :
    ∃ props, final = JsVal.obj props ∧
      (lookupProp "type".toList props = JsVal.arr [JsVal.str t₁, JsVal.str t₂] ∨
        lookupProp "type".toList props = JsVal.arr [JsVal.str t₂, JsVal.str t₁]) := by
  obtain ⟨hshape, htype⟩ := h
  rcases hshape with rfl | hobj
  · rcases htype with h | h <;> cases h
  · obtain ⟨props, rfl⟩ := isPlainObject_iff final hobj
    exact ⟨props, rfl, htype⟩

theorem tagType_unique (t₁ t₂ : Str) (tag : JsVal) (h₁ : tagType t₁ tag = true)
    (h₂ : tagType t₂ tag = true) : t₁ = t₂ := by
  obtain ⟨name, rfl, hm₁⟩ := tagType_iff t₁ tag h₁
  obtain ⟨name', hn, hm₂⟩ := tagType_iff t₂ _ h₂
  cases hn
  rw [hm₁] at hm₂
  exact JsVal.str.inj hm₂

theorem key_position (metadata : List JsVal) (key t₁ t₂ : Str) (schema : JsVal)
    (h₁ : isListedType t₁ = true) (h₂ : isListedType t₂ = true) (hne : t₁ ≠ t₂)
    (hdocs : ∀ tags ∈ metadata, isTagTree tags = true ∧ isPlainObject tags = true)
    (hpos : ∀ tags ∈ metadata, getKey tags key = JsVal.undefined ∨
      tagType t₁ (getKey tags key) = true ∨ tagType t₂ (getKey tags key) = true)
    (hocc₁ : ∃ tags ∈ metadata, tagType t₁ (getKey tags key) = true)
    (hocc₂ : ∃ tags ∈ metadata, tagType t₂ (getKey tags key) = true)
    (hs : getSchema metadata = some schema) :
    getKey (schemaNode schema key) "type".toList = JsVal.arr [JsVal.str t₁, JsVal.str t₂] ∨
      getKey (schemaNode schema key) "type".toList
        = JsVal.arr [JsVal.str t₂, JsVal.str t₁] := by
  obtain ⟨schemata, properties, hall, _, htrace, hnode⟩ := getSchema_spec metadata schema hdocs hs
  have hdoc : ∀ s ∈ schemata, ∃ props,
      (key ∉ s.map Prod.fst ∧ lookupProp key props = JsVal.undefined ∧
        lookupProp key s = JsVal.undefined) ∨
      (key ∈ s.map Prod.fst ∧ ∃ node, lookupProp key s = JsVal.obj node ∧
        (node.map Prod.fst).Nodup ∧
        ((tagType t₁ (lookupProp key props) = true ∧
            lookupProp "type".toList node = JsVal.str t₁) ∨
          (tagType t₂ (lookupProp key props) = true ∧
            lookupProp "type".toList node = JsVal.str t₂))) := by
    intro s hs'
    obtain ⟨tags, ht, hc⟩ := forall₂_mem_right _ _ _ hall s hs'
    obtain ⟨htree, hobj⟩ := hdocs tags ht
    obtain ⟨props, rfl⟩ := isPlainObject_iff tags hobj
    rw [createSchemaOfEachDocument] at hc
    exact ⟨props, leaf_of_document t₁ t₂ key props s htree hc (hpos _ ht)⟩
  have hfinal := traceKey_invariant key (positionState t₁ t₂)
    (fun s => mentions t₁ (getKey (lookupProp key s) "type".toList))
    (fun s => mentions t₂ (getKey (lookupProp key s) "type".toList))
    schemata false false JsVal.undefined (lookupProp key properties)
    (by
      intro s hs' hk s₁ s₂ value merged hstate hstep
      obtain ⟨props, hcase⟩ := hdoc s hs'
      rcases hcase with ⟨hk', _⟩ | ⟨_, node, hnode', hnodup, htype⟩
      · exact absurd hk hk'
      · rw [hnode'] at hstep
        simp only [hnode', getKey]
        have hmention := typeState_of_mentions t₁ t₂ hne (lookupProp "type".toList node)
          (by
            rcases htype with ⟨_, e⟩ | ⟨_, e⟩
            · exact Or.inl e
            · exact Or.inr (Or.inl e))
        exact positionState_merge t₁ t₂ h₁ h₂ hne _ _ s₁ s₂ node value merged hnodup
          hmention.1 hmention.2 hstate hstep)
    (by
      intro s hs' hk
      have hu : lookupProp key s = JsVal.undefined := by
        by_contra hne'
        exact hk (mem_keys_of_lookupProp key s hne')
      simp only [hu]
      exact ⟨rfl, rfl⟩)
    ⟨Or.inl rfl, rfl⟩ (htrace key)
  have hflag : ∀ t, (t = t₁ ∨ t = t₂) → (∃ tags ∈ metadata, tagType t (getKey tags key) = true) →
      schemata.any (fun s => mentions t (getKey (lookupProp key s) "type".toList)) = true := by
    intro t ht hocc
    obtain ⟨tags, hmem, htag⟩ := hocc
    obtain ⟨s, hs', hc⟩ := forall₂_mem_left _ _ _ hall tags hmem
    obtain ⟨htree, hobj⟩ := hdocs tags hmem
    obtain ⟨props, rfl⟩ := isPlainObject_iff tags hobj
    rw [createSchemaOfEachDocument] at hc
    have hcase := leaf_of_document t₁ t₂ key props s htree hc (hpos _ hmem)
    rw [List.any_eq_true]
    refine ⟨s, hs', ?_⟩
    have htag' : tagType t (lookupProp key props) = true := htag
    rcases hcase with ⟨_, hu, _⟩ | ⟨_, node, hnode', _, htype⟩
    · rw [hu] at htag'
      simp [tagType] at htag'
    · rw [hnode']
      show mentions t (lookupProp "type".toList node) = true
      rcases htype with ⟨ht', e⟩ | ⟨ht', e⟩
      · rw [e, tagType_unique t t₁ _ htag' ht']
        exact mentions_self t₁
      · rw [e, tagType_unique t t₂ _ htag' ht']
        exact mentions_self t₂
  rw [hflag t₁ (Or.inl rfl) hocc₁, hflag t₂ (Or.inr rfl) hocc₂] at hfinal
  obtain ⟨props, hprops, htype⟩ := positionState_final t₁ t₂ _ hfinal
  rw [hnode key, hprops]
  rcases htype with e | e
  · exact Or.inl (filterValue_pair_type props _ _ e)
  · exact Or.inr (filterValue_pair_type props _ _ e)
theorem isLeafOf_flags (t₁ t₂ : Str) (hne : t₁ ≠ t₂) (tag node : JsVal)
    (h : isLeafOf t₁ t₂ tag node) :
    ∃ props, node = JsVal.obj props ∧ (props.map Prod.fst).Nodup ∧
      typeState t₁ t₂ (tagType t₁ tag) (tagType t₂ tag) (lookupProp "type".toList props) ∧
      (tagType t₁ tag || tagType t₂ tag) = true := by
  obtain ⟨props, rfl, hnodup, htype⟩ := h
  refine ⟨props, rfl, hnodup, ?_⟩
  rcases htype with ⟨ht, e⟩ | ⟨ht, e⟩
  · have hf : tagType t₂ tag = false := by
      cases hc : tagType t₂ tag with
      | false => rfl
      | true => exact absurd (tagType_unique t₁ t₂ tag ht hc) hne
    rw [ht, hf, e]
    exact ⟨rfl, rfl⟩
  · have hf : tagType t₁ tag = false := by
      cases hc : tagType t₁ tag with
      | false => rfl
      | true => exact absurd (tagType_unique t₁ t₂ tag hc ht) hne
    rw [ht, hf, e]
    exact ⟨rfl, rfl⟩

theorem mergeItemShapes_leaves (t₁ t₂ : Str) (h₁ : isListedType t₁ = true)
    (h₂ : isListedType t₂ = true) (hne : t₁ ≠ t₂) :
    ∀ (tags : List JsVal) (items : List (Str × JsVal)) (seen₁ seen₂ : Bool)
      (schemaTest result : JsVal),
      List.Forall₂ (fun tag p => isLeafOf t₁ t₂ tag p.2) tags items →
      positionState t₁ t₂ seen₁ seen₂ schemaTest →
      mergeItemShapes items schemaTest = some result →
      positionState t₁ t₂ (seen₁ || tags.any (tagType t₁)) (seen₂ || tags.any (tagType t₂))
        result
  | _, _, seen₁, seen₂, schemaTest, result, List.Forall₂.nil, hs, h => by
    simp only [mergeItemShapes, Option.some.injEq] at h
    subst h
    simpa using hs
  | tag :: tags, (key, node) :: items, seen₁, seen₂, schemaTest, result,
      List.Forall₂.cons hhead htail, hs, h => by
    obtain ⟨props, hnode, hnodup, hstate, hsome⟩ := isLeafOf_flags t₁ t₂ hne tag node hhead
    have hnode' : node = JsVal.obj props := hnode
    subst hnode'
    rw [mergeItemShapes] at h
    split at h
    · cases h
    · rename_i merged hm
      have hstep : entryStep (JsVal.obj props) schemaTest = some merged := by
        rw [entryStep_obj, ← hm, mergeArrayItems]
      have hnext := positionState_merge t₁ t₂ h₁ h₂ hne _ _ seen₁ seen₂ props schemaTest
        merged hnodup hstate hsome hs hstep
      have ih := mergeItemShapes_leaves t₁ t₂ h₁ h₂ hne tags items _ _ merged result htail
        hnext h
      simp only [List.any_cons, ← Bool.or_assoc]
      exact ih

theorem schemaOfItems_leaves (t₁ t₂ : Str) :
    ∀ (tags : List JsVal) (index : Nat) (items : List (Str × JsVal)),
      (∀ tag ∈ tags, tagType t₁ tag = true ∨ tagType t₂ tag = true) →
      schemaOfItems index tags = some items →
      List.Forall₂ (fun tag p => isLeafOf t₁ t₂ tag p.2) tags items ∧
        (∀ first rest, items = first :: rest → first.1 = natToStr index)
  | [], index, items, _, h => by
    simp only [schemaOfItems, Option.some.injEq] at h
    subst h
    exact ⟨List.Forall₂.nil, fun _ _ e => by cases e⟩
  | tag :: tags, index, items, htags, h => by
    have htag := htags tag (List.mem_cons_self _ _)
    obtain ⟨name, rfl, -⟩ : ∃ name, tag = JsVal.str name ∧ True := by
      rcases htag with e | e
      · obtain ⟨name, hn, _⟩ := tagType_iff t₁ tag e
        exact ⟨name, hn, trivial⟩
      · obtain ⟨name, hn, _⟩ := tagType_iff t₂ tag e
        exact ⟨name, hn, trivial⟩
    rw [schemaOfItems] at h
    simp only [schemaEntry] at h
    split at h
    · cases h
    · rename_i rest hr
      cases h
      obtain ⟨ih, _⟩ := schemaOfItems_leaves t₁ t₂ tags (index + 1) rest
        (fun t ht => htags t (List.mem_cons_of_mem _ ht)) hr
      refine ⟨List.Forall₂.cons ?_ ih, fun first rest' e => by cases e; rfl⟩
      obtain ⟨node, hnode, hnodup, _, htype, _⟩ := leaf_node name (natToStr index)
      refine ⟨node, hnode, hnodup, ?_⟩
      rcases htag with e | e
      · obtain ⟨name', hn, hm⟩ := tagType_iff t₁ _ e
        cases hn
        exact Or.inl ⟨e, htype.trans hm⟩
      · obtain ⟨name', hn, hm⟩ := tagType_iff t₂ _ e
        cases hn
        exact Or.inr ⟨e, htype.trans hm⟩
theorem isTagTreeItems_of_tagType (t₁ t₂ : Str) :
    ∀ tags : List JsVal, (∀ tag ∈ tags, tagType t₁ tag = true ∨ tagType t₂ tag = true) →
      isTagTreeItems tags = true
  | [], _ => rfl
  | tag :: rest, h => by
    have hrest := isTagTreeItems_of_tagType t₁ t₂ rest
      (fun t ht => h t (List.mem_cons_of_mem _ ht))
    have htag : isTagTree tag = true := by
      rcases h tag (List.mem_cons_self _ _) with e | e
      · obtain ⟨name, rfl, _⟩ := tagType_iff t₁ tag e
        rfl
      · obtain ⟨name, rfl, _⟩ := tagType_iff t₂ tag e
        rfl
    simp only [isTagTreeItems, htag, hrest, Bool.and_self]

theorem positionState_obj (t₁ t₂ : Str) (seen₁ seen₂ : Bool) (value : JsVal)
    (h : positionState t₁ t₂ seen₁ seen₂ value) (hsome : (seen₁ || seen₂) = true) :
    ∃ props, value = JsVal.obj props ∧
      typeState t₁ t₂ seen₁ seen₂ (lookupProp "type".toList props) := by
  obtain ⟨hshape, htype⟩ := h
  rcases hshape with rfl | hobj
  · exact absurd rfl (typeState_ne_undefined t₁ t₂ seen₁ seen₂ _ htype hsome)
  · obtain ⟨props, rfl⟩ := isPlainObject_iff value hobj
    exact ⟨props, rfl, htype⟩

theorem arrayItemsSchema_leaves (t₁ t₂ : Str) (h₁ : isListedType t₁ = true)
    (h₂ : isListedType t₂ = true) (hne : t₁ ≠ t₂) (tags : List JsVal)
    (items : List (Str × JsVal)) (itemsSchema : JsVal) (hnil : tags ≠ [])
    (htags : ∀ tag ∈ tags, tagType t₁ tag = true ∨ tagType t₂ tag = true)
    (hitems : schemaOfItems 0 tags = some items)
    (h : arrayItemsSchema items = some itemsSchema) :
    ∃ props, itemsSchema = JsVal.obj props ∧ (props.map Prod.fst).Nodup ∧
      typeState t₁ t₂ (tags.any (tagType t₁)) (tags.any (tagType t₂))
        (lookupProp "type".toList props) ∧
      (tags.any (tagType t₁) || tags.any (tagType t₂)) = true := by
  obtain ⟨hall, hfirst⟩ := schemaOfItems_leaves t₁ t₂ tags 0 items htags hitems
  have hlen := hall.length_eq
  have hsome : (tags.any (tagType t₁) || tags.any (tagType t₂)) = true := by
    cases tags with
    | nil => exact absurd rfl hnil
    | cons tag rest =>
      rcases htags tag (List.mem_cons_self _ _) with e | e
      · simp [e]
      · simp [e]
  have htidy : isTidy itemsSchema = true :=
    arrayItemsSchema_tidy items itemsSchema
      (schemaOfItems_tidy tags (isTagTreeItems_of_tagType t₁ t₂ tags htags) 0 items hitems) h
  have hresult : positionState t₁ t₂ (tags.any (tagType t₁)) (tags.any (tagType t₂))
      itemsSchema := by
    unfold arrayItemsSchema at h
    split_ifs at h with hl₁ hl₂
    · have := mergeItemShapes_leaves t₁ t₂ h₁ h₂ hne tags items false false (JsVal.obj [])
        itemsSchema hall ⟨Or.inr rfl, rfl⟩ h
      simpa using this
    · cases h
      cases hall with
      | nil => simp at hl₂
      | cons hhead htail =>
        cases htail with
        | nil =>
          rename_i tag p
          obtain ⟨key, node⟩ := p
          have hkey : key = natToStr 0 := hfirst _ _ rfl
          subst hkey
          obtain ⟨props, hnode, _, hstate, _⟩ := isLeafOf_flags t₁ t₂ hne tag node hhead
          have hnode' : node = JsVal.obj props := hnode
          subst hnode'
          have hlook : lookupProp "0".toList [(natToStr 0, JsVal.obj props)]
              = JsVal.obj props := by
            simp only [lookupProp]
            rw [if_pos (by decide)]
          rw [hlook]
          simp only [List.any_cons, List.any_nil, Bool.or_false]
          exact ⟨Or.inr rfl, hstate⟩
        | cons _ _ => simp at hl₂
    · exfalso
      cases tags with
      | nil => exact hnil rfl
      | cons tag rest =>
        cases items with
        | nil => simp at hlen
        | cons p ps =>
          cases ps with
          | nil => simp at hl₂
          | cons q qs => simp at hl₁
  obtain ⟨props, rfl, hstate⟩ := positionState_obj t₁ t₂ _ _ itemsSchema hresult hsome
  simp only [isTidy, Bool.and_eq_true, decide_eq_true_eq] at htidy
  exact ⟨props, rfl, htidy.1, hstate, hsome⟩
theorem mentions_of_typeState (t₁ t₂ : Str) (hne : t₁ ≠ t₂) (seen₁ seen₂ : Bool) (type : JsVal)
    (h : typeState t₁ t₂ seen₁ seen₂ type) :
    mentions t₁ type = seen₁ ∧ mentions t₂ type = seen₂ := by
  cases seen₁ <;> cases seen₂ <;> simp only [typeState] at h
  · subst h
    exact ⟨rfl, rfl⟩
  · subst h
    exact ⟨by simp [mentions, strictEqPrimitive, includes, hne], mentions_self t₂⟩
  · subst h
    exact ⟨mentions_self t₁, by simp [mentions, strictEqPrimitive, includes, Ne.symm hne]⟩
  · rcases h with rfl | rfl <;> exact ⟨by simp [mentions, strictEqPrimitive, includes],
      by simp [mentions, strictEqPrimitive, includes]⟩

theorem array_of_document (t₁ t₂ key : Str) (h₁ : isListedType t₁ = true)
    (h₂ : isListedType t₂ = true) (hne : t₁ ≠ t₂) (props schema : List (Str × JsVal))
    (htree : isTagTree (JsVal.obj props) = true)
    (hs : schemaOfProps props = some schema)
    (hpos : lookupProp key props = JsVal.undefined ∨ ∃ tags,
      lookupProp key props = JsVal.arr tags ∧ tags ≠ [] ∧
      ∀ tag ∈ tags, tagType t₁ tag = true ∨ tagType t₂ tag = true) :
    (key ∉ schema.map Prod.fst ∧ lookupProp key props = JsVal.undefined ∧
      lookupProp key schema = JsVal.undefined) ∨
    (key ∈ schema.map Prod.fst ∧ ∃ tags items,
      lookupProp key props = JsVal.arr tags ∧
      lookupProp key schema = JsVal.obj [("type".toList, JsVal.str "array".toList),
        ("items".toList, JsVal.obj items)] ∧
      (items.map Prod.fst).Nodup ∧
      typeState t₁ t₂ (tags.any (tagType t₁)) (tags.any (tagType t₂))
        (lookupProp "type".toList items) ∧
      (tags.any (tagType t₁) || tags.any (tagType t₂)) = true) := by
  simp only [isTagTree, Bool.and_eq_true, decide_eq_true_eq] at htree
  have hkeys := (schemaOfProps_tidy props htree.2 schema hs).2
  by_cases hk : key ∈ props.map Prod.fst
  · right
    refine ⟨hkeys ▸ hk, ?_⟩
    have hentry := schemaOfProps_lookup key props schema hs htree.2 hk
    have htag := lookupProp_tagTree key props htree.2 hk
    rcases hpos with h | ⟨tags, htags, hnil, hall⟩
    · rw [h] at htag
      simp [isTagTree] at htag
    · rw [htags] at hentry
      simp only [schemaEntry, createSchemaOfEachDocument] at hentry
      split at hentry
      · cases hentry
      · rename_i items hitems
        split at hentry
        · cases hentry
        · rename_i itemsSchema hschema
          obtain ⟨xp, rfl, hnodup, hstate, hsome⟩ := arrayItemsSchema_leaves t₁ t₂ h₁ h₂ hne
            tags items itemsSchema hnil hall hitems hschema
          simp only [Option.some.injEq] at hentry
          exact ⟨tags, xp, htags, hentry.symm, hnodup, hstate, hsome⟩
  · left
    have hk' : key ∉ schema.map Prod.fst := hkeys ▸ hk
    refine ⟨hk', ?_, ?_⟩
    · by_contra hne'
      exact hk (mem_keys_of_lookupProp key props hne')
    · by_contra hne'
      exact hk' (mem_keys_of_lookupProp key schema hne')

theorem itemsState_merge (t₁ t₂ : Str) (h₁ : isListedType t₁ = true)
    (h₂ : isListedType t₂ = true) (hne : t₁ ≠ t₂) (new₁ new₂ seen₁ seen₂ : Bool)
    (items : List (Str × JsVal)) (current merged : JsVal)
    (hnodup : (items.map Prod.fst).Nodup)
    (hnew : typeState t₁ t₂ new₁ new₂ (lookupProp "type".toList items))
    (hsome : (new₁ || new₂) = true) (hcur : itemsState t₁ t₂ seen₁ seen₂ current)
    (h : entryStep (JsVal.obj [("type".toList, JsVal.str "array".toList),
      ("items".toList, JsVal.obj items)]) current = some merged) :
    itemsState t₁ t₂ (seen₁ || new₁) (seen₂ || new₂) merged := by
  obtain ⟨hshape, htype, hitems⟩ := hcur
  have hkeys : (List.map Prod.fst [("type".toList, JsVal.str "array".toList),
      ("items".toList, JsVal.obj items)]).Nodup := by
    simp only [List.map_cons, List.map_nil]
    decide
  obtain ⟨result, rfl, hentries, _⟩ := entryStep_node _ current merged hkeys hshape h
  have hstep₁ := hentries ("type".toList, JsVal.str "array".toList) (by simp)
  have hstep₂ := hentries ("items".toList, JsVal.obj items) (by simp)
  simp only at hstep₁ hstep₂
  rw [entryStep_primitive (JsVal.str "array".toList) _ rfl] at hstep₁
  have htype' : lookupProp "type".toList result = JsVal.str "array".toList := by
    rcases htype with e | e
    · rw [e, mergeScalar_falsy JsVal.undefined _ rfl] at hstep₁
      exact (Option.some.inj hstep₁).symm
    · rw [e, mergeScalar_self (JsVal.str "array".toList) rfl] at hstep₁
      exact (Option.some.inj hstep₁).symm
  exact ⟨Or.inr rfl, Or.inr htype',
    positionState_merge t₁ t₂ h₁ h₂ hne new₁ new₂ seen₁ seen₂ items _ _ hnodup hnew hsome
      hitems hstep₂⟩
theorem filterValue_array_node (props : List (Str × JsVal))
    (h : lookupProp "type".toList props = JsVal.undefined ∨
      lookupProp "type".toList props = JsVal.str "array".toList) :
    filterValue (JsVal.obj props) = JsVal.obj (filterProps props) := by
  have hr : filterReplacement (JsVal.obj props) = none := by
    have ht : getProp (JsVal.obj props) "type" = lookupProp "type".toList props := rfl
    unfold filterReplacement
    simp only [ht]
    rcases h with e | e <;> rw [e] <;> rfl
  unfold filterValue
  rw [if_pos (truthy_obj props), hr]
  simp only
  rw [if_pos (show isObject (JsVal.obj props) = true from rfl),
    filterTypesOfPropertiesIfAnyOrArray]

theorem itemsState_final (t₁ t₂ : Str) (final : JsVal)
    (h : itemsState t₁ t₂ true true final) :
    ∃ props items, final = JsVal.obj props ∧
      (lookupProp "type".toList props = JsVal.undefined ∨
        lookupProp "type".toList props = JsVal.str "array".toList) ∧
      lookupProp "items".toList props = JsVal.obj items ∧
      (lookupProp "type".toList items = JsVal.arr [JsVal.str t₁, JsVal.str t₂] ∨
        lookupProp "type".toList items = JsVal.arr [JsVal.str t₂, JsVal.str t₁]) := by
  obtain ⟨hshape, htype, hitems⟩ := h
  obtain ⟨items, hi, hperm⟩ := positionState_final t₁ t₂ _ hitems
  rcases hshape with rfl | hobj
  · cases hi
  · obtain ⟨props, rfl⟩ := isPlainObject_iff final hobj
    exact ⟨props, items, rfl, htype, hi, hperm⟩

theorem items_position (metadata : List JsVal) (key t₁ t₂ : Str) (schema : JsVal)
    (h₁ : isListedType t₁ = true) (h₂ : isListedType t₂ = true) (hne : t₁ ≠ t₂)
    (hdocs : ∀ tags ∈ metadata, isTagTree tags = true ∧ isPlainObject tags = true)
    (hpos : ∀ tags ∈ metadata, getKey tags key = JsVal.undefined ∨ ∃ elements,
      getKey tags key = JsVal.arr elements ∧ elements ≠ [] ∧
      ∀ tag ∈ elements, tagType t₁ tag = true ∨ tagType t₂ tag = true)
    (hocc₁ : ∃ tags ∈ metadata, ∃ elements, getKey tags key = JsVal.arr elements ∧
      elements.any (tagType t₁) = true)
    (hocc₂ : ∃ tags ∈ metadata, ∃ elements, getKey tags key = JsVal.arr elements ∧
      elements.any (tagType t₂) = true)
    (hs : getSchema metadata = some schema) :
    getKey (getKey (schemaNode schema key) "items".toList) "type".toList
        = JsVal.arr [JsVal.str t₁, JsVal.str t₂] ∨
      getKey (getKey (schemaNode schema key) "items".toList) "type".toList
        = JsVal.arr [JsVal.str t₂, JsVal.str t₁] := by
  obtain ⟨schemata, properties, hall, _, htrace, hnode⟩ := getSchema_spec metadata schema hdocs hs
  have hdoc : ∀ tags ∈ metadata, ∀ s, createSchemaOfEachDocument tags = some s →
      (key ∉ s.map Prod.fst ∧ getKey tags key = JsVal.undefined ∧
        lookupProp key s = JsVal.undefined) ∨
      (key ∈ s.map Prod.fst ∧ ∃ elements items,
        getKey tags key = JsVal.arr elements ∧
        lookupProp key s = JsVal.obj [("type".toList, JsVal.str "array".toList),
          ("items".toList, JsVal.obj items)] ∧
        (items.map Prod.fst).Nodup ∧
        typeState t₁ t₂ (elements.any (tagType t₁)) (elements.any (tagType t₂))
          (lookupProp "type".toList items) ∧
        (elements.any (tagType t₁) || elements.any (tagType t₂)) = true) := by
    intro tags ht s hc
    obtain ⟨htree, hobj⟩ := hdocs tags ht
    obtain ⟨props, rfl⟩ := isPlainObject_iff tags hobj
    rw [createSchemaOfEachDocument] at hc
    exact array_of_document t₁ t₂ key h₁ h₂ hne props s htree hc (hpos _ ht)
  have hfinal := traceKey_invariant key (itemsState t₁ t₂)
    (fun s => mentions t₁ (getKey (getKey (lookupProp key s) "items".toList) "type".toList))
    (fun s => mentions t₂ (getKey (getKey (lookupProp key s) "items".toList) "type".toList))
    schemata false false JsVal.undefined (lookupProp key properties)
    (by
      intro s hs' hk s₁ s₂ value merged hstate hstep
      obtain ⟨tags, ht, hc⟩ := forall₂_mem_right _ _ _ hall s hs'
      rcases hdoc tags ht s hc with ⟨hk', _⟩ | ⟨_, elements, items, _, hnode', hnodup, htype, hsome⟩
      · exact absurd hk hk'
      · rw [hnode'] at hstep
        have hflags := mentions_of_typeState t₁ t₂ hne _ _ _ htype
        have hget : getKey (getKey (JsVal.obj [("type".toList, JsVal.str "array".toList),
            ("items".toList, JsVal.obj items)]) "items".toList) "type".toList
            = lookupProp "type".toList items := rfl
        simp only [hnode', hget, hflags.1, hflags.2]
        exact itemsState_merge t₁ t₂ h₁ h₂ hne _ _ s₁ s₂ items value merged hnodup htype hsome
          hstate hstep)
    (by
      intro s hs' hk
      have hu : lookupProp key s = JsVal.undefined := by
        by_contra hne'
        exact hk (mem_keys_of_lookupProp key s hne')
      simp only [hu]
      exact ⟨rfl, rfl⟩)
    ⟨Or.inl rfl, Or.inl rfl, Or.inl rfl, rfl⟩ (htrace key)
  have hflag₁ : schemata.any (fun s =>
      mentions t₁ (getKey (getKey (lookupProp key s) "items".toList) "type".toList)) = true := by
    obtain ⟨tags, hmem, elements, hel, hany⟩ := hocc₁
    obtain ⟨s, hs', hc⟩ := forall₂_mem_left _ _ _ hall tags hmem
    rw [List.any_eq_true]
    refine ⟨s, hs', ?_⟩
    rcases hdoc tags hmem s hc with ⟨_, hu, _⟩ | ⟨_, elements', items, hel', hnode', _, htype, _⟩
    · rw [hu] at hel
      cases hel
    · rw [hel] at hel'
      cases hel'
      rw [hnode']
      show mentions t₁ (lookupProp "type".toList items) = true
      rw [(mentions_of_typeState t₁ t₂ hne _ _ _ htype).1]
      exact hany
  have hflag₂ : schemata.any (fun s =>
      mentions t₂ (getKey (getKey (lookupProp key s) "items".toList) "type".toList)) = true := by
    obtain ⟨tags, hmem, elements, hel, hany⟩ := hocc₂
    obtain ⟨s, hs', hc⟩ := forall₂_mem_left _ _ _ hall tags hmem
    rw [List.any_eq_true]
    refine ⟨s, hs', ?_⟩
    rcases hdoc tags hmem s hc with ⟨_, hu, _⟩ | ⟨_, elements', items, hel', hnode', _, htype, _⟩
    · rw [hu] at hel
      cases hel
    · rw [hel] at hel'
      cases hel'
      rw [hnode']
      show mentions t₂ (lookupProp "type".toList items) = true
      rw [(mentions_of_typeState t₁ t₂ hne _ _ _ htype).2]
      exact hany
  rw [hflag₁, hflag₂] at hfinal
  obtain ⟨props, items, hprops, htype, hitems, hperm⟩ := itemsState_final t₁ t₂ _ hfinal
  rw [hnode key, hprops, filterValue_array_node props htype]
  have hget : getKey (JsVal.obj (filterProps props)) "items".toList
      = filterValue (JsVal.obj items) := by
    show lookupProp "items".toList (filterProps props) = _
    rw [lookupProp_filterProps, hitems]
  rw [hget]
  rcases hperm with e | e
  · exact Or.inl (filterValue_pair_type items _ _ e)
  · exact Or.inr (filterValue_pair_type items _ _ e)
/-- Two types at a key, or in the arrays under a key, are listed in every schema
that `getSchema` returns. -/
theorem two_types_listed (metadata : List JsVal) (key t₁ t₂ : Str) (schema : JsVal)
    (h₁ : isListedType t₁ = true) (h₂ : isListedType t₂ = true) (hne : t₁ ≠ t₂)
    (hdocs : ∀ tags ∈ metadata, isTagTree tags = true ∧ isPlainObject tags = true)
    (hs : getSchema metadata = some schema) :
    ((∀ tags ∈ metadata, getKey tags key = JsVal.undefined ∨
        tagType t₁ (getKey tags key) = true ∨ tagType t₂ (getKey tags key) = true) →
      (∃ tags ∈ metadata, tagType t₁ (getKey tags key) = true) →
      (∃ tags ∈ metadata, tagType t₂ (getKey tags key) = true) →
      (getKey (schemaNode schema key) "type".toList = JsVal.arr [JsVal.str t₁, JsVal.str t₂] ∨
        getKey (schemaNode schema key) "type".toList
          = JsVal.arr [JsVal.str t₂, JsVal.str t₁])) ∧
    ((∀ tags ∈ metadata, getKey tags key = JsVal.undefined ∨ ∃ elements,
        getKey tags key = JsVal.arr elements ∧ elements ≠ [] ∧
        ∀ tag ∈ elements, tagType t₁ tag = true ∨ tagType t₂ tag = true) →
      (∃ tags ∈ metadata, ∃ elements, getKey tags key = JsVal.arr elements ∧
        elements.any (tagType t₁) = true) →
      (∃ tags ∈ metadata, ∃ elements, getKey tags key = JsVal.arr elements ∧
        elements.any (tagType t₂) = true) →
      (getKey (getKey (schemaNode schema key) "items".toList) "type".toList
          = JsVal.arr [JsVal.str t₁, JsVal.str t₂] ∨
        getKey (getKey (schemaNode schema key) "items".toList) "type".toList
          = JsVal.arr [JsVal.str t₂, JsVal.str t₁])) :=
  ⟨fun hpos hocc₁ hocc₂ =>
      key_position metadata key t₁ t₂ schema h₁ h₂ hne hdocs hpos hocc₁ hocc₂ hs,
    fun hpos hocc₁ hocc₂ =>
      items_position metadata key t₁ t₂ schema h₁ h₂ hne hdocs hpos hocc₁ hocc₂ hs⟩

/-! ### The merge returns on the schemata of tag trees -/

theorem isNodeProps_cons (name : Str) (value : JsVal) (rest : List (Str × JsVal)) :
    isNodeProps ((name, value) :: rest) = (attributeOk name value && isNodeProps rest) := by
  rw [isNodeProps]; rfl

theorem isNames_arr (items : List JsVal) :
    isNames (JsVal.arr items) = (!items.isEmpty && items.all isString) := rfl

theorem isNames_cases (value : JsVal) (h : isNames value = true) :
    (∃ text, value = JsVal.str text) ∨
      ∃ items, value = JsVal.arr items ∧ items ≠ [] ∧ items.all isString = true := by
  cases value <;> simp [isNames] at h
  · exact Or.inl ⟨_, rfl⟩
  · refine Or.inr ⟨_, rfl, ?_, ?_⟩
    · intro e; simp [e] at h
    · simpa using h.2

theorem isNames_push (items : List JsVal) (value : JsVal)
    (h : items.all isString = true) (hv : isString value = true) :
    isNames (JsVal.arr (items ++ [value])) = true := by
  rw [isNames_arr]
  simp only [List.all_append, List.all_cons, List.all_nil, h, hv, Bool.and_self, Bool.and_true,
    Bool.true_and]
  cases items <;> rfl

theorem mergeScalar_names (current value : JsVal) (hv : isString value = true)
    (hc : current = JsVal.undefined ∨ isNames current = true) :
    isNames (mergeScalar current value) = true := by
  obtain ⟨text, rfl⟩ : ∃ text, value = JsVal.str text := by
    cases value <;> simp [isString] at hv
    exact ⟨_, rfl⟩
  rcases hc with rfl | hc
  · rw [mergeScalar_falsy JsVal.undefined _ rfl]; rfl
  · rcases isNames_cases _ hc with ⟨cur, rfl⟩ | ⟨items, rfl, hne, hall⟩
    · by_cases hcur : cur = []
      · subst hcur
        rw [mergeScalar_falsy (JsVal.str []) _ rfl]; rfl
      · rw [mergeScalar_str _ _ hcur]
        split
        · rfl
        · rcases mergeTypesOfProperty_cases cur (JsVal.str text) with e | e <;> rw [e] <;> rfl
    · rw [mergeScalar_arr]
      split
      · exact hc
      · exact isNames_push _ _ hall rfl

theorem primitiveStep_names (value acc : JsVal) (hv : isString value = true)
    (hacc : isArray acc = true → isNames acc = true) :
    isArray (primitiveStep value acc) = true ∧ isNames (primitiveStep value acc) = true := by
  unfold primitiveStep
  rw [if_pos hv]
  by_cases ha : isArray acc = true
  · obtain ⟨items, rfl⟩ := isArray_iff _ ha
    simp only [ha, if_true]
    have hn := hacc ha
    rcases isNames_cases _ hn with ⟨_, e⟩ | ⟨items', e, _, hall⟩
    · cases e
    · cases e
      split
      · exact ⟨rfl, hn⟩
      · exact ⟨rfl, isNames_push _ _ hall hv⟩
  · simp only [ha, if_false]
    split
    · rename_i h; simp [includes] at h
    · exact ⟨rfl, isNames_push [] _ rfl hv⟩

theorem mergeOverArray_names :
    ∀ (items : List JsVal) (acc : JsVal), items.all isString = true →
      isArray acc = true → isNames acc = true →
      ∃ merged, mergeOverArray items acc = some merged ∧ isNames merged = true
  | [], acc, _, _, hn => ⟨acc, by rw [mergeOverArray], hn⟩
  | value :: rest, acc, hall, ha, hn => by
    simp only [List.all_cons, Bool.and_eq_true] at hall
    have hp : isPrimitive value = true := by
      cases value <;> simp [isString] at hall; rfl
    rw [mergeOverArray_cons_primitive _ _ _ hp]
    obtain ⟨h₁, h₂⟩ := primitiveStep_names value acc hall.1 (fun _ => hn)
    exact mergeOverArray_names rest _ hall.2 h₁ h₂

theorem entryStep_names (value current : JsVal) (hv : isNames value = true)
    (hc : current = JsVal.undefined ∨ isNames current = true) :
    ∃ merged, entryStep value current = some merged ∧ isNames merged = true := by
  rcases isNames_cases _ hv with ⟨text, rfl⟩ | ⟨items, rfl, hne, hall⟩
  · rw [entryStep_primitive (JsVal.str text) _ rfl]
    exact ⟨_, rfl, mergeScalar_names _ _ rfl hc⟩
  · rw [entryStep_arr]
    cases items with
    | nil => exact absurd rfl hne
    | cons value rest =>
      simp only [List.all_cons, Bool.and_eq_true] at hall
      have hp : isPrimitive value = true := by
        cases value <;> simp [isString] at hall; rfl
      rw [mergeOverArray_cons_primitive _ _ _ hp]
      have hacc : isArray (jsOr current (JsVal.obj [])) = true →
          isNames (jsOr current (JsVal.obj [])) = true := by
        rcases hc with rfl | hc
        · intro h; cases h
        · rcases isNames_cases _ hc with ⟨cur, rfl⟩ | ⟨cur, rfl, _, _⟩
          · intro h
            unfold jsOr at h
            split at h <;> cases h
          · intro _; exact hc
      obtain ⟨h₁, h₂⟩ := primitiveStep_names value _ hall.1 hacc
      exact mergeOverArray_names rest _ hall.2 h₁ h₂

theorem entryStep_boolean (value current : JsVal) (hv : isBoolean value = true)
    (hc : current = JsVal.undefined ∨ isBoolean current = true) :
    ∃ merged, entryStep value current = some merged ∧ isBoolean merged = true := by
  have hp : isPrimitive value = true := by
    cases value <;> simp [isBoolean] at hv; rfl
  rw [entryStep_primitive _ _ hp]
  refine ⟨_, rfl, ?_⟩
  rcases hc with rfl | hc
  · rw [mergeScalar_falsy JsVal.undefined _ rfl]; exact hv
  · rw [mergeScalar_other]
    · exact hv
    · cases current <;> simp [isBoolean] at hc; rfl
    · cases current <;> simp [isBoolean] at hc; rfl

theorem lookupProp_attributeOk :
    ∀ (acc : List (Str × JsVal)), isNodeProps acc = true → ∀ key,
      lookupProp key acc = JsVal.undefined ∨ attributeOk key (lookupProp key acc) = true
  | [], _, _ => Or.inl rfl
  | (k, v) :: rest, h, key => by
    rw [isNodeProps_cons, Bool.and_eq_true] at h
    rw [lookupProp]
    split
    · rename_i e
      subst e
      exact Or.inr h.1
    · exact lookupProp_attributeOk rest h.2 key

theorem setInProps_node (key : Str) (value : JsVal) (hv : attributeOk key value = true) :
    ∀ (acc : List (Str × JsVal)), isNodeProps acc = true →
      isNodeProps (setInProps key value acc) = true
  | [], _ => by
    rw [setInProps, isNodeProps_cons, hv]; rfl
  | (k, v) :: rest, h => by
    rw [isNodeProps_cons, Bool.and_eq_true] at h
    rw [setInProps]
    split
    · rename_i e
      subst e
      rw [isNodeProps_cons, hv, h.2]; rfl
    · rw [isNodeProps_cons, h.1, setInProps_node key value hv rest h.2]; rfl

theorem lookupProp_node :
    ∀ (acc : List (Str × JsVal)), isNodeMapProps acc = true → ∀ key,
      lookupProp key acc = JsVal.undefined ∨ isNode (lookupProp key acc) = true
  | [], _, _ => Or.inl rfl
  | (k, v) :: rest, h, key => by
    simp only [isNodeMapProps, Bool.and_eq_true] at h
    rw [lookupProp]
    split
    · exact Or.inr h.1
    · exact lookupProp_node rest h.2 key

theorem setInProps_map (key : Str) (value : JsVal) (hv : isNode value = true) :
    ∀ (acc : List (Str × JsVal)), isNodeMapProps acc = true →
      isNodeMapProps (setInProps key value acc) = true
  | [], _ => by
    simp only [setInProps, isNodeMapProps, hv, Bool.and_self]
  | (k, v) :: rest, h => by
    simp only [isNodeMapProps, Bool.and_eq_true] at h
    rw [setInProps]
    split
    · simp only [isNodeMapProps, hv, h.2, Bool.and_self]
    · simp only [isNodeMapProps, h.1, setInProps_map key value hv rest h.2, Bool.and_self]

theorem entryStep_attribute (key : Str) (value current : JsVal)
    (hv : attributeOk key value = true)
    (hc : current = JsVal.undefined ∨ attributeOk key current = true)
    (hmap : isNodeMap value = true → ∀ current,
      current = JsVal.undefined ∨ isNodeMap current = true →
      ∃ merged, entryStep value current = some merged ∧ isNodeMap merged = true)
    (hnode : isNode value = true → ∀ current,
      current = JsVal.undefined ∨ isNode current = true →
      ∃ merged, entryStep value current = some merged ∧ isNode merged = true) :
    ∃ merged, entryStep value current = some merged ∧ attributeOk key merged = true := by
  unfold attributeOk at hv hc ⊢
  by_cases h₁ : key = "type".toList ∨ key = "format".toList
  · simp only [if_pos h₁] at hv hc ⊢
    exact entryStep_names value current hv hc
  · simp only [if_neg h₁] at hv hc ⊢
    by_cases h₂ : key = "key".toList
    · simp only [if_pos h₂] at hv hc ⊢
      exact entryStep_boolean value current hv hc
    · simp only [if_neg h₂] at hv hc ⊢
      by_cases h₃ : key = "properties".toList
      · simp only [if_pos h₃] at hv hc ⊢
        exact hmap hv current hc
      · simp only [if_neg h₃] at hv hc ⊢
        by_cases h₄ : key = "items".toList
        · simp only [if_pos h₄] at hv hc ⊢
          exact hnode hv current hc
        · simp only [if_neg h₄] at hv
          cases hv

theorem jsOr_node (current : JsVal) (h : current = JsVal.undefined ∨ isNode current = true) :
    ∃ acc, jsOr current (JsVal.obj []) = JsVal.obj acc ∧ isNodeProps acc = true := by
  rcases h with rfl | h
  · exact ⟨[], rfl, rfl⟩
  · cases current <;> simp [isNode] at h
    exact ⟨_, rfl, h⟩

theorem jsOr_map (current : JsVal) (h : current = JsVal.undefined ∨ isNodeMap current = true) :
    ∃ acc, jsOr current (JsVal.obj []) = JsVal.obj acc ∧ isNodeMapProps acc = true := by
  rcases h with rfl | h
  · exact ⟨[], rfl, rfl⟩
  · cases current <;> simp [isNodeMap] at h
    exact ⟨_, rfl, h⟩

mutual
theorem entryStep_node_returns :
    ∀ node : JsVal, isNode node = true → ∀ current,
      current = JsVal.undefined ∨ isNode current = true →
      ∃ merged, entryStep node current = some merged ∧ isNode merged = true
  | JsVal.obj props, h, current, hc => by
    rw [entryStep_obj]
    obtain ⟨acc, e, hacc⟩ := jsOr_node current hc
    rw [e]
    simp only [isNode] at h
    obtain ⟨merged, hm, hn⟩ := mergeOverObject_node_returns props h acc hacc
    exact ⟨JsVal.obj merged, hm, by simpa only [isNode] using hn⟩
  | JsVal.arr _, h, _, _ => by simp [isNode] at h
  | JsVal.undefined, h, _, _ => by simp [isNode] at h
  | JsVal.null, h, _, _ => by simp [isNode] at h
  | JsVal.bool _, h, _, _ => by simp [isNode] at h
  | JsVal.num _, h, _, _ => by simp [isNode] at h
  | JsVal.str _, h, _, _ => by simp [isNode] at h
  | JsVal.nan, h, _, _ => by simp [isNode] at h
  | JsVal.date _, h, _, _ => by simp [isNode] at h
  | JsVal.regExp _ _, h, _, _ => by simp [isNode] at h
  | JsVal.objectID _, h, _, _ => by simp [isNode] at h
  | JsVal.binary _ _, h, _, _ => by simp [isNode] at h
  | JsVal.timestamp _ _, h, _, _ => by simp [isNode] at h
  | JsVal.code _ _, h, _, _ => by simp [isNode] at h
  | JsVal.dbRef _ _ _, h, _, _ => by simp [isNode] at h
  | JsVal.minKey, h, _, _ => by simp [isNode] at h
  | JsVal.maxKey, h, _, _ => by simp [isNode] at h
theorem mergeOverObject_node_returns :
    ∀ props : List (Str × JsVal), isNodeProps props = true → ∀ acc,
      isNodeProps acc = true →
      ∃ merged, mergeOverObject props (JsVal.obj acc) = some (JsVal.obj merged) ∧
        isNodeProps merged = true
  | [], _, acc, hacc => ⟨acc, by rw [mergeOverObject], hacc⟩
  | (key, value) :: rest, h, acc, hacc => by
    rw [isNodeProps_cons, Bool.and_eq_true] at h
    rw [mergeOverObject_cons]
    obtain ⟨merged, hm, hok⟩ := entryStep_attribute key value (lookupProp key acc) h.1
      (lookupProp_attributeOk acc hacc key) (entryStep_map_returns value)
      (entryStep_node_returns value)
    rw [hm, Option.some_bind]
    exact mergeOverObject_node_returns rest h.2 _ (setInProps_node key merged hok acc hacc)
theorem entryStep_map_returns :
    ∀ map : JsVal, isNodeMap map = true → ∀ current,
      current = JsVal.undefined ∨ isNodeMap current = true →
      ∃ merged, entryStep map current = some merged ∧ isNodeMap merged = true
  | JsVal.obj props, h, current, hc => by
    rw [entryStep_obj]
    obtain ⟨acc, e, hacc⟩ := jsOr_map current hc
    rw [e]
    simp only [isNodeMap] at h
    obtain ⟨merged, hm, hn⟩ := mergeOverObject_map_returns props h acc hacc
    exact ⟨JsVal.obj merged, hm, by simpa only [isNodeMap] using hn⟩
  | JsVal.arr _, h, _, _ => by simp [isNodeMap] at h
  | JsVal.undefined, h, _, _ => by simp [isNodeMap] at h
  | JsVal.null, h, _, _ => by simp [isNodeMap] at h
  | JsVal.bool _, h, _, _ => by simp [isNodeMap] at h
  | JsVal.num _, h, _, _ => by simp [isNodeMap] at h
  | JsVal.str _, h, _, _ => by simp [isNodeMap] at h
  | JsVal.nan, h, _, _ => by simp [isNodeMap] at h
  | JsVal.date _, h, _, _ => by simp [isNodeMap] at h
  | JsVal.regExp _ _, h, _, _ => by simp [isNodeMap] at h
  | JsVal.objectID _, h, _, _ => by simp [isNodeMap] at h
  | JsVal.binary _ _, h, _, _ => by simp [isNodeMap] at h
  | JsVal.timestamp _ _, h, _, _ => by simp [isNodeMap] at h
  | JsVal.code _ _, h, _, _ => by simp [isNodeMap] at h
  | JsVal.dbRef _ _ _, h, _, _ => by simp [isNodeMap] at h
  | JsVal.minKey, h, _, _ => by simp [isNodeMap] at h
  | JsVal.maxKey, h, _, _ => by simp [isNodeMap] at h
theorem mergeOverObject_map_returns :
    ∀ props : List (Str × JsVal), isNodeMapProps props = true → ∀ acc,
      isNodeMapProps acc = true →
      ∃ merged, mergeOverObject props (JsVal.obj acc) = some (JsVal.obj merged) ∧
        isNodeMapProps merged = true
  | [], _, acc, hacc => ⟨acc, by rw [mergeOverObject], hacc⟩
  | (key, value) :: rest, h, acc, hacc => by
    simp only [isNodeMapProps, Bool.and_eq_true] at h
    rw [mergeOverObject_cons]
    obtain ⟨merged, hm, hok⟩ := entryStep_node_returns value h.1 (lookupProp key acc)
      (lookupProp_node acc hacc key)
    rw [hm, Option.some_bind]
    exact mergeOverObject_map_returns rest h.2 _ (setInProps_map key merged hok acc hacc)
end

theorem isNode_leaf (tag key : Str) :
    isNode (getValidationObjectOfSingleElements tag key) = true := by
  obtain ⟨properties, hshape, hkey⟩ := getValidationObjectOfSingleElements_shape tag
  rw [hkey key]
  rcases hshape with ⟨t, rfl⟩ | ⟨t, f, rfl⟩ <;> split <;> rfl

theorem mergeItemShapes_node :
    ∀ (items : List (Str × JsVal)) (schemaTest : JsVal), isNodeMapProps items = true →
      isNode schemaTest = true →
      ∃ merged, mergeItemShapes items schemaTest = some merged ∧ isNode merged = true
  | [], schemaTest, _, hs => ⟨schemaTest, by rw [mergeItemShapes], hs⟩
  | (key, value) :: rest, schemaTest, h, hs => by
    simp only [isNodeMapProps, Bool.and_eq_true] at h
    obtain ⟨merged, hm, hn⟩ := entryStep_node_returns value h.1 schemaTest (Or.inr hs)
    obtain ⟨props, rfl⟩ : ∃ props, value = JsVal.obj props := by
      cases value <;> simp [isNode] at h
      exact ⟨_, rfl⟩
    rw [entryStep_obj] at hm
    rw [mergeItemShapes, mergeArrayItems, hm]
    exact mergeItemShapes_node rest merged h.2 hn

theorem arrayItemsSchema_node (items : List (Str × JsVal)) (h : isNodeMapProps items = true)
    (hfirst : ∀ first rest, items = first :: rest → first.1 = natToStr 0) :
    ∃ node, arrayItemsSchema items = some node ∧ isNode node = true := by
  unfold arrayItemsSchema
  split
  · exact mergeItemShapes_node items _ h rfl
  · split
    · rename_i h₁ h₂
      cases items with
      | nil => cases h₂
      | cons first rest =>
        cases rest with
        | nil =>
          have e := hfirst first [] rfl
          obtain ⟨key, value⟩ := first
          simp only at e
          subst e
          simp only [isNodeMapProps, Bool.and_eq_true] at h
          exact ⟨value, rfl, h.1⟩
        | cons _ _ => simp at h₂
    · rename_i h₁ h₂
      cases items with
      | nil => exact ⟨_, rfl, rfl⟩
      | cons first rest =>
        cases rest with
        | nil => simp at h₂
        | cons _ _ => simp at h₁

theorem schemaEntry_returns (key : Str) (value : JsVal) (sub : List (Str × JsVal))
    (htag : isTagTree value = true) (hsub : isNodeMapProps sub = true)
    (hfirst : isArray value = true → ∀ first rest, sub = first :: rest → first.1 = natToStr 0) :
    ∃ node, schemaEntry key value (some sub) = some (some node) ∧ isNode node = true := by
  cases value <;> first
    | (simp [isTagTree] at htag; done)
    | skip
  · exact ⟨_, rfl, isNode_leaf _ _⟩
  · obtain ⟨node, hnode, hn⟩ := arrayItemsSchema_node sub hsub (hfirst rfl)
    simp only [schemaEntry, hnode]
    refine ⟨_, rfl, ?_⟩
    simp only [isNode, isNodeProps_cons, isNodeProps, Bool.and_true, Bool.and_eq_true]
    exact ⟨rfl, by simpa [attributeOk] using hn⟩
  · refine ⟨_, rfl, ?_⟩
    simp only [isNode, isNodeProps_cons, isNodeProps, Bool.and_true, Bool.and_eq_true]
    exact ⟨rfl, by simpa [attributeOk, isNodeMap] using hsub⟩

mutual
theorem createSchemaOfEachDocument_returns :
    ∀ tags : JsVal, isTagTree tags = true →
      ∃ schema, createSchemaOfEachDocument tags = some schema ∧
        isNodeMapProps schema = true ∧
        (isArray tags = true → ∀ first rest, schema = first :: rest → first.1 = natToStr 0)
  | JsVal.arr items, h => by
    simp only [isTagTree] at h
    obtain ⟨schema, hs, hm, hf⟩ := schemaOfItems_returns items 0 h
    exact ⟨schema, by rw [createSchemaOfEachDocument, hs], hm, fun _ => hf⟩
  | JsVal.obj props, h => by
    simp only [isTagTree, Bool.and_eq_true] at h
    obtain ⟨schema, hs, hm⟩ := schemaOfProps_returns props h.2
    exact ⟨schema, by rw [createSchemaOfEachDocument, hs], hm, fun e => by cases e⟩
  | JsVal.str _, _ => ⟨[], rfl, rfl, fun e => by cases e⟩
  | JsVal.undefined, h => by simp [isTagTree] at h
  | JsVal.null, h => by simp [isTagTree] at h
  | JsVal.bool _, h => by simp [isTagTree] at h
  | JsVal.num _, h => by simp [isTagTree] at h
  | JsVal.nan, h => by simp [isTagTree] at h
  | JsVal.date _, h => by simp [isTagTree] at h
  | JsVal.regExp _ _, h => by simp [isTagTree] at h
  | JsVal.objectID _, h => by simp [isTagTree] at h
  | JsVal.binary _ _, h => by simp [isTagTree] at h
  | JsVal.timestamp _ _, h => by simp [isTagTree] at h
  | JsVal.code _ _, h => by simp [isTagTree] at h
  | JsVal.dbRef _ _ _, h => by simp [isTagTree] at h
  | JsVal.minKey, h => by simp [isTagTree] at h
  | JsVal.maxKey, h => by simp [isTagTree] at h
theorem schemaOfItems_returns :
    ∀ (items : List JsVal) (index : Nat), isTagTreeItems items = true →
      ∃ schema, schemaOfItems index items = some schema ∧ isNodeMapProps schema = true ∧
        ∀ first rest, schema = first :: rest → first.1 = natToStr index
  | [], _, _ => ⟨[], by rw [schemaOfItems], rfl, fun _ _ e => by cases e⟩
  | value :: rest, index, h => by
    simp only [isTagTreeItems, Bool.and_eq_true] at h
    obtain ⟨sub, hsub, hmap, hfirst⟩ := createSchemaOfEachDocument_returns value h.1
    obtain ⟨node, hnode, hn⟩ := schemaEntry_returns (natToStr index) value sub h.1 hmap hfirst
    obtain ⟨schema, hs, hm, _⟩ := schemaOfItems_returns rest (index + 1) h.2
    refine ⟨(natToStr index, node) :: schema, ?_, ?_, ?_⟩
    · rw [schemaOfItems, hsub, hnode, hs]
    · simp only [isNodeMapProps, hn, hm, Bool.and_self]
    · intro first tail e
      cases e
      rfl
theorem schemaOfProps_returns :
    ∀ props : List (Str × JsVal), isTagTreeProps props = true →
      ∃ schema, schemaOfProps props = some schema ∧ isNodeMapProps schema = true
  | [], _ => ⟨[], by rw [schemaOfProps], rfl⟩
  | (key, value) :: rest, h => by
    simp only [isTagTreeProps, Bool.and_eq_true] at h
    obtain ⟨sub, hsub, hmap, hfirst⟩ := createSchemaOfEachDocument_returns value h.1
    obtain ⟨node, hnode, hn⟩ := schemaEntry_returns key value sub h.1 hmap hfirst
    obtain ⟨schema, hs, hm⟩ := schemaOfProps_returns rest h.2
    refine ⟨(key, node) :: schema, ?_, ?_⟩
    · rw [schemaOfProps, hsub, hnode, hs]
    · simp only [isNodeMapProps, hn, hm, Bool.and_self]
end

theorem documentSchemata_returns :
    ∀ metadata : List JsVal, (∀ tags ∈ metadata, isTagTree tags = true) →
      ∃ schemata : List (List (Str × JsVal)),
        documentSchemata metadata = some (schemata.map JsVal.obj) ∧
        ∀ schema ∈ schemata, isNodeMapProps schema = true
  | [], _ => ⟨[], rfl, fun _ h => by cases h⟩
  | tags :: rest, h => by
    obtain ⟨schema, hs, hm, _⟩ :=
      createSchemaOfEachDocument_returns tags (h tags (List.mem_cons_self _ _))
    obtain ⟨schemata, hr, hall⟩ :=
      documentSchemata_returns rest (fun t ht => h t (List.mem_cons_of_mem _ ht))
    refine ⟨schema :: schemata, ?_, ?_⟩
    · rw [documentSchemata, hs, hr]; rfl
    · intro s hmem
      rcases List.mem_cons.1 hmem with e | e
      · rw [e]; exact hm
      · exact hall s e

theorem mergeOverArray_schemata_returns :
    ∀ (schemata : List (List (Str × JsVal))) (acc : List (Str × JsVal)),
      (∀ schema ∈ schemata, isNodeMapProps schema = true) → isNodeMapProps acc = true →
      ∃ merged, mergeOverArray (schemata.map JsVal.obj) (JsVal.obj acc)
        = some (JsVal.obj merged) ∧ isNodeMapProps merged = true
  | [], acc, _, hacc => ⟨acc, by rw [List.map_nil, mergeOverArray], hacc⟩
  | schema :: rest, acc, h, hacc => by
    obtain ⟨merged, hm, hn⟩ :=
      mergeOverObject_map_returns schema (h schema (List.mem_cons_self _ _)) acc hacc
    rw [List.map_cons, mergeOverArray_obj_cons, hm, Option.some_bind]
    exact mergeOverArray_schemata_returns rest merged
      (fun s hs => h s (List.mem_cons_of_mem _ hs)) hn

/-- The schema inference returns on every list of tag trees: no assignment of the
merge meets a value that is not a plain object. -/
theorem getSchema_returns (metadata : List JsVal)
    (h : ∀ tags ∈ metadata, isTagTree tags = true) :
    ∃ schema, getSchema metadata = some schema := by
  obtain ⟨schemata, hs, hall⟩ := documentSchemata_returns metadata h
  obtain ⟨merged, hm, _⟩ := mergeOverArray_schemata_returns schemata [] hall rfl
  refine ⟨filterTypesOfPropertiesIfAnyOrArray
    (JsVal.obj [("properties".toList, JsVal.obj merged)]), ?_⟩
  rw [getSchema, hs]
  simp only [mergeArrayItems_schemata, hm]

/-! ### The schema of a list of tag trees -/

/-- C18: in every schema that `getSchema` returns, no node at any depth has as its
type a list of more than two entries; `getSchema` returns such a schema for
every list of tag trees; and a node whose type is a list of more than two
entries is replaced by the node `{type: 'any'}`. -/
theorem getSchema_type_lists_bounded :
    (∀ (metadata : List JsVal) (schema : JsVal),
      getSchema metadata = some schema → typesBounded schema = true) ∧
    (∀ metadata : List JsVal, (∀ tags ∈ metadata, isTagTree tags = true) →
      ∃ schema, getSchema metadata = some schema ∧ typesBounded schema = true) ∧
    (∀ (props : List (Str × JsVal)) (items : List JsVal),
      lookupProp "type".toList props = JsVal.arr items → items.length > 2 →
      filterValue (JsVal.obj props) = typeOnly (JsVal.str "any".toList)) := by
  refine ⟨type_lists_bounded.1, ?_, type_lists_bounded.2⟩
  intro metadata h
  obtain ⟨schema, hs⟩ := getSchema_returns metadata h
  exact ⟨schema, hs, type_lists_bounded.1 metadata schema hs⟩

set_option maxRecDepth 100000 in
/-- C18 (witness): three documents whose key `a` is tagged `'integer'`, `'string'` and
`'boolean'` give a schema in which `a` has the type `'any'`, and no node of it
has a longer type list. -/
theorem getSchema_type_lists_bounded_witness :
    getSchema [jobj [("a", jstr "integer")], jobj [("a", jstr "string")],
        jobj [("a", jstr "boolean")]]
      = some (jobj [("properties", jobj [("a", jobj [("type", jstr "any")])])]) ∧
    typesBounded (jobj [("properties", jobj [("a", jobj [("type", jstr "any")])])]) = true :=
  ⟨rfl, getSchema_type_lists_bounded.1
    [jobj [("a", jstr "integer")], jobj [("a", jstr "string")], jobj [("a", jstr "boolean")]]
    (jobj [("properties", jobj [("a", jobj [("type", jstr "any")])])]) rfl⟩

/-- C20: for two tag trees `A` and `B` that are documents and a key that does not
occur in `B`, `getSchema` returns a schema for `[A]`, for `[A, B]` and for
`[B, A]`, and the node of the key in the schema for `[A, B]`, and in the one
for `[B, A]`, is the node of the key in the schema for `[A]`. -/
theorem getSchema_key_of_one_sample (propsA propsB : List (Str × JsVal)) (key : Str)
    (hA : isTagTree (JsVal.obj propsA) = true) (hB : isTagTree (JsVal.obj propsB) = true)
    (hkey : key ∉ propsB.map Prod.fst) :
    ∃ schemaA schemaAB schemaBA,
      getSchema [JsVal.obj propsA] = some schemaA ∧
      getSchema [JsVal.obj propsA, JsVal.obj propsB] = some schemaAB ∧
      getSchema [JsVal.obj propsB, JsVal.obj propsA] = some schemaBA ∧
      schemaNode schemaAB key = schemaNode schemaA key ∧
      schemaNode schemaBA key = schemaNode schemaA key := by
  have hmem : ∀ list : List JsVal, (∀ tags ∈ list, tags = JsVal.obj propsA ∨
      tags = JsVal.obj propsB) → ∀ tags ∈ list, isTagTree tags = true := by
    intro list hlist tags ht
    rcases hlist tags ht with e | e <;> rw [e] <;> assumption
  obtain ⟨schemaA, hsA⟩ := getSchema_returns [JsVal.obj propsA]
    (hmem _ (fun t ht => Or.inl (List.mem_singleton.1 ht)))
  obtain ⟨schemaAB, hsAB⟩ := getSchema_returns [JsVal.obj propsA, JsVal.obj propsB]
    (hmem _ (fun t ht => by simpa using ht))
  obtain ⟨schemaBA, hsBA⟩ := getSchema_returns [JsVal.obj propsB, JsVal.obj propsA]
    (hmem _ (fun t ht => by simpa [or_comm] using ht))
  obtain ⟨h₁, h₂⟩ := key_of_one_sample propsA propsB key schemaA hkey hsA
  exact ⟨schemaA, schemaAB, schemaBA, hsA, hsAB, hsBA, h₁ schemaAB hsAB, h₂ schemaBA hsBA⟩

set_option maxRecDepth 100000 in
/-- C20 (witness): the key `b` occurs in `{a: 'integer', b: ['integer', 'string']}` only;
beside the document `{a: 'string'}` its node is the one of the single
sample. -/
theorem getSchema_key_of_one_sample_witness :
    getSchema [jobj [("a", jstr "integer"), ("b", JsVal.arr [jstr "integer", jstr "string"])],
        jobj [("a", jstr "string")]]
      = some (jobj [("properties",
          jobj [("a", jobj [("type", JsVal.arr [jstr "integer", jstr "string"])]),
            ("b", jobj [("type", jstr "array"),
              ("items", jobj [("type", JsVal.arr [jstr "integer", jstr "string"])])])])]) ∧
    ∃ schemaA schemaAB schemaBA,
      getSchema [JsVal.obj [("a".toList, jstr "integer"),
        ("b".toList, JsVal.arr [jstr "integer", jstr "string"])]] = some schemaA ∧
      getSchema [JsVal.obj [("a".toList, jstr "integer"),
          ("b".toList, JsVal.arr [jstr "integer", jstr "string"])],
        JsVal.obj [("a".toList, jstr "string")]] = some schemaAB ∧
      getSchema [JsVal.obj [("a".toList, jstr "string")],
        JsVal.obj [("a".toList, jstr "integer"),
          ("b".toList, JsVal.arr [jstr "integer", jstr "string"])]] = some schemaBA ∧
      schemaNode schemaAB "b".toList = schemaNode schemaA "b".toList ∧
      schemaNode schemaBA "b".toList = schemaNode schemaA "b".toList :=
  ⟨rfl, getSchema_key_of_one_sample
    [("a".toList, jstr "integer"), ("b".toList, JsVal.arr [jstr "integer", jstr "string"])]
    [("a".toList, jstr "string")] "b".toList (by decide) (by decide) (by decide)⟩

/-- C29: for every tag tree `A` that is a document, `getSchema` returns a schema on
`[A]`, and on `[A, A]` it gives what it gives on `[A]`: the second merge of
the sample changes no node. -/
theorem getSchema_same_sample_twice (props : List (Str × JsVal))
    (h : isTagTree (JsVal.obj props) = true) :
    ∃ schema, getSchema [JsVal.obj props] = some schema ∧
      getSchema [JsVal.obj props, JsVal.obj props] = some schema := by
  obtain ⟨schema, hs⟩ := getSchema_returns [JsVal.obj props]
    (fun tags ht => by
      rw [List.mem_singleton] at ht
      rw [ht]
      exact h)
  exact ⟨schema, hs, by rw [same_sample_twice props h]; exact hs⟩

set_option maxRecDepth 100000 in
/-- C29 (witness): the sample `{a: 'integer', b: ['integer', 'string']}` taken twice. -/
theorem getSchema_same_sample_twice_witness :
    ∃ schema,
      getSchema [JsVal.obj [("a".toList, jstr "integer"),
        ("b".toList, JsVal.arr [jstr "integer", jstr "string"])]] = some schema ∧
      getSchema [JsVal.obj [("a".toList, jstr "integer"),
          ("b".toList, JsVal.arr [jstr "integer", jstr "string"])],
        JsVal.obj [("a".toList, jstr "integer"),
          ("b".toList, JsVal.arr [jstr "integer", jstr "string"])]] = some schema :=
  getSchema_same_sample_twice
    [("a".toList, jstr "integer"), ("b".toList, JsVal.arr [jstr "integer", jstr "string"])]
    (by decide)

/-- C17: let the sampled tag trees be documents and let `t₁` and `t₂` be two different
schema types, none of them `'any'`, `'object'` or `'array'`. Then `getSchema`
returns a schema. If the key is absent or tagged with a type name mapped to
`t₁` or `t₂` in every sample, and both types occur, the node of the key in
that schema has as its type the list of the two types. If the key is absent
or holds a non-empty array of such type names in every sample, and both types
occur, the items of the node have as their type the list of the two types. -/
theorem getSchema_two_types_listed (metadata : List JsVal) (key t₁ t₂ : Str)
    (h₁ : isListedType t₁ = true) (h₂ : isListedType t₂ = true) (hne : t₁ ≠ t₂)
    (hdocs : ∀ tags ∈ metadata, isTagTree tags = true ∧ isPlainObject tags = true) :
    ∃ schema, getSchema metadata = some schema ∧
    ((∀ tags ∈ metadata, getKey tags key = JsVal.undefined ∨
        tagType t₁ (getKey tags key) = true ∨ tagType t₂ (getKey tags key) = true) →
      (∃ tags ∈ metadata, tagType t₁ (getKey tags key) = true) →
      (∃ tags ∈ metadata, tagType t₂ (getKey tags key) = true) →
      (getKey (schemaNode schema key) "type".toList = JsVal.arr [JsVal.str t₁, JsVal.str t₂] ∨
        getKey (schemaNode schema key) "type".toList
          = JsVal.arr [JsVal.str t₂, JsVal.str t₁])) ∧
    ((∀ tags ∈ metadata, getKey tags key = JsVal.undefined ∨ ∃ elements,
        getKey tags key = JsVal.arr elements ∧ elements ≠ [] ∧
        ∀ tag ∈ elements, tagType t₁ tag = true ∨ tagType t₂ tag = true) →
      (∃ tags ∈ metadata, ∃ elements, getKey tags key = JsVal.arr elements ∧
        elements.any (tagType t₁) = true) →
      (∃ tags ∈ metadata, ∃ elements, getKey tags key = JsVal.arr elements ∧
        elements.any (tagType t₂) = true) →
      (getKey (getKey (schemaNode schema key) "items".toList) "type".toList
          = JsVal.arr [JsVal.str t₁, JsVal.str t₂] ∨
        getKey (getKey (schemaNode schema key) "items".toList) "type".toList
          = JsVal.arr [JsVal.str t₂, JsVal.str t₁])) := by
  obtain ⟨schema, hs⟩ := getSchema_returns metadata (fun tags ht => (hdocs tags ht).1)
  exact ⟨schema, hs, two_types_listed metadata key t₁ t₂ schema h₁ h₂ hne hdocs hs⟩

set_option maxRecDepth 100000 in
/-- C17 (witness): the tags `{a: 'integer', b: ['integer', 'string']}` and
`{a: 'integer', b: ['integer']}` give `a` the type `'integer'` and the items
of `b` the type `['integer', 'string']`. -/
theorem getSchema_two_types_listed_witness :
    getSchema [jobj [("a", jstr "integer"), ("b", JsVal.arr [jstr "integer", jstr "string"])],
        jobj [("a", jstr "integer"), ("b", JsVal.arr [jstr "integer"])]]
      = some (jobj [("properties", jobj [("a", jobj [("type", jstr "integer")]),
          ("b", jobj [("type", jstr "array"),
            ("items", jobj [("type", JsVal.arr [jstr "integer", jstr "string"])])])])]) ∧
    ∃ schema,
      getSchema [jobj [("a", jstr "integer"),
          ("b", JsVal.arr [jstr "integer", jstr "string"])],
        jobj [("a", jstr "integer"), ("b", JsVal.arr [jstr "integer"])]] = some schema ∧
      (getKey (getKey (schemaNode schema "b".toList) "items".toList) "type".toList
          = JsVal.arr [JsVal.str "integer".toList, JsVal.str "string".toList] ∨
        getKey (getKey (schemaNode schema "b".toList) "items".toList) "type".toList
          = JsVal.arr [JsVal.str "string".toList, JsVal.str "integer".toList]) := by
  refine ⟨rfl, ?_⟩
  obtain ⟨schema, hs, _, hitems⟩ := getSchema_two_types_listed
    [jobj [("a", jstr "integer"), ("b", JsVal.arr [jstr "integer", jstr "string"])],
      jobj [("a", jstr "integer"), ("b", JsVal.arr [jstr "integer"])]]
    "b".toList "integer".toList "string".toList
    (by decide) (by decide) (by decide)
    (by
      intro tags ht
      simp only [List.mem_cons, List.mem_singleton, List.not_mem_nil, or_false] at ht
      rcases ht with rfl | rfl <;> exact ⟨by decide, rfl⟩)
  refine ⟨schema, hs, hitems ?_ ?_ ?_⟩
  · intro tags ht
    simp only [List.mem_cons, List.mem_singleton, List.not_mem_nil, or_false] at ht
    rcases ht with rfl | rfl
    · refine Or.inr ⟨[jstr "integer", jstr "string"], rfl, by simp, ?_⟩
      intro tag htag
      simp only [List.mem_cons, List.mem_singleton, List.not_mem_nil, or_false] at htag
      rcases htag with rfl | rfl
      · exact Or.inl rfl
      · exact Or.inr rfl
    · refine Or.inr ⟨[jstr "integer"], rfl, by simp, ?_⟩
      intro tag htag
      simp only [List.mem_cons, List.mem_singleton, List.not_mem_nil, or_false] at htag
      rcases htag with rfl
      exact Or.inl rfl
  · exact ⟨_, List.mem_cons_self _ _, [jstr "integer", jstr "string"], rfl, rfl⟩
  · exact ⟨_, List.mem_cons_self _ _, [jstr "integer", jstr "string"], rfl, rfl⟩

/-! ### The error handed on from key to key -/

theorem orElse_assoc (a b c : Option Str) : ((a <|> b) <|> c) = (a <|> (b <|> c)) := by
  cases a <;> cases b <;> cases c <;> rfl

theorem orElse_none_right (a : Option Str) : (a <|> none) = a := by
  cases a <;> rfl

theorem saveEntry_str (lib : Lib) (option : SaveOption) (key text : Str)
    (recursed : Option (Option Str × JsVal)) (error : Option Str) :
    saveEntry lib option key (JsVal.str text) recursed error
      = sentinelChain lib option key text error := by
  rw [← materializeValue_str]
  rfl

theorem saveEntry_error (lib : Lib) (option : SaveOption) (key : Str) (value : JsVal)
    (recursed : Option (Option Str × JsVal)) (error : Option Str) (r : Option Str × JsVal)
    (h : saveEntry lib option key value recursed error = some r) :
    ∃ own nested : Option Str, ∀ e,
      saveEntry lib option key value recursed e = some (own <|> (e <|> nested), r.2) := by
  unfold saveEntry at h ⊢
  split at h
  · rename_i hc
    simp only [hc, if_true]
    cases hr : recursed with
    | none => simp [hr] at h
    | some rec =>
      obtain ⟨err, res⟩ := rec
      simp only [hr] at h ⊢
      rw [materializeValue_error] at h
      cases hm : materializeValue lib option key res none with
      | none => simp [hm] at h
      | some m =>
        simp only [hm, Option.map_some', Option.some.injEq] at h
        refine ⟨m.1, err, fun e => ?_⟩
        rw [materializeValue_error, hm, ← h]
        rfl
  · rename_i hc
    simp only [hc, if_false]
    rw [materializeValue_error] at h
    cases hm : materializeValue lib option key value none with
    | none => simp [hm] at h
    | some m =>
      simp only [hm, Option.map_some', Option.some.injEq] at h
      refine ⟨m.1, none, fun e => ?_⟩
      rw [materializeValue_error, hm, ← h, orElse_none_right]
      rfl

theorem saveProps_error (lib : Lib) (option : SaveOption) :
    ∀ (props : List (Str × JsVal)) (error : Option Str) (r : Option Str × List (Str × JsVal)),
      saveProps lib option error props = some r →
      ∃ own nested : Option Str, ∀ e,
        saveProps lib option e props = some (own <|> (e <|> nested), r.2)
  | [], error, r, h => by
    simp only [saveProps, Option.some.injEq] at h
    refine ⟨none, none, fun e => ?_⟩
    rw [saveProps, ← h, orElse_none_right]
    rfl
  | (key, value) :: rest, error, r, h => by
    rw [saveProps] at h
    split at h
    · cases h
    · rename_i e₁ value' h₁
      split at h
      · cases h
      · rename_i e₂ rest' h₂
        cases h
        obtain ⟨own₁, nested₁, k₁⟩ := saveEntry_error lib option key value _ error _ h₁
        obtain ⟨own₂, nested₂, k₂⟩ := saveProps_error lib option rest e₁ _ h₂
        refine ⟨own₂ <|> own₁, nested₁ <|> nested₂, fun e => ?_⟩
        rw [saveProps, k₁ e]
        dsimp only
        rw [k₂]
        dsimp only
        congr 2
        cases own₂ <;> cases own₁ <;> cases e <;> cases nested₁ <;> cases nested₂ <;> rfl

theorem saveProps_error_kept (lib : Lib) (option : SaveOption) (props : List (Str × JsVal))
    (message : Str) (r : Option Str × List (Str × JsVal))
    (h : saveProps lib option (some message) props = some r) : r.1.isSome = true := by
  obtain ⟨own, nested, k⟩ := saveProps_error lib option props _ r h
  rw [k (some message)] at h
  simp only [Option.some.injEq] at h
  rw [← h]
  cases own <;> rfl

theorem saveProps_error_passed (lib : Lib) (option : SaveOption) (props : List (Str × JsVal))
    (out : List (Str × JsVal)) (error : Option Str) (r : Option Str × List (Str × JsVal))
    (hnone : saveProps lib option none props = some (none, out))
    (h : saveProps lib option error props = some r) : r.1 = error := by
  obtain ⟨own, nested, k⟩ := saveProps_error lib option props _ r h
  rw [k none] at hnone
  rw [k error] at h
  simp only [Option.some.injEq] at h
  simp only [Option.some.injEq, Prod.mk.injEq] at hnone
  rw [← h]
  cases own <;> cases nested <;> cases error <;> first | rfl | (exfalso; simp at hnone)

/-! ### A sentinel under one key of a document -/

theorem convert_props_append (lib : Lib) (option : SaveOption) (key : Str) (value : JsVal)
    (before after : List (Str × JsVal)) (result : Option Str × JsVal)
    (h : convertDateTimeAndIdsInDocumentToSave lib option
      (JsVal.obj (before ++ (key, value) :: after)) = some result) :
    ∃ errBefore outBefore errKey value' outAfter,
      saveProps lib option none before = some (errBefore, outBefore) ∧
      saveEntry lib option key value
        (convertDateTimeAndIdsInDocumentToSave lib option value) errBefore
        = some (errKey, value') ∧
      saveProps lib option errKey after = some (result.1, outAfter) ∧
      result.2 = JsVal.obj (outBefore ++ (key, value') :: outAfter) ∧
      outBefore.map Prod.fst = before.map Prod.fst ∧
      outAfter.map Prod.fst = after.map Prod.fst := by
  rw [convertDateTimeAndIdsInDocumentToSave] at h
  split at h
  · rename_i error props hp
    cases h
    obtain ⟨errBefore, outBefore, errKey, value', outAfter, h₁, h₂, h₃, h₄⟩ :=
      saveProps_append lib option key value after before props none error hp
    exact ⟨errBefore, outBefore, errKey, value', outAfter, h₁, h₂, h₃, by rw [h₄],
      saveProps_keys lib option before outBefore none errBefore h₁,
      saveProps_keys lib option after outAfter errKey error h₃⟩
  · cases h

theorem errorMessage_names (raw key : Str) (ending : String) :
    key <:+: errorMessage raw key ending ∧ raw <:+: errorMessage raw key ending := by
  unfold errorMessage
  exact ⟨⟨"Value \"".toList ++ raw ++ "\" of key \"".toList,
      "\" is no valid ".toList ++ ending.toList, by simp⟩,
    ⟨"Value \"".toList,
      "\" of key \"".toList ++ key ++ "\" is no valid ".toList ++ ending.toList, by simp⟩⟩

/-- C9 (amended). In edit mode, let key `k` of a document hold the sentinel
`##ObjectId(x)` with `x` free of `)`, beside any other keys. When `x` is a
valid 24-hex-digit ObjectId string, key `k` of the result holds the ObjectId
built from `x` and the step for key `k` reports no error: the keys behind it
go on from the error of the keys before it. When `x` is not valid, key `k`
keeps the sentinel and an error is reported; its message names the key `k`
and the raw value `x` when no value behind key `k` reports an error of its
own. The other keys keep their places. -/
theorem objectId_sentinel_edit (lib : Lib) (hlib : ∀ s, lib.formatsMongoId s = isMongoIdText s)
    (before after : List (Str × JsVal)) (key x : Str) (hx : ')' ∉ x)
    (error : Option Str) (out : JsVal)
    (h : convertDateTimeAndIdsInDocumentToSave lib SaveOption.edit
      (JsVal.obj (before ++ (key, JsVal.str ("##ObjectId(".toList ++ x ++ [')'])) :: after))
      = some (error, out)) :
    ∃ outBefore outAfter errBefore,
      saveProps lib SaveOption.edit none before = some (errBefore, outBefore) ∧
      outBefore.map Prod.fst = before.map Prod.fst ∧
      outAfter.map Prod.fst = after.map Prod.fst ∧
      (isMongoIdText x = true →
        saveProps lib SaveOption.edit errBefore after = some (error, outAfter) ∧
        out = JsVal.obj (outBefore ++
          (key, JsVal.objectID (lib.createFromHexString x)) :: outAfter)) ∧
      (isMongoIdText x = false →
        saveProps lib SaveOption.edit
            (some (errorMessage x key "ObjectId, please check your input.")) after
          = some (error, outAfter) ∧
        out = JsVal.obj (outBefore ++
          (key, JsVal.str ("##ObjectId(".toList ++ x ++ [')'])) :: outAfter) ∧
        error.isSome = true ∧
        (∀ rest, saveProps lib SaveOption.edit none after = some (none, rest) →
          error = some (errorMessage x key "ObjectId, please check your input.")) ∧
        key <:+: errorMessage x key "ObjectId, please check your input." ∧
        x <:+: errorMessage x key "ObjectId, please check your input.") := by
  obtain ⟨errBefore, outBefore, errKey, value', outAfter, h₁, h₂, h₃, h₄, h₅, h₆⟩ :=
    convert_props_append lib SaveOption.edit key _ before after (error, out) h
  rw [saveEntry_str, sentinelChain_objectId lib _ key x errBefore hx] at h₂
  refine ⟨outBefore, outAfter, errBefore, h₁, h₅, h₆, ?_, ?_⟩
  · intro hv
    have ht := isMongoIdText_truthy x hv
    simp only [hlib, hv, Bool.true_or, if_true, Option.some.injEq, Prod.mk.injEq] at h₂
    obtain ⟨e₁, e₂⟩ := h₂
    subst e₁
    refine ⟨h₃, ?_⟩
    rw [show out = _ from h₄, ← e₂]
    simp [getMongoId, ht, hlib, hv]
  · intro hv
    simp only [hlib, hv] at h₂
    simp only [Bool.false_or, decide_eq_true_eq, reduceCtorEq, if_false, Option.some.injEq,
      Prod.mk.injEq] at h₂
    obtain ⟨e₁, e₂⟩ := h₂
    subst e₁
    refine ⟨h₃, ?_, saveProps_error_kept lib _ after _ _ h₃, ?_,
      errorMessage_names x key _⟩
    · rw [show out = _ from h₄, ← e₂]
    · intro rest hrest
      exact saveProps_error_passed lib _ after rest _ _ hrest h₃

set_option maxRecDepth 100000 in
/-- Witness of C9 (amended): the document of the scenario of the specification with
a second sentinel that is no ObjectId: the key `id` holds its ObjectId, the
key `ref` keeps its sentinel and its error is reported. -/
theorem objectId_sentinel_edit_witness :
    ∃ outBefore outAfter errBefore,
      saveProps exampleLib SaveOption.edit none
          [("name".toList, jstr "Ann"), ("id".toList, jstr "##ObjectId(507f191e810c19729de860ea)")]
        = some (errBefore, outBefore) ∧
      outBefore.map Prod.fst = ["name".toList, "id".toList] ∧
      outAfter.map Prod.fst = ["n".toList] ∧
      (isMongoIdText "xyz".toList = true →
        saveProps exampleLib SaveOption.edit errBefore [("n".toList, JsVal.num 1)]
          = some (some "Value \"xyz\" of key \"ref\" is no valid ObjectId, please check your input.".toList,
            outAfter) ∧
        jobj [("name", jstr "Ann"), ("id", JsVal.objectID
            [80, 127, 25, 30, 129, 12, 25, 114, 157, 232, 96, 234]),
          ("ref", jstr "##ObjectId(xyz)"), ("n", JsVal.num 1)]
          = JsVal.obj (outBefore ++ ("ref".toList, JsVal.objectID
            (exampleLib.createFromHexString "xyz".toList)) :: outAfter)) ∧
      (isMongoIdText "xyz".toList = false →
        saveProps exampleLib SaveOption.edit
            (some (errorMessage "xyz".toList "ref".toList "ObjectId, please check your input."))
            [("n".toList, JsVal.num 1)]
          = some (some "Value \"xyz\" of key \"ref\" is no valid ObjectId, please check your input.".toList,
            outAfter) ∧
        jobj [("name", jstr "Ann"), ("id", JsVal.objectID
            [80, 127, 25, 30, 129, 12, 25, 114, 157, 232, 96, 234]),
          ("ref", jstr "##ObjectId(xyz)"), ("n", JsVal.num 1)]
          = JsVal.obj (outBefore ++ ("ref".toList,
            JsVal.str ("##ObjectId(".toList ++ "xyz".toList ++ [')'])) :: outAfter) ∧
        (some "Value \"xyz\" of key \"ref\" is no valid ObjectId, please check your input.".toList).isSome
          = true ∧
        (∀ rest, saveProps exampleLib SaveOption.edit none [("n".toList, JsVal.num 1)]
            = some (none, rest) →
          some "Value \"xyz\" of key \"ref\" is no valid ObjectId, please check your input.".toList
            = some (errorMessage "xyz".toList "ref".toList
              "ObjectId, please check your input.")) ∧
        "ref".toList <:+: errorMessage "xyz".toList "ref".toList
          "ObjectId, please check your input." ∧
        "xyz".toList <:+: errorMessage "xyz".toList "ref".toList
          "ObjectId, please check your input.") :=
  objectId_sentinel_edit exampleLib (fun _ => rfl)
    [("name".toList, jstr "Ann"), ("id".toList, jstr "##ObjectId(507f191e810c19729de860ea)")]
    [("n".toList, JsVal.num 1)] "ref".toList "xyz".toList (by decide)
    (some "Value \"xyz\" of key \"ref\" is no valid ObjectId, please check your input.".toList)
    (jobj [("name", jstr "Ann"), ("id", JsVal.objectID
        [80, 127, 25, 30, 129, 12, 25, 114, 157, 232, 96, 234]),
      ("ref", jstr "##ObjectId(xyz)"), ("n", JsVal.num 1)])
    rfl

/-! ### A regex sentinel that does not compile -/

theorem all_lowerChar_append_slash (w f : Str) :
    (w ++ '/' :: f).all lowerChar = false := by
  induction w with
  | nil => rfl
  | cons c w ih => simp only [List.cons_append, List.all_cons, ih, Bool.and_false]

theorem regexTailIndex_last_slash (f : Str) (hf : f.all lowerChar = true) :
    ∀ w : Str, regexTailIndex (w ++ '/' :: f) = some w.length
  | [] => by
    simp only [List.nil_append, regexTailIndex, hf, beq_self_eq_true, Bool.and_self, if_true,
      List.length_nil]
  | c :: w => by
    rw [List.cons_append, regexTailIndex, all_lowerChar_append_slash, Bool.and_false,
      regexTailIndex_last_slash f hf w]
    rfl

theorem sentinelChain_regex (lib : Lib) (option : SaveOption) (key p f : Str)
    (error : Option Str) (hf : f.all lowerChar = true) :
    sentinelChain lib option key ("##/".toList ++ p ++ '/' :: f) error
      = match lib.newRegExp (JsVal.str (replaceAll (lit "##/") [] ("##/".toList ++ p)))
          (JsVal.str f) with
        | some (source, flags) => some (error, JsVal.regExp source flags)
        | none => some (error, JsVal.undefined) := by
  have hindex := regexTailIndex_last_slash f hf ("##/".toList ++ p)
  have htake : ("##/".toList ++ p ++ '/' :: f).take ("##/".toList ++ p).length
      = "##/".toList ++ p := List.take_left _ _
  have hdrop : ("##/".toList ++ p ++ '/' :: f).drop (("##/".toList ++ p).length + 1) = f := by
    rw [← List.drop_drop, List.drop_left]
    rfl
  have h1 : "##ObjectId(".toList.isPrefixOf ("##/".toList ++ p ++ '/' :: f) = false := by
    simp [prefixObjectId, prefixRegex, List.isPrefixOf]
  have h2 : "##UUID(".toList.isPrefixOf ("##/".toList ++ p ++ '/' :: f) = false := by
    simp [prefixUUID, prefixRegex, List.isPrefixOf]
  have h3 : "##LUUID(".toList.isPrefixOf ("##/".toList ++ p ++ '/' :: f) = false := by
    simp [prefixLUUID, prefixRegex, List.isPrefixOf]
  have h4 : "##Timestamp(".toList.isPrefixOf ("##/".toList ++ p ++ '/' :: f) = false := by
    simp [prefixTimestamp, prefixRegex, List.isPrefixOf]
  have h5 : "##ISODate(".toList.isPrefixOf ("##/".toList ++ p ++ '/' :: f) = false := by
    simp [prefixISODate, prefixRegex, List.isPrefixOf]
  have h6 : "##/".toList.isPrefixOf ("##/".toList ++ p ++ '/' :: f) = true := by
    simp [prefixRegex]
  simp only [sentinelChain, h1, h2, h3, h4, h5, h6, if_true, Bool.false_eq_true, if_false,
    hindex, htake, hdrop]

/-- C28 (amended). Let key `k` of a document hold the regex sentinel `##/p/f` whose
flags `f` are lower-case letters, beside any other keys. When the call of
`new RegExp` with the pattern and the flags of the sentinel throws, the
exception is caught: key `k` of the result is `undefined`, and the step for
key `k` reports no error, so that the keys behind it go on from the error of
the keys before it. -/
theorem regex_sentinel_failure_gives_undefined (lib : Lib) (option : SaveOption)
    (before after : List (Str × JsVal)) (key p f : Str) (error : Option Str) (out : JsVal)
    (hf : f.all lowerChar = true)
    (hthrow : lib.newRegExp (JsVal.str (replaceAll (lit "##/") [] ("##/".toList ++ p)))
      (JsVal.str f) = none)
    (h : convertDateTimeAndIdsInDocumentToSave lib option
      (JsVal.obj (before ++ (key, JsVal.str ("##/".toList ++ p ++ '/' :: f)) :: after))
      = some (error, out)) :
    ∃ outBefore outAfter errBefore,
      saveProps lib option none before = some (errBefore, outBefore) ∧
      saveProps lib option errBefore after = some (error, outAfter) ∧
      out = JsVal.obj (outBefore ++ (key, JsVal.undefined) :: outAfter) ∧
      outBefore.map Prod.fst = before.map Prod.fst ∧
      outAfter.map Prod.fst = after.map Prod.fst := by
  obtain ⟨errBefore, outBefore, errKey, value', outAfter, h₁, h₂, h₃, h₄, h₅, h₆⟩ :=
    convert_props_append lib option key _ before after (error, out) h
  rw [saveEntry_str, sentinelChain_regex lib option key p f errBefore hf, hthrow] at h₂
  simp only [Option.some.injEq, Prod.mk.injEq] at h₂
  obtain ⟨e₁, e₂⟩ := h₂
  subst e₁ e₂
  exact ⟨outBefore, outAfter, errBefore, h₁, h₃, h₄, h₅, h₆⟩

set_option maxRecDepth 100000 in
/-- Witness of C28 (amended): the sentinel `##/ab/x` with the invalid flag `x`
between two other keys. -/
theorem regex_sentinel_failure_gives_undefined_witness :
    ∃ outBefore outAfter errBefore,
      saveProps exampleLib SaveOption.edit none [("a".toList, jstr "##ObjectId(x)")]
        = some (errBefore, outBefore) ∧
      saveProps exampleLib SaveOption.edit errBefore [("n".toList, JsVal.num 1)]
        = some (some "Value \"x\" of key \"a\" is no valid ObjectId, please check your input.".toList,
          outAfter) ∧
      jobj [("a", jstr "##ObjectId(x)"), ("r", JsVal.undefined), ("n", JsVal.num 1)]
        = JsVal.obj (outBefore ++ ("r".toList, JsVal.undefined) :: outAfter) ∧
      outBefore.map Prod.fst = ["a".toList] ∧
      outAfter.map Prod.fst = ["n".toList] :=
  regex_sentinel_failure_gives_undefined exampleLib SaveOption.edit
    [("a".toList, jstr "##ObjectId(x)")] [("n".toList, JsVal.num 1)] "r".toList "ab".toList
    "x".toList
    (some "Value \"x\" of key \"a\" is no valid ObjectId, please check your input.".toList)
    (jobj [("a", jstr "##ObjectId(x)"), ("r", JsVal.undefined), ("n", JsVal.num 1)])
    (by decide) (by decide) rfl

/-! ### A wire object that fails without an error -/

set_option maxRecDepth 100000 in
/-- Counterexample to C12: in file-import mode the value `{$oid: 'zzz'}` of key `a`
fails the format check of `getMongoId`, which returns `null`: the key does
not keep its value, and no error is reported. -/
theorem oid_wire_object_becomes_null :
    convertDateTimeAndIdsInDocumentToSave exampleLib SaveOption.fileUpload
        (jobj [("a", jobj [("$oid", jstr "zzz")]), ("b", JsVal.num 1)])
      = some (none, jobj [("a", JsVal.null), ("b", JsVal.num 1)]) :=
  rfl

set_option maxRecDepth 100000 in
/-- A regex sentinel whose flags are no lower-case letters: `value.match` finds no
tail and the conversion throws before the `try`. -/
theorem regex_sentinel_without_tail_throws :
    convertDateTimeAndIdsInDocumentToSave exampleLib SaveOption.edit
        (jobj [("r", jstr "##/ab/I")]) = none :=
  rfl

/-! ### The spaces that the export inserts -/

theorem matchItems_char (c x : Char) (xs : Str) :
    matchItems [ch c] (x :: xs) = if x = c then some ([], xs) else none := by
  by_cases hc : x = c <;> simp [matchItems, ch, addCapture, hc]

theorem matchItems_char_nil (c : Char) : matchItems [ch c] [] = none := by
  simp [matchItems, ch]

theorem replaceAllAux_char (c : Char) (t : Str) :
    ∀ (fuel : Nat) (s : Str), s.length < fuel →
      replaceAllAux [ch c] [Piece.text t] fuel s
        = expandChars (fun x => if x = c then t else [x]) s := by
  intro fuel
  induction fuel with
  | zero => intro s h; cases h
  | succ fuel ih =>
    intro s h
    cases s with
    | nil => rw [replaceAllAux, matchItems_char_nil]; rfl
    | cons x xs =>
      have hx : xs.length < fuel := by simpa using h
      rw [replaceAllAux, matchItems_char, expandChars]
      by_cases hc : x = c
      · simp only [hc, if_true, List.length_cons, Nat.lt_succ_self, instantiate,
          List.append_nil, ih xs hx]
      · simp only [hc, if_false, ih xs hx, List.singleton_append]

theorem replaceAll_char (c : Char) (t s : Str) :
    replaceAll [ch c] [Piece.text t] s = expandChars (fun x => if x = c then t else [x]) s :=
  replaceAllAux_char c t _ s (Nat.lt_succ_self _)

theorem matchItems_quoteColon_hit (rest : Str) :
    matchItems [ch '"', ch ':'] ('"' :: ':' :: rest) = some ([], rest) := by
  simp [matchItems, ch, addCapture]

theorem matchItems_quoteColon_miss (s : Str) (h : ∀ rest, s ≠ '"' :: ':' :: rest) :
    matchItems [ch '"', ch ':'] s = none := by
  cases s with
  | nil => simp [matchItems, ch]
  | cons x xs =>
    by_cases hq : x = '"'
    · subst hq
      cases xs with
      | nil => simp [matchItems, ch]
      | cons y ys =>
        by_cases hy : y = ':'
        · subst hy
          exact absurd rfl (h ys)
        · simp [matchItems, ch, hy]
    · simp only [matchItems, ch, beq_iff_eq, hq, if_false]

theorem spaceQuoteColon_miss (x : Char) (xs : Str)
    (h : ∀ rest, x :: xs ≠ '"' :: ':' :: rest) :
    spaceQuoteColon (x :: xs) = x :: spaceQuoteColon xs := by
  cases xs with
  | nil => rw [spaceQuoteColon]; intro a b h1; cases h1
  | cons y ys =>
    rw [spaceQuoteColon]
    intro rest h1 h2
    exact h rest (by rw [h1, h2])

theorem replaceAllAux_quoteColon :
    ∀ (fuel : Nat) (s : Str), s.length < fuel →
      replaceAllAux [ch '"', ch ':'] [Piece.text ['"', ' ', ':', ' ']] fuel s
        = spaceQuoteColon s := by
  intro fuel
  induction fuel with
  | zero => intro s h; cases h
  | succ fuel ih =>
    intro s h
    cases s with
    | nil =>
      rw [replaceAllAux, matchItems_quoteColon_miss [] (fun rest h1 => by cases h1)]
      rfl
    | cons x xs =>
      have hx : xs.length < fuel := by simpa using h
      by_cases hform : ∃ rest, x :: xs = '"' :: ':' :: rest
      · obtain ⟨rest, heq⟩ := hform
        rw [heq] at h ⊢
        have hr : rest.length < fuel := by
          simp only [List.length_cons] at h
          omega
        rw [replaceAllAux, matchItems_quoteColon_hit]
        have hlt : rest.length < ('"' :: ':' :: rest).length := by
          simp only [List.length_cons]
          omega
        simp only [hlt, if_true, instantiate, List.append_nil, ih rest hr, spaceQuoteColon]
        rfl
      · have hmiss : ∀ rest, x :: xs ≠ '"' :: ':' :: rest := fun rest h1 => hform ⟨rest, h1⟩
        rw [replaceAllAux, matchItems_quoteColon_miss _ hmiss, ih xs hx,
          spaceQuoteColon_miss x xs hmiss]

theorem replaceForExport_eq_chain (t : Str) :
    replaceForExport t
      = expandChars (fun x => if x = ']' then [' ', ']'] else [x])
        (expandChars (fun x => if x = '[' then ['[', ' '] else [x])
        (expandChars (fun x => if x = ',' then [',', ' '] else [x])
        (expandChars (fun x => if x = '\x7d' then [' ', '\x7d'] else [x])
        (spaceQuoteColon
        (expandChars (fun x => if x = '\x7b' then ['\x7b', ' '] else [x]) t))))) := by
  unfold replaceForExport
  simp only []
  have e1 : lit "\x7b" = [ch '\x7b'] := rfl
  have e2 : lit "\":" = [ch '"', ch ':'] := rfl
  have e3 : lit "\x7d" = [ch '\x7d'] := rfl
  have e4 : lit "," = [ch ','] := rfl
  have e5 : lit "[" = [ch '['] := rfl
  have e6 : lit "]" = [ch ']'] := rfl
  rw [e1, e2, e3, e4, e5, e6]
  have q : ∀ s, replaceAll [ch '"', ch ':'] [Piece.text "\" : ".toList] s = spaceQuoteColon s :=
    fun s => replaceAllAux_quoteColon _ s (Nat.lt_succ_self _)
  rw [replaceAll_char, q, replaceAll_char, replaceAll_char, replaceAll_char, replaceAll_char]
  rfl

theorem expandChars_append (f : Char → Str) (a b : Str) :
    expandChars f (a ++ b) = expandChars f a ++ expandChars f b := by
  induction a with
  | nil => rfl
  | cons c cs ih =>
    rw [List.cons_append, expandChars, expandChars, ih, List.append_assoc]

theorem spaced_miss (x : Char) (xs : Str) (h : ∀ rest, x :: xs ≠ '"' :: ':' :: rest) :
    spaced (x :: xs) = spacedChar x ++ spaced xs := by
  cases xs with
  | nil => rw [spaced]; intro a b h1; cases h1
  | cons y ys =>
    rw [spaced]
    intro rest h1 h2
    exact h rest (by rw [h1, h2])

theorem expandChars_head_colon (xs rest : Str)
    (h : expandChars (fun x => if x = '\x7b' then ['\x7b', ' '] else [x]) xs = ':' :: rest) :
    ∃ r, xs = ':' :: r := by
  cases xs with
  | nil => cases h
  | cons y ys =>
    rw [expandChars] at h
    by_cases hy : y = '\x7b'
    · subst hy
      simp at h
    · simp only [hy, if_false, List.singleton_append, List.cons.injEq] at h
      exact ⟨ys, by rw [h.1]⟩

theorem spacedChar_chain (x : Char) :
    expandChars (fun x => if x = ']' then [' ', ']'] else [x])
        (expandChars (fun x => if x = '[' then ['[', ' '] else [x])
        (expandChars (fun x => if x = ',' then [',', ' '] else [x])
        (expandChars (fun x => if x = '\x7d' then [' ', '\x7d'] else [x])
          (if x = '\x7b' then ['\x7b', ' '] else [x]))))
      = spacedChar x := by
  unfold spacedChar
  by_cases h1 : x = '\x7b'
  · subst h1; decide
  · by_cases h2 : x = '\x7d'
    · subst h2; decide
    · by_cases h3 : x = ','
      · subst h3; decide
      · by_cases h4 : x = '['
        · subst h4; decide
        · by_cases h5 : x = ']'
          · subst h5; decide
          · simp [expandChars, h1, h2, h3, h4, h5]

theorem chain_eq_spaced :
    ∀ (n : Nat) (t : Str), t.length ≤ n →
      expandChars (fun x => if x = ']' then [' ', ']'] else [x])
        (expandChars (fun x => if x = '[' then ['[', ' '] else [x])
        (expandChars (fun x => if x = ',' then [',', ' '] else [x])
        (expandChars (fun x => if x = '\x7d' then [' ', '\x7d'] else [x])
        (spaceQuoteColon
        (expandChars (fun x => if x = '\x7b' then ['\x7b', ' '] else [x]) t)))))
      = spaced t := by
  intro n
  induction n with
  | zero =>
    intro t h
    cases t with
    | nil => rfl
    | cons x xs => simp at h
  | succ n ih =>
    intro t h
    cases t with
    | nil => rfl
    | cons x xs =>
      have hxs : xs.length ≤ n := by simpa using h
      by_cases hform : ∃ rest, x :: xs = '"' :: ':' :: rest
      · obtain ⟨rest, heq⟩ := hform
        have hr : rest.length ≤ n := by
          rw [heq] at h
          simp only [List.length_cons] at h
          omega
        rw [heq, spaced, ← ih rest hr]
        simp [expandChars, spaceQuoteColon]
      · have hmiss : ∀ rest, x :: xs ≠ '"' :: ':' :: rest := fun rest h1 => hform ⟨rest, h1⟩
        rw [spaced_miss x xs hmiss, ← ih xs hxs, ← spacedChar_chain x]
        rw [expandChars]
        have hq : spaceQuoteColon ((if x = '\x7b' then ['\x7b', ' '] else [x]) ++
            expandChars (fun x => if x = '\x7b' then ['\x7b', ' '] else [x]) xs)
            = (if x = '\x7b' then ['\x7b', ' '] else [x]) ++ spaceQuoteColon
              (expandChars (fun x => if x = '\x7b' then ['\x7b', ' '] else [x]) xs) := by
          by_cases hx : x = '\x7b'
          · simp only [hx, if_true, List.cons_append, List.nil_append]
            rw [spaceQuoteColon_miss _ _ (fun rest h1 => by simp at h1),
              spaceQuoteColon_miss _ _ (fun rest h1 => by simp at h1)]
          · simp only [hx, if_false, List.singleton_append]
            refine spaceQuoteColon_miss _ _ (fun rest h1 => ?_)
            simp only [List.cons.injEq] at h1
            obtain ⟨r, hr⟩ := expandChars_head_colon xs rest h1.2
            exact hmiss r (by rw [h1.1, hr])
        rw [hq]
        simp only [expandChars_append]

theorem replaceForExport_eq_spaced (t : Str) : replaceForExport t = spaced t := by
  rw [replaceForExport_eq_chain]
  exact chain_eq_spaced _ t (Nat.le_refl _)

theorem closeLiteral_cons_plain (c : Char) (s : Str) (hq : c ≠ '"') (hb : c ≠ '\\') :
    closeLiteral (c :: s) = (closeLiteral s).map (fun r => (c :: r.1, r.2)) := by
  rw [closeLiteral]
  · simp [hq]
  · intro d r h1 _
    exact hb h1

theorem hasQuoteColon_cons (c : Char) (s : Str) (h : hasQuoteColon (c :: s) = false) :
    hasQuoteColon s = false := by
  cases s with
  | nil => rfl
  | cons d r =>
    by_cases hform : c = '"' ∧ d = ':'
    · obtain ⟨rfl, rfl⟩ := hform
      simp [hasQuoteColon] at h
    · rw [hasQuoteColon] at h
      · exact h
      · intro rest h1 h2
        simp only [List.cons.injEq] at h2
        exact hform ⟨h1, h2.1⟩

theorem hasQuoteColon_append (p s : Str) (h : hasQuoteColon (p ++ s) = false) :
    hasQuoteColon s = false := by
  induction p with
  | nil => exact h
  | cons c p ih => exact ih (hasQuoteColon_cons c _ h)

theorem literalKept_map (plain exported : Option (Str × Str)) (p p' : Str)
    (h : literalKept plain exported)
    (hp : p.any tokenChar = false → ∀ u, hasQuoteColon (p ++ u) = false → p' = p) :
    literalKept (plain.map (fun r => (p ++ r.1, r.2)))
      (exported.map (fun r => (p' ++ r.1, r.2))) := by
  cases plain with
  | none =>
    cases exported with
    | none => trivial
    | some e => exact h
  | some o =>
    cases exported with
    | none => exact h
    | some e =>
      obtain ⟨u, r⟩ := o
      obtain ⟨u', r'⟩ := e
      obtain ⟨h1, h2⟩ := h
      refine ⟨h1, fun ha hq => ?_⟩
      simp only [List.any_append, Bool.or_eq_false_iff] at ha
      rw [hp ha.1 u hq, h2 ha.2 (hasQuoteColon_append p u hq)]

theorem spacedChar_cases (c : Char) :
    (spacedChar c = [c] ∧ tokenChar c = false) ∨
      (tokenChar c = true ∧ (spacedChar c = [c, ' '] ∨ spacedChar c = [' ', c])) := by
  unfold spacedChar tokenChar
  by_cases h1 : c = '\x7b'
  · subst h1; exact Or.inr ⟨rfl, Or.inl rfl⟩
  · by_cases h2 : c = '['
    · subst h2; exact Or.inr ⟨rfl, Or.inl rfl⟩
    · by_cases h3 : c = ','
      · subst h3; exact Or.inr ⟨rfl, Or.inl rfl⟩
      · by_cases h4 : c = '\x7d'
        · subst h4; exact Or.inr ⟨rfl, Or.inr rfl⟩
        · by_cases h5 : c = ']'
          · subst h5; exact Or.inr ⟨rfl, Or.inr rfl⟩
          · left
            simp [h1, h2, h3, h4, h5]

theorem tokenChar_plain (c : Char) (h : tokenChar c = true) : c ≠ '"' ∧ c ≠ '\\' := by
  constructor <;> intro e <;> subst e <;> simp [tokenChar] at h

theorem jsonTokens_space (s : Str) : jsonTokens none [] (' ' :: s) = jsonTokens none [] s := by
  rw [jsonTokens]
  simp [jsonSpace, flushWord]

theorem jsonTokens_colon (s : Str) :
    jsonTokens none [] (':' :: s) = Token.punct ':' :: jsonTokens none [] s := by
  rw [jsonTokens]
  simp [jsonSpace, jsonPunct, flushWord]

theorem jsonTokens_inside :
    ∀ (n : Nat) (t : Str), t.length ≤ n → ∀ acc word : Str,
      jsonTokens (some acc) word t
        = match closeLiteral t with
          | none => []
          | some (u, r) => Token.literal (acc ++ u) :: jsonTokens none [] r := by
  intro n
  induction n using Nat.strong_induction_on with
  | _ n ih =>
    intro t h acc word
    cases t with
    | nil => rfl
    | cons c rest =>
      have hlen : rest.length < n := by
        simp only [List.length_cons] at h
        omega
      by_cases hb : c = '\\'
      · subst hb
        cases rest with
        | nil => rfl
        | cons d rest' =>
          have hr' : rest'.length < n := by
            simp only [List.length_cons] at hlen
            omega
          rw [jsonTokens, closeLiteral, ih rest'.length hr' rest' (Nat.le_refl _)]
          cases closeLiteral rest' with
          | none => rfl
          | some r => simp
      · by_cases hq : c = '"'
        · subst hq
          simp [jsonTokens, closeLiteral]
        · have e1 : jsonTokens (some acc) word (c :: rest)
              = jsonTokens (some (acc ++ [c])) [] rest := by
            rw [jsonTokens]
            · simp [hq]
            · intro d r h1 _
              exact hb h1
          rw [e1, closeLiteral_cons_plain c rest hq hb, ih rest.length hlen rest (Nat.le_refl _)]
          cases closeLiteral rest with
          | none => rfl
          | some r => simp

theorem closeLiteral_escape (c : Char) (s : Str) :
    closeLiteral ('\\' :: c :: s) = (closeLiteral s).map (fun r => ('\\' :: c :: r.1, r.2)) := by
  rw [closeLiteral]

theorem literalKept_step (t t' rest rest' p p' : Str)
    (ho : closeLiteral t = (closeLiteral rest).map (fun r => (p ++ r.1, r.2)))
    (hn : closeLiteral t' = (closeLiteral rest').map (fun r => (p' ++ r.1, r.2)))
    (ih : literalKept (closeLiteral rest) (closeLiteral rest'))
    (hp : p.any tokenChar = false → ∀ u, hasQuoteColon (p ++ u) = false → p' = p) :
    literalKept (closeLiteral t) (closeLiteral t') := by
  rw [ho, hn]
  exact literalKept_map _ _ p p' ih hp

theorem spaced_backslash (s : Str) : spaced ('\\' :: s) = '\\' :: spaced s := by
  rw [spaced_miss _ _ (fun rest h1 => by simp at h1)]
  rfl

theorem closeLiteral_spaced :
    ∀ (n : Nat) (t : Str), t.length ≤ n →
      literalKept (closeLiteral t) (closeLiteral (spaced t)) := by
  intro n
  induction n using Nat.strong_induction_on with
  | _ n ih =>
    intro t h
    cases t with
    | nil => trivial
    | cons c rest =>
      have hlen : rest.length < n := by
        simp only [List.length_cons] at h
        omega
      have ihr := ih rest.length hlen rest (Nat.le_refl _)
      by_cases hb : c = '\\'
      · subst hb
        cases rest with
        | nil => trivial
        | cons c rest =>
          have hlen' : rest.length < n := by
            simp only [List.length_cons] at hlen
            omega
          rw [spaced_backslash]
          by_cases hform : ∃ r, c :: rest = '"' :: ':' :: r
          · obtain ⟨r, heq⟩ := hform
            simp only [List.cons.injEq] at heq
            obtain ⟨rfl, rfl⟩ := heq
            have hr : r.length < n := by
              simp only [List.length_cons] at hlen'
              omega
            refine literalKept_step _ _ r (spaced r) ['\\', '"', ':'] ['\\', '"', ' ', ':', ' ']
              ?_ ?_ (ih r.length hr r (Nat.le_refl _)) ?_
            · rw [closeLiteral_escape, closeLiteral_cons_plain ':' r (by decide) (by decide),
                Option.map_map]
              rfl
            · rw [spaced, closeLiteral_escape,
                closeLiteral_cons_plain ' ' _ (by decide) (by decide),
                closeLiteral_cons_plain ':' _ (by decide) (by decide),
                closeLiteral_cons_plain ' ' _ (by decide) (by decide)]
              simp only [Option.map_map]
              rfl
            · intro _ u hq
              simp [hasQuoteColon] at hq
          · have hmiss : ∀ r, c :: rest ≠ '"' :: ':' :: r := fun r h1 => hform ⟨r, h1⟩
            rw [spaced_miss c rest hmiss]
            have ihr' := ih rest.length hlen' rest (Nat.le_refl _)
            rcases spacedChar_cases c with ⟨hs, _⟩ | ⟨htok, hs | hs⟩
            · rw [hs]
              refine literalKept_step _ _ rest (spaced rest) ['\\', c] ['\\', c] ?_ ?_ ihr'
                (fun _ _ _ => rfl)
              · rw [closeLiteral_escape]; rfl
              · rw [List.singleton_append, closeLiteral_escape]; rfl
            · rw [hs]
              refine literalKept_step _ _ rest (spaced rest) ['\\', c] ['\\', c, ' '] ?_ ?_ ihr'
                ?_
              · rw [closeLiteral_escape]; rfl
              · rw [List.cons_append, List.cons_append, List.nil_append, closeLiteral_escape,
                  closeLiteral_cons_plain ' ' _ (by decide) (by decide), Option.map_map]
                rfl
              · intro ha
                simp [htok] at ha
            · rw [hs]
              obtain ⟨hq, hb⟩ := tokenChar_plain c htok
              refine literalKept_step _ _ rest (spaced rest) ['\\', c] ['\\', ' ', c] ?_ ?_ ihr'
                ?_
              · rw [closeLiteral_escape]; rfl
              · rw [List.cons_append, List.cons_append, List.nil_append, closeLiteral_escape,
                  closeLiteral_cons_plain c _ hq hb, Option.map_map]
                rfl
              · intro ha
                simp [htok] at ha
      · by_cases hq : c = '"'
        · subst hq
          by_cases hform : ∃ r, rest = ':' :: r
          · obtain ⟨r, rfl⟩ := hform
            rw [spaced]
            have e1 : closeLiteral ('"' :: ':' :: r) = some ([], ':' :: r) := by
              simp [closeLiteral]
            have e2 : closeLiteral ('"' :: ' ' :: ':' :: ' ' :: spaced r)
                = some ([], ' ' :: ':' :: ' ' :: spaced r) := by
              simp [closeLiteral]
            rw [e1, e2]
            refine ⟨?_, fun _ _ => rfl⟩
            rw [jsonTokens_space, jsonTokens_colon, jsonTokens_space,
              spaced_miss ':' r (fun rest h1 => by simp at h1)]
            exact (jsonTokens_colon _).symm
          · have hmiss : ∀ r, '"' :: rest ≠ '"' :: ':' :: r := fun r h1 => by
              simp only [List.cons.injEq, true_and] at h1
              exact hform ⟨r, h1⟩
            rw [spaced_miss _ _ hmiss]
            have e1 : closeLiteral ('"' :: rest) = some ([], rest) := by
              simp [closeLiteral]
            have e2 : closeLiteral (spacedChar '"' ++ spaced rest) = some ([], spaced rest) := by
              have : spacedChar '"' = ['"'] := by decide
              rw [this]
              simp [closeLiteral]
            rw [e1, e2]
            exact ⟨rfl, fun _ _ => rfl⟩
        · have hmiss : ∀ r, c :: rest ≠ '"' :: ':' :: r := fun r h1 => by
            simp only [List.cons.injEq] at h1
            exact hq h1.1
          rw [spaced_miss _ _ hmiss]
          rcases spacedChar_cases c with ⟨hs, _⟩ | ⟨htok, hs | hs⟩
          · rw [hs]
            refine literalKept_step _ _ rest (spaced rest) [c] [c] ?_ ?_ ihr
              (fun _ _ _ => rfl)
            · rw [closeLiteral_cons_plain c _ hq hb]; rfl
            · rw [List.singleton_append, closeLiteral_cons_plain c _ hq hb]; rfl
          · rw [hs]
            refine literalKept_step _ _ rest (spaced rest) [c] [c, ' '] ?_ ?_ ihr ?_
            · rw [closeLiteral_cons_plain c _ hq hb]; rfl
            · rw [List.cons_append, List.cons_append, List.nil_append,
                closeLiteral_cons_plain c _ hq hb,
                closeLiteral_cons_plain ' ' _ (by decide) (by decide), Option.map_map]
              rfl
            · intro ha
              simp [htok] at ha
          · rw [hs]
            refine literalKept_step _ _ rest (spaced rest) [c] [' ', c] ?_ ?_ ihr ?_
            · rw [closeLiteral_cons_plain c _ hq hb]; rfl
            · rw [List.cons_append, List.cons_append, List.nil_append,
                closeLiteral_cons_plain ' ' _ (by decide) (by decide),
                closeLiteral_cons_plain c _ hq hb, Option.map_map]
              rfl
            · intro ha
              simp [htok] at ha

theorem closeLiteral_length :
    ∀ (n : Nat) (t : Str), t.length ≤ n → ∀ u r, closeLiteral t = some (u, r) →
      r.length < t.length := by
  intro n
  induction n using Nat.strong_induction_on with
  | _ n ih =>
    intro t h u r hc
    cases t with
    | nil => simp [closeLiteral] at hc
    | cons c rest =>
      have hlen : rest.length < n := by
        simp only [List.length_cons] at h
        omega
      by_cases hb : c = '\\'
      · subst hb
        cases rest with
        | nil => simp [closeLiteral] at hc
        | cons d rest' =>
          have hr' : rest'.length < n := by
            simp only [List.length_cons] at hlen
            omega
          rw [closeLiteral_escape] at hc
          cases hcl : closeLiteral rest' with
          | none => simp [hcl] at hc
          | some p =>
            obtain ⟨u0, r0⟩ := p
            simp only [hcl, Option.map_some', Option.some.injEq, Prod.mk.injEq] at hc
            have := ih rest'.length hr' rest' (Nat.le_refl _) u0 r0 hcl
            rw [← hc.2]
            simp only [List.length_cons]
            omega
      · by_cases hq : c = '"'
        · subst hq
          simp only [closeLiteral, if_true, Option.some.injEq, Prod.mk.injEq] at hc
          rw [← hc.2]
          simp
        · rw [closeLiteral_cons_plain c rest hq hb] at hc
          cases hcl : closeLiteral rest with
          | none => simp [hcl] at hc
          | some p =>
            obtain ⟨u0, r0⟩ := p
            simp only [hcl, Option.map_some', Option.some.injEq, Prod.mk.injEq] at hc
            have := ih rest.length hlen rest (Nat.le_refl _) u0 r0 hcl
            rw [← hc.2]
            simp only [List.length_cons]
            omega

theorem jsonTokens_quote (word s : Str) :
    jsonTokens none word ('"' :: s) = flushWord word ++ jsonTokens (some []) [] s := by
  rw [jsonTokens]
  simp

theorem jsonTokens_cons_outside (word : Str) (c : Char) (s : Str) (hq : c ≠ '"') :
    jsonTokens none word (c :: s)
      = if jsonSpace c then flushWord word ++ jsonTokens none [] s
        else if jsonPunct c then flushWord word ++ Token.punct c :: jsonTokens none [] s
        else jsonTokens none (word ++ [c]) s := by
  rw [jsonTokens]
  simp [hq]

theorem jsonTokens_token (word : Str) (c : Char) (s : Str) (h : tokenChar c = true) :
    jsonTokens none word (c :: s)
      = flushWord word ++ Token.punct c :: jsonTokens none [] s := by
  have hs : jsonSpace c = false := by
    simp only [tokenChar, Bool.or_eq_true, beq_iff_eq] at h
    rcases h with (((h | h) | h) | h) | h <;> subst h <;> rfl
  have hp : jsonPunct c = true := by
    simp only [tokenChar, Bool.or_eq_true, beq_iff_eq] at h
    rcases h with (((h | h) | h) | h) | h <;> subst h <;> rfl
  rw [jsonTokens_cons_outside word c s (tokenChar_plain c h).1, hs, hp]
  simp

theorem jsonTokens_space_word (word s : Str) :
    jsonTokens none word (' ' :: s) = flushWord word ++ jsonTokens none [] s := by
  rw [jsonTokens_cons_outside word ' ' s (by decide)]
  simp [jsonSpace]

theorem keptByExport_parts (u : Str) (h : keptByExport u = true) :
    u.any tokenChar = false ∧ hasQuoteColon u = false := by
  simp only [keptByExport, Bool.and_eq_true, Bool.not_eq_true'] at h
  exact ⟨h.1, hasQuoteColon_cons _ _ h.2⟩

theorem jsonTokens_spaced :
    ∀ (n : Nat) (t : Str), t.length ≤ n → ∀ word : Str,
      (∀ w, Token.literal w ∈ jsonTokens none word t → keptByExport w = true) →
      jsonTokens none word (spaced t) = jsonTokens none word t := by
  intro n
  induction n using Nat.strong_induction_on with
  | _ n ih =>
    intro t h word hk
    cases t with
    | nil => rfl
    | cons c rest =>
      have hlen : rest.length < n := by
        simp only [List.length_cons] at h
        omega
      by_cases hq : c = '"'
      · subst hq
        rw [jsonTokens_quote, jsonTokens_inside _ rest (Nat.le_refl _)] at hk
        rw [jsonTokens_quote word rest, jsonTokens_inside _ rest (Nat.le_refl _)]
        by_cases hform : ∃ r, rest = ':' :: r
        · obtain ⟨r0, rfl⟩ := hform
          have hsp := closeLiteral_spaced _ r0 (Nat.le_refl _)
          rw [spaced, jsonTokens_quote, jsonTokens_inside _ _ (Nat.le_refl _),
            closeLiteral_cons_plain ' ' _ (by decide) (by decide),
            closeLiteral_cons_plain ':' _ (by decide) (by decide),
            closeLiteral_cons_plain ' ' _ (by decide) (by decide)]
          rw [closeLiteral_cons_plain ':' r0 (by decide) (by decide)] at hk ⊢
          cases hc : closeLiteral r0 with
          | none =>
            rw [hc] at hsp
            cases hc' : closeLiteral (spaced r0) with
            | none => rfl
            | some e =>
              rw [hc'] at hsp
              exact hsp.elim
          | some o =>
            obtain ⟨u, r⟩ := o
            rw [hc] at hk
            have hbad := hk (':' :: u) (by simp)
            simp [keptByExport, hasQuoteColon] at hbad
        · have hmiss : ∀ r, '"' :: rest ≠ '"' :: ':' :: r := fun r h1 => by
            simp only [List.cons.injEq, true_and] at h1
            exact hform ⟨r, h1⟩
          have hsp := closeLiteral_spaced _ rest (Nat.le_refl _)
          rw [spaced_miss _ _ hmiss]
          have hch : spacedChar '"' = ['"'] := by decide
          rw [hch, List.singleton_append, jsonTokens_quote,
            jsonTokens_inside _ _ (Nat.le_refl _)]
          cases hc : closeLiteral rest with
          | none =>
            rw [hc] at hsp
            cases hc' : closeLiteral (spaced rest) with
            | none => rfl
            | some e =>
              rw [hc'] at hsp
              exact hsp.elim
          | some o =>
            obtain ⟨u, r⟩ := o
            rw [hc] at hsp hk
            cases hc' : closeLiteral (spaced rest) with
            | none =>
              rw [hc'] at hsp
              exact hsp.elim
            | some e =>
              obtain ⟨u', r'⟩ := e
              rw [hc'] at hsp
              obtain ⟨h1, h2⟩ := hsp
              have hu := keptByExport_parts u (hk u (by simp))
              have hr : r.length < n :=
                Nat.lt_trans (closeLiteral_length _ rest (Nat.le_refl _) u r hc) hlen
              have hrec := ih r.length hr r (Nat.le_refl _) []
                (fun w hw => hk w (by
                  simp only [List.mem_append, List.mem_cons]
                  exact Or.inr (Or.inr hw)))
              simp only [List.nil_append]
              rw [h2 hu.1 hu.2, h1, hrec]
      · have hmiss : ∀ r, c :: rest ≠ '"' :: ':' :: r := fun r h1 => by
          simp only [List.cons.injEq] at h1
          exact hq h1.1
        rw [spaced_miss _ _ hmiss]
        rcases spacedChar_cases c with ⟨hs, _⟩ | ⟨htok, hs | hs⟩
        · rw [hs, List.singleton_append, jsonTokens_cons_outside word c _ hq,
            jsonTokens_cons_outside word c rest hq]
          rw [jsonTokens_cons_outside word c rest hq] at hk
          by_cases h1 : jsonSpace c = true
          · simp only [h1, if_true] at hk ⊢
            rw [ih rest.length hlen rest (Nat.le_refl _) []
              (fun w hw => hk w (List.mem_append_right _ hw))]
          · by_cases h2 : jsonPunct c = true
            · simp only [h1, h2, if_true, if_false] at hk ⊢
              rw [ih rest.length hlen rest (Nat.le_refl _) []
                (fun w hw => hk w (List.mem_append_right _ (List.mem_cons_of_mem _ hw)))]
            · simp only [h1, h2, if_false] at hk ⊢
              exact ih rest.length hlen rest (Nat.le_refl _) _ hk
        · rw [jsonTokens_token word c rest htok] at hk ⊢
          rw [hs, List.cons_append, List.cons_append, List.nil_append,
            jsonTokens_token word c _ htok, jsonTokens_space,
            ih rest.length hlen rest (Nat.le_refl _) []
              (fun w hw => hk w (List.mem_append_right _ (List.mem_cons_of_mem _ hw)))]
        · rw [jsonTokens_token word c rest htok] at hk ⊢
          rw [hs, List.cons_append, List.cons_append, List.nil_append,
            jsonTokens_space_word, jsonTokens_token [] c _ htok,
            ih rest.length hlen rest (Nat.le_refl _) []
              (fun w hw => hk w (List.mem_append_right _ (List.mem_cons_of_mem _ hw)))]
          rfl

/-! ### Regular expressions at any position -/

theorem propAt_exportProps (lib : Lib) (name : Str) :
    ∀ props : List (Str × JsVal),
      propAt name (exportProps lib props)
        = (propAt name props).map
            (fun value => exportEntry lib value (convertValuesForExport lib value)) := by
  intro props
  induction props with
  | nil => simp [exportProps, propAt]
  | cons head rest ih =>
    obtain ⟨k, v⟩ := head
    by_cases hk : k = name
    · simp [exportProps, propAt, hk]
    · simp [exportProps, propAt, hk, ih]

theorem get?_exportItems (lib : Lib) :
    ∀ (items : List JsVal) (i : Nat),
      (exportItems lib items).get? i
        = (items.get? i).map
            (fun value => exportEntry lib value (convertValuesForExport lib value)) := by
  intro items
  induction items with
  | nil => intro i; simp [exportItems]
  | cons head rest ih =>
    intro i
    cases i with
    | zero => simp [exportItems]
    | succ j => simpa [exportItems] using ih j

theorem child_convertValuesForExport (lib : Lib) (data : JsVal) (step : Step) (value : JsVal)
    (h : child data step = some value) :
    child (convertValuesForExport lib data) step
      = some (exportEntry lib value (convertValuesForExport lib value)) := by
  cases data with
  | obj props =>
    cases step with
    | key name =>
      simp only [child] at h
      simp only [convertValuesForExport, child, propAt_exportProps, h, Option.map_some']
    | index i => simp [child] at h
  | arr items =>
    cases step with
    | key name => simp [child] at h
    | index i =>
      simp only [child] at h
      simp only [convertValuesForExport, child, get?_exportItems, h, Option.map_some']
  | _ => simp [child] at h

theorem exportEntry_regExp (lib : Lib) (p f : Str) (recursed : JsVal) :
    exportEntry lib (JsVal.regExp p f) recursed = exportRegExp p f := by
  simp [exportEntry, exportValue, isObject, isArray, getProp, truthy]

theorem exportEntry_plainContainer (lib : Lib)
    (hlib : ∀ value, plainContainer value = true → lib.typesMongoId value = false)
    (value : JsVal) (h : plainContainer value = true) :
    exportEntry lib value (convertValuesForExport lib value)
      = convertValuesForExport lib value := by
  cases value with
  | arr items =>
    have hm := hlib (JsVal.arr (exportItems lib items)) rfl
    simp [exportEntry, exportValue, isObject, isArray, getProp, truthy, convertValuesForExport,
      hm]
  | obj props =>
    have hkey : propAt "_bsontype".toList (exportProps lib props) = none := by
      rw [propAt_exportProps]
      simp only [plainContainer, Option.isNone_iff_eq_none] at h
      rw [h]
      rfl
    have hm := hlib (JsVal.obj (exportProps lib props)) (by
      simp only [plainContainer, hkey]
      rfl)
    have hl : ∀ ps : List (Str × JsVal), propAt "_bsontype".toList ps = none →
        lookupProp "_bsontype".toList ps = JsVal.undefined := by
      intro ps
      induction ps with
      | nil => intro _; rfl
      | cons head rest ih =>
        obtain ⟨k, v⟩ := head
        intro hp
        by_cases hk : k = "_bsontype".toList
        · simp [propAt, hk] at hp
        · simp only [propAt, hk, if_false] at hp
          simp only [lookupProp, hk, if_false]
          exact ih hp
    have hu := hl _ hkey
    simp only [exportEntry, exportValue, isObject, isArray, getProp, convertValuesForExport,
      Bool.or_false, Bool.true_or, if_true, hu, hm, truthy, Bool.and_false, Bool.false_and,
      Bool.false_eq_true, if_false]
  | _ => simp [plainContainer] at h

/-- C25: a regular expression with pattern text `p` (any number of slashes in it)
and flag letters `f`, at any position below the exported data — under a key or
in an array, however deep, reached through arrays and objects that have no key
`_bsontype` — is replaced by the wire object with `$regex` equal to `p` and
`$options` equal to `f`. The library takes no array and no such object for an
ObjectID. -/
theorem exportRegExp_spec (lib : Lib)
    (hlib : ∀ value, plainContainer value = true → lib.typesMongoId value = false)
    (p f : Str) (hf : '/' ∉ f) :
    ∀ (path : List Step) (data : JsVal), path ≠ [] →
      pathThrough plainContainer path data = true →
      valueAt path data = some (JsVal.regExp p f) →
      valueAt path (convertValuesForExport lib data)
        = some (JsVal.obj [("$regex".toList, JsVal.str p), ("$options".toList, JsVal.str f)]) := by
  intro path
  induction path with
  | nil => intro data h; exact absurd rfl h
  | cons step rest ih =>
    intro data _ hplain hat
    cases hc : child data step with
    | none => simp [valueAt, hc] at hat
    | some value =>
      simp only [valueAt, hc] at hat
      simp only [pathThrough, hc, Bool.and_eq_true, Bool.or_eq_true] at hplain
      simp only [valueAt, child_convertValuesForExport lib data step value hc]
      cases rest with
      | nil =>
        simp only [valueAt, Option.some.injEq] at hat
        rw [hat, exportEntry_regExp, exportRegExp_eq p f hf]
        rfl
      | cons next rest' =>
        have hcont : plainContainer value = true := by
          rcases hplain.1 with h | h
          · simp at h
          · exact h
        rw [exportEntry_plainContainer lib hlib value hcont]
        exact ih value (by simp) hplain.2 hat

/-- Witness for C25: the regular expression `/a\/b/i` in a document in an array
under a key of the exported document. -/
theorem exportRegExp_spec_witness :
    valueAt [Step.key "list".toList, Step.index 1, Step.key "r".toList]
        (convertValuesForExport exampleLib
          (jobj [("n", JsVal.num 1),
            ("list", JsVal.arr [JsVal.num 1,
              jobj [("r", JsVal.regExp "a\\/b".toList "i".toList)]])]))
      = some (jobj [("$regex", jstr "a\\/b"), ("$options", jstr "i")]) :=
  exportRegExp_spec exampleLib
    (by intro value h; cases value <;> first | rfl | simp [plainContainer] at h)
    "a\\/b".toList "i".toList (by decide)
    [Step.key "list".toList, Step.index 1, Step.key "r".toList] _ (by simp) (by decide) rfl

/-! ### Sentinels in validate-only mode -/

theorem quiet_ite (q c : Prop) [Decidable c] (step₁ step₂ : Option (Option Str × JsVal))
    (h₁ : q ∧ c → ∀ r, step₁ = some r → r.1 = none)
    (h₂ : q ∧ ¬ c → ∀ r, step₂ = some r → r.1 = none) :
    q → ∀ r, (if c then step₁ else step₂) = some r → r.1 = none := by
  intro hq r h
  split_ifs at h with hc
  · exact h₁ ⟨hq, hc⟩ r h
  · exact h₂ ⟨hq, hc⟩ r h

set_option maxHeartbeats 4000000 in
theorem materializeValue_toValidate_none (lib : Lib) (key : Str) (value : JsVal) :
    True → ∀ r, materializeValue lib SaveOption.toValidate key value none = some r →
      r.1 = none := by
  unfold materializeValue
  dsimp only
  repeat' apply quiet_ite
  all_goals
    intro hq r h
    first
      | (cases h; rfl)
      | (exfalso; simp at hq; done)
      | (split at h <;> first
          | cases h
          | (split at h <;> (cases h; rfl)))

theorem materializeValue_toValidate (lib : Lib) (key : Str) (value : JsVal)
    (error : Option Str) (r : Option Str × JsVal)
    (h : materializeValue lib SaveOption.toValidate key value error = some r) : r.1 = error := by
  rw [materializeValue_error] at h
  cases h0 : materializeValue lib SaveOption.toValidate key value none with
  | none => simp [h0] at h
  | some r0 =>
    have := materializeValue_toValidate_none lib key value trivial r0 h0
    simp only [h0, Option.map_some', Option.some.injEq] at h
    rw [← h, this]
    rfl

theorem saveEntry_toValidate (lib : Lib) (key : Str) (value : JsVal)
    (recursed : Option (Option Str × JsVal)) (error : Option Str) (r : Option Str × JsVal)
    (hrec : ∀ rr, recursed = some rr → rr.1 = none)
    (h : saveEntry lib SaveOption.toValidate key value recursed error = some r) :
    r.1 = error := by
  unfold saveEntry at h
  split_ifs at h
  · cases recursed with
    | none => cases h
    | some rr =>
      obtain ⟨err, res⟩ := rr
      have he : err = none := hrec (err, res) rfl
      subst he
      have := materializeValue_toValidate lib key res _ r h
      rw [this, orElse_none_right]
  · exact materializeValue_toValidate lib key value error r h

mutual
theorem convert_toValidate_quiet (lib : Lib) :
    ∀ (data : JsVal) (r : Option Str × JsVal),
      convertDateTimeAndIdsInDocumentToSave lib SaveOption.toValidate data = some r →
      r.1 = none
  | JsVal.arr items, r, h => by
    rw [convertDateTimeAndIdsInDocumentToSave] at h
    split at h
    · rename_i error out hs
      cases h
      exact saveItems_toValidate_quiet lib items 0 none (error, out) hs
    · cases h
  | JsVal.obj props, r, h => by
    rw [convertDateTimeAndIdsInDocumentToSave] at h
    split at h
    · rename_i error out hs
      cases h
      exact saveProps_toValidate_quiet lib props none (error, out) hs
    · cases h
  | JsVal.code code scope, r, h => by
    rw [convertDateTimeAndIdsInDocumentToSave] at h
    split at h
    · cases h
    · rename_i e1 code' h1
      have q1 := saveEntry_toValidate lib _ code _ none (e1, code')
        (convert_toValidate_quiet lib code) h1
      split at h
      · cases h
      · rename_i e2 scope' h2
        have q2 := saveEntry_toValidate lib _ scope _ e1 (e2, scope')
          (convert_toValidate_quiet lib scope) h2
        cases h
        exact q2.trans q1
  | JsVal.dbRef ns oid db, r, h => by
    rw [convertDateTimeAndIdsInDocumentToSave] at h
    split at h
    · cases h
    · rename_i e1 ns' h1
      have q1 := saveEntry_toValidate lib _ ns _ none (e1, ns')
        (convert_toValidate_quiet lib ns) h1
      split at h
      · cases h
      · rename_i e2 oid' h2
        have q2 := saveEntry_toValidate lib _ oid _ e1 (e2, oid')
          (convert_toValidate_quiet lib oid) h2
        split at h
        · cases h
        · rename_i e3 db' h3
          have q3 := saveEntry_toValidate lib _ db _ e2 (e3, db')
            (convert_toValidate_quiet lib db) h3
          cases h
          exact q3.trans (q2.trans q1)
  | JsVal.undefined, r, h => by cases h; rfl
  | JsVal.null, r, h => by cases h; rfl
  | JsVal.bool _, r, h => by cases h; rfl
  | JsVal.num _, r, h => by cases h; rfl
  | JsVal.nan, r, h => by cases h; rfl
  | JsVal.str _, r, h => by cases h; rfl
  | JsVal.date _, r, h => by cases h; rfl
  | JsVal.regExp _ _, r, h => by cases h; rfl
  | JsVal.objectID _, r, h => by cases h; rfl
  | JsVal.binary _ _, r, h => by cases h; rfl
  | JsVal.timestamp _ _, r, h => by cases h; rfl
  | JsVal.minKey, r, h => by cases h; rfl
  | JsVal.maxKey, r, h => by cases h; rfl
theorem saveItems_toValidate_quiet (lib : Lib) :
    ∀ (items : List JsVal) (index : Nat) (error : Option Str)
      (r : Option Str × List JsVal),
      saveItems lib SaveOption.toValidate index error items = some r → r.1 = error
  | [], index, error, r, h => by
    simp only [saveItems, Option.some.injEq] at h
    rw [← h]
  | value :: rest, index, error, r, h => by
    rw [saveItems] at h
    split at h
    · cases h
    · rename_i e1 value' h1
      have q1 := saveEntry_toValidate lib _ value _ error (e1, value')
        (convert_toValidate_quiet lib value) h1
      split at h
      · cases h
      · rename_i e2 rest' h2
        have q2 := saveItems_toValidate_quiet lib rest (index + 1) e1 (e2, rest') h2
        cases h
        exact q2.trans q1
theorem saveProps_toValidate_quiet (lib : Lib) :
    ∀ (props : List (Str × JsVal)) (error : Option Str)
      (r : Option Str × List (Str × JsVal)),
      saveProps lib SaveOption.toValidate error props = some r → r.1 = error
  | [], error, r, h => by
    simp only [saveProps, Option.some.injEq] at h
    rw [← h]
  | (key, value) :: rest, error, r, h => by
    rw [saveProps] at h
    split at h
    · cases h
    · rename_i e1 value' h1
      have q1 := saveEntry_toValidate lib key value _ error (e1, value')
        (convert_toValidate_quiet lib value) h1
      split at h
      · cases h
      · rename_i e2 rest' h2
        have q2 := saveProps_toValidate_quiet lib rest e1 (e2, rest') h2
        cases h
        exact q2.trans q1
end

theorem lookupProp_of_propAt_none (name : Str) :
    ∀ props : List (Str × JsVal), propAt name props = none →
      lookupProp name props = JsVal.undefined := by
  intro props
  induction props with
  | nil => intro _; rfl
  | cons head rest ih =>
    obtain ⟨k, v⟩ := head
    intro hp
    by_cases hk : k = name
    · simp [propAt, hk] at hp
    · simp only [propAt, hk, if_false] at hp
      simp only [lookupProp, hk, if_false]
      exact ih hp

theorem propAt_none_of_keys (name : Str) :
    ∀ props out : List (Str × JsVal), out.map Prod.fst = props.map Prod.fst →
      propAt name props = none → propAt name out = none := by
  intro props
  induction props with
  | nil =>
    intro out hk _
    cases out with
    | nil => rfl
    | cons a b => simp at hk
  | cons head rest ih =>
    intro out hk hp
    cases out with
    | nil => simp at hk
    | cons a b =>
      obtain ⟨k, v⟩ := head
      obtain ⟨k', v'⟩ := a
      simp only [List.map_cons, List.cons.injEq] at hk
      obtain ⟨hk1, hk2⟩ := hk
      subst hk1
      by_cases hn : k' = name
      · simp [propAt, hn] at hp
      · simp only [propAt, hn, if_false] at hp ⊢
        exact ih b hk2 hp

theorem propAt_of_hasKey (name : String) (props : List (Str × JsVal))
    (h : hasKey name props = false) : propAt name.toList props = none := by
  unfold hasKey at h
  cases hp : propAt name.toList props with
  | none => rfl
  | some v => rw [hp] at h; cases h

theorem hasKey_of_propAt (name : String) (props : List (Str × JsVal))
    (h : propAt name.toList props = none) : hasKey name props = false := by
  unfold hasKey
  rw [h]
  rfl

theorem savePlain_of_keys (props out : List (Str × JsVal))
    (hk : out.map Prod.fst = props.map Prod.fst) (h : savePlain (JsVal.obj props) = true) :
    savePlain (JsVal.obj out) = true := by
  have key : ∀ name : String, hasKey name props = false → hasKey name out = false := by
    intro name hn
    exact hasKey_of_propAt name out
      (propAt_none_of_keys _ props out hk (propAt_of_hasKey name props hn))
  simp only [savePlain, Bool.and_eq_true, Bool.not_eq_true', Bool.and_eq_false_iff] at h ⊢
  obtain ⟨⟨⟨⟨⟨h1, h2⟩, h3⟩, h4⟩, h5⟩, h6⟩ := h
  refine ⟨⟨⟨⟨⟨key _ h1, key _ h2⟩, key _ h3⟩, key _ h4⟩, key _ h5⟩, ?_⟩
  rcases h6 with h6 | h6
  · exact Or.inl (key _ h6)
  · exact Or.inr (key _ h6)

theorem getProp_of_hasKey (name : String) (props : List (Str × JsVal))
    (h : hasKey name props = false) : getProp (JsVal.obj props) name = JsVal.undefined := by
  exact lookupProp_of_propAt_none _ props (propAt_of_hasKey name props h)

theorem isGuarded_of_savePlain (value : JsVal) (h : savePlain value = true) :
    (isObject value || isArray value) = true ∧
      (truthy value && (truthy (getProp value "$oid") || truthy (getProp value "$date")))
        = false := by
  cases value with
  | arr items => exact ⟨rfl, rfl⟩
  | obj props =>
    simp only [savePlain, Bool.and_eq_true, Bool.not_eq_true'] at h
    obtain ⟨⟨⟨⟨⟨h1, h2⟩, _⟩, _⟩, _⟩, _⟩ := h
    rw [getProp_of_hasKey _ props h1, getProp_of_hasKey _ props h2]
    exact ⟨rfl, rfl⟩
  | _ => simp [savePlain] at h

set_option maxHeartbeats 4000000 in
theorem materializeValue_toValidate_plain (lib : Lib) (key : Str) (value : JsVal)
    (error : Option Str) (h : savePlain value = true) :
    materializeValue lib SaveOption.toValidate key value error = some (error, value) := by
  cases value with
  | arr items =>
    simp [materializeValue, getProp, truthy, isString, isObject, isNull, strictEqNum]
  | obj props =>
    simp only [savePlain, Bool.and_eq_true, Bool.not_eq_true', Bool.and_eq_false_iff] at h
    obtain ⟨⟨⟨⟨⟨h1, h2⟩, h3⟩, h4⟩, h5⟩, h6⟩ := h
    have g3 := getProp_of_hasKey _ props h3
    have g4 := getProp_of_hasKey _ props h4
    have g5 := getProp_of_hasKey _ props h5
    have g6 : (truthy (getProp (JsVal.obj props) "$id") &&
        truthy (getProp (JsVal.obj props) "$ref")) = false := by
      rcases h6 with h6 | h6
      · rw [getProp_of_hasKey _ props h6]; rfl
      · rw [getProp_of_hasKey _ props h6]; simp [truthy]
    have hu : truthy JsVal.undefined = false := rfl
    unfold materializeValue
    simp only [g3, g4, g5, show decide (SaveOption.toValidate = SaveOption.fileUpload) = false
      from rfl, Bool.and_false, Bool.false_eq_true, if_false, isString, hu, Bool.and_assoc,
      g6, Bool.false_and]
  | _ => simp [savePlain] at h

theorem saveEntry_toValidate_plain (lib : Lib) (key : Str) (value : JsVal)
    (error : Option Str) (r : Option Str × JsVal) (hplain : savePlain value = true)
    (h : saveEntry lib SaveOption.toValidate key value
      (convertDateTimeAndIdsInDocumentToSave lib SaveOption.toValidate value) error = some r) :
    convertDateTimeAndIdsInDocumentToSave lib SaveOption.toValidate value = some (none, r.2) := by
  obtain ⟨hg1, hg2⟩ := isGuarded_of_savePlain value hplain
  unfold saveEntry at h
  simp only [hg1, hg2, Bool.not_false, Bool.and_self, if_true] at h
  cases hc : convertDateTimeAndIdsInDocumentToSave lib SaveOption.toValidate value with
  | none => simp [hc] at h
  | some rr =>
    obtain ⟨err, res⟩ := rr
    have he := convert_toValidate_quiet lib value (err, res) hc
    simp only at he
    subst he
    simp only [hc] at h
    have hres : savePlain res = true := by
      cases value with
      | arr items =>
        rw [convertDateTimeAndIdsInDocumentToSave] at hc
        split at hc
        · cases hc; rfl
        · cases hc
      | obj props =>
        rw [convertDateTimeAndIdsInDocumentToSave] at hc
        split at hc
        · rename_i e out hs
          cases hc
          exact savePlain_of_keys props out (saveProps_keys lib _ props _ none _ hs) hplain
        · cases hc
      | _ => simp [savePlain] at hplain
    rw [materializeValue_toValidate_plain lib key res _ hres] at h
    simp only [Option.some.injEq] at h
    rw [← h]

theorem propAt_saveProps (lib : Lib) (option : SaveOption) (name : Str) (value : JsVal) :
    ∀ (props : List (Str × JsVal)) (error : Option Str)
      (r : Option Str × List (Str × JsVal)),
      saveProps lib option error props = some r → propAt name props = some value →
      ∃ e r', saveEntry lib option name value
          (convertDateTimeAndIdsInDocumentToSave lib option value) e = some r' ∧
        propAt name r.2 = some r'.2 := by
  intro props
  induction props with
  | nil => intro error r _ hp; simp [propAt] at hp
  | cons head rest ih =>
    obtain ⟨k, v⟩ := head
    intro error r h hp
    rw [saveProps] at h
    split at h
    · cases h
    · rename_i e1 v' h1
      split at h
      · cases h
      · rename_i e2 rest' h2
        cases h
        by_cases hk : k = name
        · subst hk
          simp only [propAt, if_true, Option.some.injEq] at hp
          subst hp
          exact ⟨error, (e1, v'), h1, by simp [propAt]⟩
        · simp only [propAt, hk, if_false] at hp
          obtain ⟨e, r', hr1, hr2⟩ := ih e1 (e2, rest') h2 hp
          exact ⟨e, r', hr1, by simpa [propAt, hk] using hr2⟩

theorem get?_saveItems (lib : Lib) (option : SaveOption) (value : JsVal) :
    ∀ (items : List JsVal) (index : Nat) (error : Option Str)
      (r : Option Str × List JsVal) (i : Nat),
      saveItems lib option index error items = some r → items.get? i = some value →
      ∃ key e r', saveEntry lib option key value
          (convertDateTimeAndIdsInDocumentToSave lib option value) e = some r' ∧
        r.2.get? i = some r'.2 := by
  intro items
  induction items with
  | nil => intro index error r i _ hp; simp at hp
  | cons head rest ih =>
    intro index error r i h hp
    rw [saveItems] at h
    split at h
    · cases h
    · rename_i e1 v' h1
      split at h
      · cases h
      · rename_i e2 rest' h2
        cases h
        cases i with
        | zero =>
          simp only [List.get?_cons_zero, Option.some.injEq] at hp
          subst hp
          exact ⟨_, error, (e1, v'), h1, rfl⟩
        | succ j =>
          simp only [List.get?_cons_succ] at hp
          obtain ⟨key, e, r', hr1, hr2⟩ := ih (index + 1) e1 (e2, rest') j h2 hp
          exact ⟨key, e, r', hr1, by simpa using hr2⟩

theorem child_convert (lib : Lib) (option : SaveOption) (data : JsVal) (step : Step)
    (value : JsVal) (r : Option Str × JsVal)
    (h : convertDateTimeAndIdsInDocumentToSave lib option data = some r)
    (hc : child data step = some value) :
    ∃ key e r', saveEntry lib option key value
        (convertDateTimeAndIdsInDocumentToSave lib option value) e = some r' ∧
      child r.2 step = some r'.2 := by
  cases data with
  | obj props =>
    cases step with
    | key name =>
      simp only [child] at hc
      rw [convertDateTimeAndIdsInDocumentToSave] at h
      split at h
      · rename_i e out hs
        cases h
        obtain ⟨e', r', h1, h2⟩ := propAt_saveProps lib option name value props none (e, out) hs hc
        exact ⟨name, e', r', h1, h2⟩
      · cases h
    | index i => simp [child] at hc
  | arr items =>
    cases step with
    | key name => simp [child] at hc
    | index i =>
      simp only [child] at hc
      rw [convertDateTimeAndIdsInDocumentToSave] at h
      split at h
      · rename_i e out hs
        cases h
        exact get?_saveItems lib option value items 0 none (e, out) i hs hc
      · cases h
  | _ => simp [child] at hc

theorem trim_spec (x : Str) :
    ∃ l r, x = l ++ trim x ++ r ∧ l.all isSpace = true ∧ r.all isSpace = true ∧
      (∀ a, (trim x).head? = some a → isSpace a = false) ∧
      (∀ a, (trim x).getLast? = some a → isSpace a = false) := by
  have hdrop : ∀ (s : Str) (a : Char), (s.dropWhile isSpace).head? = some a →
      isSpace a = false := by
    intro s a h
    have := List.head?_dropWhile_not isSpace s
    rw [h] at this
    simpa using this
  have htake : ∀ s : Str, (s.takeWhile isSpace).all isSpace = true := by
    intro s
    rw [List.all_eq_true]
    intro c hc
    exact List.mem_takeWhile_imp hc
  refine ⟨x.takeWhile isSpace,
    (((x.dropWhile isSpace).reverse).takeWhile isSpace).reverse, ?_, htake x, ?_, ?_, ?_⟩
  · have h1 : (((x.dropWhile isSpace).reverse).dropWhile isSpace).reverse
        ++ (((x.dropWhile isSpace).reverse).takeWhile isSpace).reverse
        = x.dropWhile isSpace := by
      rw [← List.reverse_append, List.takeWhile_append_dropWhile, List.reverse_reverse]
    unfold trim
    rw [List.append_assoc, h1, List.takeWhile_append_dropWhile]
  · rw [List.all_reverse]
    exact htake _
  · intro a ha
    unfold trim at ha
    have h1 : (((x.dropWhile isSpace).reverse).dropWhile isSpace).reverse
        ++ (((x.dropWhile isSpace).reverse).takeWhile isSpace).reverse
        = x.dropWhile isSpace := by
      rw [← List.reverse_append, List.takeWhile_append_dropWhile, List.reverse_reverse]
    apply hdrop x a
    rw [← h1]
    cases hl : (((x.dropWhile isSpace).reverse).dropWhile isSpace).reverse with
    | nil => rw [hl] at ha; cases ha
    | cons b t =>
      rw [hl] at ha
      simpa using ha
  · intro a ha
    unfold trim at ha
    rw [List.getLast?_reverse] at ha
    exact hdrop _ a ha

theorem sentinelChain_toValidate (lib : Lib) (key x : Str) (error : Option Str)
    (hx : ')' ∉ x) :
    (∀ pfx ∈ ["##ObjectId(", "##UUID(", "##LUUID(", "##ISODate("],
      sentinelChain lib SaveOption.toValidate key (String.toList pfx ++ x ++ [')']) error
        = some (error, JsVal.str x)) ∧
    sentinelChain lib SaveOption.toValidate key ("##Timestamp(".toList ++ x ++ [')']) error
      = some (error, JsVal.str (trim x)) := by
  have h1 := sentinelArgument_eq "##ObjectId(" x (by decide) hx
  have h2 := sentinelArgument_eq "##UUID(" x (by decide) hx
  have h3 := sentinelArgument_eq "##LUUID(" x (by decide) hx
  have h4 := sentinelArgument_eq "##Timestamp(" x (by decide) hx
  have h5 := sentinelArgument_eq "##ISODate(" x (by decide) hx
  refine ⟨?_, ?_⟩
  · intro pfx hp
    simp only [List.mem_cons, List.mem_singleton, List.not_mem_nil, or_false] at hp
    rcases hp with rfl | rfl | rfl | rfl
    · simp only [sentinelChain, h1]
      simp [prefixObjectId]
    · simp only [sentinelChain, h2]
      simp [prefixObjectId, prefixUUID]
    · simp only [sentinelChain, h3]
      simp [prefixObjectId, prefixUUID, prefixLUUID]
    · simp only [sentinelChain, h5]
      simp [prefixObjectId, prefixUUID, prefixLUUID, prefixTimestamp, prefixISODate]
  · simp only [sentinelChain, h4]
    simp [prefixObjectId, prefixUUID, prefixLUUID, prefixTimestamp]

theorem toValidate_leaf (lib : Lib) (text : Str) :
    ∀ (path : List Step) (data out : JsVal) (error : Option Str), path ≠ [] →
      pathThrough savePlain path data = true →
      convertDateTimeAndIdsInDocumentToSave lib SaveOption.toValidate data = some (error, out) →
      valueAt path data = some (JsVal.str text) →
      ∃ key e r, sentinelChain lib SaveOption.toValidate key text e = some r ∧
        valueAt path out = some r.2 := by
  intro path
  induction path with
  | nil => intro data out error h; exact absurd rfl h
  | cons step rest ih =>
    intro data out error _ hplain h hat
    cases hc : child data step with
    | none => simp [valueAt, hc] at hat
    | some value =>
      simp only [valueAt, hc] at hat
      simp only [pathThrough, hc, Bool.and_eq_true, Bool.or_eq_true] at hplain
      obtain ⟨key, e, r', hs, hchild⟩ :=
        child_convert lib SaveOption.toValidate data step value (error, out) h hc
      simp only [valueAt, hchild]
      cases rest with
      | nil =>
        simp only [valueAt, Option.some.injEq] at hat
        subst hat
        rw [saveEntry_str] at hs
        exact ⟨key, e, r', hs, rfl⟩
      | cons next rest' =>
        have hcont : savePlain value = true := by
          rcases hplain.1 with h1 | h1
          · simp at h1
          · exact h1
        have hconv := saveEntry_toValidate_plain lib key value e r' hcont hs
        exact ih value r'.2 none (by simp) hplain.2 hconv hat

/-- C13 (amended): in validate-only mode (option `'toValidate'`) no error is
reported, and a sentinel string `##ObjectId(x)`, `##UUID(x)`, `##LUUID(x)` or
`##ISODate(x)` with `x` free of `)` — under a key or in an array, however
deep, reached through arrays and through objects that have none of the keys
`$oid`, `$date`, `$code`, `$minKey`, `$maxKey` and not both `$id` and `$ref` — is
replaced by the text `x` as a plain string, whatever `x` is and whatever the
format checks of the library say. A sentinel `##Timestamp(x)` at such a
position is replaced by `x` without the whitespace at its start and at its
end. -/
theorem toValidate_strips_sentinels (lib : Lib) (x : Str) (hx : ')' ∉ x)
    (path : List Step) (data out : JsVal) (error : Option Str) (hpath : path ≠ [])
    (hplain : pathThrough savePlain path data = true)
    (h : convertDateTimeAndIdsInDocumentToSave lib SaveOption.toValidate data
      = some (error, out)) :
    error = none ∧
    (∀ pfx ∈ ["##ObjectId(", "##UUID(", "##LUUID(", "##ISODate("],
      valueAt path data = some (JsVal.str (String.toList pfx ++ x ++ [')'])) →
      valueAt path out = some (JsVal.str x)) ∧
    (valueAt path data = some (JsVal.str ("##Timestamp(".toList ++ x ++ [')'])) →
      ∃ l c r, x = l ++ c ++ r ∧ l.all isSpace = true ∧ r.all isSpace = true ∧
        (∀ a, c.head? = some a → isSpace a = false) ∧
        (∀ a, c.getLast? = some a → isSpace a = false) ∧
        valueAt path out = some (JsVal.str c)) := by
  refine ⟨convert_toValidate_quiet lib data (error, out) h, ?_, ?_⟩
  · intro pfx hp hat
    obtain ⟨key, e, r, hs, hv⟩ := toValidate_leaf lib _ path data out error hpath hplain h hat
    rw [(sentinelChain_toValidate lib key x e hx).1 pfx hp] at hs
    simp only [Option.some.injEq] at hs
    rw [hv, ← hs]
  · intro hat
    obtain ⟨key, e, r, hs, hv⟩ := toValidate_leaf lib _ path data out error hpath hplain h hat
    rw [(sentinelChain_toValidate lib key x e hx).2] at hs
    simp only [Option.some.injEq] at hs
    obtain ⟨l, r', h1, h2, h3, h4, h5⟩ := trim_spec x
    refine ⟨l, trim x, r', h1, h2, h3, h4, h5, ?_⟩
    rw [hv, ← hs]

/-- Witness for C13: `##Timestamp( 1, 2 )` and `##ObjectId(no id)` in a document in
an array under a key; the texts handed back are `1, 2` and `no id`. -/
theorem toValidate_strips_sentinels_witness :
    convertDateTimeAndIdsInDocumentToSave exampleLib SaveOption.toValidate
        (jobj [("n", JsVal.num 1),
          ("list", JsVal.arr [JsVal.num 1, jobj [("t", jstr "##Timestamp( 1, 2 )")]])])
      = some (none, jobj [("n", JsVal.num 1),
          ("list", JsVal.arr [JsVal.num 1, jobj [("t", jstr "1, 2")]])]) ∧
    ((none : Option Str) = none ∧
    (∀ pfx ∈ ["##ObjectId(", "##UUID(", "##LUUID(", "##ISODate("],
      valueAt [Step.key "list".toList, Step.index 1, Step.key "t".toList]
          (jobj [("n", JsVal.num 1),
            ("list", JsVal.arr [JsVal.num 1, jobj [("t", jstr "##Timestamp( 1, 2 )")]])])
        = some (JsVal.str (String.toList pfx ++ " 1, 2 ".toList ++ [')'])) →
      valueAt [Step.key "list".toList, Step.index 1, Step.key "t".toList]
          (jobj [("n", JsVal.num 1),
            ("list", JsVal.arr [JsVal.num 1, jobj [("t", jstr "1, 2")]])])
        = some (JsVal.str " 1, 2 ".toList)) ∧
    (valueAt [Step.key "list".toList, Step.index 1, Step.key "t".toList]
          (jobj [("n", JsVal.num 1),
            ("list", JsVal.arr [JsVal.num 1, jobj [("t", jstr "##Timestamp( 1, 2 )")]])])
        = some (JsVal.str ("##Timestamp(".toList ++ " 1, 2 ".toList ++ [')'])) →
      ∃ l c r, " 1, 2 ".toList = l ++ c ++ r ∧ l.all isSpace = true ∧ r.all isSpace = true ∧
        (∀ a, c.head? = some a → isSpace a = false) ∧
        (∀ a, c.getLast? = some a → isSpace a = false) ∧
        valueAt [Step.key "list".toList, Step.index 1, Step.key "t".toList]
          (jobj [("n", JsVal.num 1),
            ("list", JsVal.arr [JsVal.num 1, jobj [("t", jstr "1, 2")]])])
          = some (JsVal.str c))) :=
  ⟨rfl, toValidate_strips_sentinels exampleLib " 1, 2 ".toList (by decide)
    [Step.key "list".toList, Step.index 1, Step.key "t".toList]
    (jobj [("n", JsVal.num 1),
      ("list", JsVal.arr [JsVal.num 1, jobj [("t", jstr "##Timestamp( 1, 2 )")]])])
    (jobj [("n", JsVal.num 1),
      ("list", JsVal.arr [JsVal.num 1, jobj [("t", jstr "1, 2")]])])
    none (by simp) (by decide) rfl⟩

/-- Counterexample to C13: in validate-only mode the sentinel under key `b` of
`{a: {$oid: 1, b: '##ObjectId(x)'}}` is handed back as it is: the object under
`a` has a truthy `$oid`, and the conversion does not enter such an object in
any mode. In `{a: {$code: 'f', b: '##ObjectId(x)'}}` the object under `a` becomes
a `Code`, and the key `b` is gone. -/
theorem toValidate_keeps_guarded_sentinel :
    convertDateTimeAndIdsInDocumentToSave exampleLib SaveOption.toValidate
        (jobj [("a", jobj [("$oid", JsVal.num 1), ("b", jstr "##ObjectId(x)")])])
      = some (none, jobj [("a", jobj [("$oid", JsVal.num 1), ("b", jstr "##ObjectId(x)")])]) ∧
    convertDateTimeAndIdsInDocumentToSave exampleLib SaveOption.toValidate
        (jobj [("a", jobj [("$code", jstr "f"), ("b", jstr "##ObjectId(x)")])])
      = some (none, jobj [("a", JsVal.code (jstr "f") (JsVal.obj []))]) :=
  ⟨rfl, rfl⟩

/-! ### Matches of a pattern -/

theorem tryDown_some {β : Type} (f : Nat → Option β) (lo : Nat) :
    ∀ (n : Nat) (r : β), tryDown f lo n = some r → ∃ k, lo ≤ k ∧ k ≤ n ∧ f k = some r := by
  intro n
  induction n with
  | zero =>
    intro r h
    unfold tryDown at h
    split_ifs at h with h0
    exact ⟨0, by omega, Nat.le_refl _, h⟩
  | succ n ih =>
    intro r h
    unfold tryDown at h
    split_ifs at h with h0
    cases hf : f (n + 1) with
    | some r' =>
      rw [hf] at h
      simp only [Option.some.injEq] at h
      subst h
      exact ⟨n + 1, by omega, Nat.le_refl _, hf⟩
    | none =>
      rw [hf] at h
      obtain ⟨k, h1, h2, h3⟩ := ih r h
      exact ⟨k, h1, by omega, h3⟩

theorem take_all_of_le_takeWhile (cls : Char → Bool) (s : Str) (k : Nat)
    (h : k ≤ (s.takeWhile cls).length) : (s.take k).all cls = true := by
  induction s generalizing k with
  | nil => simp
  | cons c cs ih =>
    cases k with
    | zero => simp
    | succ j =>
      by_cases hc : cls c = true
      · simp only [List.takeWhile_cons, hc, if_true, List.length_cons] at h
        simp only [List.take_succ_cons, List.all_cons, hc, Bool.true_and]
        exact ih j (by omega)
      · simp [List.takeWhile_cons, hc] at h

/-- What a match of a pattern at the start of a text says about its first item:
the text is a part that the item matched, all of it in the class of the item,
one character for a single class and not empty for `+`, and a tail that the
rest of the pattern matched. -/
theorem matchItems_step (it : Item) (its : List Item) (s : Str) (caps : List Str) (rest : Str)
    (h : matchItems (it :: its) s = some (caps, rest)) :
    ∃ part tail caps', s = part ++ tail ∧ part.all it.cls = true ∧
      (it.quant = Quant.one → part.length = 1) ∧ (it.quant = Quant.plus → part ≠ []) ∧
      matchItems its tail = some (caps', rest) ∧
      caps = if it.capture then part :: caps' else caps' := by
  obtain ⟨cls, q, cap⟩ := it
  cases q with
  | one =>
    cases s with
    | nil => simp [matchItems] at h
    | cons c cs =>
      simp only [matchItems] at h
      split_ifs at h with hc
      cases hm : matchItems its cs with
      | none => simp [hm] at h
      | some r =>
        obtain ⟨caps', rest'⟩ := r
        simp only [hm, Option.map_some', addCapture, Option.some.injEq] at h
        refine ⟨[c], cs, caps', rfl, by simp [hc], (fun _ => rfl), (fun h1 => by cases h1),
          ?_, ?_⟩
        · split_ifs at h <;> simp only [Prod.mk.injEq] at h <;> rw [← h.2] <;> exact hm
        · split_ifs at h with hcap <;> simp only [Prod.mk.injEq] at h
          · simp [hcap, h.1]
          · simp [hcap, h.1]
  | star =>
    simp only [matchItems] at h
    obtain ⟨k, _, hk, hf⟩ := tryDown_some _ _ _ _ h
    cases hm : matchItems its (s.drop k) with
    | none => simp [hm] at hf
    | some r =>
      obtain ⟨caps', rest'⟩ := r
      simp only [hm, Option.map_some', addCapture, Option.some.injEq] at hf
      refine ⟨s.take k, s.drop k, caps', (List.take_append_drop k s).symm,
        take_all_of_le_takeWhile cls s k hk, (fun h1 => by cases h1),
        (fun h1 => by cases h1), ?_, ?_⟩
      · split_ifs at hf <;> simp only [Prod.mk.injEq] at hf <;> rw [← hf.2] <;> exact hm
      · split_ifs at hf with hcap <;> simp only [Prod.mk.injEq] at hf
        · simp [hcap, hf.1]
        · simp [hcap, hf.1]
  | plus =>
    simp only [matchItems] at h
    obtain ⟨k, hlo, hk, hf⟩ := tryDown_some _ _ _ _ h
    cases hm : matchItems its (s.drop k) with
    | none => simp [hm] at hf
    | some r =>
      obtain ⟨caps', rest'⟩ := r
      simp only [hm, Option.map_some', addCapture, Option.some.injEq] at hf
      have hlen : k ≤ s.length := by
        have hp : s.takeWhile cls <+: s := List.takeWhile_prefix cls
        have := hp.length_le
        omega
      refine ⟨s.take k, s.drop k, caps', (List.take_append_drop k s).symm,
        take_all_of_le_takeWhile cls s k hk, (fun h1 => by cases h1),
        fun _ hnil => ?_, ?_, ?_⟩
      · have : (s.take k).length = 0 := by rw [hnil]; rfl
        rw [List.length_take] at this
        omega
      · split_ifs at hf <;> simp only [Prod.mk.injEq] at hf <;> rw [← hf.2] <;> exact hm
      · split_ifs at hf with hcap <;> simp only [Prod.mk.injEq] at hf
        · simp [hcap, hf.1]
        · simp [hcap, hf.1]

theorem matchItems_needs_class (it : Item) (post : List Item) (hq : it.quant = Quant.one) :
    ∀ (pre : List Item) (s : Str) (r : List Str × Str),
      matchItems (pre ++ it :: post) s = some r → ∃ c ∈ s, it.cls c = true := by
  intro pre
  induction pre with
  | nil =>
    intro s r h
    obtain ⟨part, tail, caps', hs, hall, hone, _, _, _⟩ :=
      matchItems_step it post s r.1 r.2 h
    have hl := hone hq
    cases part with
    | nil => cases hl
    | cons c cs =>
      simp only [List.all_cons, Bool.and_eq_true] at hall
      exact ⟨c, by simp [hs], hall.1⟩
  | cons head pre ih =>
    intro s r h
    obtain ⟨part, tail, caps', hs, _, _, _, hm, _⟩ :=
      matchItems_step head (pre ++ it :: post) s r.1 r.2 h
    obtain ⟨c, hc, hcls⟩ := ih tail _ hm
    exact ⟨c, by simp [hs, hc], hcls⟩

theorem matchItems_needs_pair (a b : Char) (post : List Item) :
    ∀ (pre : List Item) (s : Str) (r : List Str × Str),
      matchItems (pre ++ ch a :: ch b :: post) s = some r → [a, b] <:+: s := by
  intro pre
  induction pre with
  | nil =>
    intro s r h
    obtain ⟨p1, t1, c1, hs1, hall1, hone1, _, hm1, _⟩ :=
      matchItems_step (ch a) (ch b :: post) s r.1 r.2 h
    obtain ⟨p2, t2, c2, hs2, hall2, hone2, _, hm2, _⟩ :=
      matchItems_step (ch b) post t1 c1 r.2 hm1
    have hl1 := hone1 rfl
    have hl2 := hone2 rfl
    cases p1 with
    | nil => cases hl1
    | cons x xs =>
      cases xs with
      | cons y ys => simp at hl1
      | nil =>
        cases p2 with
        | nil => cases hl2
        | cons y ys =>
          cases ys with
          | cons z zs => simp at hl2
          | nil =>
            simp only [ch, List.all_cons, List.all_nil, Bool.and_true, beq_iff_eq] at hall1 hall2
            subst hall1 hall2
            exact ⟨[], t2, by simp [hs1, hs2]⟩
  | cons head pre ih =>
    intro s r h
    obtain ⟨part, tail, caps', hs, _, _, _, hm, _⟩ :=
      matchItems_step head (pre ++ ch a :: ch b :: post) s r.1 r.2 h
    obtain ⟨u, v, huv⟩ := ih tail _ hm
    exact ⟨part ++ u, v, by simp [hs, ← huv]⟩

/-! ### Replacements that change nothing -/

theorem replaceAllAux_fuel (r : List Item) (tpl : List Piece) :
    ∀ (fuel₁ fuel₂ : Nat) (s : Str), s.length < fuel₁ → s.length < fuel₂ →
      replaceAllAux r tpl fuel₁ s = replaceAllAux r tpl fuel₂ s := by
  intro fuel₁
  induction fuel₁ with
  | zero => intro fuel₂ s h; cases h
  | succ f₁ ih =>
    intro fuel₂ s h₁ h₂
    cases fuel₂ with
    | zero => cases h₂
    | succ f₂ =>
      cases s with
      | nil => rfl
      | cons c cs =>
        simp only [List.length_cons] at h₁ h₂
        simp only [replaceAllAux]
        cases hm : matchItems r (c :: cs) with
        | none =>
          simp only
          rw [ih f₂ cs (by omega) (by omega)]
        | some res =>
          obtain ⟨caps, rest⟩ := res
          simp only
          split_ifs with hl
          · simp only [List.length_cons] at hl
            rw [ih f₂ rest (by omega) (by omega)]
          · rw [ih f₂ cs (by omega) (by omega)]

theorem replaceAll_cons_none (r : List Item) (tpl : List Piece) (c : Char) (cs : Str)
    (h : matchItems r (c :: cs) = none) :
    replaceAll r tpl (c :: cs) = c :: replaceAll r tpl cs := by
  unfold replaceAll
  rw [List.length_cons, replaceAllAux, h]

theorem replaceAll_cons_some (r : List Item) (tpl : List Piece) (c : Char) (cs : Str)
    (caps : List Str) (rest : Str) (h : matchItems r (c :: cs) = some (caps, rest))
    (hl : rest.length < (c :: cs).length) :
    replaceAll r tpl (c :: cs) = instantiate caps tpl ++ replaceAll r tpl rest := by
  unfold replaceAll
  rw [List.length_cons, replaceAllAux, h]
  simp only [hl, if_true]
  simp only [List.length_cons] at hl
  rw [replaceAllAux_fuel r tpl (cs.length + 1) (rest.length + 1) rest (by omega) (by omega)]

/-- A global replacement leaves a text as it is when every match, at whatever
position of the text, is replaced by the text that it matched. -/
theorem replaceAll_fixed (r : List Item) (tpl : List Piece) (hnil : matchItems r [] = none) :
    ∀ (n : Nat) (t : Str), t.length ≤ n →
      (∀ s caps rest, s <:+ t → matchItems r s = some (caps, rest) →
        rest.length < s.length ∧ instantiate caps tpl ++ rest = s) →
      replaceAll r tpl t = t := by
  intro n
  induction n using Nat.strong_induction_on with
  | _ n ih =>
    intro t hn h
    cases t with
    | nil =>
      unfold replaceAll
      simp [replaceAllAux, hnil]
    | cons c cs =>
      simp only [List.length_cons] at hn
      cases hm : matchItems r (c :: cs) with
      | none =>
        rw [replaceAll_cons_none r tpl c cs hm,
          ih cs.length (by omega) cs (Nat.le_refl _)
            (fun s caps rest hs => h s caps rest (hs.trans (List.suffix_cons c cs)))]
      | some res =>
        obtain ⟨caps, rest⟩ := res
        obtain ⟨hl, heq⟩ := h (c :: cs) caps rest (List.suffix_refl _) hm
        have hsuf : rest <:+ c :: cs := ⟨instantiate caps tpl, heq⟩
        rw [replaceAll_cons_some r tpl c cs caps rest hm hl,
          ih rest.length (by simp only [List.length_cons] at hl; omega) rest (Nat.le_refl _)
            (fun s caps' rest' hs => h s caps' rest' (hs.trans hsuf)),
          heq]
/-! ### The shape of normalized texts -/

theorem SentinelName.text_alnum (name : SentinelName) : name.text.all alnum = true := by
  cases name <;> decide

theorem alnum_normalChar (c : Char) (h : alnum c = true) : normalChar c = true := by
  simp [normalChar, h]

theorem wordChar_normalChar (c : Char) (h : wordChar c = true) : normalChar c = true := by
  simp only [wordChar, Bool.or_eq_true, beq_iff_eq] at h
  rcases h with (h | h) | h
  · exact alnum_normalChar c h
  · subst h; decide
  · subst h; decide

theorem textChar_cases (c : Char) (h : textChar c = true) : wordChar c = true ∨ c = ' ' := by
  simpa [textChar] using h

theorem textChar_normalChar (c : Char) (h : textChar c = true) : normalChar c = true := by
  rcases textChar_cases c h with h | rfl
  · exact wordChar_normalChar c h
  · decide

theorem lowerChar_alnum (c : Char) (h : lowerChar c = true) : alnum c = true := by
  simp only [lowerChar] at h
  simp [alnum, h]

theorem Tok.quoted_wellFormed (w : Str) (h : (Tok.quoted w).wellFormed = true) :
    w.all textChar = true ∧ w.head? ≠ some ' ' ∧ w.getLast? ≠ some ' ' ∧
      ¬ [' ', '$'] <:+: w := by
  simpa [Tok.wellFormed, and_assoc] using h

theorem Tok.word_wellFormed (w : Str) (h : (Tok.word w).wellFormed = true) :
    w ≠ [] ∧ w.all lowerChar = true := by
  simp only [Tok.wellFormed, Bool.and_eq_true, Bool.not_eq_true', List.isEmpty_eq_false] at h
  exact h

theorem numberChar_normalChar (c : Char) (h : numberChar c = true) : normalChar c = true := by
  simp only [numberChar, Bool.or_eq_true, beq_iff_eq] at h
  rcases h with (h | h) | h
  · simp [normalChar, alnum, h]
  · subst h; decide
  · subst h; decide

theorem argChar_normalChar (c : Char) (h : argChar c = true) : normalChar c = true := by
  simp only [argChar, Bool.or_eq_true, beq_iff_eq] at h
  rcases h with ((h | h) | h) | h
  · exact alnum_normalChar c h
  · subst h; decide
  · subst h; decide
  · subst h; decide

theorem Tok.text_normalChar (tok : Tok) (h : tok.wellFormed = true) :
    ∀ c ∈ tok.text, normalChar c = true := by
  intro c hc
  cases tok with
  | quoted w =>
    simp only [Tok.text, List.mem_cons, List.mem_append, List.mem_singleton,
      List.not_mem_nil, or_false, or_assoc] at hc
    rcases hc with rfl | hc | rfl
    · decide
    · exact textChar_normalChar c (List.all_eq_true.1 (Tok.quoted_wellFormed w h).1 c hc)
    · decide
  | word w =>
    exact alnum_normalChar c (lowerChar_alnum c (List.all_eq_true.1 (Tok.word_wellFormed w h).2 c hc))
  | number digits =>
    simp only [Tok.wellFormed, Bool.and_eq_true] at h
    exact numberChar_normalChar c (List.all_eq_true.1 h.2 c hc)
  | sentinel name arg =>
    simp only [Tok.wellFormed, Bool.and_eq_true] at h
    simp only [Tok.text, List.mem_cons, List.mem_append, List.not_mem_nil, or_false,
      or_assoc] at hc
    rcases hc with rfl | rfl | rfl | hc | rfl | hc | rfl | rfl
    · decide
    · decide
    · decide
    · exact alnum_normalChar c (List.all_eq_true.1 (SentinelName.text_alnum name) c hc)
    · decide
    · exact argChar_normalChar c (List.all_eq_true.1 h.2 c hc)
    · decide
    · decide
  | _ =>
    simp only [Tok.text, List.mem_singleton] at hc
    subst hc
    decide

theorem normalForm_cons (tok : Tok) (rest : List Tok) (h : normalForm (tok :: rest) = true) :
    tok.wellFormed = true ∧ normalForm rest = true := by
  simp only [normalForm, Bool.and_eq_true] at h
  exact ⟨h.1.1.1, h.2⟩

theorem normalForm_after_quote (tok : Tok) (w : Str) (rest : List Tok)
    (h : normalForm (tok :: Tok.word w :: rest) = true) : tok.endsWithQuote = false := by
  simp only [normalForm, Bool.and_eq_true, Bool.not_eq_true'] at h
  exact h.1.1.2

theorem render_normalChar :
    ∀ toks : List Tok, normalForm toks = true → ∀ c ∈ render toks, normalChar c = true := by
  intro toks
  induction toks with
  | nil => intro _ c hc; simp [render] at hc
  | cons tok rest ih =>
    intro h c hc
    obtain ⟨h1, h2⟩ := normalForm_cons tok rest h
    simp only [render, List.mem_append] at hc
    rcases hc with hc | hc
    · exact Tok.text_normalChar tok h1 c hc
    · exact ih h2 c hc

theorem normalForm_suffix (toks : List Tok) (h : normalForm toks = true) :
    ∀ l, l <:+ toks → normalForm l = true := by
  induction toks with
  | nil =>
    intro l hl
    rw [List.suffix_nil] at hl
    subst hl
    rfl
  | cons tok rest ih =>
    intro l hl
    rw [List.suffix_cons_iff] at hl
    rcases hl with rfl | hl
    · exact h
    · exact ih (normalForm_cons tok rest h).2 l hl

theorem suffix_append_cases (x y s : Str) (h : s <:+ x ++ y) :
    (∃ z, z <:+ x ∧ s = z ++ y) ∨ s <:+ y := by
  induction x with
  | nil => exact Or.inr h
  | cons c x ih =>
    rw [List.cons_append, List.suffix_cons_iff] at h
    rcases h with rfl | h
    · exact Or.inl ⟨c :: x, List.suffix_refl _, rfl⟩
    · rcases ih h with ⟨z, hz, rfl⟩ | h
      · exact Or.inl ⟨z, hz.trans (List.suffix_cons c x), rfl⟩
      · exact Or.inr h

/-- A suffix of a rendered text starts inside one of the pieces. -/
theorem suffix_render :
    ∀ (toks : List Tok) (s : Str), s <:+ render toks → s ≠ [] →
      ∃ tok rest y, (tok :: rest) <:+ toks ∧ y <:+ tok.text ∧ y ≠ [] ∧ s = y ++ render rest := by
  intro toks
  induction toks with
  | nil =>
    intro s hs hne
    simp only [render, List.suffix_nil] at hs
    exact absurd hs hne
  | cons tok rest ih =>
    intro s hs hne
    simp only [render] at hs
    rcases suffix_append_cases _ _ _ hs with ⟨y, hy, rfl⟩ | hs
    · by_cases hyn : y = []
      · subst hyn
        obtain ⟨tok', rest', y', h1, h2, h3, h4⟩ := ih (render rest) (List.suffix_refl _)
          (by simpa using hne)
        exact ⟨tok', rest', y', h1.trans (List.suffix_cons tok rest), h2, h3, by simpa using h4⟩
      · exact ⟨tok, rest, y, List.suffix_refl _, hy, hyn, rfl⟩
    · obtain ⟨tok', rest', y', h1, h2, h3, h4⟩ := ih s hs hne
      exact ⟨tok', rest', y', h1.trans (List.suffix_cons tok rest), h2, h3, h4⟩

theorem replaceAll_of_no_match (r : List Item) (tpl : List Piece) (t : Str)
    (h : ∀ s, s <:+ t → matchItems r s = none) : replaceAll r tpl t = t :=
  replaceAll_fixed r tpl (h [] List.nil_suffix) t.length t (Nat.le_refl _)
    (fun s caps rest hs hm => by rw [h s hs] at hm; cases hm)

/-- A pattern with a single-character class that no character of normalized texts
is in matches nowhere in a normalized text. -/
theorem replaceAll_missing_class (r : List Item) (tpl : List Piece) (pre : List Item)
    (it : Item) (post : List Item) (hr : r = pre ++ it :: post) (hq : it.quant = Quant.one)
    (hcls : ∀ c, it.cls c = true → normalChar c = false)
    (toks : List Tok) (h : normalForm toks = true) :
    replaceAll r tpl (render toks) = render toks := by
  apply replaceAll_of_no_match
  intro s hs
  cases hm : matchItems r s with
  | none => rfl
  | some res =>
    rw [hr] at hm
    obtain ⟨c, hc, hcc⟩ := matchItems_needs_class it post hq pre s res hm
    have h1 := render_normalChar toks h c (hs.subset hc)
    rw [hcls c hcc] at h1
    cases h1

theorem pair_of_prefix (a b : Char) (x y : Str) (h : [a, b] <+: x ++ y) :
    [a, b] <+: x ∨ (x = [a] ∧ y.head? = some b) ∨ (x = [] ∧ [a, b] <+: y) := by
  cases x with
  | nil => exact Or.inr (Or.inr ⟨rfl, h⟩)
  | cons c x =>
    cases x with
    | nil =>
      cases y with
      | nil =>
        obtain ⟨t, ht⟩ := h
        simp at ht
      | cons d y =>
        obtain ⟨t, ht⟩ := h
        simp only [List.cons_append, List.nil_append, List.cons.injEq] at ht
        obtain ⟨h1, h2, _⟩ := ht
        subst h1 h2
        exact Or.inr (Or.inl ⟨rfl, rfl⟩)
    | cons d x =>
      obtain ⟨t, ht⟩ := h
      simp only [List.cons_append, List.nil_append, List.cons.injEq] at ht
      obtain ⟨h1, h2, _⟩ := ht
      subst h1 h2
      exact Or.inl ⟨x, rfl⟩

theorem pair_of_append (a b : Char) (x y : Str) (h : [a, b] <:+: x ++ y) :
    [a, b] <:+: x ∨ [a, b] <:+: y ∨ (x.getLast? = some a ∧ y.head? = some b) := by
  induction x with
  | nil => exact Or.inr (Or.inl h)
  | cons c x ih =>
    rw [List.cons_append, List.infix_cons_iff] at h
    rcases h with h | h
    · rw [← List.cons_append] at h
      rcases pair_of_prefix a b (c :: x) y h with h1 | ⟨h1, h2⟩ | ⟨h1, _⟩
      · exact Or.inl h1.isInfix
      · rw [h1]
        exact Or.inr (Or.inr ⟨rfl, h2⟩)
      · cases h1
    · rcases ih h with h1 | h1 | ⟨h1, h2⟩
      · exact Or.inl (h1.trans (List.suffix_cons c x).isInfix)
      · exact Or.inr (Or.inl h1)
      · refine Or.inr (Or.inr ⟨?_, h2⟩)
        cases x with
        | nil => cases h1
        | cons d x => simpa using h1

theorem pair_mem (a b : Char) (s : Str) (h : [a, b] <:+: s) : a ∈ s ∧ b ∈ s := by
  obtain ⟨u, v, rfl⟩ := h
  simp

theorem Tok.text_ne_nil (tok : Tok) (h : tok.wellFormed = true) : tok.text ≠ [] := by
  cases tok with
  | word w => exact (Tok.word_wellFormed w h).1
  | number digits =>
    simp only [Tok.wellFormed, Bool.and_eq_true, Bool.not_eq_true', List.isEmpty_eq_false] at h
    exact h.1
  | _ => simp [Tok.text]

theorem head?_render (tok : Tok) (rest : List Tok) (h : tok.wellFormed = true) :
    (render (tok :: rest)).head? = tok.text.head? := by
  have := Tok.text_ne_nil tok h
  cases ht : tok.text with
  | nil => exact absurd ht this
  | cons c cs => simp [render, ht]

theorem render_pair_free (a b : Char)
    (hinside : ∀ tok : Tok, tok.wellFormed = true → ¬ [a, b] <:+: tok.text)
    (hbound : (∀ tok : Tok, tok.wellFormed = true → tok.text.getLast? ≠ some a) ∨
      (∀ tok : Tok, tok.wellFormed = true → tok.text.head? ≠ some b)) :
    ∀ toks : List Tok, normalForm toks = true → ¬ [a, b] <:+: render toks := by
  intro toks
  induction toks with
  | nil =>
    intro _ h
    obtain ⟨u, v, huv⟩ := h
    simp [render] at huv
  | cons tok rest ih =>
    intro h hin
    obtain ⟨h1, h2⟩ := normalForm_cons tok rest h
    rcases pair_of_append a b _ _ hin with hp | hp | ⟨hl, hh⟩
    · exact hinside tok h1 hp
    · exact ih h2 hp
    · rcases hbound with hb | hb
      · exact hb tok h1 hl
      · cases rest with
        | nil => simp [render] at hh
        | cons tok' rest' =>
          rw [head?_render tok' rest' (normalForm_cons tok' rest' h2).1] at hh
          exact hb tok' (normalForm_cons tok' rest' h2).1 hh

theorem alnum_not_paren (c : Char) (h : alnum c = true) :
    c ≠ '(' ∧ c ≠ ')' ∧ c ≠ '"' ∧ c ≠ ' ' ∧ c ≠ ':' ∧ c ≠ '\x7b' ∧ c ≠ ',' ∧ c ≠ '#' := by
  refine ⟨?_, ?_, ?_, ?_, ?_, ?_, ?_, ?_⟩ <;> intro e <;> subst e <;> simp [alnum, inRange] at h

theorem wordChar_not_paren (c : Char) (h : wordChar c = true) :
    c ≠ '(' ∧ c ≠ ')' ∧ c ≠ '"' ∧ c ≠ ' ' ∧ c ≠ ':' ∧ c ≠ '\x7b' ∧ c ≠ ',' ∧ c ≠ '#' := by
  refine ⟨?_, ?_, ?_, ?_, ?_, ?_, ?_, ?_⟩ <;> intro e <;> subst e <;>
    simp [wordChar, alnum, inRange] at h

theorem textChar_not_paren (c : Char) (h : textChar c = true) :
    c ≠ '(' ∧ c ≠ ')' ∧ c ≠ '"' ∧ c ≠ ':' ∧ c ≠ '\x7b' ∧ c ≠ ',' ∧ c ≠ '#' := by
  refine ⟨?_, ?_, ?_, ?_, ?_, ?_, ?_⟩ <;> intro e <;> subst e <;>
    simp [textChar, wordChar, alnum, inRange] at h

theorem lowerChar_not_paren (c : Char) (h : lowerChar c = true) :
    c ≠ '(' ∧ c ≠ ')' ∧ c ≠ '"' ∧ c ≠ ' ' ∧ c ≠ ':' ∧ c ≠ '\x7b' ∧ c ≠ ',' ∧ c ≠ '#' :=
  alnum_not_paren c (lowerChar_alnum c h)

theorem argChar_not_paren (c : Char) (h : argChar c = true) :
    c ≠ '(' ∧ c ≠ ')' ∧ c ≠ '"' ∧ c ≠ ' ' ∧ c ≠ '\x7b' ∧ c ≠ ',' ∧ c ≠ '#' := by
  refine ⟨?_, ?_, ?_, ?_, ?_, ?_, ?_⟩ <;> intro e <;> subst e <;>
    simp [argChar, alnum, inRange] at h

theorem numberChar_not_paren (c : Char) (h : numberChar c = true) :
    c ≠ '(' ∧ c ≠ ')' ∧ c ≠ '"' ∧ c ≠ ' ' ∧ c ≠ ':' ∧ c ≠ '\x7b' ∧ c ≠ ',' ∧ c ≠ '#' := by
  refine ⟨?_, ?_, ?_, ?_, ?_, ?_, ?_, ?_⟩ <;> intro e <;> subst e <;>
    simp [numberChar, inRange] at h

/-- Outside a sentinel no piece holds a parenthesis. -/
theorem Tok.paren_not_mem (tok : Tok) (h : tok.wellFormed = true)
    (hs : ∀ name arg, tok ≠ Tok.sentinel name arg) : '(' ∉ tok.text ∧ ')' ∉ tok.text := by
  cases tok with
  | quoted w =>
    constructor <;> intro hm <;>
      simp only [Tok.text, List.mem_cons, List.mem_append, List.mem_singleton,
        List.not_mem_nil, or_false, or_assoc] at hm
    · rcases hm with hm | hm | hm
      · cases hm
      · exact (textChar_not_paren _
          (List.all_eq_true.1 (Tok.quoted_wellFormed w h).1 _ hm)).1 rfl
      · cases hm
    · rcases hm with hm | hm | hm
      · cases hm
      · exact (textChar_not_paren _
          (List.all_eq_true.1 (Tok.quoted_wellFormed w h).1 _ hm)).2.1 rfl
      · cases hm
  | word w =>
    have hw := (Tok.word_wellFormed w h).2
    constructor <;> intro hm
    · exact (lowerChar_not_paren _ (List.all_eq_true.1 hw _ hm)).1 rfl
    · exact (lowerChar_not_paren _ (List.all_eq_true.1 hw _ hm)).2.1 rfl
  | number digits =>
    simp only [Tok.wellFormed, Bool.and_eq_true] at h
    constructor <;> intro hm
    · exact (numberChar_not_paren _ (List.all_eq_true.1 h.2 _ hm)).1 rfl
    · exact (numberChar_not_paren _ (List.all_eq_true.1 h.2 _ hm)).2.1 rfl
  | sentinel name arg => exact absurd rfl (hs name arg)
  | _ => constructor <;> simp [Tok.text]

theorem sentinel_pair_free (a b : Char) (name : SentinelName) (arg : Str)
    (harg : arg ≠ []) (hall : arg.all argChar = true)
    (hhead : ¬ [a, b] <:+: '"' :: '#' :: '#' :: name.text ++ ['('])
    (h1 : ¬ (a = '(' ∧ argChar b = true)) (h2 : ¬ (argChar a = true ∧ argChar b = true))
    (h3 : ¬ (argChar a = true ∧ b = ')')) (h4 : ¬ (a = ')' ∧ b = '"')) :
    ¬ [a, b] <:+: (Tok.sentinel name arg).text := by
  intro hin
  have ht : (Tok.sentinel name arg).text
      = ('"' :: '#' :: '#' :: name.text ++ ['(']) ++ (arg ++ [')', '"']) := by
    simp [Tok.text]
  rw [ht] at hin
  have hargin : ∀ x y : Char, [x, y] <:+: arg → argChar x = true ∧ argChar y = true := by
    intro x y hxy
    obtain ⟨hx, hy⟩ := pair_mem x y arg hxy
    exact ⟨List.all_eq_true.1 hall x hx, List.all_eq_true.1 hall y hy⟩
  rcases pair_of_append a b _ _ hin with hp | hp | ⟨hl, hh⟩
  · exact hhead hp
  · rcases pair_of_append a b _ _ hp with hq | hq | ⟨hl, hh⟩
    · exact h2 (hargin a b hq)
    · obtain ⟨u, v, huv⟩ := hq
      cases u with
      | nil =>
        simp only [List.nil_append, List.cons_append, List.cons.injEq] at huv
        exact h4 ⟨huv.1, huv.2.1⟩
      | cons c u =>
        cases u with
        | nil => simp at huv
        | cons d u => simp at huv
    · simp only [List.head?_cons, Option.some.injEq] at hh
      have ha : a ∈ arg := List.mem_of_getLast?_eq_some hl
      exact h3 ⟨List.all_eq_true.1 hall a ha, hh.symm⟩
  · have hl' : a = '(' := by
      rw [List.getLast?_append] at hl
      simpa using hl.symm
    cases arg with
    | nil => exact absurd rfl harg
    | cons c cs =>
      simp only [List.cons_append, List.head?_cons, Option.some.injEq] at hh
      subst hh
      simp only [List.all_cons, Bool.and_eq_true] at hall
      exact h1 ⟨hl', hall.1⟩

theorem replaceAll_missing_pair (r : List Item) (tpl : List Piece) (pre : List Item)
    (a b : Char) (post : List Item) (hr : r = pre ++ ch a :: ch b :: post)
    (t : Str) (h : ¬ [a, b] <:+: t) : replaceAll r tpl t = t := by
  apply replaceAll_of_no_match
  intro s hs
  cases hm : matchItems r s with
  | none => rfl
  | some res =>
    rw [hr] at hm
    exact absurd ((matchItems_needs_pair a b post pre s res hm).trans hs.isInfix) h

theorem getLast?_append_singleton (l : Str) (x : Char) : (l ++ [x]).getLast? = some x := by
  rw [List.getLast?_eq_some_iff]
  exact ⟨l, rfl⟩

theorem Tok.getLast?_text (tok : Tok) (h : tok.wellFormed = true) :
    tok.text.getLast? ≠ some '(' := by
  cases tok with
  | quoted w =>
    have : (Tok.quoted w).text = ('"' :: w) ++ ['"'] := rfl
    rw [this, getLast?_append_singleton]
    decide
  | word w =>
    intro hl
    exact (lowerChar_not_paren _
      (List.all_eq_true.1 (Tok.word_wellFormed w h).2 _ (List.mem_of_getLast?_eq_some hl))).1 rfl
  | number digits =>
    simp only [Tok.wellFormed, Bool.and_eq_true] at h
    intro hl
    exact (numberChar_not_paren _
      (List.all_eq_true.1 h.2 _ (List.mem_of_getLast?_eq_some hl))).1 rfl
  | sentinel name arg =>
    have : (Tok.sentinel name arg).text
        = ('"' :: '#' :: '#' :: name.text ++ '(' :: arg ++ [')']) ++ ['"'] := by
      simp [Tok.text]
    rw [this, getLast?_append_singleton]
    decide
  | _ => simp [Tok.text]

theorem Tok.head?_text (tok : Tok) (h : tok.wellFormed = true) :
    tok.text.head? ≠ some '(' ∧ tok.text.head? ≠ some ')' := by
  cases tok with
  | word w =>
    have hw := (Tok.word_wellFormed w h).2
    cases w with
    | nil => simp [Tok.text]
    | cons c cs =>
      simp only [List.all_cons, Bool.and_eq_true] at hw
      have := lowerChar_not_paren c hw.1
      simp only [Tok.text, List.head?_cons, ne_eq, Option.some.injEq]
      exact ⟨this.1, this.2.1⟩
  | number digits =>
    simp only [Tok.wellFormed, Bool.and_eq_true] at h
    cases digits with
    | nil => simp [Tok.text]
    | cons c cs =>
      simp only [List.all_cons, Bool.and_eq_true] at h
      have := numberChar_not_paren c h.2.1
      simp only [Tok.text, List.head?_cons, ne_eq, Option.some.injEq]
      exact ⟨this.1, this.2.1⟩
  | _ => simp [Tok.text]

theorem render_no_paren_quote (toks : List Tok) (h : normalForm toks = true) :
    ¬ ['(', '"'] <:+: render toks := by
  apply render_pair_free '(' '"' _ (Or.inl Tok.getLast?_text) toks h
  intro tok hw
  by_cases hs : ∃ name arg, tok = Tok.sentinel name arg
  · obtain ⟨name, arg, rfl⟩ := hs
    simp only [Tok.wellFormed, Bool.and_eq_true, Bool.not_eq_true', List.isEmpty_eq_false] at hw
    exact sentinel_pair_free _ _ name arg hw.1 hw.2 (by cases name <;> decide)
      (by decide) (by decide) (by decide) (by decide)
  · intro hin
    exact (Tok.paren_not_mem tok hw (fun name arg e => hs ⟨name, arg, e⟩)).1
      (pair_mem _ _ _ hin).1

theorem render_no_quote_paren (toks : List Tok) (h : normalForm toks = true) :
    ¬ ['"', ')'] <:+: render toks := by
  apply render_pair_free '"' ')' _ (Or.inr (fun tok hw => (Tok.head?_text tok hw).2)) toks h
  intro tok hw
  by_cases hs : ∃ name arg, tok = Tok.sentinel name arg
  · obtain ⟨name, arg, rfl⟩ := hs
    simp only [Tok.wellFormed, Bool.and_eq_true, Bool.not_eq_true', List.isEmpty_eq_false] at hw
    exact sentinel_pair_free _ _ name arg hw.1 hw.2 (by cases name <;> decide)
      (by decide) (by decide) (by decide) (by decide)
  · intro hin
    exact (Tok.paren_not_mem tok hw (fun name arg e => hs ⟨name, arg, e⟩)).2
      (pair_mem _ _ _ hin).2

theorem render_no_p_paren (toks : List Tok) (h : normalForm toks = true) :
    ¬ ['p', '('] <:+: render toks := by
  apply render_pair_free 'p' '(' _ (Or.inr (fun tok hw => (Tok.head?_text tok hw).1)) toks h
  intro tok hw
  by_cases hs : ∃ name arg, tok = Tok.sentinel name arg
  · obtain ⟨name, arg, rfl⟩ := hs
    simp only [Tok.wellFormed, Bool.and_eq_true, Bool.not_eq_true', List.isEmpty_eq_false] at hw
    exact sentinel_pair_free _ _ name arg hw.1 hw.2 (by cases name <;> decide)
      (by decide) (by decide) (by decide) (by decide)
  · intro hin
    exact (Tok.paren_not_mem tok hw (fun name arg e => hs ⟨name, arg, e⟩)).1
      (pair_mem _ _ _ hin).2

open Quant Piece in
/-- The replacements of `formatingData` that need a character or a pair of characters
that normalized texts do not hold leave a normalized text as it is. -/
theorem rules_without_match (toks : List Tok) (h : normalForm toks = true) :
    replaceAll [⟨fun c => c == '\r' || c == '\n', one, false⟩] [] (render toks) = render toks ∧
    replaceAll [ch '\t'] [] (render toks) = render toks ∧
    replaceAll ([grp bracketCommaColon plus, grp isSpace star] ++ lit "ISODate(\"")
      [group 1, group 2, text "\"##ISODate(".toList] (render toks) = render toks ∧
    replaceAll ([grp bracketCommaColon plus, grp isSpace star] ++ lit "\"##ISODate(" ++
        [grp isoChar plus] ++ lit "\")")
      [group 1, group 2, text "\"##ISODate(".toList, group 3, text ")\"".toList] (render toks)
      = render toks ∧
    replaceAll ([grp bracketCommaColon plus, grp isSpace star] ++ lit "ISODate('")
      [group 1, group 2, text "\"##ISODate(".toList] (render toks) = render toks ∧
    replaceAll ([grp bracketCommaColon plus, grp isSpace star] ++ lit "\"##ISODate(" ++
        [grp isoChar plus] ++ lit "')")
      [group 1, group 2, text "\"##ISODate(".toList, group 3, text ")\"".toList] (render toks)
      = render toks ∧
    replaceAll (lit "ObjectId(\"" ++ [grp idChar plus] ++ lit "\")")
      [text "\"##ObjectId(".toList, group 1, text ")\"".toList] (render toks) = render toks ∧
    replaceAll (lit "LUUID(\"" ++ [grp idChar plus] ++ lit "\")")
      [text "\"##LUUID(".toList, group 1, text ")\"".toList] (render toks) = render toks ∧
    replaceAll (lit "UUID(\"" ++ [grp idChar plus] ++ lit "\")")
      [text "\"##UUID(".toList, group 1, text ")\"".toList] (render toks) = render toks ∧
    replaceAll (lit "Timestamp(" ++ [grp timestampChar star] ++ lit ")")
      [text "\"##Timestamp(".toList, group 1, text ")\"".toList] (render toks) = render toks ∧
    replaceAll (lit ":" ++ [grp isSpace star] ++ lit "/" ++ [grp regexChar star] ++
        lit "\":" ++ [grp regexChar star] ++ lit "/")
      [text ":".toList, group 1, text "/".toList, group 2, text ":".toList, group 3,
        text "/".toList] (render toks) = render toks ∧
    replaceAll (lit ":" ++ [grp isSpace star] ++ lit "/" ++ [grp regexCharColon plus] ++
        lit "/" ++ [grp lowerChar star])
      [text ":".toList, group 1, text "\"##/".toList, group 2, text "/".toList, group 3,
        text "\"".toList] (render toks) = render toks ∧
    replaceAll (lit "'") [text "\"".toList] (render toks) = render toks := by
  have hc : ∀ x : Char, normalChar x = false → ∀ c, (ch x).cls c = true → normalChar c = false := by
    intro x hx c hcx
    simp only [ch, beq_iff_eq] at hcx
    rw [hcx]
    exact hx
  refine ⟨?_, ?_, ?_, ?_, ?_, ?_, ?_, ?_, ?_, ?_, ?_, ?_, ?_⟩
  · refine replaceAll_missing_class _ _ [] _ [] rfl rfl ?_ toks h
    intro c hcx
    simp only [Bool.or_eq_true, beq_iff_eq] at hcx
    rcases hcx with rfl | rfl <;> decide
  · exact replaceAll_missing_class _ _ [] (ch '\t') [] rfl rfl (hc _ (by decide)) toks h
  · exact replaceAll_missing_pair _ _
      ([grp bracketCommaColon plus, grp isSpace star] ++ lit "ISODate") '(' '"' [] rfl _
      (render_no_paren_quote toks h)
  · exact replaceAll_missing_pair _ _
      ([grp bracketCommaColon plus, grp isSpace star] ++ lit "\"##ISODate(" ++
        [grp isoChar plus]) '"' ')' [] rfl _ (render_no_quote_paren toks h)
  · exact replaceAll_missing_class _ _
      ([grp bracketCommaColon plus, grp isSpace star] ++ lit "ISODate(") (ch '\'') [] rfl rfl
      (hc _ (by decide)) toks h
  · exact replaceAll_missing_class _ _
      ([grp bracketCommaColon plus, grp isSpace star] ++ lit "\"##ISODate(" ++
        [grp isoChar plus]) (ch '\'') [ch ')'] rfl rfl (hc _ (by decide)) toks h
  · exact replaceAll_missing_pair _ _ (lit "ObjectId") '(' '"'
      ([grp idChar plus] ++ lit "\")") rfl _ (render_no_paren_quote toks h)
  · exact replaceAll_missing_pair _ _ (lit "LUUID") '(' '"'
      ([grp idChar plus] ++ lit "\")") rfl _ (render_no_paren_quote toks h)
  · exact replaceAll_missing_pair _ _ (lit "UUID") '(' '"'
      ([grp idChar plus] ++ lit "\")") rfl _ (render_no_paren_quote toks h)
  · exact replaceAll_missing_pair _ _ (lit "Timestam") 'p' '('
      ([grp timestampChar star] ++ lit ")") rfl _ (render_no_p_paren toks h)
  · exact replaceAll_missing_class _ _ (lit ":" ++ [grp isSpace star]) (ch '/')
      ([grp regexChar star] ++ lit "\":" ++ [grp regexChar star] ++ lit "/") rfl rfl
      (hc _ (by decide)) toks h
  · exact replaceAll_missing_class _ _ (lit ":" ++ [grp isSpace star]) (ch '/')
      ([grp regexCharColon plus] ++ lit "/" ++ [grp lowerChar star]) rfl rfl
      (hc _ (by decide)) toks h
  · exact replaceAll_missing_class _ _ [] (ch '\'') [] rfl rfl (hc _ (by decide)) toks h

/-! ### The key rules on normalized texts -/

theorem numberChar_keyChar (c : Char) (h : numberChar c = true) : keyChar c = true := by
  simp only [numberChar, Bool.or_eq_true, beq_iff_eq] at h
  rcases h with (h | h) | h
  · simp [keyChar, keyCharNoSpace, h]
  · subst h; decide
  · subst h; decide

theorem lowerChar_keyChar (c : Char) (h : lowerChar c = true) : keyChar c = true := by
  simp only [lowerChar] at h
  simp [keyChar, keyCharNoSpace, h]

/-- The pieces whose text starts with an opening brace, a comma, whitespace or a
character of keys: they hold such characters only. -/
theorem Tok.of_key_head (tok : Tok) (h : tok.wellFormed = true) (c : Char)
    (hc : tok.text.head? = some c)
    (hk : braceOrComma c = true ∨ isSpace c = true ∨ keyChar c = true) :
    (tok = Tok.lbrace ∨ tok = Tok.comma ∨ tok = Tok.space ∨ (∃ d, tok = Tok.number d) ∨
        ∃ w, tok = Tok.word w) ∧
      (∀ x ∈ tok.text, (braceOrComma x = true ∨ isSpace x = true ∨ keyChar x = true) ∧
        x ≠ ':' ∧ x ≠ '"') := by
  cases tok with
  | lbrace =>
    refine ⟨Or.inl rfl, ?_⟩
    intro x hx
    simp only [Tok.text, List.mem_singleton] at hx
    subst hx
    decide
  | comma =>
    refine ⟨Or.inr (Or.inl rfl), ?_⟩
    intro x hx
    simp only [Tok.text, List.mem_singleton] at hx
    subst hx
    decide
  | space =>
    refine ⟨Or.inr (Or.inr (Or.inl rfl)), ?_⟩
    intro x hx
    simp only [Tok.text, List.mem_singleton] at hx
    subst hx
    decide
  | number d =>
    refine ⟨Or.inr (Or.inr (Or.inr (Or.inl ⟨d, rfl⟩))), ?_⟩
    intro x hx
    simp only [Tok.wellFormed, Bool.and_eq_true] at h
    have hn := List.all_eq_true.1 h.2 x hx
    have := numberChar_not_paren x hn
    exact ⟨Or.inr (Or.inr (numberChar_keyChar x hn)), this.2.2.2.2.1, this.2.2.1⟩
  | word w =>
    refine ⟨Or.inr (Or.inr (Or.inr (Or.inr ⟨w, rfl⟩))), ?_⟩
    intro x hx
    have hn := List.all_eq_true.1 (Tok.word_wellFormed w h).2 x hx
    have := lowerChar_not_paren x hn
    exact ⟨Or.inr (Or.inr (lowerChar_keyChar x hn)), this.2.2.2.2.1, this.2.2.1⟩
  | rbrace =>
    simp only [Tok.text, List.head?_cons, Option.some.injEq] at hc
    subst hc
    exact absurd hk (by decide)
  | lbracket =>
    simp only [Tok.text, List.head?_cons, Option.some.injEq] at hc
    subst hc
    exact absurd hk (by decide)
  | rbracket =>
    simp only [Tok.text, List.head?_cons, Option.some.injEq] at hc
    subst hc
    exact absurd hk (by decide)
  | colon =>
    simp only [Tok.text, List.head?_cons, Option.some.injEq] at hc
    subst hc
    exact absurd hk (by decide)
  | quoted w =>
    simp only [Tok.text, List.cons_append, List.head?_cons, Option.some.injEq] at hc
    subst hc
    exact absurd hk (by decide)
  | sentinel name arg =>
    simp only [Tok.text, List.cons_append, List.head?_cons, Option.some.injEq] at hc
    subst hc
    exact absurd hk (by decide)

theorem append_eq_of_not_mem (x : Char) (t r p r' : Str) (ht : x ∉ t)
    (h : t ++ r = p ++ x :: r') : ∃ q, p = t ++ q ∧ r = q ++ x :: r' := by
  rw [List.append_eq_append_iff] at h
  rcases h with ⟨a, h1, h2⟩ | ⟨c, h1, h2⟩
  · exact ⟨a, h1, h2⟩
  · cases c with
    | nil =>
      refine ⟨[], ?_, ?_⟩
      · simpa using h1.symm
      · simpa using h2.symm
    | cons d c =>
      simp only [List.cons_append, List.cons.injEq] at h2
      rw [h1, ← h2.1] at ht
      simp at ht

theorem head_colon_of_render (rest : List Tok) (h : normalForm rest = true) (r : Str)
    (hr : render rest = ':' :: r) : ∃ rest', rest = Tok.colon :: rest' := by
  cases rest with
  | nil => simp [render] at hr
  | cons tok rest' =>
    have hw := (normalForm_cons tok rest' h).1
    have hh := head?_render tok rest' hw
    rw [hr] at hh
    simp only [List.head?_cons] at hh
    cases tok with
    | colon => exact ⟨rest', rfl⟩
    | word w =>
      have hm : ':' ∈ w := List.mem_of_mem_head? hh.symm
      exact absurd rfl (lowerChar_not_paren _
        (List.all_eq_true.1 (Tok.word_wellFormed w hw).2 _ hm)).2.2.2.2.1
    | number d =>
      simp only [Tok.wellFormed, Bool.and_eq_true] at hw
      have hm : ':' ∈ d := List.mem_of_mem_head? hh.symm
      exact absurd rfl (numberChar_not_paren _ (List.all_eq_true.1 hw.2 _ hm)).2.2.2.2.1
    | _ => simp [Tok.text] at hh

/-- In a normalized text no colon stands behind a run of opening braces, commas,
whitespace and characters of keys. -/
theorem render_key_run :
    ∀ toks : List Tok, normalForm toks = true → ∀ p r : Str,
      render toks = p ++ ':' :: r →
      (∀ c ∈ p, braceOrComma c = true ∨ isSpace c = true ∨ keyChar c = true) → p = [] := by
  intro toks
  induction toks with
  | nil =>
    intro _ p r h
    simp [render] at h
  | cons tok rest ih =>
    intro h p r heq hp
    obtain ⟨hw, hrest⟩ := normalForm_cons tok rest h
    cases p with
    | nil => rfl
    | cons c p =>
      exfalso
      have hne := Tok.text_ne_nil tok hw
      simp only [render] at heq
      have hhead : tok.text.head? = some c := by
        cases ht : tok.text with
        | nil => exact absurd ht hne
        | cons d ds =>
          rw [ht] at heq
          simp only [List.cons_append, List.cons.injEq] at heq
          simp [heq.1]
      obtain ⟨hkind, hall⟩ := Tok.of_key_head tok hw c hhead (hp c (List.mem_cons_self _ _))
      obtain ⟨q, hq1, hq2⟩ := append_eq_of_not_mem ':' tok.text (render rest) (c :: p) r
        (fun hm => (hall _ hm).2.1 rfl) heq
      have hq : q = [] := ih hrest q r hq2 (fun x hx => hp x (by rw [hq1]; simp [hx]))
      subst hq
      obtain ⟨rest', rfl⟩ := head_colon_of_render rest hrest r hq2
      simp only [normalForm, Bool.and_eq_true] at h
      have hq := h.1.1.2
      rcases hkind with rfl | rfl | rfl | ⟨d, rfl⟩ | ⟨w, rfl⟩ <;>
        simp [Tok.endsWithQuote] at hq

/-- In a normalized text no quote with a colon behind it stands behind a run of
opening braces, commas, whitespace and characters of keys. -/
theorem render_quoted_key_run :
    ∀ toks : List Tok, normalForm toks = true → ∀ p r : Str,
      render toks = p ++ '"' :: ':' :: r →
      (∀ c ∈ p, braceOrComma c = true ∨ isSpace c = true ∨ keyChar c = true) → False := by
  intro toks
  induction toks with
  | nil =>
    intro _ p r h
    simp [render] at h
  | cons tok rest ih =>
    intro h p r heq hp
    obtain ⟨hw, hrest⟩ := normalForm_cons tok rest h
    simp only [render] at heq
    cases p with
    | nil =>
      cases tok with
      | quoted w =>
        cases w with
        | nil => simp [Tok.text] at heq
        | cons x w =>
          simp only [Tok.text, List.cons_append, List.nil_append, List.cons.injEq,
            true_and] at heq
          have hx := List.all_eq_true.1 (Tok.quoted_wellFormed _ hw).1 x
            (List.mem_cons_self _ _)
          exact (textChar_not_paren x hx).2.2.2.1 heq.1
      | sentinel name arg => simp [Tok.text] at heq
      | word w =>
        obtain ⟨hne, hall⟩ := Tok.word_wellFormed w hw
        cases w with
        | nil => exact hne rfl
        | cons x w =>
          simp only [Tok.text, List.cons_append, List.nil_append, List.cons.injEq] at heq
          simp only [List.all_cons, Bool.and_eq_true] at hall
          exact (lowerChar_not_paren x hall.1).2.2.1 heq.1
      | number d =>
        simp only [Tok.wellFormed, Bool.and_eq_true, Bool.not_eq_true',
          List.isEmpty_eq_false] at hw
        cases d with
        | nil => exact hw.1 rfl
        | cons x d =>
          simp only [Tok.text, List.cons_append, List.nil_append, List.cons.injEq] at heq
          simp only [List.all_cons, Bool.and_eq_true] at hw
          exact (numberChar_not_paren x hw.2.1).2.2.1 heq.1
      | _ => simp [Tok.text] at heq
    | cons c p =>
      have hne := Tok.text_ne_nil tok hw
      have hhead : tok.text.head? = some c := by
        cases ht : tok.text with
        | nil => exact absurd ht hne
        | cons d ds =>
          rw [ht] at heq
          simp only [List.cons_append, List.cons.injEq] at heq
          simp [heq.1]
      obtain ⟨_, hall⟩ := Tok.of_key_head tok hw c hhead (hp c (List.mem_cons_self _ _))
      obtain ⟨q, hq1, hq2⟩ := append_eq_of_not_mem '"' tok.text (render rest) (c :: p)
        (':' :: r) (fun hm => (hall _ hm).2.2 rfl) heq
      exact ih hrest q r hq2 (fun x hx => hp x (by rw [hq1]; simp [hx]))

/-- A suffix of a normalized text that starts with an opening brace or a comma
starts at a piece. -/
theorem suffix_at_brace (toks : List Tok) (h : normalForm toks = true) (s : Str)
    (hs : s <:+ render toks) (c : Char) (hc : s.head? = some c)
    (hb : braceOrComma c = true) :
    ∃ l, normalForm l = true ∧ s = render l := by
  have hne : s ≠ [] := by
    intro e
    rw [e] at hc
    cases hc
  obtain ⟨tok, rest, y, hsuf, hy, hyne, rfl⟩ := suffix_render toks s hs hne
  have hl := normalForm_suffix toks h _ hsuf
  have hw := (normalForm_cons tok rest hl).1
  refine ⟨tok :: rest, hl, ?_⟩
  have hcy : y.head? = some c := by
    cases y with
    | nil => exact absurd rfl hyne
    | cons d y => simpa using hc
  have hmem : c ∈ tok.text := hy.subset (List.mem_of_mem_head? hcy)
  have hcc : c = '\x7b' ∨ c = ',' := by
    simpa [braceOrComma] using hb
  have hy1 : ∀ x : Char, y <:+ [x] → y = [x] := by
    intro x hx
    rw [List.suffix_cons_iff] at hx
    rcases hx with hx | hx
    · exact hx
    · rw [List.suffix_nil] at hx
      exact absurd hx hyne
  cases tok with
  | lbrace => rw [hy1 _ hy]; rfl
  | comma => rw [hy1 _ hy]; rfl
  | quoted w =>
    exfalso
    simp only [Tok.text, List.mem_cons, List.mem_append, List.mem_singleton,
      List.not_mem_nil, or_false, or_assoc] at hmem
    rcases hmem with hm | hm | hm
    · rcases hcc with e | e <;> rw [e] at hm <;> cases hm
    · have := textChar_not_paren c (List.all_eq_true.1 (Tok.quoted_wellFormed w hw).1 c hm)
      rcases hcc with e | e
      · exact this.2.2.2.2.1 e
      · exact this.2.2.2.2.2.1 e
    · rcases hcc with e | e <;> rw [e] at hm <;> cases hm
  | word w =>
    exfalso
    have := lowerChar_not_paren c (List.all_eq_true.1 (Tok.word_wellFormed w hw).2 c hmem)
    rcases hcc with e | e
    · exact this.2.2.2.2.2.1 e
    · exact this.2.2.2.2.2.2.1 e
  | number d =>
    exfalso
    simp only [Tok.wellFormed, Bool.and_eq_true] at hw
    have := numberChar_not_paren c (List.all_eq_true.1 hw.2 c hmem)
    rcases hcc with e | e
    · exact this.2.2.2.2.2.1 e
    · exact this.2.2.2.2.2.2.1 e
  | sentinel name arg =>
    exfalso
    simp only [Tok.wellFormed, Bool.and_eq_true] at hw
    simp only [Tok.text, List.mem_cons, List.mem_append, List.not_mem_nil, or_false,
      or_assoc] at hmem
    rcases hmem with hm | hm | hm | hm | hm | hm | hm | hm
    · rcases hcc with e | e <;> rw [e] at hm <;> cases hm
    · rcases hcc with e | e <;> rw [e] at hm <;> cases hm
    · rcases hcc with e | e <;> rw [e] at hm <;> cases hm
    · have := alnum_not_paren c (List.all_eq_true.1 (SentinelName.text_alnum name) c hm)
      rcases hcc with e | e
      · exact this.2.2.2.2.2.1 e
      · exact this.2.2.2.2.2.2.1 e
    · rcases hcc with e | e <;> rw [e] at hm <;> cases hm
    · have := argChar_not_paren c (List.all_eq_true.1 hw.2 c hm)
      rcases hcc with e | e
      · exact this.2.2.2.2.1 e
      · exact this.2.2.2.2.2.1 e
    · rcases hcc with e | e <;> rw [e] at hm <;> cases hm
    · rcases hcc with e | e <;> rw [e] at hm <;> cases hm
  | _ =>
    exfalso
    simp only [Tok.text, List.mem_singleton] at hmem
    rcases hcc with e | e <;> rw [e] at hmem <;> cases hmem

theorem single_of_step (x : Char) (part : Str) (hall : part.all (ch x).cls = true)
    (hone : part.length = 1) : part = [x] := by
  cases part with
  | nil => cases hone
  | cons c cs =>
    cases cs with
    | cons d ds => simp at hone
    | nil =>
      simp only [ch, List.all_cons, List.all_nil, Bool.and_true, beq_iff_eq] at hall
      rw [hall]

open Quant Piece in
/-- The rule that adds the quote behind a key leaves a normalized text as it is. -/
theorem rule_key_end (toks : List Tok) (h : normalForm toks = true) :
    replaceAll ([grp braceOrComma plus, grp isSpace star, grp keyChar plus] ++ lit ":")
      [group 1, group 2, group 3, text "\":".toList] (render toks) = render toks := by
  apply replaceAll_of_no_match
  intro s hs
  cases hm : matchItems ([grp braceOrComma plus, grp isSpace star, grp keyChar plus] ++ lit ":")
      s with
  | none => rfl
  | some res =>
    exfalso
    have hm' : matchItems (grp braceOrComma plus :: [grp isSpace star, grp keyChar plus, ch ':'])
        s = some (res.1, res.2) := hm
    obtain ⟨a, t1, c1, hs1, ha, _, hane, hm1, _⟩ := matchItems_step _ _ _ _ _ hm'
    obtain ⟨w, t2, c2, hs2, hw, _, _, hm2, _⟩ := matchItems_step _ _ _ _ _ hm1
    obtain ⟨k, t3, c3, hs3, hk, _, _, hm3, _⟩ := matchItems_step _ _ _ _ _ hm2
    obtain ⟨q, t4, c4, hs4, hq, hqone, _, _, _⟩ := matchItems_step _ _ _ _ _ hm3
    have hq' := single_of_step ':' q hq (hqone rfl)
    subst hq'
    have hane' := hane rfl
    cases a with
    | nil => exact hane' rfl
    | cons a0 a =>
      have ha0 : braceOrComma a0 = true := by
        simp only [grp, List.all_cons, Bool.and_eq_true] at ha
        exact ha.1
      obtain ⟨l, hl, hsl⟩ := suffix_at_brace toks h s hs a0 (by simp [hs1]) ha0
      have heq : render l = (a0 :: a ++ w ++ k) ++ ':' :: t4 := by
        rw [← hsl, hs1, hs2, hs3, hs4]
        simp
      have := render_key_run l hl _ _ heq (by
        intro c hc
        simp only [List.mem_append] at hc
        rcases hc with (hc | hc) | hc
        · exact Or.inl (List.all_eq_true.1 ha c hc)
        · exact Or.inr (Or.inl (List.all_eq_true.1 hw c hc))
        · exact Or.inr (Or.inr (List.all_eq_true.1 hk c hc)))
      simp at this

open Quant Piece in
/-- The rule that adds the quote before a key leaves a normalized text as it is. -/
theorem rule_key_start (toks : List Tok) (h : normalForm toks = true) :
    replaceAll ([grp braceOrComma plus, grp isSpace star, grp keyCharNoSpace plus,
        grp keyChar star] ++ lit "\":")
      [group 1, group 2, text "\"".toList, group 3, group 4, text "\":".toList] (render toks)
      = render toks := by
  apply replaceAll_of_no_match
  intro s hs
  cases hm : matchItems ([grp braceOrComma plus, grp isSpace star, grp keyCharNoSpace plus,
      grp keyChar star] ++ lit "\":") s with
  | none => rfl
  | some res =>
    exfalso
    have hm' : matchItems (grp braceOrComma plus :: [grp isSpace star, grp keyCharNoSpace plus,
        grp keyChar star, ch '"', ch ':']) s = some (res.1, res.2) := hm
    obtain ⟨a, t1, c1, hs1, ha, _, hane, hm1, _⟩ := matchItems_step _ _ _ _ _ hm'
    obtain ⟨w, t2, c2, hs2, hw, _, _, hm2, _⟩ := matchItems_step _ _ _ _ _ hm1
    obtain ⟨n, t3, c3, hs3, hn, _, _, hm3, _⟩ := matchItems_step _ _ _ _ _ hm2
    obtain ⟨k, t4, c4, hs4, hk, _, _, hm4, _⟩ := matchItems_step _ _ _ _ _ hm3
    obtain ⟨q, t5, c5, hs5, hq, hqone, _, hm5, _⟩ := matchItems_step _ _ _ _ _ hm4
    obtain ⟨q', t6, c6, hs6, hq', hqone', _, _, _⟩ := matchItems_step _ _ _ _ _ hm5
    have e1 := single_of_step '"' q hq (hqone rfl)
    have e2 := single_of_step ':' q' hq' (hqone' rfl)
    subst e1 e2
    have hane' := hane rfl
    cases a with
    | nil => exact hane' rfl
    | cons a0 a =>
      have ha0 : braceOrComma a0 = true := by
        simp only [grp, List.all_cons, Bool.and_eq_true] at ha
        exact ha.1
      obtain ⟨l, hl, hsl⟩ := suffix_at_brace toks h s hs a0 (by simp [hs1]) ha0
      have heq : render l = (a0 :: a ++ w ++ n ++ k) ++ '"' :: ':' :: t6 := by
        rw [← hsl, hs1, hs2, hs3, hs4, hs5, hs6]
        simp
      refine render_quoted_key_run l hl _ _ heq ?_
      intro c hc
      simp only [List.mem_append] at hc
      rcases hc with ((hc | hc) | hc) | hc
      · exact Or.inl (List.all_eq_true.1 ha c hc)
      · exact Or.inr (Or.inl (List.all_eq_true.1 hw c hc))
      · have := List.all_eq_true.1 hn c hc
        simp only [grp] at this
        exact Or.inr (Or.inr (by simp [keyChar, this]))
      · exact Or.inr (Or.inr (List.all_eq_true.1 hk c hc))

/-! ### The rules for quoted words and for braces behind a colon -/

theorem alnum_not_space (c : Char) (h : alnum c = true) : isSpace c = false := by
  simp only [alnum, inRange, Bool.or_eq_true, Bool.and_eq_true, decide_eq_true_eq] at h
  have e1 : 'a'.toNat = 97 := rfl
  have e2 : 'z'.toNat = 122 := rfl
  have e3 : 'A'.toNat = 65 := rfl
  have e4 : 'Z'.toNat = 90 := rfl
  have e5 : '0'.toNat = 48 := rfl
  have e6 : '9'.toNat = 57 := rfl
  rw [e1, e2, e3, e4, e5, e6] at h
  simp only [isSpace, Bool.or_eq_false_iff, Bool.and_eq_false_iff, decide_eq_false_iff_not,
    beq_eq_false_iff_ne, ne_eq]
  omega

theorem wordChar_not_space (c : Char) (h : wordChar c = true) : isSpace c = false := by
  simp only [wordChar, Bool.or_eq_true, beq_iff_eq] at h
  rcases h with (h | h) | h
  · exact alnum_not_space c h
  · subst h; decide
  · subst h; decide

theorem quote_suffix (m y : Str) (hm : '"' ∉ m) (hy : y <:+ '"' :: m ++ ['"'])
    (hh : y.head? = some '"') : y = '"' :: m ++ ['"'] ∨ y = ['"'] := by
  rw [List.cons_append, List.suffix_cons_iff] at hy
  rcases hy with hy | hy
  · exact Or.inl hy
  · rcases suffix_append_cases _ _ _ hy with ⟨z, hz, rfl⟩ | hy
    · cases z with
      | nil => exact Or.inr rfl
      | cons c z =>
        simp only [List.cons_append, List.head?_cons, Option.some.injEq] at hh
        subst hh
        exact absurd (hz.subset (List.mem_cons_self _ _)) hm
    · rw [List.suffix_cons_iff] at hy
      rcases hy with hy | hy
      · exact Or.inr hy
      · rw [List.suffix_nil] at hy
        subst hy
        cases hh

theorem last_blank_of_append (l w : Str) (hne : w ≠ []) (hw : ∀ c ∈ w, isSpace c = true) :
    ∃ c, (l ++ w).getLast? = some c ∧ isSpace c = true := by
  rcases List.eq_nil_or_concat w with e | ⟨ys, c, e⟩
  · exact absurd e hne
  · rw [List.concat_eq_append] at e
    refine ⟨c, ?_, hw c (by rw [e]; simp)⟩
    rw [e, ← List.append_assoc, getLast?_append_singleton]

theorem textChar_blank (c : Char) (h : textChar c = true) (hs : isSpace c = true) : c = ' ' := by
  rcases textChar_cases c h with h | h
  · rw [wordChar_not_space c h] at hs
    cases hs
  · exact h

theorem Tok.head_not_letter (tok : Tok) (h : tok.wellFormed = true)
    (hnw : ∀ w, tok ≠ Tok.word w) (c : Char)
    (hc : tok.text.head? = some c) : dollarLetter c = false := by
  cases tok with
  | word w => exact absurd rfl (hnw w)
  | number d =>
    simp only [Tok.wellFormed, Bool.and_eq_true] at h
    have hn := List.all_eq_true.1 h.2 c (List.mem_of_mem_head? hc)
    simp only [numberChar, inRange, Bool.or_eq_true, Bool.and_eq_true, decide_eq_true_eq,
      beq_iff_eq] at hn
    have e5 : '0'.toNat = 48 := rfl
    have e6 : '9'.toNat = 57 := rfl
    rw [e5, e6] at hn
    rcases hn with (hn | hn) | hn
    · have e1 : 'a'.toNat = 97 := rfl
      have e2 : 'z'.toNat = 122 := rfl
      have e3 : 'A'.toNat = 65 := rfl
      have e4 : 'Z'.toNat = 90 := rfl
      have hd : c ≠ '$' := by
        intro e
        subst e
        have : '$'.toNat = 36 := rfl
        omega
      simp only [dollarLetter, inRange, e1, e2, e3, e4, Bool.or_eq_false_iff,
        Bool.and_eq_false_iff, decide_eq_false_iff_not, beq_eq_false_iff_ne, ne_eq]
      exact ⟨⟨hd, by omega⟩, by omega⟩
    · subst hn; decide
    · subst hn; decide
  | quoted w =>
    simp only [Tok.text, List.cons_append, List.head?_cons, Option.some.injEq] at hc
    subst hc
    decide
  | sentinel name arg =>
    simp only [Tok.text, List.cons_append, List.head?_cons, Option.some.injEq] at hc
    subst hc
    decide
  | _ =>
    simp only [Tok.text, List.head?_cons, Option.some.injEq] at hc
    subst hc
    decide

/-- No letter and no `$` follows the closing quote of a piece. -/
theorem render_after_quote (tok0 : Tok) (rest : List Tok)
    (h : normalForm (tok0 :: rest) = true) (hq : tok0.endsWithQuote = true) (c : Char)
    (r : Str) (hr : render rest = c :: r) : dollarLetter c = false := by
  cases rest with
  | nil => simp [render] at hr
  | cons tok rest' =>
    have h2 := (normalForm_cons tok0 _ h).2
    have hw := (normalForm_cons tok rest' h2).1
    have hh := head?_render tok rest' hw
    rw [hr] at hh
    refine Tok.head_not_letter tok hw ?_ c hh.symm
    intro w e
    subst e
    rw [normalForm_after_quote tok0 w rest' h] at hq
    cases hq

theorem sentinel_middle (name : SentinelName) (arg : Str) (h : arg.all argChar = true) :
    (Tok.sentinel name arg).text
        = '"' :: ('#' :: '#' :: name.text ++ '(' :: arg ++ [')']) ++ ['"'] ∧
      '"' ∉ '#' :: '#' :: name.text ++ '(' :: arg ++ [')'] := by
  refine ⟨by simp [Tok.text], ?_⟩
  intro hm
  simp only [List.mem_cons, List.mem_append, List.not_mem_nil, or_false, or_assoc] at hm
  rcases hm with hm | hm | hm | hm | hm | hm
  · cases hm
  · cases hm
  · exact (alnum_not_paren _ (List.all_eq_true.1 (SentinelName.text_alnum name) _ hm)).2.2.1 rfl
  · cases hm
  · exact (argChar_not_paren _ (List.all_eq_true.1 h _ hm)).2.2.1 rfl
  · cases hm

theorem quote_not_mem_plain (tok : Tok) (h : tok.wellFormed = true)
    (hq : ∀ w, tok ≠ Tok.quoted w) (hs : ∀ name arg, tok ≠ Tok.sentinel name arg) :
    '"' ∉ tok.text := by
  cases tok with
  | quoted w => exact absurd rfl (hq w)
  | sentinel name arg => exact absurd rfl (hs name arg)
  | number d =>
    simp only [Tok.wellFormed, Bool.and_eq_true] at h
    intro hm
    exact (numberChar_not_paren _ (List.all_eq_true.1 h.2 _ hm)).2.2.1 rfl
  | word w =>
    intro hm
    exact (lowerChar_not_paren _
      (List.all_eq_true.1 (Tok.word_wellFormed w h).2 _ hm)).2.2.1 rfl
  | _ => simp [Tok.text]

open Quant Piece in
/-- The rule that removes whitespace at the end of a quoted word leaves a normalized
text as it is. -/
theorem rule_quoted_word (toks : List Tok) (h : normalForm toks = true) :
    replaceAll (lit "\"" ++ [grp dollarLetter plus, grp isSpace star] ++ lit "\"")
      [text "\"".toList, group 1, text "\"".toList] (render toks) = render toks := by
  apply replaceAll_fixed _ _ (by simp [matchItems, lit, ch]) (render toks).length _
    (Nat.le_refl _)
  intro s caps rest hs hm
  have hm' : matchItems (ch '"' :: [grp dollarLetter plus, grp isSpace star, ch '"']) s
      = some (caps, rest) := hm
  obtain ⟨q1, t1, c1, hs1, hq1, hone1, _, hm1, hc1⟩ := matchItems_step _ _ _ _ _ hm'
  obtain ⟨L, t2, c2, hs2, hL, _, hLne, hm2, hc2⟩ := matchItems_step _ _ _ _ _ hm1
  obtain ⟨W, t3, c3, hs3, hW, _, _, hm3, hc3⟩ := matchItems_step _ _ _ _ _ hm2
  obtain ⟨q2, t4, c4, hs4, hq2, hone2, _, hm4, hc4⟩ := matchItems_step _ _ _ _ _ hm3
  have e1 := single_of_step '"' q1 hq1 (hone1 rfl)
  have e2 := single_of_step '"' q2 hq2 (hone2 rfl)
  subst e1 e2
  simp only [matchItems, Option.some.injEq, Prod.mk.injEq] at hm4
  obtain ⟨hc4', hrest⟩ := hm4
  subst hrest hc4'
  have hcaps : caps = [L, W] := by
    rw [hc1, hc2, hc3, hc4]
    rfl
  have hseq : s = '"' :: (L ++ W ++ '"' :: t4) := by
    rw [hs1, hs2, hs3, hs4]
    simp
  have hLne' := hLne rfl
  have hLd : ∀ c ∈ L, dollarLetter c = true := fun c hc => List.all_eq_true.1 hL c hc
  have hWs : ∀ c ∈ W, isSpace c = true := fun c hc => List.all_eq_true.1 hW c hc
  have hLWq : '"' ∉ L ++ W := by
    intro hmem
    rcases List.mem_append.1 hmem with hmem | hmem
    · exact absurd (hLd _ hmem) (by decide)
    · exact absurd (hWs _ hmem) (by decide)
  refine ⟨by rw [hseq]; simp; omega, ?_⟩
  have hne : s ≠ [] := by rw [hseq]; simp
  obtain ⟨tok, rest0, y, hsuf, hy, hyne, hsy⟩ := suffix_render toks s hs hne
  have hl := normalForm_suffix toks h _ hsuf
  obtain ⟨hw, hrest0⟩ := normalForm_cons tok rest0 hl
  have hyh : y.head? = some '"' := by
    cases y with
    | nil => exact absurd rfl hyne
    | cons d y =>
      rw [hseq] at hsy
      simp only [List.cons_append, List.cons.injEq] at hsy
      simp [← hsy.1]
  -- the match starts at the closing quote of a piece
  have closing : tok.endsWithQuote = true → y = ['"'] → False := by
    intro hq e
    rw [e, hseq] at hsy
    simp only [List.cons_append, List.nil_append, List.cons.injEq, true_and] at hsy
    cases L with
    | nil => exact hLne' rfl
    | cons l0 L =>
      have := render_after_quote tok rest0 hl hq l0 (L ++ W ++ '"' :: t4)
        (by rw [← hsy]; simp)
      rw [hLd l0 (List.mem_cons_self _ _)] at this
      cases this
  -- the match starts at the opening quote of a piece with the text `"m"`
  have opening : ∀ m : Str, '"' ∉ m → y = '"' :: m ++ ['"'] → L ++ W = m ∧ t4 = render rest0 := by
    intro m hm e
    rw [e, hseq] at hsy
    simp only [List.cons_append, List.cons.injEq, true_and, List.append_assoc,
      List.singleton_append] at hsy
    obtain ⟨q, hq1, hq2⟩ := append_eq_of_not_mem '"' (L ++ W) ('"' :: t4) m (render rest0)
      hLWq (by simpa using hsy)
    cases q with
    | nil =>
      simp only [List.nil_append, List.cons.injEq, true_and] at hq2
      exact ⟨by simpa using hq1.symm, hq2⟩
    | cons d q =>
      simp only [List.cons_append, List.cons.injEq] at hq2
      rw [hq1, ← hq2.1] at hm
      simp at hm
  by_cases hq : ∃ w, tok = Tok.quoted w
  · obtain ⟨w, rfl⟩ := hq
    obtain ⟨hwall, _, hwlast, _⟩ := Tok.quoted_wellFormed w hw
    have hwq : '"' ∉ w := fun hm => (textChar_not_paren _ (List.all_eq_true.1 hwall _ hm)).2.2.1 rfl
    rcases quote_suffix w y hwq hy hyh with e | e
    · obtain ⟨h1, h2⟩ := opening w hwq e
      have hWnil : W = [] := by
        by_contra hWne
        obtain ⟨c, hc1, hc2⟩ := last_blank_of_append L W hWne hWs
        rw [h1] at hc1
        have := textChar_blank c (List.all_eq_true.1 hwall c (List.mem_of_getLast?_eq_some hc1))
          hc2
        rw [this] at hc1
        exact hwlast hc1
      rw [hcaps, hseq, hWnil]
      simp [instantiate]
    · exact (closing rfl e).elim
  · by_cases hsn : ∃ name arg, tok = Tok.sentinel name arg
    · obtain ⟨name, arg, rfl⟩ := hsn
      simp only [Tok.wellFormed, Bool.and_eq_true] at hw
      obtain ⟨ht, hmq⟩ := sentinel_middle name arg hw.2
      rw [ht] at hy
      rcases quote_suffix _ y hmq hy hyh with e | e
      · obtain ⟨h1, _⟩ := opening _ hmq e
        cases L with
        | nil => exact absurd rfl hLne'
        | cons l0 L =>
          simp only [List.cons_append, List.cons.injEq] at h1
          have := hLd l0 (List.mem_cons_self _ _)
          rw [h1.1] at this
          exact absurd this (by decide)
      · exact (closing rfl e).elim
    · exfalso
      exact quote_not_mem_plain tok hw (fun w e => hq ⟨w, e⟩) (fun n a e => hsn ⟨n, a, e⟩)
        (hy.subset (List.mem_of_mem_head? hyh))

theorem render_blanks_brace :
    ∀ l : List Tok, normalForm l = true → ∀ W r : Str, render l = W ++ '\x7b' :: r →
      W.all blank = true →
      opensBrace l = true ∧ (W ≠ [] → ∃ l', l = Tok.space :: l') := by
  intro l
  induction l with
  | nil =>
    intro _ W r h
    simp [render] at h
  | cons tok rest ih =>
    intro h W r heq hW
    obtain ⟨hw, hrest⟩ := normalForm_cons tok rest h
    have hh := head?_render tok rest hw
    cases W with
    | nil =>
      rw [heq] at hh
      simp only [List.nil_append, List.head?_cons] at hh
      refine ⟨?_, fun hne => absurd rfl hne⟩
      cases tok with
      | lbrace => rfl
      | number d =>
        simp only [Tok.wellFormed, Bool.and_eq_true] at hw
        have hm : '\x7b' ∈ d := List.mem_of_mem_head? hh.symm
        exact absurd rfl (numberChar_not_paren _ (List.all_eq_true.1 hw.2 _ hm)).2.2.2.2.2.1
      | word w =>
        have hm : '\x7b' ∈ w := List.mem_of_mem_head? hh.symm
        exact absurd rfl (lowerChar_not_paren _
          (List.all_eq_true.1 (Tok.word_wellFormed w hw).2 _ hm)).2.2.2.2.2.1
      | _ => simp [Tok.text] at hh
    | cons c W =>
      simp only [List.all_cons, Bool.and_eq_true, blank, beq_iff_eq] at hW
      obtain ⟨hc, hW'⟩ := hW
      subst hc
      rw [heq] at hh
      simp only [List.cons_append, List.head?_cons] at hh
      cases tok with
      | space =>
        simp only [render, Tok.text, List.cons_append, List.nil_append, List.cons.injEq,
          true_and] at heq
        have := ih hrest W r heq (by simpa [blank] using hW')
        exact ⟨this.1, fun _ => ⟨rest, rfl⟩⟩
      | number d =>
        simp only [Tok.wellFormed, Bool.and_eq_true] at hw
        have hm : ' ' ∈ d := List.mem_of_mem_head? hh.symm
        exact absurd rfl (numberChar_not_paren _ (List.all_eq_true.1 hw.2 _ hm)).2.2.2.1
      | word w =>
        have hm : ' ' ∈ w := List.mem_of_mem_head? hh.symm
        exact absurd rfl (lowerChar_not_paren _
          (List.all_eq_true.1 (Tok.word_wellFormed w hw).2 _ hm)).2.2.2.1
      | _ => simp [Tok.text] at hh

theorem sentinel_no_blank_brace (name : SentinelName) (arg : Str)
    (h : arg.all argChar = true) :
    ∀ c ∈ (Tok.sentinel name arg).text, c ≠ ' ' ∧ c ≠ '\x7b' := by
  intro c hc
  simp only [Tok.text, List.mem_cons, List.mem_append, List.not_mem_nil, or_false,
    or_assoc] at hc
  rcases hc with rfl | rfl | rfl | hc | rfl | hc | rfl | rfl
  · decide
  · decide
  · decide
  · have := alnum_not_paren c (List.all_eq_true.1 (SentinelName.text_alnum name) c hc)
    exact ⟨this.2.2.2.1, this.2.2.2.2.2.1⟩
  · decide
  · have := argChar_not_paren c (List.all_eq_true.1 h c hc)
    exact ⟨this.2.2.2.1, this.2.2.2.2.1⟩
  · decide
  · decide

theorem colon_not_mem_plain (tok : Tok) (h : tok.wellFormed = true) (hc : tok ≠ Tok.colon)
    (hs : ∀ name arg, tok ≠ Tok.sentinel name arg) : ':' ∉ tok.text := by
  cases tok with
  | colon => exact absurd rfl hc
  | sentinel name arg => exact absurd rfl (hs name arg)
  | quoted w =>
    intro hm
    simp only [Tok.text, List.mem_cons, List.mem_append, List.mem_singleton,
      List.not_mem_nil, or_false, or_assoc] at hm
    rcases hm with hm | hm | hm
    · cases hm
    · exact (textChar_not_paren _
        (List.all_eq_true.1 (Tok.quoted_wellFormed w h).1 _ hm)).2.2.2.1 rfl
    · cases hm
  | number d =>
    simp only [Tok.wellFormed, Bool.and_eq_true] at h
    intro hm
    exact (numberChar_not_paren _ (List.all_eq_true.1 h.2 _ hm)).2.2.2.2.1 rfl
  | word w =>
    intro hm
    exact (lowerChar_not_paren _
      (List.all_eq_true.1 (Tok.word_wellFormed w h).2 _ hm)).2.2.2.2.1 rfl
  | _ => simp [Tok.text]

open Quant Piece in
/-- The rule that removes the blanks between a colon and an opening brace leaves a
normalized text as it is. -/
theorem rule_colon_brace (toks : List Tok) (h : normalForm toks = true) :
    replaceAll (lit ":" ++ [grp blank star] ++ lit "\x7b") [text ":\x7b".toList] (render toks)
      = render toks := by
  apply replaceAll_fixed _ _ (by simp [matchItems, lit, ch]) (render toks).length _
    (Nat.le_refl _)
  intro s caps rest hs hm
  have hm' : matchItems (ch ':' :: [grp blank star, ch '\x7b']) s = some (caps, rest) := hm
  obtain ⟨q1, t1, c1, hs1, hq1, hone1, _, hm1, hc1⟩ := matchItems_step _ _ _ _ _ hm'
  obtain ⟨W, t2, c2, hs2, hW, _, _, hm2, hc2⟩ := matchItems_step _ _ _ _ _ hm1
  obtain ⟨q2, t3, c3, hs3, hq2, hone2, _, hm3, hc3⟩ := matchItems_step _ _ _ _ _ hm2
  have e1 := single_of_step ':' q1 hq1 (hone1 rfl)
  have e2 := single_of_step '\x7b' q2 hq2 (hone2 rfl)
  subst e1 e2
  simp only [matchItems, Option.some.injEq, Prod.mk.injEq] at hm3
  obtain ⟨hc3', hrest⟩ := hm3
  subst hrest hc3'
  have hseq : s = ':' :: (W ++ '\x7b' :: t3) := by
    rw [hs1, hs2, hs3]
    simp
  have hWb : W.all blank = true := hW
  refine ⟨by rw [hseq]; simp; omega, ?_⟩
  have hne : s ≠ [] := by rw [hseq]; simp
  obtain ⟨tok, rest0, y, hsuf, hy, hyne, hsy⟩ := suffix_render toks s hs hne
  have hl := normalForm_suffix toks h _ hsuf
  obtain ⟨hw, hrest0⟩ := normalForm_cons tok rest0 hl
  have hWnil : W = [] := by
    cases y with
    | nil => exact absurd rfl hyne
    | cons d y =>
      rw [hseq] at hsy
      simp only [List.cons_append, List.cons.injEq] at hsy
      obtain ⟨hd, hsy⟩ := hsy
      subst hd
      by_cases hcol : tok = Tok.colon
      · subst hcol
        have hy0 : y = [] := by
          rw [Tok.text, List.suffix_cons_iff] at hy
          rcases hy with hy | hy
          · simpa using hy
          · rw [List.suffix_nil] at hy
            cases hy
        subst hy0
        simp only [List.nil_append] at hsy
        obtain ⟨hopen, hsp⟩ := render_blanks_brace rest0 hrest0 W t3 hsy.symm hWb
        by_contra hWne
        obtain ⟨l', rfl⟩ := hsp hWne
        simp only [normalForm, Bool.and_eq_true, Bool.not_eq_true'] at hl
        have := hl.1.2
        rw [hopen] at this
        cases this
      · by_cases hsn : ∃ name arg, tok = Tok.sentinel name arg
        · obtain ⟨name, arg, rfl⟩ := hsn
          simp only [Tok.wellFormed, Bool.and_eq_true] at hw
          exfalso
          cases y with
          | nil =>
            have hlast : (Tok.sentinel name arg).text.getLast? = some ':' := by
              rw [List.getLast?_eq_some_iff]
              obtain ⟨u, hu⟩ := hy
              exact ⟨u, hu.symm⟩
            rw [(sentinel_middle name arg hw.2).1, getLast?_append_singleton] at hlast
            cases hlast
          | cons c y =>
            have hcm : c ∈ (Tok.sentinel name arg).text :=
              hy.subset (by simp)
            have hcc := sentinel_no_blank_brace name arg hw.2 c hcm
            cases W with
            | nil =>
              simp only [List.nil_append, List.cons_append, List.cons.injEq] at hsy
              exact hcc.2 hsy.1.symm
            | cons b W =>
              simp only [List.all_cons, Bool.and_eq_true, blank, beq_iff_eq] at hWb
              simp only [List.cons_append, List.cons.injEq] at hsy
              exact hcc.1 (hsy.1.symm.trans hWb.1)
        · exfalso
          exact colon_not_mem_plain tok hw hcol (fun n a e => hsn ⟨n, a, e⟩)
            (hy.subset (List.mem_cons_self _ _))
  have hcaps : instantiate caps [text ":\x7b".toList] = [':', '\x7b'] := by
    simp [instantiate]
  rw [hcaps, hseq, hWnil]
  rfl

/-! ### The rules for `_id` and for `$` -/

/-- Whitespace stands in blanks and in quoted texts only. -/
theorem Tok.space_of_mem (tok : Tok) (h : tok.wellFormed = true) (c : Char)
    (hc : c ∈ tok.text) (hs : isSpace c = true) : tok = Tok.space ∨ ∃ w, tok = Tok.quoted w := by
  cases tok with
  | space => exact Or.inl rfl
  | quoted w => exact Or.inr ⟨w, rfl⟩
  | word w =>
    exfalso
    have := alnum_not_space c (lowerChar_alnum c
      (List.all_eq_true.1 (Tok.word_wellFormed w h).2 c hc))
    rw [this] at hs
    cases hs
  | number d =>
    exfalso
    simp only [Tok.wellFormed, Bool.and_eq_true] at h
    have hn := List.all_eq_true.1 h.2 c hc
    simp only [numberChar, Bool.or_eq_true, beq_iff_eq] at hn
    rcases hn with (hn | hn) | hn
    · have := alnum_not_space c (by simp [alnum, hn])
      rw [this] at hs
      cases hs
    · subst hn; exact absurd hs (by decide)
    · subst hn; exact absurd hs (by decide)
  | sentinel name arg =>
    exfalso
    simp only [Tok.wellFormed, Bool.and_eq_true] at h
    simp only [Tok.text, List.mem_cons, List.mem_append, List.not_mem_nil, or_false,
      or_assoc] at hc
    rcases hc with rfl | rfl | rfl | hc | rfl | hc | rfl | rfl
    · exact absurd hs (by decide)
    · exact absurd hs (by decide)
    · exact absurd hs (by decide)
    · rw [alnum_not_space c (List.all_eq_true.1 (SentinelName.text_alnum name) c hc)] at hs
      cases hs
    · exact absurd hs (by decide)
    · have ha := List.all_eq_true.1 h.2 c hc
      simp only [argChar, Bool.or_eq_true, beq_iff_eq] at ha
      rcases ha with ((ha | ha) | ha) | ha
      · rw [alnum_not_space c ha] at hs
        cases hs
      · subst ha; exact absurd hs (by decide)
      · subst ha; exact absurd hs (by decide)
      · subst ha; exact absurd hs (by decide)
    · exact absurd hs (by decide)
    · exact absurd hs (by decide)
  | _ =>
    exfalso
    simp only [Tok.text, List.mem_singleton] at hc
    subst hc
    exact absurd hs (by decide)

theorem Tok.space_of_head (tok : Tok) (h : tok.wellFormed = true) (c : Char)
    (hc : tok.text.head? = some c) (hs : isSpace c = true) : tok = Tok.space := by
  rcases Tok.space_of_mem tok h c (List.mem_of_mem_head? hc) hs with e | ⟨w, e⟩
  · exact e
  · subst e
    simp only [Tok.text, List.cons_append, List.head?_cons, Option.some.injEq] at hc
    subst hc
    exact absurd hs (by decide)

/-- Whitespace and then `$` behind the start of a quoted text: the text holds a blank
right before a `$`. -/
theorem blank_dollar_inside :
    ∀ (W z R t : Str), W ≠ [] → W.all isSpace = true → z.all textChar = true →
      z ++ '"' :: R = W ++ '$' :: t → [' ', '$'] <:+: z := by
  intro W
  induction W with
  | nil => intro z R t h; exact absurd rfl h
  | cons c W ih =>
    intro z R t _ hW hz heq
    simp only [List.all_cons, Bool.and_eq_true] at hW
    cases z with
    | nil =>
      simp only [List.nil_append, List.cons_append, List.cons.injEq] at heq
      have := hW.1
      rw [← heq.1] at this
      exact absurd this (by decide)
    | cons d z =>
      simp only [List.cons_append, List.cons.injEq] at heq
      simp only [List.all_cons, Bool.and_eq_true] at hz
      obtain ⟨hd, heq⟩ := heq
      subst hd
      by_cases hWn : W = []
      · subst hWn
        cases z with
        | nil =>
          simp only [List.nil_append, List.cons.injEq] at heq
          exact absurd heq.1 (by decide)
        | cons e z =>
          simp only [List.cons_append, List.nil_append, List.cons.injEq] at heq
          have hd := textChar_blank d hz.1 hW.1
          rw [hd, heq.1]
          exact ⟨[], z, rfl⟩
      · obtain ⟨u, v, huv⟩ := ih z R t hWn hW.2 hz.2 heq
        exact ⟨d :: u, v, by simp [← huv]⟩

theorem Tok.head_not_word (tok : Tok) (h : tok.wellFormed = true) (c : Char)
    (hc : tok.text.head? = some c) : c ≠ '_' ∧ c ≠ '$' := by
  cases tok with
  | word w =>
    have hn := List.all_eq_true.1 (Tok.word_wellFormed w h).2 c (List.mem_of_mem_head? hc)
    constructor <;> intro e <;> subst e <;> simp [lowerChar, inRange] at hn
  | number d =>
    simp only [Tok.wellFormed, Bool.and_eq_true] at h
    have hn := List.all_eq_true.1 h.2 c (List.mem_of_mem_head? hc)
    constructor <;> intro e <;> subst e <;> simp [numberChar, inRange] at hn
  | quoted w =>
    simp only [Tok.text, List.cons_append, List.head?_cons, Option.some.injEq] at hc
    subst hc
    decide
  | sentinel name arg =>
    simp only [Tok.text, List.cons_append, List.head?_cons, Option.some.injEq] at hc
    subst hc
    decide
  | _ =>
    simp only [Tok.text, List.head?_cons, Option.some.injEq] at hc
    subst hc
    decide

/-- In a normalized text neither `_` nor `$` stands behind whitespace or at the
start of a piece. -/
theorem render_blanks_then (x : Char) (hx : x = '_' ∨ x = '$') :
    ∀ l : List Tok, normalForm l = true → ∀ W r : Str, render l = W ++ x :: r →
      W.all isSpace = true → False := by
  intro l
  induction l with
  | nil =>
    intro _ W r h
    simp [render] at h
  | cons tok rest ih =>
    intro h W r heq hW
    obtain ⟨hw, hrest⟩ := normalForm_cons tok rest h
    have hh := head?_render tok rest hw
    cases W with
    | nil =>
      rw [heq] at hh
      simp only [List.nil_append, List.head?_cons] at hh
      have := Tok.head_not_word tok hw x hh.symm
      rcases hx with e | e
      · exact this.1 e
      · exact this.2 e
    | cons c W =>
      simp only [List.all_cons, Bool.and_eq_true] at hW
      rw [heq] at hh
      simp only [List.cons_append, List.head?_cons] at hh
      have hsp := Tok.space_of_head tok hw c hh.symm hW.1
      subst hsp
      simp only [render, Tok.text, List.cons_append, List.nil_append, List.cons.injEq] at heq
      exact ih hrest W r heq.2 hW.2

/-- A suffix of a normalized text that starts with a quote, up to the next quote:
a quoted text, a sentinel, or the text between two pieces. -/
theorem quote_cases (toks : List Tok) (h : normalForm toks = true) (s body rest : Str)
    (hs : s <:+ render toks) (hseq : s = '"' :: (body ++ '"' :: rest)) (hb : '"' ∉ body) :
    ((Tok.quoted body).wellFormed = true) ∨
      (∃ name arg, body = '#' :: '#' :: SentinelName.text name ++ '(' :: arg ++ [')']) ∨
      (∃ l, normalForm l = true ∧ render l = body ++ '"' :: rest) := by
  have hne : s ≠ [] := by rw [hseq]; simp
  obtain ⟨tok, rest0, y, hsuf, hy, hyne, hsy⟩ := suffix_render toks s hs hne
  have hl := normalForm_suffix toks h _ hsuf
  obtain ⟨hw, hrest0⟩ := normalForm_cons tok rest0 hl
  have hyh : y.head? = some '"' := by
    cases y with
    | nil => exact absurd rfl hyne
    | cons d y =>
      rw [hseq] at hsy
      simp only [List.cons_append, List.cons.injEq] at hsy
      simp [← hsy.1]
  have closing : y = ['"'] → ∃ l, normalForm l = true ∧ render l = body ++ '"' :: rest := by
    intro e
    rw [e, hseq] at hsy
    simp only [List.cons_append, List.nil_append, List.cons.injEq, true_and] at hsy
    exact ⟨rest0, hrest0, hsy.symm⟩
  have opening : ∀ m : Str, '"' ∉ m → y = '"' :: m ++ ['"'] → body = m := by
    intro m hm e
    rw [e, hseq] at hsy
    simp only [List.cons_append, List.cons.injEq, true_and, List.append_assoc,
      List.singleton_append] at hsy
    obtain ⟨q, hq1, hq2⟩ := append_eq_of_not_mem '"' body ('"' :: rest) m (render rest0)
      hb hsy
    cases q with
    | nil => simpa using hq1.symm
    | cons d q =>
      simp only [List.cons_append, List.cons.injEq] at hq2
      rw [hq1, ← hq2.1] at hm
      simp at hm
  by_cases hq : ∃ w, tok = Tok.quoted w
  · obtain ⟨w, rfl⟩ := hq
    have hwq : '"' ∉ w := fun hm => (textChar_not_paren _
      (List.all_eq_true.1 (Tok.quoted_wellFormed w hw).1 _ hm)).2.2.1 rfl
    rcases quote_suffix w y hwq hy hyh with e | e
    · rw [opening w hwq e]
      exact Or.inl hw
    · exact Or.inr (Or.inr (closing e))
  · by_cases hsn : ∃ name arg, tok = Tok.sentinel name arg
    · obtain ⟨name, arg, rfl⟩ := hsn
      simp only [Tok.wellFormed, Bool.and_eq_true] at hw
      obtain ⟨ht, hmq⟩ := sentinel_middle name arg hw.2
      rw [ht] at hy
      rcases quote_suffix _ y hmq hy hyh with e | e
      · exact Or.inr (Or.inl ⟨name, arg, opening _ hmq e⟩)
      · exact Or.inr (Or.inr (closing e))
    · exfalso
      exact quote_not_mem_plain tok hw (fun w e => hq ⟨w, e⟩) (fun n a e => hsn ⟨n, a, e⟩)
        (hy.subset (List.mem_of_mem_head? hyh))

open Quant Piece in
/-- The rule that removes the whitespace around `_id` leaves a normalized text as it
is. -/
theorem rule_id (toks : List Tok) (h : normalForm toks = true) :
    replaceAll (lit "\"" ++ [grp isSpace star] ++ lit "_id" ++ [grp isSpace star] ++ lit "\"")
      [text "\"_id\"".toList] (render toks) = render toks := by
  apply replaceAll_fixed _ _ (by simp [matchItems, lit, ch]) (render toks).length _
    (Nat.le_refl _)
  intro s caps rest hs hm
  have hm' : matchItems (ch '"' :: [grp isSpace star, ch '_', ch 'i', ch 'd', grp isSpace star,
      ch '"']) s = some (caps, rest) := hm
  obtain ⟨q1, t1, c1, hs1, hq1, hone1, _, hm1, _⟩ := matchItems_step _ _ _ _ _ hm'
  obtain ⟨W1, t2, c2, hs2, hW1, _, _, hm2, _⟩ := matchItems_step _ _ _ _ _ hm1
  obtain ⟨x1, t3, c3, hs3, hx1, honex1, _, hm3, _⟩ := matchItems_step _ _ _ _ _ hm2
  obtain ⟨x2, t4, c4, hs4, hx2, honex2, _, hm4, _⟩ := matchItems_step _ _ _ _ _ hm3
  obtain ⟨x3, t5, c5, hs5, hx3, honex3, _, hm5, _⟩ := matchItems_step _ _ _ _ _ hm4
  obtain ⟨W2, t6, c6, hs6, hW2, _, _, hm6, _⟩ := matchItems_step _ _ _ _ _ hm5
  obtain ⟨q2, t7, c7, hs7, hq2, hone2, _, hm7, _⟩ := matchItems_step _ _ _ _ _ hm6
  have e1 := single_of_step '"' q1 hq1 (hone1 rfl)
  have e2 := single_of_step '_' x1 hx1 (honex1 rfl)
  have e3 := single_of_step 'i' x2 hx2 (honex2 rfl)
  have e4 := single_of_step 'd' x3 hx3 (honex3 rfl)
  have e5 := single_of_step '"' q2 hq2 (hone2 rfl)
  subst e1 e2 e3 e4 e5
  simp only [matchItems, Option.some.injEq, Prod.mk.injEq] at hm7
  obtain ⟨_, hrest⟩ := hm7
  subst hrest
  have hseq : s = '"' :: ((W1 ++ '_' :: 'i' :: 'd' :: W2) ++ '"' :: t7) := by
    rw [hs1, hs2, hs3, hs4, hs5, hs6, hs7]
    simp
  have hW1s : ∀ c ∈ W1, isSpace c = true := fun c hc => List.all_eq_true.1 hW1 c hc
  have hW2s : ∀ c ∈ W2, isSpace c = true := fun c hc => List.all_eq_true.1 hW2 c hc
  have hbq : '"' ∉ W1 ++ '_' :: 'i' :: 'd' :: W2 := by
    intro hmem
    simp only [List.mem_append, List.mem_cons] at hmem
    rcases hmem with hmem | hmem | hmem | hmem | hmem
    · exact absurd (hW1s _ hmem) (by decide)
    · cases hmem
    · cases hmem
    · cases hmem
    · exact absurd (hW2s _ hmem) (by decide)
  refine ⟨by rw [hseq]; simp; omega, ?_⟩
  have hnil : W1 = [] ∧ W2 = [] := by
    rcases quote_cases toks h s _ t7 hs hseq hbq with hword | ⟨name, arg, hsent⟩ | ⟨l, hl, hr⟩
    · obtain ⟨hall, hhead, hlast, _⟩ := Tok.quoted_wellFormed _ hword
      have hall := List.all_eq_true.1 hall
      constructor
      · cases W1 with
        | nil => rfl
        | cons c W =>
          exfalso
          have := textChar_blank c (hall c (by simp)) (hW1s c (List.mem_cons_self _ _))
          subst this
          exact hhead rfl
      · by_contra hne
        obtain ⟨c, hc1, hc2⟩ := last_blank_of_append (W1 ++ ['_', 'i', 'd']) W2 hne hW2s
        have e : W1 ++ ['_', 'i', 'd'] ++ W2 = W1 ++ '_' :: 'i' :: 'd' :: W2 := by simp
        rw [e] at hc1
        have := textChar_blank c (hall c (List.mem_of_getLast?_eq_some hc1)) hc2
        rw [this] at hc1
        exact hlast hc1
    · exfalso
      cases W1 with
      | nil =>
        simp only [List.nil_append, List.cons_append, List.cons.injEq] at hsent
        exact absurd hsent.1 (by decide)
      | cons c W =>
        simp only [List.cons_append, List.cons.injEq] at hsent
        have := hW1s c (List.mem_cons_self _ _)
        rw [hsent.1] at this
        exact absurd this (by decide)
    · exfalso
      exact render_blanks_then '_' (Or.inl rfl) l hl W1 ('i' :: 'd' :: W2 ++ '"' :: t7)
        (by rw [hr]; simp) hW1
  have hcaps : instantiate caps [text "\"_id\"".toList] = ['"', '_', 'i', 'd', '"'] := by
    simp [instantiate]
  rw [hcaps, hseq, hnil.1, hnil.2]
  rfl

open Quant Piece in
/-- The rule that removes the whitespace before `$` leaves a normalized text as it
is. -/
theorem rule_dollar (toks : List Tok) (h : normalForm toks = true) :
    replaceAll ([grp isSpace star] ++ lit "$") [text "$".toList] (render toks)
      = render toks := by
  apply replaceAll_fixed _ _ (by simp [matchItems, lit, ch, grp, tryDown])
    (render toks).length _ (Nat.le_refl _)
  intro s caps rest hs hm
  have hm' : matchItems (grp isSpace star :: [ch '$']) s = some (caps, rest) := hm
  obtain ⟨W, t1, c1, hs1, hW, _, _, hm1, _⟩ := matchItems_step _ _ _ _ _ hm'
  obtain ⟨x, t2, c2, hs2, hx, honex, _, hm2, _⟩ := matchItems_step _ _ _ _ _ hm1
  have e1 := single_of_step '$' x hx (honex rfl)
  subst e1
  simp only [matchItems, Option.some.injEq, Prod.mk.injEq] at hm2
  obtain ⟨_, hrest⟩ := hm2
  subst hrest
  have hseq : s = W ++ '$' :: t2 := by
    rw [hs1, hs2]
    simp
  refine ⟨by rw [hseq]; simp; omega, ?_⟩
  have hWnil : W = [] := by
    cases W with
    | nil => rfl
    | cons c W =>
      exfalso
      simp only [grp, List.all_cons, Bool.and_eq_true] at hW
      have hne : s ≠ [] := by rw [hseq]; simp
      obtain ⟨tok, rest0, y, hsuf, hy, hyne, hsy⟩ := suffix_render toks s hs hne
      have hl := normalForm_suffix toks h _ hsuf
      obtain ⟨hw, hrest0⟩ := normalForm_cons tok rest0 hl
      cases y with
      | nil => exact hyne rfl
      | cons d y =>
        rw [hseq] at hsy
        simp only [List.cons_append, List.cons.injEq] at hsy
        obtain ⟨hd, hsy⟩ := hsy
        subst hd
        rcases Tok.space_of_mem tok hw c (hy.subset (List.mem_cons_self _ _)) hW.1
          with hsp | ⟨w, hq⟩
        swap
        · subst hq
          obtain ⟨hwall, _, _, hwd⟩ := Tok.quoted_wellFormed w hw
          rw [Tok.text, List.cons_append, List.suffix_cons_iff] at hy
          rcases hy with hy | hy
          · simp only [List.cons.injEq] at hy
            have := hW.1
            rw [hy.1] at this
            exact absurd this (by decide)
          · rcases suffix_append_cases _ _ _ hy with ⟨z, hz, e⟩ | hy
            · have hzall : z.all textChar = true :=
                List.all_eq_true.2 (fun a ha => List.all_eq_true.1 hwall a (hz.subset ha))
              have hcat : z ++ '"' :: render rest0 = (c :: W) ++ '$' :: t2 := by
                rw [List.cons_append, hsy, ← List.cons_append, e]
                simp
              exact hwd ((blank_dollar_inside (c :: W) z _ _ (by simp)
                (by simp [hW.1, hW.2]) hzall hcat).trans hz.isInfix)
            · rw [List.suffix_cons_iff] at hy
              rcases hy with hy | hy
              · simp only [List.cons.injEq] at hy
                have := hW.1
                rw [hy.1] at this
                exact absurd this (by decide)
              · rw [List.suffix_nil] at hy
                cases hy
        subst hsp
        have hy0 : y = [] := by
          rw [Tok.text, List.suffix_cons_iff] at hy
          rcases hy with hy | hy
          · simp only [List.cons.injEq] at hy
            exact hy.2
          · rw [List.suffix_nil] at hy
            cases hy
        subst hy0
        simp only [List.nil_append] at hsy
        exact render_blanks_then '$' (Or.inr rfl) rest0 hrest0 W t2 hsy.symm hW.2
  have hcaps : instantiate caps [text "$".toList] = ['$'] := by
    simp [instantiate]
  rw [hcaps, hseq, hWnil]
  rfl

/-! ### Normalized texts are fixed points of `formatingData` -/

theorem formatingData_render (toks : List Tok) (h : normalForm toks = true) :
    formatingData (render toks) = render toks := by
  rw [formatingData_eq_foldl]
  apply foldl_rules_of_fixed
  obtain ⟨r1, r2, r5, r6, r7, r8, r9, r10, r11, r12, r13, r14, r15⟩ :=
    rules_without_match toks h
  simp only [formatingRules, List.all_cons, List.all_nil, Bool.and_true, Bool.and_eq_true,
    decide_eq_true_eq]
  exact ⟨r1, r2, rule_key_end toks h, rule_key_start toks h, r5, r6, r7, r8, r9, r10, r11, r12,
    r13, r14, r15, rule_id toks h, rule_dollar toks h, rule_quoted_word toks h,
    rule_colon_brace toks h⟩

/-- C6 (amended): a normalized text is left as it is by `formatingData`; so for
every input `s` that `formatingData` takes to such a text,
`formatingData (formatingData s)` is `formatingData s`. A normalized text is a
sequence of braces, brackets, commas, blanks, colons that stand directly behind a
closing quote, numbers, bare words of the letters `a`–`z` (such as `true`) that do
not stand directly behind a closing quote, quoted texts of letters, digits, `_`, `$`
and blanks that neither start nor end with a blank nor hold a blank right before a
`$`, and quoted sentinels `"##ObjectId(x)"`, `"##UUID(x)"`, `"##LUUID(x)"`,
`"##ISODate(x)"` with `x` of letters, digits, `-`, `:` and `.`, with no blank
between a colon and an opening brace. -/
theorem formatingData_idempotent_on_normal_form (toks : List Tok)
    (h : normalForm toks = true) :
    formatingData (render toks) = render toks ∧
      ∀ s : Str, formatingData s = render toks →
        formatingData (formatingData s) = formatingData s := by
  refine ⟨formatingData_render toks h, ?_⟩
  intro s hs
  rw [hs]
  exact formatingData_render toks h

/-- Witness for C6: the normalized text of `{name: 'Ann Lee', ok: true, _id:
ObjectId("507f191e810c19729de860ea")}`. -/
theorem formatingData_idempotent_on_normal_form_witness :
    formatingData
        "\x7bname: 'Ann Lee', ok: true, _id: ObjectId(\"507f191e810c19729de860ea\")\x7d".toList
        = ("\x7b\"name\": \"Ann Lee\", \"ok\": true, " ++
            "\"_id\": \"##ObjectId(507f191e810c19729de860ea)\"\x7d").toList ∧
      formatingData (formatingData
          "\x7bname: 'Ann Lee', ok: true, _id: ObjectId(\"507f191e810c19729de860ea\")\x7d".toList)
        = formatingData
          "\x7bname: 'Ann Lee', ok: true, _id: ObjectId(\"507f191e810c19729de860ea\")\x7d".toList :=
  ⟨by decide,
    (formatingData_idempotent_on_normal_form
      [Tok.lbrace, Tok.quoted "name".toList, Tok.colon, Tok.space,
        Tok.quoted "Ann Lee".toList, Tok.comma, Tok.space, Tok.quoted "ok".toList, Tok.colon,
        Tok.space, Tok.word "true".toList, Tok.comma, Tok.space, Tok.quoted "_id".toList,
        Tok.colon, Tok.space,
        Tok.sentinel SentinelName.objectId "507f191e810c19729de860ea".toList, Tok.rbrace]
      (by decide)).2 _ (by decide)⟩

/-! ### The export text on its way back through `replaceForImport` -/

theorem spaced_induction (P : Str → Prop) (hnil : P [])
    (hqc : ∀ r, P r → P ('"' :: ':' :: r))
    (hcons : ∀ c r, (∀ r', c :: r ≠ '"' :: ':' :: r') → P r → P (c :: r)) : ∀ t, P t := by
  have key : ∀ (n : Nat) (t : Str), t.length ≤ n → P t := by
    intro n
    induction n using Nat.strong_induction_on with
    | _ n ih =>
      intro t hn
      cases t with
      | nil => exact hnil
      | cons c r =>
        simp only [List.length_cons] at hn
        by_cases hform : ∃ r', c :: r = '"' :: ':' :: r'
        · obtain ⟨r', e⟩ := hform
          rw [e]
          have hlen : r'.length < n := by
            have := congrArg List.length e
            simp only [List.length_cons] at this
            omega
          exact hqc r' (ih r'.length hlen r' (Nat.le_refl _))
        · exact hcons c r (fun r' e => hform ⟨r', e⟩)
            (ih r.length (by omega) r (Nat.le_refl _))
  intro t
  exact key t.length t (Nat.le_refl _)

theorem spaced_quoteColon (r : Str) :
    spaced ('"' :: ':' :: r) = '"' :: ' ' :: ':' :: ' ' :: spaced r := by
  rw [spaced]

theorem spacedChar_mem (c x : Char) (h : x ∈ spacedChar c) : x = c ∨ x = ' ' := by
  rcases spacedChar_cases c with ⟨hs, _⟩ | ⟨_, hs | hs⟩ <;> rw [hs] at h <;> simp at h
  · exact Or.inl h
  · exact h
  · exact h.symm

theorem spaced_mem (x : Char) : ∀ t : Str, x ∈ spaced t → x ∈ t ∨ x = ' ' := by
  apply spaced_induction
  · intro h
    simp [spaced] at h
  · intro r ih h
    rw [spaced_quoteColon] at h
    simp only [List.mem_cons] at h
    rcases h with h | h | h | h | h
    · exact Or.inl (by simp [h])
    · exact Or.inr h
    · exact Or.inl (by simp [h])
    · exact Or.inr h
    · rcases ih h with h | h
      · exact Or.inl (by simp [h])
      · exact Or.inr h
  · intro c r hmiss ih h
    rw [spaced_miss c r hmiss, List.mem_append] at h
    rcases h with h | h
    · rcases spacedChar_mem c x h with h | h
      · exact Or.inl (by simp [h])
      · exact Or.inr h
    · rcases ih h with h | h
      · exact Or.inl (by simp [h])
      · exact Or.inr h

theorem spacedChar_ne_nil (c : Char) : spacedChar c ≠ [] := by
  rcases spacedChar_cases c with ⟨hs, _⟩ | ⟨_, hs | hs⟩ <;> rw [hs] <;> simp

theorem spaced_head (t : Str) (h : (spaced t).head? = some '[') : t.head? = some '[' := by
  cases t with
  | nil => simp [spaced] at h
  | cons c r =>
    by_cases hform : ∃ r', c :: r = '"' :: ':' :: r'
    · obtain ⟨r', e⟩ := hform
      rw [e, spaced_quoteColon] at h
      simp at h
    · rw [spaced_miss c r (fun r' e => hform ⟨r', e⟩)] at h
      rcases spacedChar_cases c with ⟨hs, _⟩ | ⟨hk, hs | hs⟩
      · rw [hs] at h
        simpa using h
      · rw [hs] at h
        simpa using h
      · rw [hs] at h
        simp at h

theorem getLast?_append_of_ne_nil (a b : Str) (h : b ≠ []) :
    (a ++ b).getLast? = b.getLast? := by
  cases b with
  | nil => exact absurd rfl h
  | cons c b =>
    rw [List.getLast?_append]
    cases hl : (c :: b).getLast? with
    | none => simp at hl
    | some x => rfl

theorem spaced_eq_nil (t : Str) (h : spaced t = []) : t = [] := by
  cases t with
  | nil => rfl
  | cons c r =>
    by_cases hform : ∃ r', c :: r = '"' :: ':' :: r'
    · obtain ⟨r', e⟩ := hform
      rw [e, spaced_quoteColon] at h
      cases h
    · rw [spaced_miss c r (fun r' e => hform ⟨r', e⟩)] at h
      exact absurd (List.append_eq_nil.1 h).1 (spacedChar_ne_nil c)

theorem spaced_last (x : Char) :
    ∀ t : Str, (spaced t).getLast? = some x → x ≠ ',' ∧ (x = ']' → t.getLast? = some ']') := by
  apply spaced_induction
  · intro h
    simp [spaced] at h
  · intro r ih h
    rw [spaced_quoteColon] at h
    by_cases hr : spaced r = []
    · rw [hr] at h
      simp only [List.getLast?_cons_cons, List.getLast?_singleton, Option.some.injEq] at h
      subst h
      exact ⟨by decide, fun e => by cases e⟩
    · have e : ('"' :: ' ' :: ':' :: ' ' :: spaced r) = ['"', ' ', ':', ' '] ++ spaced r := rfl
      rw [e, getLast?_append_of_ne_nil _ _ hr] at h
      obtain ⟨h1, h2⟩ := ih h
      refine ⟨h1, fun e => ?_⟩
      have hrn : r ≠ [] := fun e' => hr (by rw [e']; rfl)
      have e2 : ('"' :: ':' :: r) = ['"', ':'] ++ r := rfl
      rw [e2, getLast?_append_of_ne_nil _ _ hrn]
      exact h2 e
  · intro c r hmiss ih h
    rw [spaced_miss c r hmiss] at h
    by_cases hr : spaced r = []
    · rw [hr, List.append_nil] at h
      have hr' := spaced_eq_nil r hr
      subst hr'
      rcases spacedChar_cases c with ⟨hs, hk⟩ | ⟨hk, hs | hs⟩
      · rw [hs] at h
        simp only [List.getLast?_singleton, Option.some.injEq] at h
        subst h
        refine ⟨fun e => ?_, fun e => by rw [e]; rfl⟩
        subst e
        simp [tokenChar] at hk
      · rw [hs] at h
        simp only [List.getLast?_cons_cons, List.getLast?_singleton, Option.some.injEq] at h
        subst h
        exact ⟨by decide, fun e => by cases e⟩
      · rw [hs] at h
        simp only [List.getLast?_cons_cons, List.getLast?_singleton, Option.some.injEq] at h
        subst h
        refine ⟨fun e => ?_, fun e => by rw [e]; rfl⟩
        subst e
        simp [spacedChar] at hs
    · rw [getLast?_append_of_ne_nil _ _ hr] at h
      obtain ⟨h1, h2⟩ := ih h
      refine ⟨h1, fun e => ?_⟩
      have hrn : r ≠ [] := fun e' => hr (by rw [e']; rfl)
      have e2 : (c :: r) = [c] ++ r := rfl
      rw [e2, getLast?_append_of_ne_nil _ _ hrn]
      exact h2 e

theorem spaced_no_comma_bracket : ∀ t : Str, ¬ [',', ']'] <:+: spaced t := by
  apply spaced_induction
  · intro h
    obtain ⟨u, v, huv⟩ := h
    simp [spaced] at huv
  · intro r ih h
    rw [spaced_quoteColon] at h
    have e : ('"' :: ' ' :: ':' :: ' ' :: spaced r) = ['"', ' ', ':', ' '] ++ spaced r := rfl
    rw [e] at h
    rcases pair_of_append _ _ _ _ h with h1 | h1 | ⟨h1, _⟩
    · exact absurd h1 (by decide)
    · exact ih h1
    · simp at h1
  · intro c r hmiss ih h
    rw [spaced_miss c r hmiss] at h
    rcases pair_of_append _ _ _ _ h with h1 | h1 | ⟨h1, _⟩
    · rcases spacedChar_cases c with ⟨hs, _⟩ | ⟨_, hs | hs⟩ <;> rw [hs] at h1
      · obtain ⟨u, v, huv⟩ := h1
        have := congrArg List.length huv
        simp at this
        omega
      · obtain ⟨ha, hb⟩ := pair_mem _ _ _ h1
        simp only [List.mem_cons, List.mem_singleton, List.not_mem_nil, or_false] at hb
        rcases hb with hb | hb
        · subst hb
          simp [spacedChar] at hs
        · cases hb
      · obtain ⟨ha, hb⟩ := pair_mem _ _ _ h1
        simp only [List.mem_cons, List.mem_singleton, List.not_mem_nil, or_false] at ha
        rcases ha with ha | ha
        · cases ha
        · subst ha
          simp [spacedChar] at hs
    · exact ih h1
    · rcases spacedChar_cases c with ⟨hs, hk⟩ | ⟨_, hs | hs⟩ <;> rw [hs] at h1
      · simp only [List.getLast?_singleton, Option.some.injEq] at h1
        subst h1
        simp [tokenChar] at hk
      · simp at h1
      · simp only [List.getLast?_cons_cons, List.getLast?_singleton, Option.some.injEq] at h1
        subst h1
        simp [spacedChar] at hs

theorem matchItems_needs_prefix (post : List Item) :
    ∀ (p s : Str) (r : List Str × Str),
      matchItems (p.map ch ++ post) s = some r → p <+: s := by
  intro p
  induction p with
  | nil => intro s r _; exact List.nil_prefix
  | cons x p ih =>
    intro s r h
    obtain ⟨part, tail, caps', hs, hall, hone, _, hm, _⟩ :=
      matchItems_step (ch x) (p.map ch ++ post) s r.1 r.2 h
    have e := single_of_step x part hall (hone rfl)
    subst e
    rw [hs]
    exact (List.prefix_cons_inj x).2 (ih tail _ hm)

theorem replaceAll_missing_char (r : List Item) (tpl : List Piece) (pre : List Item)
    (it : Item) (post : List Item) (hr : r = pre ++ it :: post) (hq : it.quant = Quant.one)
    (t : Str) (h : ∀ c ∈ t, it.cls c = false) : replaceAll r tpl t = t := by
  apply replaceAll_of_no_match
  intro s hs
  cases hm : matchItems r s with
  | none => rfl
  | some res =>
    rw [hr] at hm
    obtain ⟨c, hc, hcc⟩ := matchItems_needs_class it post hq pre s res hm
    rw [h c (hs.subset hc)] at hcc
    cases hcc

theorem prefix_spaced (p : Str)
    (hp : ∀ x ∈ p, x ≠ ' ' ∧ tokenChar x = false ∧ x ≠ '"') :
    ∀ t : Str, p <+: spaced t → p <+: t := by
  induction p with
  | nil => intro t _; exact List.nil_prefix
  | cons x p ih =>
    intro t h
    obtain ⟨hx1, hx2, hx3⟩ := hp x (List.mem_cons_self _ _)
    cases t with
    | nil =>
      simp [spaced] at h
    | cons c r =>
      by_cases hform : ∃ r', c :: r = '"' :: ':' :: r'
      · obtain ⟨r', e⟩ := hform
        rw [e, spaced_quoteColon, List.cons_prefix_cons] at h
        exact absurd h.1 hx3
      · rw [spaced_miss c r (fun r' e => hform ⟨r', e⟩)] at h
        rcases spacedChar_cases c with ⟨hs, _⟩ | ⟨hk, hs | hs⟩ <;> rw [hs] at h
        · rw [List.singleton_append, List.cons_prefix_cons] at h
          rw [List.cons_prefix_cons]
          exact ⟨h.1, ih (fun y hy => hp y (List.mem_cons_of_mem _ hy)) r h.2⟩
        · rw [List.cons_append, List.cons_prefix_cons] at h
          rw [h.1, hk] at hx2
          cases hx2
        · rw [List.cons_append, List.cons_prefix_cons] at h
          exact absurd h.1 hx1

theorem infix_spaced (p : Str) (hne : p ≠ [])
    (hp : ∀ x ∈ p, x ≠ ' ' ∧ tokenChar x = false ∧ x ≠ '"' ∧ x ≠ ':') :
    ∀ t : Str, p <:+: spaced t → p <:+: t := by
  cases p with
  | nil => exact absurd rfl hne
  | cons x p =>
    obtain ⟨hx1, hx2, hx3, hx4⟩ := hp x (List.mem_cons_self _ _)
    have hp' : ∀ y ∈ p, y ≠ ' ' ∧ tokenChar y = false ∧ y ≠ '"' := fun y hy =>
      ⟨(hp y (List.mem_cons_of_mem _ hy)).1, (hp y (List.mem_cons_of_mem _ hy)).2.1,
        (hp y (List.mem_cons_of_mem _ hy)).2.2.1⟩
    have hhead : ∀ (c : Char) (l : Str), x ≠ c → x :: p <:+: c :: l → x :: p <:+: l := by
      intro c l hc h
      rw [List.infix_cons_iff] at h
      rcases h with h | h
      · rw [List.cons_prefix_cons] at h
        exact absurd h.1 hc
      · exact h
    apply spaced_induction
    · intro h
      simp [spaced] at h
    · intro r ih h
      rw [spaced_quoteColon] at h
      have h1 := hhead ' ' _ hx1 (hhead ':' _ hx4 (hhead ' ' _ hx1 (hhead '"' _ hx3 h)))
      exact (ih h1).trans ((List.suffix_cons _ _).trans (List.suffix_cons _ _)).isInfix
    · intro c r hmiss ih h
      rw [spaced_miss c r hmiss] at h
      rcases spacedChar_cases c with ⟨hs, _⟩ | ⟨hk, hs | hs⟩ <;> rw [hs] at h
      · rw [List.singleton_append, List.infix_cons_iff] at h
        rcases h with h | h
        · rw [List.cons_prefix_cons] at h
          have := prefix_spaced p hp' r h.2
          exact ((List.cons_prefix_cons).2 ⟨h.1, this⟩).isInfix
        · exact (ih h).trans (List.suffix_cons _ _).isInfix
      · have hxc : x ≠ c := by
          intro e
          rw [e, hk] at hx2
          cases hx2
        have h1 := hhead ' ' _ hx1 (hhead c _ hxc h)
        exact (ih h1).trans (List.suffix_cons _ _).isInfix
      · have hxc : x ≠ c := by
          intro e
          rw [e, hk] at hx2
          cases hx2
        have h1 := hhead c _ hxc (hhead ' ' _ hx1 h)
        exact (ih h1).trans (List.suffix_cons _ _).isInfix

theorem infix_of_concat (p s : Str) (x : Char) (hne : p ≠ []) (hx : x ∉ p)
    (h : p <:+: s ++ [x]) : p <:+: s := by
  obtain ⟨u, v, huv⟩ := h
  rcases List.eq_nil_or_concat v with hv | ⟨v', y, hv⟩
  · subst hv
    rw [List.append_nil] at huv
    rcases List.eq_nil_or_concat p with hp | ⟨p', z, hp⟩
    · exact absurd hp hne
    · subst hp
      rw [List.concat_eq_append, ← List.append_assoc] at huv
      have := List.append_inj_right' huv rfl
      simp only [List.cons.injEq, and_true] at this
      subst this
      simp at hx
  · subst hv
    rw [List.concat_eq_append, ← List.append_assoc] at huv
    have h1 := List.append_inj_left' huv rfl
    exact ⟨u, v', h1⟩

/-- `replaceForImport` only puts the export text of a document in square brackets,
when the text holds no line break and no `NumberInt(`. -/
theorem replaceForImport_spaced (t : Str) (h1 : t.head? ≠ some '[')
    (h2 : t.getLast? ≠ some ']') (h3 : '\r' ∉ t) (h4 : '\n' ∉ t)
    (h5 : ¬ "NumberInt(".toList <:+: t) :
    replaceForImport (spaced t) = '[' :: spaced t ++ [']'] := by
  have hhead : (spaced t).head? ≠ some '[' := fun e => h1 (spaced_head t e)
  have hlast : ('[' :: spaced t).getLast? ≠ some ']' := by
    by_cases hs : spaced t = []
    · rw [hs]
      decide
    · have e : ('[' :: spaced t) = ['['] ++ spaced t := rfl
      rw [e, getLast?_append_of_ne_nil _ _ hs]
      intro hl
      exact h2 ((spaced_last ']' t hl).2 rfl)
  have hadd : addSquareBrackets (spaced t) = '[' :: spaced t ++ [']'] := by
    simp [addSquareBrackets, hhead, hlast]
  have hmem : ∀ c ∈ '[' :: spaced t ++ [']'], c = '[' ∨ c = ']' ∨ c = ' ' ∨ c ∈ t := by
    intro c hc
    simp only [List.cons_append, List.mem_cons, List.mem_append, List.mem_singleton,
      List.not_mem_nil, or_false] at hc
    rcases hc with hc | hc | hc
    · exact Or.inl hc
    · rcases spaced_mem c t hc with hc | hc
      · exact Or.inr (Or.inr (Or.inr hc))
      · exact Or.inr (Or.inr (Or.inl hc))
    · exact Or.inr (Or.inl hc)
  have hcr : ∀ c ∈ '[' :: spaced t ++ [']'], (ch '\r').cls c = false := by
    intro c hc
    simp only [ch, beq_eq_false_iff_ne, ne_eq]
    intro e
    subst e
    rcases hmem _ hc with h | h | h | h
    · cases h
    · cases h
    · cases h
    · exact h3 h
  have hlf : ∀ c ∈ '[' :: spaced t ++ [']'], (ch '\n').cls c = false := by
    intro c hc
    simp only [ch, beq_eq_false_iff_ne, ne_eq]
    intro e
    subst e
    rcases hmem _ hc with h | h | h | h
    · cases h
    · cases h
    · cases h
    · exact h4 h
  have hpair : ¬ [',', ']'] <:+: '[' :: spaced t ++ [']'] := by
    intro h
    have e : ('[' :: spaced t ++ [']']) = ['['] ++ (spaced t ++ [']']) := rfl
    rw [e] at h
    rcases pair_of_append _ _ _ _ h with h | h | ⟨h, _⟩
    · exact absurd h (by decide)
    · rcases pair_of_append _ _ _ _ h with h | h | ⟨h, _⟩
      · exact spaced_no_comma_bracket t h
      · exact absurd h (by decide)
      · exact (spaced_last ',' t h).1 rfl
    · simp at h
  have hnum : ∀ s, s <:+ '[' :: spaced t ++ [']'] →
      matchItems (lit "NumberInt(" ++ [grp (inRange '0' '9') Quant.plus] ++ lit ")") s = none := by
    intro s hs
    cases hm : matchItems (lit "NumberInt(" ++ [grp (inRange '0' '9') Quant.plus] ++ lit ")") s
      with
    | none => rfl
    | some res =>
      exfalso
      have hm' : matchItems ("NumberInt(".toList.map ch ++
          ([grp (inRange '0' '9') Quant.plus] ++ lit ")")) s = some res := by
        rw [← hm]
        rfl
      have hpre := matchItems_needs_prefix _ _ s res hm'
      have hin : "NumberInt(".toList <:+: '[' :: spaced t ++ [']'] :=
        hpre.isInfix.trans hs.isInfix
      rw [List.cons_append, List.infix_cons_iff] at hin
      rcases hin with hin | hin
      · obtain ⟨v, hv⟩ := hin
        simp at hv
      · have := infix_of_concat _ _ _ (by decide) (by decide) hin
        exact h5 (infix_spaced _ (by decide) (by decide) t this)
  have e1 := replaceAll_missing_char (lit "\x7d\r\n\x7b") [Piece.text "\x7d,\x7b".toList]
    (lit "\x7d") (ch '\r') (lit "\n\x7b") rfl rfl _ hcr
  have e2 := replaceAll_missing_char (lit "\x7d\n\x7b") [Piece.text "\x7d,\x7b".toList]
    (lit "\x7d") (ch '\n') (lit "\x7b") rfl rfl _ hlf
  have e3 := replaceAll_missing_char (lit "\x7d\r\x7b") [Piece.text "\x7d,\x7b".toList]
    (lit "\x7d") (ch '\r') (lit "\x7b") rfl rfl _ hcr
  have e4 := replaceAll_missing_pair (lit ",]") [Piece.text "]".toList] [] ',' ']' [] rfl _
    hpair
  have e5 := replaceAll_of_no_match
    (lit "NumberInt(" ++ [grp (inRange '0' '9') Quant.plus] ++ lit ")") [Piece.group 1] _ hnum
  unfold replaceForImport
  simp only [hadd]
  rw [e1, e2, e3, e4, e5]

theorem literalsKept_mem (t : Str) (h : literalsKept t = true) :
    ∀ w, Token.literal w ∈ jsonTokens none [] t → keptByExport w = true := by
  intro w hw
  exact List.all_eq_true.1 h (Token.literal w) hw

/-- C22 (amended): for every text `t`, `replaceForExport t` is `t` with one space
inserted behind every `{`, `[` and `,`, before every `}` and `]`, and on both
sides of the colon of every quote-colon pair, and nothing else changed. When
the contents of no string literal of `t` hold a brace, a bracket, a comma or a
quote that a colon follows, or start with a colon, the export text has the
JSON tokens of `t` — the same structural characters, string literals with the
same contents, and words, in the same order. When `t` does not start with `[`
or end with `]` and holds no line break and no `NumberInt(`, `replaceForImport`
only puts the export text in square brackets. -/
theorem replaceForExport_inserts_spaces (t : Str) :
    replaceForExport t = spaced t ∧
    (literalsKept t = true →
      jsonTokens none [] (replaceForExport t) = jsonTokens none [] t) ∧
    (t.head? ≠ some '[' → t.getLast? ≠ some ']' → '\r' ∉ t → '\n' ∉ t →
      ¬ "NumberInt(".toList <:+: t →
      replaceForImport (replaceForExport t) = '[' :: replaceForExport t ++ [']']) := by
  refine ⟨replaceForExport_eq_spaced t, ?_, ?_⟩
  · intro h
    rw [replaceForExport_eq_spaced]
    exact jsonTokens_spaced t.length t (Nat.le_refl _) [] (literalsKept_mem t h)
  · intro h1 h2 h3 h4 h5
    rw [replaceForExport_eq_spaced]
    exact replaceForImport_spaced t h1 h2 h3 h4 h5

/-- Witness for C22: the text `{"a":[1,"x y"],"b":{"c":"d"}}`. -/
theorem replaceForExport_inserts_spaces_witness :
    replaceForExport "\x7b\"a\":[1,\"x y\"],\"b\":\x7b\"c\":\"d\"\x7d\x7d".toList
        = "\x7b \"a\" : [ 1, \"x y\" ], \"b\" : \x7b \"c\" : \"d\" \x7d \x7d".toList ∧
      jsonTokens none []
          (replaceForExport "\x7b\"a\":[1,\"x y\"],\"b\":\x7b\"c\":\"d\"\x7d\x7d".toList)
        = jsonTokens none [] "\x7b\"a\":[1,\"x y\"],\"b\":\x7b\"c\":\"d\"\x7d\x7d".toList ∧
      replaceForImport
          (replaceForExport "\x7b\"a\":[1,\"x y\"],\"b\":\x7b\"c\":\"d\"\x7d\x7d".toList)
        = '[' :: replaceForExport "\x7b\"a\":[1,\"x y\"],\"b\":\x7b\"c\":\"d\"\x7d\x7d".toList
          ++ [']'] :=
  ⟨by decide,
    (replaceForExport_inserts_spaces
      "\x7b\"a\":[1,\"x y\"],\"b\":\x7b\"c\":\"d\"\x7d\x7d".toList).2.1 (by decide),
    (replaceForExport_inserts_spaces
      "\x7b\"a\":[1,\"x y\"],\"b\":\x7b\"c\":\"d\"\x7d\x7d".toList).2.2
      (by decide) (by decide) (by decide) (by decide) (by decide)⟩

end Mongochuie
